import Mathlib

/-!
Shallow embedding of the `mpt` repository (an Ethereum-style Modified Merkle
Patricia Trie over a SQLite-backed byte store) and proofs about the claims of
its specification.

The embedding follows `src/trie.rs`, `src/db.rs` and `src/errors.rs`.
The repository's `nibbles.rs` and `node.rs` modules and the `verify_proof`
function are not present under `src/`; the corresponding definitions below are
modelled from the spec (§3.1, §3.2, §4.2, §4.7) and are marked as such.

Keccak-256 is a black box in the spec (§1); the embedding takes the hash
function as an explicit parameter `kec : Bytes → Bytes`.

Rust recursion that can re-enter through store lookups (HashRef resolution)
is embedded with an explicit fuel argument; a result of `none` corresponds to
a non-terminating / resource-exhausted run, which cannot happen in the runs
the theorems below quantify over.
-/

namespace Mpt

/-- Byte strings are lists of naturals; a well-formed byte is `< 256`. -/
abbrev Bytes := List Nat

/-- All bytes of a byte string are in range. -/
def BytesWF (b : Bytes) : Prop := ∀ x ∈ b, x < 256

instance : DecidablePred BytesWF := fun b => by
  unfold BytesWF; infer_instance

/-- Big-endian value of a byte string (used by the RLP length decoding). -/
def beVal (l : Bytes) : Nat := l.foldl (fun a b => a * 256 + b) 0

/-- Minimal big-endian byte representation of a natural number, with a
structural fuel so that closed terms evaluate in the kernel; `fuel = n`
always suffices. -/
def natBEAux : Nat → Nat → Bytes
  | _, 0 => []
  | 0, _ + 1 => []
  | f + 1, n + 1 => natBEAux f ((n + 1) / 256) ++ [(n + 1) % 256]

/-- Minimal big-endian byte representation of a natural number
(used by the RLP length encoding). -/
def natBE (n : Nat) : Bytes := natBEAux n n

/-- Modelled from the spec: §3.1.  A `Nibbles` value is an ordered sequence of
nibbles; per the glossary the terminator is carried as the sentinel `16` at
the end of the sequence (`trie.rs` tests `partial.at(0) == 16`), exactly as in
the missing `nibbles.rs`. -/
structure Nibbles where
  hexData : List Nat
deriving DecidableEq, Repr

namespace Nibbles

/-- Modelled from the spec: §3.1 raw→nibbles conversion, two nibbles per byte,
high first, then the terminator sentinel when the flag is set. -/
def fromRaw (raw : Bytes) (isLeaf : Bool) : Nibbles :=
  ⟨(raw.map (fun b => [b / 16, b % 16])).flatten ++ if isLeaf then [16] else []⟩

/-- Modelled from the spec: wrap a hex (nibble) sequence. -/
def fromHex (l : List Nat) : Nibbles := ⟨l⟩

def len (n : Nibbles) : Nat := n.hexData.length

def isEmpty (n : Nibbles) : Bool := n.hexData.isEmpty

/-- `Nibbles::at(i)`.  The source indexes `hex_data[i]` and panics when
`i ≥ len`; every call site below keeps `i < len`, and the embedding returns
the sentinel `16` out of range. -/
def nAt (n : Nibbles) (i : Nat) : Nat := n.hexData.getD i 16

/-- Modelled from the spec: §4.1, largest `k` with `a[0..k] == b[0..k]`. -/
def commonPrefixAux : List Nat → List Nat → Nat
  | a :: as', b :: bs => if a = b then commonPrefixAux as' bs + 1 else 0
  | _, _ => 0

def commonPrefix (a b : Nibbles) : Nat := commonPrefixAux a.hexData b.hexData

def slice (n : Nibbles) (s e : Nat) : Nibbles := ⟨(n.hexData.take e).drop s⟩

def offset (n : Nibbles) (i : Nat) : Nibbles := ⟨n.hexData.drop i⟩

def join (a b : Nibbles) : Nibbles := ⟨a.hexData ++ b.hexData⟩

/-- Modelled from the spec: `is_leaf = terminator`, i.e. the sequence ends in
the sentinel `16`. -/
def isLeafN (n : Nibbles) : Bool := n.hexData.getLast? = some 16

/-- Pack pairs of nibbles into bytes, high nibble first. -/
def packPairs : List Nat → Bytes
  | a :: b :: rest => (a * 16 + b) :: packPairs rest
  | _ => []

/-- Modelled from the spec: §3.1 compact (hex-prefix) encoding.  First byte's
high nibble is `2·terminator + (length mod 2)`; an odd length carries the
first nibble in the low half of the first byte; remaining nibbles pack two
per byte. -/
def encodeCompact (n : Nibbles) : Bytes :=
  let isLeaf := n.isLeafN
  let hex := if isLeaf then n.hexData.take (n.hexData.length - 1) else n.hexData
  if hex.length % 2 = 1 then
    (16 + hex.headD 0 + if isLeaf then 32 else 0) :: packPairs (hex.drop 1)
  else
    (if isLeaf then 32 else 0) :: packPairs hex

/-- Modelled from the spec: §3.1 compact decoding, inverse of
`encodeCompact`. -/
def fromCompact (compact : Bytes) : Nibbles :=
  let flag := compact.headD 0
  let rest := (compact.drop 1).map (fun b => [b / 16, b % 16]) |>.flatten
  let hex :=
    if flag / 16 = 0 then rest
    else if flag / 16 = 1 then (flag % 16) :: rest
    else if flag / 16 = 2 then rest ++ [16]
    else (flag % 16) :: rest ++ [16]
  ⟨hex⟩

end Nibbles

/-- Modelled from the spec: §3.2, the five node variants of the missing
`node.rs`.  A branch holds 16 children and an optional value. -/
inductive Node where
  | empty : Node
  | leaf (key : Nibbles) (value : Bytes) : Node
  | extension (pfx : Nibbles) (child : Node) : Node
  | branch (children : List Node) (value : Option Bytes) : Node
  | hash (h : Bytes) : Node
deriving Repr

mutual

def Node.beq : Node → Node → Bool
  | .empty, .empty => true
  | .leaf k v, .leaf k' v' => k == k' && v == v'
  | .extension p c, .extension p' c' => p == p' && Node.beq c c'
  | .branch cs v, .branch cs' v' => Node.beqList cs cs' && v == v'
  | .hash h, .hash h' => h == h'
  | _, _ => false

def Node.beqList : List Node → List Node → Bool
  | [], [] => true
  | a :: as', b :: bs => Node.beq a b && Node.beqList as' bs
  | _, _ => false

end

mutual

theorem Node.beq_iff : ∀ a b, (Node.beq a b = true) ↔ a = b
  | .empty, .empty => by simp [Node.beq]
  | .leaf k v, .leaf k' v' => by simp [Node.beq]
  | .extension p c, .extension p' c' => by
      simp [Node.beq, Node.beq_iff c c']
  | .branch cs v, .branch cs' v' => by
      simp [Node.beq, Node.beqList_iff cs cs']
  | .hash h, .hash h' => by simp [Node.beq]
  | .empty, .leaf _ _ | .empty, .extension _ _ | .empty, .branch _ _
  | .empty, .hash _ | .leaf _ _, .empty | .leaf _ _, .extension _ _
  | .leaf _ _, .branch _ _ | .leaf _ _, .hash _ | .extension _ _, .empty
  | .extension _ _, .leaf _ _ | .extension _ _, .branch _ _
  | .extension _ _, .hash _ | .branch _ _, .empty | .branch _ _, .leaf _ _
  | .branch _ _, .extension _ _ | .branch _ _, .hash _ | .hash _, .empty
  | .hash _, .leaf _ _ | .hash _, .extension _ _ | .hash _, .branch _ _ => by
      simp [Node.beq]

theorem Node.beqList_iff : ∀ as' bs, (Node.beqList as' bs = true) ↔ as' = bs
  | [], [] => by simp [Node.beqList]
  | a :: as', b :: bs => by
      simp [Node.beqList, Node.beq_iff a b, Node.beqList_iff as' bs]
  | [], _ :: _ | _ :: _, [] => by simp [Node.beqList]

end

instance : DecidableEq Node := fun a b => decidable_of_iff _ (Node.beq_iff a b)

namespace Node

/-- `empty_children()`. -/
def emptyChildren : List Node := List.replicate 16 .empty

/-- Modelled from the spec: §4.4 edge case — `BranchNode::insert(i, n)` puts
`n` at child slot `i`, except that `i = 16` stores the value of the (always
leaf) node into the branch's value slot. -/
def branchPut (cs : List Node) (v : Option Bytes) (i : Nat) (n : Node) :
    List Node × Option Bytes :=
  if i = 16 then
    match n with
    | .leaf _ lv => (cs, some lv)
    | _ => (cs, v)   -- the source panics here; callers only pass leaf nodes
  else (cs.set i n, v)

end Node

/-- `errors.rs`: the error enumeration.  The RLP decoder error payload is
collapsed to a unit tag. -/
inductive TrieError where
  | sqliteDB (msg : String)
  | decoder
  | invalidData
  | invalidProof
  | missingTrieNode (nodeHash : Bytes) (traversed : Option Nibbles)
      (rootHash : Option Bytes) (errKey : Option Bytes)
deriving DecidableEq, Repr

deriving instance DecidableEq for Except

/-- The backing store, with the semantics of `db.rs`'s `SqliteDB`: an ordered
table keyed by a `PRIMARY KEY` blob. -/
abbrev Store := List (Bytes × Bytes)

namespace Store

def getB (db : Store) (k : Bytes) : Option Bytes :=
  (db.find? (fun p => p.1 = k)).map (·.2)

/-- `SqliteDB::insert`: a plain SQL `INSERT` whose result is discarded
(`_ = conn.execute(...)`); on a primary-key conflict the statement fails and
the stored row is left unchanged, so the first writer wins. -/
def insertB (db : Store) (k v : Bytes) : Store :=
  if (db.getB k).isSome then db else db ++ [(k, v)]

/-- `DB::insert_batch`: pairwise inserts in order. -/
def insertBatch (db : Store) (ks vs : List Bytes) : Store :=
  (List.zip ks vs).foldl (fun d p => d.insertB p.1 p.2) db

/-- `SqliteDB::remove`: SQL `DELETE WHERE key = ?`. -/
def removeB (db : Store) (k : Bytes) : Store :=
  db.filter (fun p => p.1 ≠ k)

/-- `DB::remove_batch`. -/
def removeBatch (db : Store) (ks : List Bytes) : Store :=
  ks.foldl (fun d k => d.removeB k) db

end Store

/-! ## RLP codec

The `rlp` crate is a black box in the spec (§1); the encoder below implements
the canonical RLP byte-string and list encodings that `RlpStream` produces,
and the decoder implements the prototype/`at`/`data` accesses `decode_node`
performs. -/

/-- RLP encoding of a byte string (`RlpStream::append` on bytes). -/
def rlpStr (s : Bytes) : Bytes :=
  match s with
  | [b] => if b < 128 then [b] else [129, b]
  | _ =>
    if s.length < 56 then (128 + s.length) :: s
    else (183 + (natBE s.length).length) :: natBE s.length ++ s

/-- RLP list framing of an already-concatenated payload. -/
def rlpList (payload : Bytes) : Bytes :=
  if payload.length < 56 then (192 + payload.length) :: payload
  else (247 + (natBE payload.length).length) :: natBE payload.length ++ payload

/-- Parse the header of the RLP item starting at `b`: is-list flag, header
length, payload length.  A single byte `< 0x80` is its own payload. -/
def rlpHeader (b : Bytes) : Option (Bool × Nat × Nat) :=
  match b with
  | [] => none
  | f :: rest =>
    if f < 128 then some (false, 0, 1)
    else if f < 184 then some (false, 1, f - 128)
    else if f < 192 then
      let ll := f - 183
      if ll ≤ rest.length then some (false, 1 + ll, beVal (rest.take ll)) else none
    else if f < 248 then some (true, 1, f - 192)
    else
      let ll := f - 247
      if ll ≤ rest.length then some (true, 1 + ll, beVal (rest.take ll)) else none

/-- Total length (header + payload) of the RLP item starting at `b`. -/
def rlpItemLen (b : Bytes) : Option Nat :=
  match rlpHeader b with
  | none => none
  | some (_, hl, pl) => some (max 1 (hl + pl))

/-- Split a list payload into its raw items (`Rlp::at(i)` slices). -/
def rlpItemsF : Nat → Bytes → Option (List Bytes)
  | _, [] => some []
  | 0, _ :: _ => none
  | f + 1, b =>
    match rlpItemLen b with
    | none => none
    | some n =>
      if n ≤ b.length then
        match rlpItemsF f (b.drop n) with
        | none => none
        | some items => some (b.take n :: items)
      else none

def rlpItems (b : Bytes) : Option (List Bytes) := rlpItemsF b.length b

/-- `Rlp::data()`: the payload of a data (non-list) item occupying the whole
slice. -/
def rlpData (b : Bytes) : Option Bytes :=
  match rlpHeader b with
  | some (false, hl, pl) =>
    if b.length = hl + pl then some ((b.drop hl).take pl) else none
  | _ => none

/-- Fuelled result type: `none` models a run that exhausts resources (the
Rust code would not terminate or panic on stack overflow); the theorems below
only concern runs that produce `some`. -/
abbrev TRes (α : Type) := Option (Except TrieError α)

def rok {α : Type} (a : α) : TRes α := some (.ok a)

def rerr {α : Type} (e : TrieError) : TRes α := some (.error e)

def rbind {α β : Type} : TRes α → (α → TRes β) → TRes β
  | none, _ => none
  | some (.error e), _ => some (.error e)
  | some (.ok a), f => f a

@[simp] theorem rbind_rok {α β : Type} (a : α) (f : α → TRes β) :
    rbind (rok a) f = f a := rfl

@[simp] theorem rbind_rerr {α β : Type} (e : TrieError) (f : α → TRes β) :
    rbind (rerr e) f = rerr e := rfl

@[simp] theorem rbind_none {α β : Type} (f : α → TRes β) :
    rbind (none : TRes α) f = none := rfl

/-- `EthTrie::decode_node`, dispatching on the RLP prototype:
data of length 0 → Empty; 2-item list → Leaf or Extension by the compact
key's terminator; 17-item list → Branch; data of length 32 → HashRef;
anything else → `InvalidData`.  Malformed RLP surfaces as a decoder error. -/
def decodeNode : Nat → Bytes → TRes Node
  | 0, _ => none
  | f + 1, b =>
    match rlpHeader b with
    | none => rerr .decoder
    | some (isList, hl, pl) =>
      if b.length ≠ hl + pl then rerr .decoder
      else if isList then
        match rlpItems (b.drop hl) with
        | none => rerr .decoder
        | some items =>
          if items.length = 2 then
            match rlpData (items.getD 0 []) with
            | none => rerr .decoder
            | some keyBytes =>
              let key := Nibbles.fromCompact keyBytes
              if key.isLeafN then
                match rlpData (items.getD 1 []) with
                | none => rerr .decoder
                | some v => rok (.leaf key v)
              else
                rbind (decodeNode f (items.getD 1 [])) fun n =>
                  rok (.extension key n)
          else if items.length = 17 then
            rbind ((items.take 16).foldl
                (fun acc it => rbind acc fun ns =>
                  rbind (decodeNode f it) fun n => rok (ns ++ [n]))
                (rok [])) fun children =>
              let vraw := items.getD 16 []
              if vraw = [128] ∨ vraw = [192] then
                rok (.branch children none)
              else
                match rlpData vraw with
                | none => rerr .decoder
                | some v => rok (.branch children (some v))
          else rerr .invalidData
      else
        if pl = 0 then rok .empty
        else if pl = 32 then rok (.hash ((b.drop hl).take 32))
        else rerr .invalidData

/-- `EthTrie::recover_from_db`: look the hash up in the store and decode.
`SqliteDB::get` itself never fails. -/
def recoverFromDb (db : Store) (h : Bytes) : TRes (Option Node) :=
  match db.getB h with
  | none => rok none
  | some bytes => rbind (decodeNode (bytes.length + 1) bytes) fun n => rok (some n)

/-! ## The trie engine (`trie.rs`) -/

/-- The `EthTrie` struct (§3.3).  `cache`, `passingKeys` and `genKeys` model
the `HashMap` / `HashSet` fields as insertion-ordered lists without
duplicate keys. -/
structure Trie where
  root : Node
  rootHash : Bytes
  db : Store
  cache : List (Bytes × Bytes)
  passingKeys : List Bytes
  genKeys : List Bytes
deriving DecidableEq, Repr

/-- `HashMap::insert`: last writer wins within the cache. -/
def mapInsert (m : List (Bytes × Bytes)) (k v : Bytes) : List (Bytes × Bytes) :=
  if (m.find? (fun p => p.1 = k)).isSome then
    m.map (fun p => if p.1 = k then (k, v) else p)
  else m ++ [(k, v)]

/-- `HashSet::insert`. -/
def setInsert (s : List Bytes) (k : Bytes) : List Bytes :=
  if k ∈ s then s else s ++ [k]

/-- `EthTrie::new`: empty root, `root_hash = KECCAK_NULL_RLP`
(the Keccak-256 of the RLP null byte `0x80`). -/
def newTrie (kec : Bytes → Bytes) (db : Store) : Trie :=
  ⟨.empty, kec [128], db, [], [], []⟩

/-- `EthTrie::at_root`: a fresh view whose root is a bare HashRef. -/
def atRoot (t : Trie) (h : Bytes) : Trie :=
  ⟨.hash h, h, t.db, [], [], []⟩

/-- `EthTrie::get_at`.  `rh` is the trie's `root_hash` field and `kec []` is
`KECCAK_EMPTY`, both only used inside error payloads. -/
def getAt (kec : Bytes → Bytes) (db : Store) (rh : Bytes) :
    Nat → Node → Nibbles → Nat → TRes (Option Bytes)
  | 0, _, _, _ => none
  | f + 1, n, path, i =>
    match n with
    | .empty =>
      rerr (.missingTrieNode (kec []) (some (path.slice 0 i)) (some rh) none)
    | .leaf lk lv =>
      if lk = path.offset i then rok (some lv)
      else rerr (.missingTrieNode (kec []) (some (path.slice 0 i)) (some rh) none)
    | .branch cs v =>
      if (path.offset i).isEmpty || (path.offset i).nAt 0 = 16 then rok v
      else getAt kec db rh f (cs.getD ((path.offset i).nAt 0) .empty) path (i + 1)
    | .extension pfx child =>
      if (path.offset i).commonPrefix pfx = pfx.len then
        getAt kec db rh f child path (i + (path.offset i).commonPrefix pfx)
      else rerr (.missingTrieNode (kec []) (some (path.slice 0 i)) (some rh) none)
    | .hash hn =>
      rbind (recoverFromDb db hn) fun mres =>
        match mres with
        | none => rerr (.missingTrieNode hn (some (path.slice 0 i)) (some rh) none)
        | some nd => getAt kec db rh f nd path i

/-- The `if let Err(TrieError::MissingTrieNode{..}) = result` interception
used by `get`, `del` and `proof`: fill `err_key` in, pass everything else
through. -/
def wrapKeyErr {α : Type} (key : Bytes) (r : TRes α) : TRes α :=
  match r with
  | some (.error (.missingTrieNode nh tr rh _)) =>
    some (.error (.missingTrieNode nh tr rh (some key)))
  | r => r

/-- `ITrie::get`: run `get_at` from the root on the terminated nibble path and
fill `err_key` into a `MissingTrieNode` error. -/
def getT (kec : Bytes → Bytes) (fuel : Nat) (t : Trie) (key : Bytes) :
    TRes (Option Bytes) :=
  wrapKeyErr key (getAt kec t.db t.rootHash fuel t.root (Nibbles.fromRaw key true) 0)

/-- `EthTrie::insert_at`.  Besides the fallible result it returns the list of
hashes inserted into `passing_keys` along the way (also on failure). -/
def insertAt (db : Store) (rh : Bytes) :
    Nat → Node → Nibbles → Nat → Bytes → List Bytes × TRes Node
  | 0, _, _, _, _ => ([], none)
  | f + 1, n, path, i, value =>
    match n with
    | .empty => ([], rok (.leaf (path.offset i) value))
    | .leaf lk lv =>
      let part := path.offset i
      let matchIndex := part.commonPrefix lk
      if matchIndex = lk.len then ([], rok (.leaf lk value))
      else
        let (cs1, v1) := Node.branchPut Node.emptyChildren none (lk.nAt matchIndex)
          (.leaf (lk.offset (matchIndex + 1)) lv)
        let (cs2, v2) := Node.branchPut cs1 v1 (part.nAt matchIndex)
          (.leaf (part.offset (matchIndex + 1)) value)
        if matchIndex = 0 then ([], rok (.branch cs2 v2))
        else ([], rok (.extension (part.slice 0 matchIndex) (.branch cs2 v2)))
    | .branch cs v =>
      let part := path.offset i
      if part.nAt 0 = 16 then ([], rok (.branch cs (some value)))
      else
        let idx := part.nAt 0
        let (pk, r) := insertAt db rh f (cs.getD idx .empty) path (i + 1) value
        (pk, rbind r fun newChild => rok (.branch (cs.set idx newChild) v))
    | .extension pfx child =>
      let part := path.offset i
      let matchIndex := part.commonPrefix pfx
      if matchIndex = 0 then
        let (cs1, v1) := Node.branchPut Node.emptyChildren none (pfx.nAt 0)
          (if pfx.len = 1 then child else .extension (pfx.offset 1) child)
        insertAt db rh f (.branch cs1 v1) path i value
      else if matchIndex = pfx.len then
        let (pk, r) := insertAt db rh f child path (i + matchIndex) value
        (pk, rbind r fun newNode => rok (.extension pfx newNode))
      else
        let (pk, r) := insertAt db rh f (.extension (pfx.offset matchIndex) child)
          path (i + matchIndex) value
        (pk, rbind r fun newNode => rok (.extension (pfx.slice 0 matchIndex) newNode))
    | .hash hn =>
      match recoverFromDb db hn with
      | none => ([hn], none)
      | some (.error e) => ([hn], some (.error e))
      | some (.ok none) =>
        ([hn], rerr (.missingTrieNode hn (some (path.slice 0 i)) (some rh) none))
      | some (.ok (some nd)) =>
        let (pk, r) := insertAt db rh f nd path i value
        (hn :: pk, r)

/-- `EthTrie::degenerate` (§4.5): canonicalise a node after a deletion. -/
def degenerate (db : Store) (rh : Bytes) :
    Nat → Node → List Bytes × TRes Node
  | 0, _ => ([], none)
  | f + 1, n =>
    match n with
    | .branch cs v =>
      let used := (List.range cs.length).filter (fun i => ¬cs.getD i .empty = .empty)
      match used, v with
      | [], some vv => ([], rok (.leaf (Nibbles.fromRaw [] true) vv))
      | [u], none =>
        degenerate db rh f (.extension (Nibbles.fromHex [u]) (cs.getD u .empty))
      | _, _ => ([], rok (.branch cs v))
    | .extension pfx child =>
      match child with
      | .extension p2 c2 => degenerate db rh f (.extension (pfx.join p2) c2)
      | .leaf lk lv => ([], rok (.leaf (pfx.join lk) lv))
      | .hash hn =>
        match recoverFromDb db hn with
        | none => ([hn], none)
        | some (.error e) => ([hn], some (.error e))
        | some (.ok none) =>
          ([hn], rerr (.missingTrieNode hn none (some rh) none))
        | some (.ok (some newNode)) =>
          let (pk, r) := degenerate db rh f (.extension pfx newNode)
          (hn :: pk, r)
      | _ => ([], rok (.extension pfx child))
    | _ => ([], rok n)

/-- The trailing `if deleted { degenerate(new_node) }` step of `delete_at`. -/
def postDegen (db : Store) (rh : Bytes) (f : Nat) (pk : List Bytes)
    (r : TRes (Node × Bool)) : List Bytes × TRes (Node × Bool) :=
  match r with
  | some (.ok (n, true)) =>
    let (pk2, r2) := degenerate db rh f n
    (pk ++ pk2, rbind r2 fun n2 => rok (n2, true))
  | r => (pk, r)

/-- `EthTrie::delete_at`.  The Leaf-hit and Branch-terminator cases
early-`return` in the source and therefore bypass the trailing `degenerate`
at their own level. -/
def deleteAt (db : Store) (rh : Bytes) :
    Nat → Node → Nibbles → Nat → List Bytes × TRes (Node × Bool)
  | 0, _, _, _ => ([], none)
  | f + 1, oldNode, path, i =>
    match oldNode with
    | .empty => ([], rok (.empty, false))
    | .leaf lk lv =>
      if lk = path.offset i then ([], rok (.empty, true))
      else ([], rok (.leaf lk lv, false))
    | .branch cs v =>
      if (path.offset i).nAt 0 = 16 then ([], rok (.branch cs none, true))
      else
        let idx := (path.offset i).nAt 0
        let (pk, r) := deleteAt db rh f (cs.getD idx .empty) path (i + 1)
        postDegen db rh f pk
          (rbind r fun p =>
            rok (.branch (if p.2 then cs.set idx p.1 else cs) v, p.2))
    | .extension pfx child =>
      if (path.offset i).commonPrefix pfx = pfx.len then
        let (pk, r) := deleteAt db rh f child path
          (i + (path.offset i).commonPrefix pfx)
        postDegen db rh f pk
          (rbind r fun p =>
            rok (.extension pfx (if p.2 then p.1 else child), p.2))
      else ([], rok (.extension pfx child, false))
    | .hash hn =>
      match recoverFromDb db hn with
      | none => ([hn], none)
      | some (.error e) => ([hn], some (.error e))
      | some (.ok none) =>
        ([hn], rerr (.missingTrieNode hn (some (path.slice 0 i)) (some rh) none))
      | some (.ok (some nd)) =>
        let (pk, r) := deleteAt db rh f nd path i
        postDegen db rh f (hn :: pk) r

/-- `ITrie::del`: runs `delete_at`, surfaces only `MissingTrieNode` (with
`err_key` filled); any other error hits `result.unwrap()` and panics
(`none`).  The result carries the updated trie: on the error return the
root is untouched but `passing_keys` keeps its additions. -/
def delT (fuel : Nat) (t : Trie) (key : Bytes) :
    Option (Trie × Except TrieError Unit) :=
  match (deleteAt t.db t.rootHash fuel t.root (Nibbles.fromRaw key true) 0).2 with
  | none => none
  | some (.error (.missingTrieNode nh tr rh _)) =>
    some (Trie.mk t.root t.rootHash t.db t.cache
      ((deleteAt t.db t.rootHash fuel t.root (Nibbles.fromRaw key true) 0).1.foldl
        setInsert t.passingKeys) t.genKeys,
      .error (.missingTrieNode nh tr rh (some key)))
  | some (.error _) => none
  | some (.ok p) =>
    some (Trie.mk p.1 t.rootHash t.db t.cache
      ((deleteAt t.db t.rootHash fuel t.root (Nibbles.fromRaw key true) 0).1.foldl
        setInsert t.passingKeys) t.genKeys,
      .ok ())

/-- `ITrie::put`: an empty value defers to `del` (whose `Result` is
discarded); otherwise `insert_at` runs and its result is `unwrap`ped, so any
error is a panic (`none`). -/
def putT (fuel : Nat) (t : Trie) (key value : Bytes) : Option Trie :=
  if value = [] then (delT fuel t key).map (·.1)
  else
    match (insertAt t.db t.rootHash fuel t.root (Nibbles.fromRaw key true) 0 value).2 with
    | some (.ok n) =>
      some (Trie.mk n t.rootHash t.db t.cache
        ((insertAt t.db t.rootHash fuel t.root (Nibbles.fromRaw key true) 0 value).1.foldl
          setInsert t.passingKeys) t.genKeys)
    | _ => none

/-- Where a `get_at` traversal ends: a classifier following exactly the same
walk as `get_at`, used to state the error-surface claims. -/
inductive Terminal where
  | atEmpty
  | atLeafMatch (v : Bytes)
  | atLeafMismatch
  | atBranchValue (v : Option Bytes)
  | atExtMismatch
  | atMissingHash (h : Bytes)
  | atErr (e : TrieError)
deriving DecidableEq, Repr

def terminalOf (db : Store) : Nat → Node → Nibbles → Nat → Option Terminal
  | 0, _, _, _ => none
  | f + 1, n, path, i =>
    match n with
    | .empty => some .atEmpty
    | .leaf lk lv =>
      if lk = path.offset i then some (.atLeafMatch lv) else some .atLeafMismatch
    | .branch cs v =>
      if (path.offset i).isEmpty || (path.offset i).nAt 0 = 16 then
        some (.atBranchValue v)
      else terminalOf db f (cs.getD ((path.offset i).nAt 0) .empty) path (i + 1)
    | .extension pfx child =>
      if (path.offset i).commonPrefix pfx = pfx.len then
        terminalOf db f child path (i + (path.offset i).commonPrefix pfx)
      else some .atExtMismatch
    | .hash hn =>
      match recoverFromDb db hn with
      | none => none
      | some (.error e) => some (.atErr e)
      | some (.ok none) => some (.atMissingHash hn)
      | some (.ok (some nd)) => terminalOf db f nd path i

/-! ## The commit pipeline: `write_node` / `encode_raw` / `commit` / `proof` -/

inductive EncodedNode where
  | hashE (h : Bytes)
  | inline (d : Bytes)
deriving DecidableEq, Repr

/-- How an `EncodedNode` lands in its parent's RLP stream: a hash is appended
as a 32-byte string item, inline bytes are spliced raw. -/
def pieceBytes : EncodedNode → Bytes
  | .hashE h => rlpStr h
  | .inline d => d

/-- `EthTrie::write_node` on top of a given encoder: pass HashRefs through
verbatim; otherwise encode, inline when shorter than 32 bytes, else stage the
bytes in the cache under their digest and record the digest in `gen_keys`. -/
def writePieceWith (kec : Bytes → Bytes)
    (enc : Node → List (Bytes × Bytes) → List Bytes →
      Option (Bytes × List (Bytes × Bytes) × List Bytes))
    (n : Node) (c : List (Bytes × Bytes)) (g : List Bytes) :
    Option (EncodedNode × List (Bytes × Bytes) × List Bytes) :=
  match n with
  | .hash h => some (.hashE h, c, g)
  | _ =>
    match enc n c g with
    | none => none
    | some (d, c, g) =>
      if d.length < 32 then some (.inline d, c, g)
      else some (.hashE (kec d), mapInsert c (kec d) d, setInsert g (kec d))

/-- One step of `encode_raw`'s `for i in 0..16` loop over a branch's
children: append the child's hash-or-inline piece and thread the state. -/
def childStep (kec : Bytes → Bytes)
    (enc : Node → List (Bytes × Bytes) → List Bytes →
      Option (Bytes × List (Bytes × Bytes) × List Bytes))
    (cs : List Node)
    (acc : Option (Bytes × List (Bytes × Bytes) × List Bytes)) (i : Nat) :
    Option (Bytes × List (Bytes × Bytes) × List Bytes) :=
  match acc with
  | none => none
  | some (payload, c, g) =>
    match writePieceWith kec enc (cs.getD i .empty) c g with
    | none => none
    | some (e, c, g) => some (payload ++ pieceBytes e, c, g)

/-- `EthTrie::encode_raw`, threading the `cache` and `gen_keys` state it
mutates through `write_node` on child nodes.  Encoding a bare HashRef is
`unreachable!()` in the source (a panic, modelled as `none`). -/
def encNode (kec : Bytes → Bytes) :
    Nat → Node → List (Bytes × Bytes) → List Bytes →
      Option (Bytes × List (Bytes × Bytes) × List Bytes)
  | 0, _, _, _ => none
  | f + 1, n, c, g =>
    match n with
    | .empty => some ([128], c, g)
    | .leaf k v => some (rlpList (rlpStr k.encodeCompact ++ rlpStr v), c, g)
    | .branch cs v =>
      match (List.range 16).foldl
          (childStep kec (fun n' c' g' => encNode kec f n' c' g') cs)
          (some ([], c, g)) with
      | none => none
      | some (payload, c, g) =>
        let vpiece := match v with
          | some vv => rlpStr vv
          | none => [128]
        some (rlpList (payload ++ vpiece), c, g)
    | .extension pfx child =>
      match writePieceWith kec (fun n' c' g' => encNode kec f n' c' g') child c g with
      | none => none
      | some (e, c, g) =>
        some (rlpList (rlpStr pfx.encodeCompact ++ pieceBytes e), c, g)
    | .hash _ => none

/-- `EthTrie::write_node`. -/
def writeNodeT (kec : Bytes → Bytes) (fuel : Nat) (n : Node)
    (c : List (Bytes × Bytes)) (g : List Bytes) :
    Option (EncodedNode × List (Bytes × Bytes) × List Bytes) :=
  writePieceWith kec (fun n' c' g' => encNode kec fuel n' c' g') n c g

/-- `EthTrie::commit` (§4.6): encode the live root (an inline-sized root is
still hashed and cached), flush the cache to the store, remove
`passing_keys \ gen_keys`, clear the three books and re-materialise the root
from the store.  A failing re-materialisation is the source's
`.unwrap().unwrap()` panic: the hash is still reported but the final state is
`none`. -/
def commitT (kec : Bytes → Bytes) (fuel : Nat) (t : Trie) :
    Option (Bytes × Option Trie) :=
  match writeNodeT kec fuel t.root t.cache t.genKeys with
  | none => none
  | some (en, c, g) =>
    let hc : Bytes × List (Bytes × Bytes) :=
      match en with
      | .hashE h => (h, c)
      | .inline d => (kec d, mapInsert c (kec d) d)
    let db1 := t.db.insertBatch (hc.2.map (·.1)) (hc.2.map (·.2))
    let removed := t.passingKeys.filter (fun h => ¬h ∈ g)
    let db2 := db1.removeBatch removed
    match recoverFromDb db2 hc.1 with
    | some (.ok (some newRoot)) =>
      some (hc.1, some ⟨newRoot, hc.1, db2, [], [], []⟩)
    | _ => some (hc.1, none)

/-- `EthTrie::get_path_at`: collect the HashRef-resolved nodes along the
key's traversal, deepest first. -/
def getPathAt (db : Store) (rh : Bytes) :
    Nat → Node → Nibbles → Nat → TRes (List Node)
  | 0, _, _, _ => none
  | f + 1, n, path, i =>
    match n with
    | .empty => rok []
    | .leaf _ _ => rok []
    | .branch cs _ =>
      if (path.offset i).isEmpty || (path.offset i).nAt 0 = 16 then rok []
      else getPathAt db rh f (cs.getD ((path.offset i).nAt 0) .empty) path (i + 1)
    | .extension pfx child =>
      if (path.offset i).commonPrefix pfx = pfx.len then
        getPathAt db rh f child path (i + (path.offset i).commonPrefix pfx)
      else rok []
    | .hash hn =>
      rbind (recoverFromDb db hn) fun mres =>
        match mres with
        | none => rerr (.missingTrieNode hn none (some rh) none)
        | some nd => rbind (getPathAt db rh f nd path i) fun rest => rok (rest ++ [nd])

/-- One step of `proof`'s encoding loop: `encode_raw` one path node and
collect its bytes. -/
def proofStep (kec : Bytes → Bytes) (fuel : Nat)
    (acc : Option (List Bytes × List (Bytes × Bytes) × List Bytes)) (nd : Node) :
    Option (List Bytes × List (Bytes × Bytes) × List Bytes) :=
  match acc with
  | none => none
  | some (ds, c, g) =>
    match encNode kec fuel nd c g with
    | none => none
    | some (d, c, g) => some (ds ++ [d], c, g)

/-- `ITrie::proof`: the path nodes (root last) are reversed and each is
encoded with `encode_raw`, whose cache/`gen_keys` writes persist in the trie;
on success the updated trie is returned alongside the encoded proof. -/
def proofT (kec : Bytes → Bytes) (fuel : Nat) (t : Trie) (key : Bytes) :
    Option (Except TrieError (List Bytes) × Trie) :=
  match getPathAt t.db t.rootHash fuel t.root (Nibbles.fromRaw key true) 0 with
  | none => none
  | some (.error (.missingTrieNode nh tr rh _)) =>
    some (.error (.missingTrieNode nh tr rh (some key)), t)
  | some (.error e) => some (.error e, t)
  | some (.ok path0) =>
    let path1 := match t.root with
      | .empty => path0
      | r => path0 ++ [r]
    match path1.reverse.foldl (proofStep kec fuel) (some ([], t.cache, t.genKeys)) with
    | none => none
    | some (ds, c, g) => some (.ok ds, { t with cache := c, genKeys := g })

/-- Modelled from the spec: §4.7 `verify_proof` is missing from `src/`
(only its caller in `main.rs` exists).  Build the content-addressed map
`{keccak(n) ↦ n}` of the proof nodes and run the read traversal against it,
reporting `none` on in-trie absence (a terminal Empty child, a leaf key
mismatch, an extension mismatch, a branch terminator without value) and
`InvalidProof` on a dangling reference or malformed node (§7). -/
def verifyAt (pdb : Store) : Nat → Node → Nibbles → Nat →
    Except TrieError (Option Bytes)
  | 0, _, _, _ => .error .invalidProof
  | f + 1, n, path, i =>
    match n with
    | .empty => .ok none
    | .leaf lk lv =>
      if lk = path.offset i then .ok (some lv) else .ok none
    | .branch cs v =>
      if (path.offset i).isEmpty || (path.offset i).nAt 0 = 16 then .ok v
      else verifyAt pdb f (cs.getD ((path.offset i).nAt 0) .empty) path (i + 1)
    | .extension pfx child =>
      if (path.offset i).commonPrefix pfx = pfx.len then
        verifyAt pdb f child path (i + (path.offset i).commonPrefix pfx)
      else .ok none
    | .hash hn =>
      match pdb.getB hn with
      | none => .error .invalidProof
      | some bytes =>
        match decodeNode (bytes.length + 1) bytes with
        | some (.ok nd) => verifyAt pdb f nd path i
        | _ => .error .invalidProof

/-- Modelled from the spec: §4.7, the `verify_proof` entry point. -/
def verifyProof (kec : Bytes → Bytes) (fuel : Nat) (rootHash : Bytes)
    (key : Bytes) (proofNodes : List Bytes) : Except TrieError (Option Bytes) :=
  let pdb : Store := proofNodes.foldl (fun d n => d.insertB (kec n) n) []
  verifyAt pdb fuel (.hash rootHash) (Nibbles.fromRaw key true) 0

/-- `KECCAK_NULL_RLP`: the digest of the RLP null byte `0x80`. -/
def keccakNullRlp (kec : Bytes → Bytes) : Bytes := kec [128]

/-! ## Structural predicates -/

/-- A stored leaf key: a terminated nibble suffix (`xs ++ [16]`, `xs` proper
nibbles). -/
def wfLeafKey (l : List Nat) : Bool :=
  l.getLast? = some 16 && (l.take (l.length - 1)).all (· < 16)

/-- An extension prefix: non-empty, proper nibbles only. -/
def wfPfx (l : List Nat) : Bool :=
  !l.isEmpty && l.all (· < 16)

/-- Number of non-Empty children of a branch (phrased over child indices,
exactly as `degenerate` enumerates them). -/
def usedCount (cs : List Node) : Nat :=
  ((List.range cs.length).filter (fun i => ¬cs.getD i .empty = .empty)).length

mutual

/-- Path well-formedness of an in-memory tree: leaf keys are terminated
suffixes, extension prefixes are non-empty and terminator-free, branches have
exactly 16 children.  (These are exactly the shapes `insert_at` builds from
terminated `from_raw` paths; they rule out the out-of-bounds panics of
`Nibbles::at`.) -/
def wfTreeB : Node → Bool
  | .empty => true
  | .leaf k _ => wfLeafKey k.hexData
  | .extension pfx c => wfPfx pfx.hexData && wfTreeB c
  | .branch cs _ => decide (cs.length = 16) && wfTreeListB cs
  | .hash _ => true

def wfTreeListB : List Node → Bool
  | [] => true
  | c :: cs => wfTreeB c && wfTreeListB cs

end

mutual

/-- The canonical-form invariants of §3.2: an Extension's child is a Branch
or a HashRef (never Empty, Leaf or Extension), and a Branch carries at least
two entries counting children and the value slot (ruling out empty branches
and single-child valueless branches). -/
def canonicalB : Node → Bool
  | .empty => true
  | .leaf _ _ => true
  | .extension _ c =>
    (match c with
     | .branch _ _ => true
     | .hash _ => true
     | _ => false) && canonicalB c
  | .branch cs v =>
    decide (2 ≤ usedCount cs + (if v.isSome then 1 else 0)) && canonicalListB cs
  | .hash _ => true

def canonicalListB : List Node → Bool
  | [] => true
  | c :: cs => canonicalB c && canonicalListB cs

end

mutual

/-- No HashRef anywhere: the tree is fully materialised in memory. -/
def hashFreeB : Node → Bool
  | .empty => true
  | .leaf _ _ => true
  | .extension _ c => hashFreeB c
  | .branch cs _ => hashFreeListB cs
  | .hash _ => false

def hashFreeListB : List Node → Bool
  | [] => true
  | c :: cs => hashFreeB c && hashFreeListB cs

end

/-- The `get_at` walk ends in in-trie absence: a terminal Empty, a mismatched
leaf, a mismatched extension, or a branch terminator with no value. -/
def absentTerminal : Option Terminal → Prop
  | some .atEmpty => True
  | some .atLeafMismatch => True
  | some .atExtMismatch => True
  | some (.atBranchValue none) => True
  | _ => False

instance : DecidablePred absentTerminal := fun t => by
  unfold absentTerminal
  rcases t with _ | t
  · exact inferInstanceAs (Decidable False)
  · rcases t with _ | v | _ | v | _ | h | e
    all_goals first
      | exact inferInstanceAs (Decidable True)
      | exact inferInstanceAs (Decidable False)
      | rcases v with _ | v
        <;> first
          | exact inferInstanceAs (Decidable True)
          | exact inferInstanceAs (Decidable False)

/-! ## Store lemmas -/

theorem Store.getB_append_singleton_self (db : Store) (k v : Bytes)
    (h : Store.getB db k = none) : Store.getB (db ++ [(k, v)]) k = some v := by
  induction db with
  | nil => simp [Store.getB]
  | cons p rest ih =>
    simp only [Store.getB] at h ⊢
    by_cases hp : p.1 = k
    · rw [List.find?_cons_of_pos _ (by simp [hp])] at h
      simp at h
    · rw [List.find?_cons_of_neg _ (by simp [hp])] at h
      rw [List.cons_append, List.find?_cons_of_neg _ (by simp [hp])]
      exact ih h

theorem Store.insertB_of_some (db : Store) (k v w : Bytes)
    (h : Store.getB db k = some w) : Store.insertB db k v = db := by
  simp [Store.insertB, h]

theorem Store.insertB_of_none (db : Store) (k v : Bytes)
    (h : Store.getB db k = none) : Store.insertB db k v = db ++ [(k, v)] := by
  simp [Store.insertB, h]

/-! ## Claims -/

/-- C7 counterexample: on the SQLite-backed store, inserting `[1]` under key
`[0]` and then `[2]` under the same key leaves `get` returning the FIRST
value, not `Some [2]` as the last-writer-wins claim states. -/
theorem claim7_counterexample :
    ¬(Store.getB (Store.insertB (Store.insertB [] [0] [1]) [0] [2]) [0] = some [2]) := by
  decide

/-- C7 (amended): the store adapter's `insert` (and hence `insert_batch`) is
first-writer-wins by key: a plain SQL `INSERT` on the primary-key column
fails on conflict and its error is discarded, so for a key `k` fresh in the
store, inserting `v₁` and then `v₂` leaves the store unchanged by the second
insert and `get(k)` returns `Some v₁`. -/
theorem claim7_store_insert_first_writer_wins (db : Store) (k v₁ v₂ : Bytes)
    (h : Store.getB db k = none) :
    Store.getB (Store.insertB (Store.insertB db k v₁) k v₂) k = some v₁ ∧
      Store.insertB (Store.insertB db k v₁) k v₂ = Store.insertB db k v₁ := by
  have h1 : Store.insertB db k v₁ = db ++ [(k, v₁)] := Store.insertB_of_none db k v₁ h
  have h2 : Store.getB (Store.insertB db k v₁) k = some v₁ := by
    rw [h1]; exact Store.getB_append_singleton_self db k v₁ h
  have h3 : Store.insertB (Store.insertB db k v₁) k v₂ = Store.insertB db k v₁ :=
    Store.insertB_of_some _ k v₂ v₁ h2
  exact ⟨by rw [h3, h2], h3⟩

theorem claim7_witness :
    Store.getB (Store.insertB (Store.insertB [] [0] [1]) [0] [2]) [0] = some [1] :=
  (claim7_store_insert_first_writer_wins [] [0] [1] [2] rfl).1

/-- C6: a freshly constructed trie's `root_hash` is `KECCAK_NULL_RLP`
(the Keccak-256 of the RLP null byte), and `commit()` on the untouched trie
returns that same constant, fully succeeding whenever the backing store does
not already bind that digest to foreign bytes (else the final
`recover_from_db` unwrap panics, which is outside the claim). -/
theorem claim6_empty_trie_root (kec : Bytes → Bytes) (db : Store) (f : Nat)
    (h : Store.getB db (keccakNullRlp kec) = none ∨
      Store.getB db (keccakNullRlp kec) = some [128]) :
    (newTrie kec db).rootHash = keccakNullRlp kec ∧
      ∃ t', commitT kec (f + 1) (newTrie kec db) =
        some (keccakNullRlp kec, some t') := by
  refine ⟨rfl, ?_⟩
  have henc : encNode kec (f + 1) .empty [] [] = some ([128], [], []) := rfl
  have hwrite : writeNodeT kec (f + 1) Node.empty [] [] =
      some (.inline [128], [], []) := rfl
  have hdec : decodeNode 2 [128] = rok Node.empty := rfl
  rcases h with h | h
  · refine ⟨⟨.empty, keccakNullRlp kec, db ++ [(keccakNullRlp kec, [128])],
      [], [], []⟩, ?_⟩
    have hins : Store.insertBatch db [keccakNullRlp kec] [[128]] =
        db ++ [(keccakNullRlp kec, [128])] := by
      simp [Store.insertBatch, Store.insertB_of_none db _ _ h]
    have hget : Store.getB (db ++ [(keccakNullRlp kec, [128])])
        (keccakNullRlp kec) = some [128] :=
      Store.getB_append_singleton_self db _ _ h
    unfold commitT newTrie
    rw [hwrite]
    simp only [mapInsert, List.find?_nil, List.nil_append, Option.isSome_none,
      Bool.false_eq_true, if_false, List.map_cons, List.map_nil, List.filter_nil,
      Store.removeBatch, List.foldl_nil]
    simp only [keccakNullRlp] at hins hget
    rw [hins]
    simp [recoverFromDb, hget, hdec, rok, rbind, keccakNullRlp]
  · refine ⟨⟨.empty, keccakNullRlp kec, db, [], [], []⟩, ?_⟩
    have hins : Store.insertBatch db [keccakNullRlp kec] [[128]] = db := by
      simp [Store.insertBatch, Store.insertB_of_some db _ _ _ h]
    unfold commitT newTrie
    rw [hwrite]
    simp only [mapInsert, List.find?_nil, List.nil_append, Option.isSome_none,
      Bool.false_eq_true, if_false, List.map_cons, List.map_nil, List.filter_nil,
      Store.removeBatch, List.foldl_nil]
    simp only [keccakNullRlp] at hins h
    rw [hins]
    simp [recoverFromDb, h, hdec, rok, rbind, keccakNullRlp]

theorem claim6_witness :
    (newTrie (fun _ => [0]) []).rootHash = keccakNullRlp (fun _ => [0]) ∧
      ∃ t', commitT (fun _ => [0]) 1 (newTrie (fun _ => [0]) []) =
        some (keccakNullRlp (fun _ => [0]), some t') :=
  claim6_empty_trie_root (fun _ => [0]) [] 0 (Or.inl rfl)

/-! ## C3: the error surface of `get` -/

@[simp] theorem wrapKeyErr_none {α : Type} (key : Bytes) :
    wrapKeyErr key (none : TRes α) = none := rfl

@[simp] theorem wrapKeyErr_rok {α : Type} (key : Bytes) (a : α) :
    wrapKeyErr key (rok a) = rok a := rfl

theorem wrapKeyErr_missing {α : Type} (key nh : Bytes) (tr : Option Nibbles)
    (rh : Option Bytes) (ek : Option Bytes) :
    wrapKeyErr (α := α) key (rerr (.missingTrieNode nh tr rh ek)) =
      rerr (.missingTrieNode nh tr rh (some key)) := rfl

theorem wrapKeyErr_eq_rok_iff {α : Type} (key : Bytes) (r : TRes α) (a : α) :
    wrapKeyErr key r = rok a ↔ r = rok a := by
  rcases r with _ | r
  · exact Iff.rfl
  · rcases r with e | v
    · cases e with
      | sqliteDB m => exact Iff.rfl
      | decoder => exact Iff.rfl
      | invalidData => exact Iff.rfl
      | invalidProof => exact Iff.rfl
      | missingTrieNode nh tr rh0 ek =>
        rw [show wrapKeyErr key (some (.error (.missingTrieNode nh tr rh0 ek))) =
            some (.error (.missingTrieNode nh tr rh0 (some key))) from rfl]
        simp [rok]
    · exact Iff.rfl

/-- `get_at` and the terminal classifier walk in lockstep: `Ok(None)` happens
exactly at a valueless branch terminator, and the three mismatch terminals
all produce a `MissingTrieNode` error tagged with `KECCAK_EMPTY`. -/
theorem getAt_vs_terminal (kec : Bytes → Bytes) (db : Store) (rh : Bytes) :
    ∀ (f : Nat) (n : Node) (path : Nibbles) (i : Nat),
    (getAt kec db rh f n path i = rok none ↔
      terminalOf db f n path i = some (.atBranchValue none)) ∧
    ((terminalOf db f n path i = some .atEmpty ∨
      terminalOf db f n path i = some .atLeafMismatch ∨
      terminalOf db f n path i = some .atExtMismatch) →
      ∃ tr, getAt kec db rh f n path i =
        rerr (.missingTrieNode (kec []) (some tr) (some rh) none)) := by
  intro f
  induction f with
  | zero =>
    intro n path i
    constructor
    · simp [getAt, terminalOf, rok]
    · intro h
      simp [terminalOf] at h
  | succ f ih =>
    intro n path i
    cases n with
    | empty =>
      constructor
      · simp [getAt, terminalOf, rok, rerr]
      · intro _
        exact ⟨path.slice 0 i, rfl⟩
    | leaf lk lv =>
      by_cases hk : lk = path.offset i
      · constructor
        · simp [getAt, terminalOf, hk, rok]
        · intro h
          simp [terminalOf, hk] at h
      · constructor
        · simp [getAt, terminalOf, hk, rok, rerr]
        · intro _
          refine ⟨path.slice 0 i, ?_⟩
          simp [getAt, hk]
    | branch cs v =>
      by_cases hterm : (path.offset i).isEmpty = true ∨ (path.offset i).nAt 0 = 16
      · have h1 : getAt kec db rh (f + 1) (.branch cs v) path i = rok v := by
          simp [getAt, hterm]
        have h2 : terminalOf db (f + 1) (.branch cs v) path i =
            some (.atBranchValue v) := by
          simp [terminalOf, hterm]
        rw [h1, h2]
        constructor
        · constructor
          · intro h
            cases v <;> simp_all [rok]
          · intro h
            cases v <;> simp_all [rok]
        · intro h
          rcases h with h | h | h <;> simp at h
      · have h1 : getAt kec db rh (f + 1) (.branch cs v) path i =
            getAt kec db rh f (cs.getD ((path.offset i).nAt 0) .empty) path (i + 1) := by
          simp only [getAt]
          rw [if_neg (by simpa using hterm)]
        have h2 : terminalOf db (f + 1) (.branch cs v) path i =
            terminalOf db f (cs.getD ((path.offset i).nAt 0) .empty) path (i + 1) := by
          simp only [terminalOf]
          rw [if_neg (by simpa using hterm)]
        rw [h1, h2]
        exact ih _ path (i + 1)
    | extension pfx child =>
      by_cases hm : (path.offset i).commonPrefix pfx = pfx.len
      · have h1 : getAt kec db rh (f + 1) (.extension pfx child) path i =
            getAt kec db rh f child path (i + (path.offset i).commonPrefix pfx) := by
          simp [getAt, hm]
        have h2 : terminalOf db (f + 1) (.extension pfx child) path i =
            terminalOf db f child path (i + (path.offset i).commonPrefix pfx) := by
          simp [terminalOf, hm]
        rw [h1, h2]
        exact ih _ path _
      · constructor
        · simp [getAt, terminalOf, hm, rok, rerr]
        · intro _
          refine ⟨path.slice 0 i, ?_⟩
          simp [getAt, hm]
    | hash hn =>
      rcases hrec : recoverFromDb db hn with _ | r
      · constructor
        · simp [getAt, terminalOf, hrec, rok, rbind]
        · intro h
          simp [terminalOf, hrec] at h
      · rcases r with e | mn
        · constructor
          · simp [getAt, terminalOf, hrec, rok, rerr, rbind]
          · intro h
            simp [terminalOf, hrec] at h
        · rcases mn with _ | nd
          · constructor
            · simp [getAt, terminalOf, hrec, rok, rerr, rbind]
            · intro h
              simp [terminalOf, hrec] at h
          · have h1 : getAt kec db rh (f + 1) (.hash hn) path i =
                getAt kec db rh f nd path i := by
              simp [getAt, hrec, rbind]
            have h2 : terminalOf db (f + 1) (.hash hn) path i =
                terminalOf db f nd path i := by
              simp [terminalOf, hrec]
            rw [h1, h2]
            exact ih nd path i

/-- C3: `get` answers `Ok(None)` exactly when the traversal ends at a Branch
whose value slot is `None`; a traversal ending at an Empty node, a Leaf whose
key differs from the remaining path, or an Extension whose prefix does not
match, always surfaces a `MissingTrieNode` error (with the key filled in),
never `Ok(None)`. -/
theorem claim3_get_error_surface (kec : Bytes → Bytes) (fuel : Nat)
    (t : Trie) (key : Bytes) :
    (getT kec fuel t key = rok none ↔
      terminalOf t.db fuel t.root (Nibbles.fromRaw key true) 0 =
        some (.atBranchValue none)) ∧
    ((terminalOf t.db fuel t.root (Nibbles.fromRaw key true) 0 = some .atEmpty ∨
      terminalOf t.db fuel t.root (Nibbles.fromRaw key true) 0 = some .atLeafMismatch ∨
      terminalOf t.db fuel t.root (Nibbles.fromRaw key true) 0 = some .atExtMismatch) →
      ∃ tr, getT kec fuel t key =
        rerr (.missingTrieNode (kec []) (some tr) (some t.rootHash) (some key))) := by
  obtain ⟨h1, h2⟩ :=
    getAt_vs_terminal kec t.db t.rootHash fuel t.root (Nibbles.fromRaw key true) 0
  constructor
  · rw [← h1]
    exact wrapKeyErr_eq_rok_iff key _ none
  · intro h
    obtain ⟨tr, hg⟩ := h2 h
    refine ⟨tr, ?_⟩
    unfold getT
    rw [hg, wrapKeyErr_missing]

theorem claim3_witness :
    (terminalOf [] 5 (.leaf (Nibbles.fromRaw [5] true) [1])
        (Nibbles.fromRaw [7] true) 0 = some .atLeafMismatch) ∧
    ∃ tr, getT (fun _ => [0]) 5
        ⟨.leaf (Nibbles.fromRaw [5] true) [1], [9], [], [], [], []⟩ [7] =
      rerr (.missingTrieNode ((fun (_ : Bytes) => ([0] : Bytes)) [])
        (some tr) (some [9]) (some [7])) :=
  ⟨by decide,
   (claim3_get_error_surface (fun _ => [0]) 5
      ⟨.leaf (Nibbles.fromRaw [5] true) [1], [9], [], [], [], []⟩ [7]).2
    (Or.inr (Or.inl (by decide)))⟩

/-! ## Step equations for `insert_at` -/

section InsertSteps

variable (db : Store) (rh : Bytes) (f : Nat) (path : Nibbles) (i : Nat) (value : Bytes)

theorem insertAt_zero (n : Node) : insertAt db rh 0 n path i value = ([], none) := rfl

theorem insertAt_empty :
    insertAt db rh (f + 1) .empty path i value =
      ([], rok (.leaf (path.offset i) value)) := rfl

theorem insertAt_leaf (lk : Nibbles) (lv : Bytes) :
    insertAt db rh (f + 1) (.leaf lk lv) path i value =
      (let part := path.offset i
       let matchIndex := part.commonPrefix lk
       if matchIndex = lk.len then ([], rok (.leaf lk value))
       else
         let (cs1, v1) := Node.branchPut Node.emptyChildren none (lk.nAt matchIndex)
           (.leaf (lk.offset (matchIndex + 1)) lv)
         let (cs2, v2) := Node.branchPut cs1 v1 (part.nAt matchIndex)
           (.leaf (part.offset (matchIndex + 1)) value)
         if matchIndex = 0 then ([], rok (.branch cs2 v2))
         else ([], rok (.extension (part.slice 0 matchIndex) (.branch cs2 v2)))) := rfl

theorem insertAt_branch_term (cs : List Node) (v : Option Bytes)
    (h : (path.offset i).nAt 0 = 16) :
    insertAt db rh (f + 1) (.branch cs v) path i value =
      ([], rok (.branch cs (some value))) := by
  simp [insertAt, h]

theorem insertAt_branch_step (cs : List Node) (v : Option Bytes)
    (h : ¬(path.offset i).nAt 0 = 16) :
    insertAt db rh (f + 1) (.branch cs v) path i value =
      ((insertAt db rh f (cs.getD ((path.offset i).nAt 0) .empty) path (i + 1) value).1,
        rbind (insertAt db rh f (cs.getD ((path.offset i).nAt 0) .empty) path (i + 1) value).2
          (fun newChild => rok (.branch (cs.set ((path.offset i).nAt 0) newChild) v))) := by
  simp only [insertAt, h, if_false]

theorem insertAt_ext_div (pfx : Nibbles) (child : Node)
    (h : (path.offset i).commonPrefix pfx = 0) :
    insertAt db rh (f + 1) (.extension pfx child) path i value =
      insertAt db rh f
        (.branch (Node.branchPut Node.emptyChildren none (pfx.nAt 0)
            (if pfx.len = 1 then child else .extension (pfx.offset 1) child)).1
          (Node.branchPut Node.emptyChildren none (pfx.nAt 0)
            (if pfx.len = 1 then child else .extension (pfx.offset 1) child)).2)
        path i value := by
  simp only [insertAt, h, if_pos rfl]
  simp

theorem insertAt_ext_match (pfx : Nibbles) (child : Node)
    (h0 : ¬(path.offset i).commonPrefix pfx = 0)
    (h : (path.offset i).commonPrefix pfx = pfx.len) :
    insertAt db rh (f + 1) (.extension pfx child) path i value =
      ((insertAt db rh f child path (i + (path.offset i).commonPrefix pfx) value).1,
        rbind (insertAt db rh f child path (i + (path.offset i).commonPrefix pfx) value).2
          (fun newNode => rok (.extension pfx newNode))) := by
  simp only [insertAt, h0, h, if_false, if_pos rfl, if_true]
  rw [if_neg (fun hc => h0 (by omega))]

theorem insertAt_ext_split (pfx : Nibbles) (child : Node)
    (h0 : ¬(path.offset i).commonPrefix pfx = 0)
    (h : ¬(path.offset i).commonPrefix pfx = pfx.len) :
    insertAt db rh (f + 1) (.extension pfx child) path i value =
      ((insertAt db rh f (.extension (pfx.offset ((path.offset i).commonPrefix pfx)) child)
          path (i + (path.offset i).commonPrefix pfx) value).1,
        rbind (insertAt db rh f
            (.extension (pfx.offset ((path.offset i).commonPrefix pfx)) child)
            path (i + (path.offset i).commonPrefix pfx) value).2
          (fun newNode =>
            rok (.extension (pfx.slice 0 ((path.offset i).commonPrefix pfx)) newNode))) := by
  simp only [insertAt, h0, h, if_false]

theorem insertAt_hash (hn : Bytes) :
    insertAt db rh (f + 1) (.hash hn) path i value =
      (match recoverFromDb db hn with
       | none => ([hn], none)
       | some (.error e) => ([hn], some (.error e))
       | some (.ok none) =>
         ([hn], rerr (.missingTrieNode hn (some (path.slice 0 i)) (some rh) none))
       | some (.ok (some nd)) =>
         (hn :: (insertAt db rh f nd path i value).1,
           (insertAt db rh f nd path i value).2)) := by
  simp only [insertAt]

end InsertSteps

/-! ## C9: totality of `put` -/

/-- A terminal at which the walk needed no unresolvable HashRef. -/
def goodTerminal : Option Terminal → Prop
  | some (.atMissingHash _) => False
  | some (.atErr _) => False
  | none => False
  | _ => True

instance : DecidablePred goodTerminal := fun t => by
  unfold goodTerminal
  rcases t with _ | t
  · exact inferInstanceAs (Decidable False)
  · rcases t with _ | v | _ | v | _ | h | e <;>
      first
        | exact inferInstanceAs (Decidable True)
        | exact inferInstanceAs (Decidable False)

/-- The run produced an `Ok` result. -/
def okRes {α : Type} : TRes α → Prop
  | some (.ok _) => True
  | _ => False

instance {α : Type} : DecidablePred (okRes (α := α)) := fun r => by
  unfold okRes
  rcases r with _ | r
  · exact inferInstanceAs (Decidable False)
  · rcases r with e | a <;>
      first
        | exact inferInstanceAs (Decidable True)
        | exact inferInstanceAs (Decidable False)

theorem okRes_iff {α : Type} (r : TRes α) : okRes r ↔ ∃ a, r = rok a := by
  rcases r with _ | r
  · simp [okRes, rok]
  · rcases r with e | a
    · simp [okRes, rok]
    · simp [okRes, rok]

@[simp] theorem okRes_rok {α : Type} (a : α) : okRes (rok a) := trivial

theorem okRes_rbind_rok {α β : Type} (r : TRes α) (g : α → β) (h : okRes r) :
    okRes (rbind r (fun a => rok (g a))) := by
  rw [okRes_iff] at h
  obtain ⟨a, ha⟩ := h
  rw [ha, rbind_rok]
  exact okRes_rok (g a)

theorem getD_emptyChildren (i : Nat) :
    (Node.emptyChildren).getD i .empty = .empty := by
  unfold Node.emptyChildren
  rw [List.getD_eq_getElem?_getD, List.getElem?_replicate]
  split <;> rfl

theorem getD_set_ne (l : List Node) (j i : Nat) (x : Node) (h : i ≠ j) :
    (l.set j x).getD i .empty = l.getD i .empty := by
  rw [List.getD_eq_getElem?_getD, List.getD_eq_getElem?_getD,
    List.getElem?_set_ne (by omega)]

theorem nAt_zero_of_isEmpty (p : Nibbles) (h : p.isEmpty = true) : p.nAt 0 = 16 := by
  unfold Nibbles.isEmpty at h
  rw [List.isEmpty_iff] at h
  simp [Nibbles.nAt, h]

theorem commonPrefixAux_cons_zero (a b : Nat) (as' bs : List Nat)
    (h : Nibbles.commonPrefixAux (a :: as') (b :: bs) = 0) : a ≠ b := by
  intro hc
  simp [Nibbles.commonPrefixAux, hc] at h

/-- The common prefix length is maximal: dropping it leaves no further
agreement. -/
theorem offset_offset (p : Nibbles) (i k : Nat) :
    p.offset (i + k) = (p.offset i).offset k := by
  unfold Nibbles.offset
  simp [List.drop_drop, Nat.add_comm]

theorem commonPrefixAux_drop (l1 : List Nat) : ∀ (l2 : List Nat),
    Nibbles.commonPrefixAux (l1.drop (Nibbles.commonPrefixAux l1 l2))
      (l2.drop (Nibbles.commonPrefixAux l1 l2)) = 0 := by
  induction l1 with
  | nil => intro l2; cases l2 <;> rfl
  | cons a as' ih =>
    intro l2
    cases l2 with
    | nil => rfl
    | cons b bs =>
      by_cases hab : a = b
      · have hstep : Nibbles.commonPrefixAux (a :: as') (b :: bs) =
            Nibbles.commonPrefixAux as' bs + 1 := by
          simp [Nibbles.commonPrefixAux, hab]
        rw [hstep]
        simpa using ih bs
      · have hstep : Nibbles.commonPrefixAux (a :: as') (b :: bs) = 0 := by
          simp [Nibbles.commonPrefixAux, hab]
        rw [hstep]
        simpa [Nibbles.commonPrefixAux] using hstep

/-- Inserting into the branch synthesised at an extension divergence always
succeeds: the slot the key addresses is either the value slot or Empty. -/
theorem insertAt_rebuilt_ok (db : Store) (rh : Bytes) (value : Bytes)
    (f : Nat) (path : Nibbles) (i : Nat) (pfx : Nibbles) (X : Node)
    (h : (path.offset i).commonPrefix pfx = 0) :
    okRes (insertAt db rh (f + 2)
      (.branch (Node.branchPut Node.emptyChildren none (pfx.nAt 0) X).1
        (Node.branchPut Node.emptyChildren none (pfx.nAt 0) X).2) path i value).2 := by
  by_cases hb : (path.offset i).nAt 0 = 16
  · rw [show f + 2 = (f + 1) + 1 from rfl, insertAt_branch_term db rh _ path i value _ _ hb]
    exact okRes_rok _
  · rw [show f + 2 = (f + 1) + 1 from rfl, insertAt_branch_step db rh _ path i value _ _ hb]
    have hslot : (Node.branchPut Node.emptyChildren none (pfx.nAt 0) X).1.getD
        ((path.offset i).nAt 0) .empty = .empty := by
      unfold Node.branchPut
      by_cases h16 : pfx.nAt 0 = 16
      · rw [if_pos h16]
        cases X <;> exact getD_emptyChildren _
      · rw [if_neg h16]
        have hpe : (path.offset i).nAt 0 ≠ pfx.nAt 0 := by
          rcases hpd : (path.offset i).hexData with _ | ⟨a, as'⟩
          · intro _
            exact hb (by simp [Nibbles.nAt, hpd])
          · rcases hfd : pfx.hexData with _ | ⟨b, bs⟩
            · intro hc
              apply hb
              rw [hc]
              simp [Nibbles.nAt, hfd]
            · have hne : a ≠ b := by
                apply commonPrefixAux_cons_zero a b as' bs
                have : (path.offset i).commonPrefix pfx =
                    Nibbles.commonPrefixAux (a :: as') (b :: bs) := by
                  unfold Nibbles.commonPrefix
                  rw [hpd, hfd]
                rw [← this, h]
              simpa [Nibbles.nAt, hpd, hfd] using hne
        simp only
        rw [getD_set_ne _ _ _ _ hpe]
        exact getD_emptyChildren _
    rw [hslot, show f + 1 = f + 1 from rfl, insertAt_empty]
    simp only [rbind_rok]
    exact okRes_rok _

/-- Whenever the read walk reaches a terminal other than an unresolvable or
malformed HashRef, `insert_at` succeeds (with a fuel margin of 3 for the
structures rebuilt at a divergence). -/
theorem insertAt_succeeds (db : Store) (rh : Bytes) (value : Bytes) :
    ∀ (f : Nat) (n : Node) (path : Nibbles) (i : Nat),
    goodTerminal (terminalOf db f n path i) →
    okRes (insertAt db rh (f + 3) n path i value).2 := by
  intro f
  induction f with
  | zero =>
    intro n path i h
    simp [terminalOf, goodTerminal] at h
  | succ f ih =>
    intro n path i h
    rw [show f + 1 + 3 = (f + 3) + 1 from by omega]
    cases n with
    | empty =>
      rw [insertAt_empty]
      exact okRes_rok _
    | leaf lk lv =>
      rw [insertAt_leaf]
      simp only
      by_cases hk : (path.offset i).commonPrefix lk = lk.len
      · rw [if_pos hk]
        exact okRes_rok _
      · rw [if_neg hk]
        by_cases h0 : (path.offset i).commonPrefix lk = 0
        · rw [if_pos h0]
          exact okRes_rok _
        · rw [if_neg h0]
          exact okRes_rok _
    | branch cs v =>
      by_cases hterm : (path.offset i).nAt 0 = 16
      · rw [insertAt_branch_term db rh _ path i value _ _ hterm]
        exact okRes_rok _
      · have hne : ¬((path.offset i).isEmpty = true ∨ (path.offset i).nAt 0 = 16) := by
          intro hc
          rcases hc with hc | hc
          · exact hterm (nAt_zero_of_isEmpty _ hc)
          · exact hterm hc
        have hstep : terminalOf db (f + 1) (.branch cs v) path i =
            terminalOf db f (cs.getD ((path.offset i).nAt 0) .empty) path (i + 1) := by
          simp only [terminalOf]
          rw [if_neg (by simpa using hne)]
        rw [hstep] at h
        rw [insertAt_branch_step db rh _ path i value _ _ hterm]
        exact okRes_rbind_rok _ _ (ih _ path (i + 1) h)
    | extension pfx child =>
      by_cases hm0 : (path.offset i).commonPrefix pfx = 0
      · rw [insertAt_ext_div db rh _ path i value _ _ hm0,
          show f + 3 = (f + 1) + 2 from by omega]
        exact insertAt_rebuilt_ok db rh value (f + 1) path i pfx _ hm0
      · by_cases hm : (path.offset i).commonPrefix pfx = pfx.len
        · have hstep : terminalOf db (f + 1) (.extension pfx child) path i =
              terminalOf db f child path (i + (path.offset i).commonPrefix pfx) := by
            simp [terminalOf, hm]
          rw [hstep] at h
          rw [insertAt_ext_match db rh _ path i value _ _ hm0 hm]
          exact okRes_rbind_rok _ _ (ih _ path _ h)
        · rw [insertAt_ext_split db rh _ path i value _ _ hm0 hm]
          apply okRes_rbind_rok
          rw [show f + 3 = (f + 2) + 1 from by omega]
          have hinner : (path.offset (i + (path.offset i).commonPrefix pfx)).commonPrefix
              (pfx.offset ((path.offset i).commonPrefix pfx)) = 0 := by
            rw [offset_offset path i ((path.offset i).commonPrefix pfx)]
            exact commonPrefixAux_drop (path.offset i).hexData pfx.hexData
          rw [insertAt_ext_div db rh _ path _ value _ _ hinner,
            show f + 2 = f + 2 from rfl]
          exact insertAt_rebuilt_ok db rh value f path _ _ _ hinner
    | hash hn =>
      rw [insertAt_hash]
      rcases hrec : recoverFromDb db hn with _ | r
      · simp [terminalOf, hrec, goodTerminal] at h
      · rcases r with e | mn
        · simp only [terminalOf, hrec] at h
          simp [goodTerminal] at h
        · rcases mn with _ | nd
          · simp only [terminalOf, hrec] at h
            simp [goodTerminal] at h
          · have hstep : terminalOf db (f + 1) (.hash hn) path i =
                terminalOf db f nd path i := by
              simp [terminalOf, hrec]
            rw [hstep] at h
            exact ih nd path i h

/-- C9: `put` with a non-empty value surfaces no error: an internal failure
(an unresolvable HashRef on the key's path, or an undecodable stored node)
hits `result.unwrap()` and panics; and under the precondition that the walk
to the key's terminal resolves every HashRef it meets, that panic branch is
unreachable and `put` succeeds. -/
theorem claim9_put_totality (fuel : Nat) (t : Trie) (key value : Bytes)
    (hv : value ≠ []) :
    (∀ e, (insertAt t.db t.rootHash fuel t.root
        (Nibbles.fromRaw key true) 0 value).2 = some (.error e) →
      putT fuel t key value = none) ∧
    (goodTerminal (terminalOf t.db fuel t.root (Nibbles.fromRaw key true) 0) →
      ∃ t', putT (fuel + 3) t key value = some t') := by
  constructor
  · intro e he
    unfold putT
    rw [if_neg hv, he]
  · intro hgood
    have h := insertAt_succeeds t.db t.rootHash value fuel t.root
      (Nibbles.fromRaw key true) 0 hgood
    rw [okRes_iff] at h
    obtain ⟨n, hn⟩ := h
    refine ⟨Trie.mk n t.rootHash t.db t.cache
      ((insertAt t.db t.rootHash (fuel + 3) t.root
        (Nibbles.fromRaw key true) 0 value).1.foldl setInsert t.passingKeys)
      t.genKeys, ?_⟩
    unfold putT
    rw [if_neg hv, hn]
    rfl

theorem claim9_witness :
    goodTerminal (terminalOf [] 2 .empty (Nibbles.fromRaw [5] true) 0) ∧
      ∃ t', putT 5 ⟨.empty, [0], [], [], [], []⟩ [5] [1] = some t' :=
  ⟨by decide,
   (claim9_put_totality 2 ⟨.empty, [0], [], [], [], []⟩ [5] [1]
      (by decide)).2 (by decide)⟩
/-! ## Step equations for `delete_at` and `degenerate` -/

theorem set_getD_self (l : List Node) (i : Nat) (h : i < l.length) :
    l.set i (l.getD i .empty) = l := by
  apply List.ext_getElem?
  intro j
  by_cases hij : j = i
  · subst hij
    rw [List.getElem?_set_self']
    rw [List.getD_eq_getElem?_getD]
    rw [List.getElem?_eq_getElem h]
    simp
  · rw [List.getElem?_set_ne (by omega)]

section DeleteSteps

variable (db : Store) (rh : Bytes) (f : Nat) (path : Nibbles) (i : Nat)

theorem deleteAt_zero (n : Node) : deleteAt db rh 0 n path i = ([], none) := rfl

theorem deleteAt_empty :
    deleteAt db rh (f + 1) .empty path i = ([], rok (.empty, false)) := rfl

theorem deleteAt_leaf (lk : Nibbles) (lv : Bytes) :
    deleteAt db rh (f + 1) (.leaf lk lv) path i =
      (if lk = path.offset i then ([], rok (.empty, true))
       else ([], rok (.leaf lk lv, false))) := rfl

theorem deleteAt_branch_term (cs : List Node) (v : Option Bytes)
    (h : (path.offset i).nAt 0 = 16) :
    deleteAt db rh (f + 1) (.branch cs v) path i =
      ([], rok (.branch cs none, true)) := by
  simp [deleteAt, h]

theorem deleteAt_branch_step (cs : List Node) (v : Option Bytes)
    (h : ¬(path.offset i).nAt 0 = 16) :
    deleteAt db rh (f + 1) (.branch cs v) path i =
      postDegen db rh f
        (deleteAt db rh f (cs.getD ((path.offset i).nAt 0) .empty) path (i + 1)).1
        (rbind (deleteAt db rh f (cs.getD ((path.offset i).nAt 0) .empty) path (i + 1)).2
          (fun p => rok (.branch (if p.2 then cs.set ((path.offset i).nAt 0) p.1 else cs) v,
            p.2))) := by
  simp only [deleteAt, h, if_false]

theorem deleteAt_ext_match (pfx : Nibbles) (child : Node)
    (h : (path.offset i).commonPrefix pfx = pfx.len) :
    deleteAt db rh (f + 1) (.extension pfx child) path i =
      postDegen db rh f
        (deleteAt db rh f child path (i + (path.offset i).commonPrefix pfx)).1
        (rbind (deleteAt db rh f child path (i + (path.offset i).commonPrefix pfx)).2
          (fun p => rok (.extension pfx (if p.2 then p.1 else child), p.2))) := by
  simp only [deleteAt, h, if_pos rfl, if_true]

theorem deleteAt_ext_mismatch (pfx : Nibbles) (child : Node)
    (h : ¬(path.offset i).commonPrefix pfx = pfx.len) :
    deleteAt db rh (f + 1) (.extension pfx child) path i =
      ([], rok (.extension pfx child, false)) := by
  simp [deleteAt, h]

theorem deleteAt_hash (hn : Bytes) :
    deleteAt db rh (f + 1) (.hash hn) path i =
      (match recoverFromDb db hn with
       | none => ([hn], none)
       | some (.error e) => ([hn], some (.error e))
       | some (.ok none) =>
         ([hn], rerr (.missingTrieNode hn (some (path.slice 0 i)) (some rh) none))
       | some (.ok (some nd)) =>
         postDegen db rh f (hn :: (deleteAt db rh f nd path i).1)
           (deleteAt db rh f nd path i).2) := by
  simp only [deleteAt]

theorem postDegen_rok_false (pk : List Bytes) (n : Node) :
    postDegen db rh f pk (rok (n, false)) = (pk, rok (n, false)) := rfl

theorem postDegen_rok_true (pk : List Bytes) (n : Node) :
    postDegen db rh f pk (rok (n, true)) =
      (pk ++ (degenerate db rh f n).1,
        rbind (degenerate db rh f n).2 (fun n2 => rok (n2, true))) := rfl

theorem degenerate_ext_branch (pfx : Nibbles) (cs : List Node) (v : Option Bytes) :
    degenerate db rh (f + 1) (.extension pfx (.branch cs v)) =
      ([], rok (.extension pfx (.branch cs v))) := rfl

theorem degenerate_branch_eq (cs : List Node) (v : Option Bytes) :
    degenerate db rh (f + 1) (.branch cs v) =
      (match (List.range cs.length).filter (fun i => ¬cs.getD i .empty = .empty), v with
       | [], some vv => ([], rok (.leaf (Nibbles.fromRaw [] true) vv))
       | [u], none =>
         degenerate db rh f (.extension (Nibbles.fromHex [u]) (cs.getD u .empty))
       | _, _ => ([], rok (.branch cs v))) := rfl

theorem degenerate_branch_keep (cs : List Node) (v : Option Bytes)
    (h : 2 ≤ usedCount cs + (if v.isSome then 1 else 0)) :
    degenerate db rh (f + 1) (.branch cs v) = ([], rok (.branch cs v)) := by
  rw [degenerate_branch_eq]
  rcases hu : (List.range cs.length).filter (fun i => ¬cs.getD i .empty = .empty)
    with _ | ⟨u, us⟩
  · rcases v with _ | vv
    · rfl
    · exfalso
      unfold usedCount at h
      rw [hu] at h
      simp at h
  · rcases us with _ | ⟨u2, us⟩
    · rcases v with _ | vv
      · exfalso
        unfold usedCount at h
        rw [hu] at h
        simp at h
      · rfl
    · rcases v with _ | vv <;> rfl
end DeleteSteps

/-! ## Predicate extraction lemmas -/

theorem hashFreeListB_getD (cs : List Node) (h : hashFreeListB cs = true) (idx : Nat) :
    hashFreeB (cs.getD idx .empty) = true := by
  induction cs generalizing idx with
  | nil => rfl
  | cons c cs ih =>
    rw [hashFreeListB] at h
    simp only [Bool.and_eq_true] at h
    cases idx with
    | zero => simpa [List.getD] using h.1
    | succ j => simpa [List.getD] using ih h.2 j

theorem canonicalListB_getD (cs : List Node) (h : canonicalListB cs = true) (idx : Nat) :
    canonicalB (cs.getD idx .empty) = true := by
  induction cs generalizing idx with
  | nil => rfl
  | cons c cs ih =>
    rw [canonicalListB] at h
    simp only [Bool.and_eq_true] at h
    cases idx with
    | zero => simpa [List.getD] using h.1
    | succ j => simpa [List.getD] using ih h.2 j

theorem wfTreeListB_getD (cs : List Node) (h : wfTreeListB cs = true) (idx : Nat) :
    wfTreeB (cs.getD idx .empty) = true := by
  induction cs generalizing idx with
  | nil => rfl
  | cons c cs ih =>
    rw [wfTreeListB] at h
    simp only [Bool.and_eq_true] at h
    cases idx with
    | zero => simpa [List.getD] using h.1
    | succ j => simpa [List.getD] using ih h.2 j

theorem hashFreeB_branch (cs : List Node) (v : Option Bytes)
    (h : hashFreeB (.branch cs v) = true) : hashFreeListB cs = true := h

theorem canonicalB_branch (cs : List Node) (v : Option Bytes)
    (h : canonicalB (.branch cs v) = true) :
    2 ≤ usedCount cs + (if v.isSome then 1 else 0) ∧ canonicalListB cs = true := by
  rw [canonicalB] at h
  simp only [Bool.and_eq_true, decide_eq_true_eq] at h
  exact h

theorem wfTreeB_branch (cs : List Node) (v : Option Bytes)
    (h : wfTreeB (.branch cs v) = true) :
    cs.length = 16 ∧ wfTreeListB cs = true := by
  rw [wfTreeB] at h
  simp only [Bool.and_eq_true, decide_eq_true_eq] at h
  exact h
theorem nAt_le_of_path (path : Nibbles) (i : Nat)
    (hpath : ∀ x ∈ path.hexData, x ≤ 16) : (path.offset i).nAt 0 ≤ 16 := by
  unfold Nibbles.nAt Nibbles.offset
  rcases hd : path.hexData.drop i with _ | ⟨a, rest⟩
  · simp
  · simp only [List.getD]
    have : a ∈ path.hexData := by
      have : a ∈ path.hexData.drop i := by rw [hd]; exact List.mem_cons_self a rest
      exact List.mem_of_mem_drop this
    simpa using hpath a this

/-- Deleting an absent key from a canonical, fully materialised tree leaves
the node exactly unchanged (for either value of the internal flag). -/
theorem deleteAt_absent (db : Store) (rh : Bytes) :
    ∀ (f : Nat) (n : Node) (path : Nibbles) (i : Nat),
    hashFreeB n = true → canonicalB n = true → wfTreeB n = true →
    (∀ x ∈ path.hexData, x ≤ 16) →
    absentTerminal (terminalOf db f n path i) →
    ∃ dflag, deleteAt db rh (f + 1) n path i = ([], rok (n, dflag)) := by
  intro f
  induction f with
  | zero =>
    intro n path i _ _ _ _ habs
    simp [terminalOf, absentTerminal] at habs
  | succ f ih =>
    intro n path i hhf hcan hwf hpath habs
    cases n with
    | empty => exact ⟨false, deleteAt_empty db rh (f + 1) path i⟩
    | leaf lk lv =>
      have hk : ¬lk = path.offset i := by
        intro hc
        simp [terminalOf, hc, absentTerminal] at habs
      rw [show f + 1 + 1 = (f + 1) + 1 from rfl, deleteAt_leaf, if_neg hk]
      exact ⟨false, rfl⟩
    | branch cs v =>
      by_cases hterm : (path.offset i).nAt 0 = 16
      · have hv : v = none := by
          have hcond : (path.offset i).isEmpty = true ∨ (path.offset i).nAt 0 = 16 :=
            Or.inr hterm
          rcases v with _ | vv
          · rfl
          · exfalso
            have : terminalOf db (f + 1) (.branch cs (some vv)) path i =
                some (.atBranchValue (some vv)) := by
              simp [terminalOf, hcond]
            rw [this] at habs
            simp [absentTerminal] at habs
        subst hv
        rw [deleteAt_branch_term db rh (f + 1) path i cs none hterm]
        exact ⟨true, rfl⟩
      · have hcond : ¬((path.offset i).isEmpty = true ∨ (path.offset i).nAt 0 = 16) := by
          intro hc
          rcases hc with hc | hc
          · exact hterm (nAt_zero_of_isEmpty _ hc)
          · exact hterm hc
        have hstep : terminalOf db (f + 1) (.branch cs v) path i =
            terminalOf db f (cs.getD ((path.offset i).nAt 0) .empty) path (i + 1) := by
          simp only [terminalOf]
          rw [if_neg (by simpa using hcond)]
        rw [hstep] at habs
        obtain ⟨hcnt, hcanl⟩ := canonicalB_branch cs v hcan
        obtain ⟨hlen, hwfl⟩ := wfTreeB_branch cs v hwf
        obtain ⟨dflag, hchild⟩ := ih (cs.getD ((path.offset i).nAt 0) .empty) path (i + 1)
          (hashFreeListB_getD cs (hashFreeB_branch cs v hhf) _)
          (canonicalListB_getD cs hcanl _) (wfTreeListB_getD cs hwfl _) hpath habs
        have hidx : (path.offset i).nAt 0 < cs.length := by
          have := nAt_le_of_path path i hpath
          omega
        rw [deleteAt_branch_step db rh (f + 1) path i cs v hterm, hchild]
        cases dflag with
        | false => exact ⟨false, rfl⟩
        | true =>
          rw [rbind_rok]
          simp only [if_pos rfl, set_getD_self cs _ hidx, if_true, ite_self]
          rw [postDegen_rok_true]
          rw [degenerate_branch_keep db rh f cs v hcnt]
          exact ⟨true, rfl⟩
    | extension pfx child =>
      -- the child of a canonical, hash-free extension is a branch
      have hshape : ∃ bcs bv, child = .branch bcs bv := by
        cases child with
        | branch bcs bv => exact ⟨bcs, bv, rfl⟩
        | hash hh =>
          exfalso
          rw [hashFreeB, hashFreeB] at hhf
          simp at hhf
        | empty =>
          exfalso
          simp [canonicalB] at hcan
        | leaf _ _ =>
          exfalso
          simp [canonicalB] at hcan
        | extension _ _ =>
          exfalso
          simp [canonicalB] at hcan
      obtain ⟨bcs, bv, rfl⟩ := hshape
      by_cases hm : (path.offset i).commonPrefix pfx = pfx.len
      · have hstep : terminalOf db (f + 1) (.extension pfx (.branch bcs bv)) path i =
            terminalOf db f (.branch bcs bv) path
              (i + (path.offset i).commonPrefix pfx) := by
          simp [terminalOf, hm]
        rw [hstep] at habs
        have hchildhf : hashFreeB (.branch bcs bv) = true := by
          have h' := hhf
          rw [show hashFreeB (.extension pfx (.branch bcs bv)) =
              hashFreeB (.branch bcs bv) from rfl] at h'
          exact h'
        have hchildcan : canonicalB (.branch bcs bv) = true := by
          have h' := hcan
          rw [show canonicalB (.extension pfx (.branch bcs bv)) =
              (true && canonicalB (.branch bcs bv)) from rfl] at h'
          simpa using h'
        have hchildwf : wfTreeB (.branch bcs bv) = true := by
          have h' := hwf
          rw [show wfTreeB (.extension pfx (.branch bcs bv)) =
              (wfPfx pfx.hexData && wfTreeB (.branch bcs bv)) from rfl] at h'
          simp only [Bool.and_eq_true] at h'
          exact h'.2
        obtain ⟨dflag, hchild⟩ := ih (.branch bcs bv) path
          (i + (path.offset i).commonPrefix pfx) hchildhf hchildcan hchildwf hpath habs
        rw [deleteAt_ext_match db rh (f + 1) path i pfx (.branch bcs bv) hm, hchild]
        cases dflag with
        | false => exact ⟨false, rfl⟩
        | true =>
          rw [rbind_rok]
          simp only [if_pos rfl, if_true, ite_self]
          rw [postDegen_rok_true]
          rw [degenerate_ext_branch db rh f pfx bcs bv]
          exact ⟨true, rfl⟩
      · rw [deleteAt_ext_mismatch db rh (f + 1) path i pfx (.branch bcs bv) hm]
        exact ⟨false, rfl⟩
    | hash hn =>
      rw [hashFreeB] at hhf
      exact absurd hhf (by simp)

theorem fromRaw_nibbles_le (key : Bytes) (h : BytesWF key) :
    ∀ x ∈ (Nibbles.fromRaw key true).hexData, x ≤ 16 := by
  intro x hx
  unfold Nibbles.fromRaw at hx
  simp only [List.mem_append, List.mem_flatten, List.mem_map] at hx
  rcases hx with ⟨l, ⟨b, hb, rfl⟩, hxl⟩ | hx
  · have hb256 : b < 256 := h b hb
    simp only [List.mem_cons, List.mem_singleton] at hxl
    rcases hxl with rfl | rfl | hc
    · omega
    · have := Nat.mod_lt b (show 0 < 16 by omega)
      omega
    · simp at hc
  · simp at hx
    omega

/-- C8 counterexample: on a view opened `at_root` (the root is a bare
HashRef), deleting an absent key succeeds but replaces the root with the
materialised node recovered from the store — the root node is not the same
node as before the call. -/
theorem claim8_counterexample :
    absentTerminal (terminalOf [([9], [196, 130, 32, 5, 1])] 3 (.hash [9])
      (Nibbles.fromRaw [7] true) 0) ∧
    delT 3 ⟨.hash [9], [9], [([9], [196, 130, 32, 5, 1])], [], [], []⟩ [7] =
      some (⟨.leaf ⟨[0, 5, 16]⟩ [1], [9], [([9], [196, 130, 32, 5, 1])], [],
        [[9]], []⟩, .ok ()) ∧
    ¬(Node.leaf ⟨[0, 5, 16]⟩ [1] = Node.hash [9]) :=
  ⟨by decide, by decide, by decide⟩

/-- C8 (amended): for a key absent from the trie, `del` returns `Ok(())`
(the internal `was_deleted` flag is discarded), and — provided the root tree
is fully materialised (no HashRef met on the walk) and canonical — the trie,
its root node included, is exactly unchanged.  When the walk resolves
HashRefs (e.g. a root from `at_root`), `del` instead replaces them with
their stored expansions. -/
theorem claim8_del_absent_noop (fuel : Nat) (t : Trie) (key : Bytes)
    (hhf : hashFreeB t.root = true) (hcan : canonicalB t.root = true)
    (hwf : wfTreeB t.root = true) (hkey : BytesWF key)
    (habs : absentTerminal (terminalOf t.db fuel t.root (Nibbles.fromRaw key true) 0)) :
    delT (fuel + 1) t key = some (t, .ok ()) := by
  obtain ⟨dflag, hdel⟩ := deleteAt_absent t.db t.rootHash fuel t.root
    (Nibbles.fromRaw key true) 0 hhf hcan hwf (fromRaw_nibbles_le key hkey) habs
  unfold delT
  rw [hdel]
  rfl

theorem claim8_witness :
    delT 3 ⟨.leaf (Nibbles.fromRaw [5] true) [1], [0], [], [], [], []⟩ [7] =
      some (⟨.leaf (Nibbles.fromRaw [5] true) [1], [0], [], [], [], []⟩, .ok ()) :=
  claim8_del_absent_noop 2 ⟨.leaf (Nibbles.fromRaw [5] true) [1], [0], [], [], [], []⟩
    [7] (by decide) (by decide) (by decide) (by decide) (by decide)


/-! ## C10: the side effects of `proof` -/

theorem getB_nil (k : Bytes) : Store.getB [] k = none := rfl

theorem getB_cons (p : Bytes × Bytes) (rest : List (Bytes × Bytes)) (k : Bytes) :
    Store.getB (p :: rest) k =
      if p.1 = k then some p.2 else Store.getB rest k := by
  unfold Store.getB
  by_cases hp : p.1 = k
  · rw [List.find?_cons_of_pos _ (by simp [hp]), if_pos hp]
    rfl
  · rw [List.find?_cons_of_neg _ (by simp [hp]), if_neg hp]

theorem getB_append_singleton_ne (c : List (Bytes × Bytes)) (k v k' : Bytes)
    (h : k' ≠ k) : Store.getB (c ++ [(k, v)]) k' = Store.getB c k' := by
  induction c with
  | nil =>
    rw [List.nil_append, getB_cons]
    simp [Ne.symm h, getB_nil]
  | cons p rest ih =>
    rw [List.cons_append, getB_cons, getB_cons, ih]

theorem getB_mapInsert_self (c : List (Bytes × Bytes)) (k v : Bytes) :
    Store.getB (mapInsert c k v) k = some v := by
  unfold mapInsert
  by_cases hf : (c.find? (fun p => p.1 = k)).isSome
  · rw [if_pos hf]
    induction c with
    | nil => simp at hf
    | cons p rest ih =>
      rw [List.map_cons, getB_cons]
      by_cases hp : p.1 = k
      · rw [if_pos hp]
        simp
      · rw [if_neg hp]
        simp only [hp, if_false]
        apply ih
        rw [List.find?_cons_of_neg _ (by simp [hp])] at hf
        exact hf
  · rw [if_neg hf]
    have hnone : Store.getB c k = none := by
      unfold Store.getB
      rw [Option.not_isSome_iff_eq_none] at hf
      rw [hf]
      rfl
    exact Store.getB_append_singleton_self c k v hnone

theorem getB_mapInsert_ne (c : List (Bytes × Bytes)) (k v k' : Bytes) (h : k' ≠ k) :
    Store.getB (mapInsert c k v) k' = Store.getB c k' := by
  unfold mapInsert
  by_cases hf : (c.find? (fun p => p.1 = k)).isSome
  · rw [if_pos hf]
    clear hf
    induction c with
    | nil => rfl
    | cons p rest ih =>
      rw [List.map_cons, getB_cons, getB_cons]
      by_cases hp : p.1 = k
      · rw [if_pos hp]
        have h1 : ¬(k = k') := Ne.symm h
        have h2 : ¬(p.1 = k') := by rw [hp]; exact Ne.symm h
        simp only [h1, h2, if_false]
        exact ih
      · rw [if_neg hp]
        by_cases hpk : p.1 = k'
        · rw [if_pos hpk, if_pos hpk]
        · rw [if_neg hpk, if_neg hpk]
          exact ih
  · rw [if_neg hf]
    exact getB_append_singleton_ne c k v k' h

theorem mem_setInsert_self (g : List Bytes) (k : Bytes) : k ∈ setInsert g k := by
  unfold setInsert
  by_cases h : k ∈ g
  · rwa [if_pos h]
  · rw [if_neg h]
    simp

theorem mem_setInsert_of_mem (g : List Bytes) (k x : Bytes) (h : x ∈ g) :
    x ∈ setInsert g k := by
  unfold setInsert
  by_cases hk : k ∈ g
  · rwa [if_pos hk]
  · rw [if_neg hk]
    simp [h]

/-- How `encode_raw` is allowed to change the cache and `gen_keys`: existing
cache keys survive, `gen_keys` only grows, and every (possibly overwritten)
cache entry either predates the call or is a `(digest, bytes)` pair of a
≥ 32-byte encoding whose digest was recorded in `gen_keys`. -/
def cacheEvolves (kec : Bytes → Bytes) (c : List (Bytes × Bytes)) (g : List Bytes)
    (c' : List (Bytes × Bytes)) (g' : List Bytes) : Prop :=
  (∀ k, (Store.getB c k).isSome → (Store.getB c' k).isSome) ∧
  (∀ x ∈ g, x ∈ g') ∧
  (∀ k v, Store.getB c' k = some v →
    Store.getB c k = some v ∨ (k = kec v ∧ 32 ≤ v.length ∧ k ∈ g'))

theorem cacheEvolves_refl (kec : Bytes → Bytes) (c : List (Bytes × Bytes))
    (g : List Bytes) : cacheEvolves kec c g c g :=
  ⟨fun _ h => h, fun _ h => h, fun _ _ h => Or.inl h⟩

theorem cacheEvolves_trans (kec : Bytes → Bytes) {c g c' g' c'' g''}
    (h1 : cacheEvolves kec c g c' g') (h2 : cacheEvolves kec c' g' c'' g'') :
    cacheEvolves kec c g c'' g'' := by
  obtain ⟨m1, s1, w1⟩ := h1
  obtain ⟨m2, s2, w2⟩ := h2
  refine ⟨fun k h => m2 k (m1 k h), fun x h => s2 x (s1 x h), ?_⟩
  intro k v h
  rcases w2 k v h with h' | h'
  · rcases w1 k v h' with h'' | h''
    · exact Or.inl h''
    · exact Or.inr ⟨h''.1, h''.2.1, s2 k h''.2.2⟩
  · exact Or.inr h'

theorem cacheEvolves_insert (kec : Bytes → Bytes) (c : List (Bytes × Bytes))
    (g : List Bytes) (d : Bytes) (hd : 32 ≤ d.length) :
    cacheEvolves kec c g (mapInsert c (kec d) d) (setInsert g (kec d)) := by
  refine ⟨?_, fun x h => mem_setInsert_of_mem g (kec d) x h, ?_⟩
  · intro k h
    by_cases hk : k = kec d
    · subst hk
      rw [getB_mapInsert_self]
      rfl
    · rwa [getB_mapInsert_ne c (kec d) d k hk]
  · intro k v h
    by_cases hk : k = kec d
    · subst hk
      rw [getB_mapInsert_self] at h
      cases h
      exact Or.inr ⟨rfl, hd, mem_setInsert_self g (kec d)⟩
    · rw [getB_mapInsert_ne c (kec d) d k hk] at h
      exact Or.inl h
/-- The hash-or-inline decision of `write_node` on already-encoded bytes. -/
def writeStep (kec : Bytes → Bytes) (r : Option (Bytes × List (Bytes × Bytes) × List Bytes)) :
    Option (EncodedNode × List (Bytes × Bytes) × List Bytes) :=
  match r with
  | none => none
  | some (d, c, g) =>
    if d.length < 32 then some (.inline d, c, g)
    else some (.hashE (kec d), mapInsert c (kec d) d, setInsert g (kec d))

theorem writePiece_hashE (kec : Bytes → Bytes) (enc) (h : Bytes)
    (c : List (Bytes × Bytes)) (g : List Bytes) :
    writePieceWith kec enc (.hash h) c g = some (.hashE h, c, g) := rfl

theorem writePiece_empty (kec : Bytes → Bytes) (enc)
    (c : List (Bytes × Bytes)) (g : List Bytes) :
    writePieceWith kec enc .empty c g = writeStep kec (enc .empty c g) := rfl

theorem writePiece_leaf (kec : Bytes → Bytes) (enc) (k : Nibbles) (v : Bytes)
    (c : List (Bytes × Bytes)) (g : List Bytes) :
    writePieceWith kec enc (.leaf k v) c g = writeStep kec (enc (.leaf k v) c g) := rfl

theorem writePiece_ext (kec : Bytes → Bytes) (enc) (pfx : Nibbles) (ch : Node)
    (c : List (Bytes × Bytes)) (g : List Bytes) :
    writePieceWith kec enc (.extension pfx ch) c g =
      writeStep kec (enc (.extension pfx ch) c g) := rfl

theorem writePiece_branch (kec : Bytes → Bytes) (enc) (cs : List Node)
    (v : Option Bytes) (c : List (Bytes × Bytes)) (g : List Bytes) :
    writePieceWith kec enc (.branch cs v) c g =
      writeStep kec (enc (.branch cs v) c g) := rfl

theorem writeStep_effects (kec : Bytes → Bytes)
    (r : Option (Bytes × List (Bytes × Bytes) × List Bytes))
    (c : List (Bytes × Bytes)) (g : List Bytes)
    (hr : ∀ d c' g', r = some (d, c', g') → cacheEvolves kec c g c' g') :
    ∀ e c' g', writeStep kec r = some (e, c', g') → cacheEvolves kec c g c' g' := by
  intro e c' g' h
  rcases r with _ | ⟨d, c1, g1⟩
  · exact absurd h (by simp [writeStep])
  · have h1 := hr d c1 g1 rfl
    have h2 : (if d.length < 32 then some (EncodedNode.inline d, c1, g1)
        else some (EncodedNode.hashE (kec d), mapInsert c1 (kec d) d,
          setInsert g1 (kec d))) = some (e, c', g') := h
    by_cases hlen : d.length < 32
    · rw [if_pos hlen] at h2
      cases h2
      exact h1
    · rw [if_neg hlen] at h2
      cases h2
      exact cacheEvolves_trans kec h1 (cacheEvolves_insert kec c1 g1 d (by omega))

theorem writePiece_effects (kec : Bytes → Bytes) (enc)
    (henc : ∀ n c g d c' g', enc n c g = some (d, c', g') → cacheEvolves kec c g c' g') :
    ∀ n c g e c' g', writePieceWith kec enc n c g = some (e, c', g') →
      cacheEvolves kec c g c' g' := by
  intro n c g e c' g' h
  cases n with
  | hash hh =>
    rw [writePiece_hashE] at h
    cases h
    exact cacheEvolves_refl kec c g
  | empty =>
    exact writeStep_effects kec _ c g (fun d c' g' hd => henc _ c g d c' g' hd) e c' g'
      (by rwa [writePiece_empty] at h)
  | leaf k v =>
    exact writeStep_effects kec _ c g (fun d c' g' hd => henc _ c g d c' g' hd) e c' g'
      (by rwa [writePiece_leaf] at h)
  | extension pfx ch =>
    exact writeStep_effects kec _ c g (fun d c' g' hd => henc _ c g d c' g' hd) e c' g'
      (by rwa [writePiece_ext] at h)
  | branch cs v =>
    exact writeStep_effects kec _ c g (fun d c' g' hd => henc _ c g d c' g' hd) e c' g'
      (by rwa [writePiece_branch] at h)

theorem childStep_none (kec : Bytes → Bytes) (enc) (cs : List Node) (i : Nat) :
    childStep kec enc cs none i = none := rfl

theorem foldl_childStep_none (kec : Bytes → Bytes) (enc) (cs : List Node)
    (l : List Nat) :
    l.foldl (childStep kec enc cs) none = none := by
  induction l with
  | nil => rfl
  | cons x l ih => exact ih

theorem foldl_childStep_effects (kec : Bytes → Bytes) (enc) (cs : List Node)
    (henc : ∀ n c g d c' g', enc n c g = some (d, c', g') → cacheEvolves kec c g c' g') :
    ∀ (l : List Nat) (p0 : Bytes) (c : List (Bytes × Bytes)) (g : List Bytes)
      (res : Bytes × List (Bytes × Bytes) × List Bytes),
    l.foldl (childStep kec enc cs) (some (p0, c, g)) = some res →
    cacheEvolves kec c g res.2.1 res.2.2 := by
  intro l
  induction l with
  | nil =>
    intro p0 c g res h
    cases h
    exact cacheEvolves_refl kec c g
  | cons x l ih =>
    intro p0 c g res h
    rw [List.foldl_cons] at h
    rcases hw : writePieceWith kec enc (cs.getD x .empty) c g with _ | ⟨e, c1, g1⟩
    · have h2 : childStep kec enc cs (some (p0, c, g)) x =
          match writePieceWith kec enc (cs.getD x .empty) c g with
          | none => none
          | some (e, c1, g1) => some (p0 ++ pieceBytes e, c1, g1) := rfl
      rw [h2, hw] at h
      rw [foldl_childStep_none] at h
      cases h
    · have h2 : childStep kec enc cs (some (p0, c, g)) x =
          match writePieceWith kec enc (cs.getD x .empty) c g with
          | none => none
          | some (e, c1, g1) => some (p0 ++ pieceBytes e, c1, g1) := rfl
      rw [h2, hw] at h
      exact cacheEvolves_trans kec
        (writePiece_effects kec enc henc _ c g e c1 g1 hw) (ih _ c1 g1 res h)

theorem encNode_effects (kec : Bytes → Bytes) :
    ∀ (f : Nat) (n : Node) (c : List (Bytes × Bytes)) (g : List Bytes)
      (d : Bytes) (c' : List (Bytes × Bytes)) (g' : List Bytes),
    encNode kec f n c g = some (d, c', g') → cacheEvolves kec c g c' g' := by
  intro f
  induction f with
  | zero =>
    intro n c g d c' g' h
    rw [show encNode kec 0 n c g = none from rfl] at h
    cases h
  | succ f ih =>
    intro n c g d c' g' h
    cases n with
    | empty =>
      rw [show encNode kec (f + 1) Node.empty c g = some ([128], c, g) from rfl] at h
      cases h
      exact cacheEvolves_refl kec c g
    | leaf k v =>
      rw [show encNode kec (f + 1) (Node.leaf k v) c g =
          some (rlpList (rlpStr k.encodeCompact ++ rlpStr v), c, g) from rfl] at h
      cases h
      exact cacheEvolves_refl kec c g
    | hash hh =>
      rw [show encNode kec (f + 1) (Node.hash hh) c g = none from rfl] at h
      cases h
    | extension pfx child =>
      have heq : encNode kec (f + 1) (.extension pfx child) c g =
          (match writePieceWith kec (fun n' c' g' => encNode kec f n' c' g') child c g with
           | none => none
           | some (e, c1, g1) =>
             some (rlpList (rlpStr pfx.encodeCompact ++ pieceBytes e), c1, g1)) := rfl
      rw [heq] at h
      rcases hw : writePieceWith kec (fun n' c' g' => encNode kec f n' c' g') child c g
        with _ | ⟨e, c1, g1⟩
      · rw [hw] at h
        cases h
      · rw [hw] at h
        cases h
        exact writePiece_effects kec _ (fun n c g d c' g' hd => ih n c g d c' g' hd)
          child c g e c' g' hw
    | branch cs v =>
      cases v with
      | none =>
        have heq : encNode kec (f + 1) (.branch cs none) c g =
            (match (List.range 16).foldl
                (childStep kec (fun n' c' g' => encNode kec f n' c' g') cs)
                (some ([], c, g)) with
             | none => none
             | some (payload, c1, g1) =>
               some (rlpList (payload ++ [128]), c1, g1)) := rfl
        rw [heq] at h
        rcases hfold : (List.range 16).foldl
            (childStep kec (fun n' c' g' => encNode kec f n' c' g') cs)
            (some ([], c, g)) with _ | ⟨payload, c1, g1⟩
        · rw [hfold] at h
          cases h
        · rw [hfold] at h
          simp only [Option.some.injEq, Prod.mk.injEq] at h
          obtain ⟨-, hc, hg⟩ := h
          subst hc
          subst hg
          exact foldl_childStep_effects kec _ cs
            (fun n c g d c' g' hd => ih n c g d c' g' hd) (List.range 16) [] c g
            (payload, c1, g1) hfold
      | some vv =>
        have heq : encNode kec (f + 1) (.branch cs (some vv)) c g =
            (match (List.range 16).foldl
                (childStep kec (fun n' c' g' => encNode kec f n' c' g') cs)
                (some ([], c, g)) with
             | none => none
             | some (payload, c1, g1) =>
               some (rlpList (payload ++ rlpStr vv), c1, g1)) := rfl
        rw [heq] at h
        rcases hfold : (List.range 16).foldl
            (childStep kec (fun n' c' g' => encNode kec f n' c' g') cs)
            (some ([], c, g)) with _ | ⟨payload, c1, g1⟩
        · rw [hfold] at h
          cases h
        · rw [hfold] at h
          simp only [Option.some.injEq, Prod.mk.injEq] at h
          obtain ⟨-, hc, hg⟩ := h
          subst hc
          subst hg
          exact foldl_childStep_effects kec _ cs
            (fun n c g d c' g' hd => ih n c g d c' g' hd) (List.range 16) [] c g
            (payload, c1, g1) hfold

theorem foldl_proofStep_none (kec : Bytes → Bytes) (fuel : Nat) (l : List Node) :
    l.foldl (proofStep kec fuel) none = none := by
  induction l with
  | nil => rfl
  | cons x l ih => exact ih

theorem foldl_proofStep_effects (kec : Bytes → Bytes) (fuel : Nat) :
    ∀ (l : List Node) (ds0 : List Bytes) (c : List (Bytes × Bytes)) (g : List Bytes)
      (res : List Bytes × List (Bytes × Bytes) × List Bytes),
    l.foldl (proofStep kec fuel) (some (ds0, c, g)) = some res →
    cacheEvolves kec c g res.2.1 res.2.2 := by
  intro l
  induction l with
  | nil =>
    intro ds0 c g res h
    cases h
    exact cacheEvolves_refl kec c g
  | cons nd l ih =>
    intro ds0 c g res h
    rw [List.foldl_cons] at h
    rcases he : encNode kec fuel nd c g with _ | ⟨d, c1, g1⟩
    · have h2 : proofStep kec fuel (some (ds0, c, g)) nd =
          match encNode kec fuel nd c g with
          | none => none
          | some (d, c1, g1) => some (ds0 ++ [d], c1, g1) := rfl
      rw [h2, he] at h
      rw [foldl_proofStep_none] at h
      cases h
    · have h2 : proofStep kec fuel (some (ds0, c, g)) nd =
          match encNode kec fuel nd c g with
          | none => none
          | some (d, c1, g1) => some (ds0 ++ [d], c1, g1) := rfl
      rw [h2, he] at h
      exact cacheEvolves_trans kec
        (encNode_effects kec fuel nd c g d c1 g1 he) (ih _ c1 g1 res h)

/-- C10 (amended): `proof` is not effect-free, but its writes are confined to
`cache` and `gen_keys`: `root`, `root_hash`, the store and `passing_keys` are
unchanged, existing cache keys and `gen_keys` entries survive, and every
cache entry after the call either predates it or is a `(digest, bytes)` pair
for a ≥ 32-byte encoding produced by `write_node` on a materialised child
during proof encoding, with the digest recorded in `gen_keys` (so a later
commit re-writes those nodes).  Traversed nodes themselves — the root, or any
node whose children are HashRefs or inline-small — contribute nothing. -/
theorem claim10_proof_effects (kec : Bytes → Bytes) (fuel : Nat) (t : Trie)
    (key : Bytes) (r : Except TrieError (List Bytes)) (t' : Trie)
    (h : proofT kec fuel t key = some (r, t')) :
    t'.root = t.root ∧ t'.rootHash = t.rootHash ∧ t'.db = t.db ∧
      t'.passingKeys = t.passingKeys ∧
      cacheEvolves kec t.cache t.genKeys t'.cache t'.genKeys := by
  unfold proofT at h
  rcases hg : getPathAt t.db t.rootHash fuel t.root (Nibbles.fromRaw key true) 0
    with _ | rr
  · rw [hg] at h
    cases h
  · rcases rr with e | path0
    · rw [hg] at h
      cases e <;>
        · cases h
          exact ⟨rfl, rfl, rfl, rfl, cacheEvolves_refl kec t.cache t.genKeys⟩
    · rw [hg] at h
      have h2 : (match (match t.root with
            | Node.empty => path0
            | r => path0 ++ [r]).reverse.foldl (proofStep kec fuel)
            (some ([], t.cache, t.genKeys)) with
          | none => none
          | some (ds, c, g) =>
            some (Except.ok ds,
              Trie.mk t.root t.rootHash t.db c t.passingKeys g)) = some (r, t') := h
      clear h
      rcases hfold : (match t.root with
          | .empty => path0
          | r => path0 ++ [r]).reverse.foldl (proofStep kec fuel)
          (some ([], t.cache, t.genKeys)) with _ | ⟨ds, c1, g1⟩
      · rw [hfold] at h2
        cases h2
      · rw [hfold] at h2
        cases h2
        exact ⟨rfl, rfl, rfl, rfl,
          foldl_proofStep_effects kec fuel _ [] t.cache t.genKeys (ds, c1, g1) hfold⟩

/-- C10 counterexample: an uncommitted trie whose root is a single large
leaf.  `proof(key)` traverses that root, whose RLP encoding is 45 ≥ 32
bytes, yet the cache and `gen_keys` stay empty — no `(digest, bytes)` pair is
inserted for the traversed node. -/
theorem claim10_counterexample :
    proofT (fun _ => [0]) 5
        ⟨.leaf ⟨[0, 5, 16]⟩ (List.replicate 40 7), [9], [], [], [], []⟩ [5] =
      some (.ok [[236, 130, 32, 5, 168] ++ List.replicate 40 7],
        ⟨.leaf ⟨[0, 5, 16]⟩ (List.replicate 40 7), [9], [], [], [], []⟩) ∧
    32 ≤ (([[236, 130, 32, 5, 168] ++ List.replicate 40 7] : List Bytes).headD []).length := by
  constructor
  · rfl
  · decide

theorem claim10_witness :
    (⟨.leaf ⟨[0, 5, 16]⟩ (List.replicate 40 7), [9], [], [], [], []⟩ : Trie).root =
        Node.leaf ⟨[0, 5, 16]⟩ (List.replicate 40 7) ∧
      cacheEvolves (fun _ => [0]) [] [] [] [] :=
  ⟨(claim10_proof_effects (fun _ => [0]) 5
      ⟨.leaf ⟨[0, 5, 16]⟩ (List.replicate 40 7), [9], [], [], [], []⟩ [5]
      (.ok [[236, 130, 32, 5, 168] ++ List.replicate 40 7])
      ⟨.leaf ⟨[0, 5, 16]⟩ (List.replicate 40 7), [9], [], [], [], []⟩
      (by decide)).1,
   (claim10_proof_effects (fun _ => [0]) 5
      ⟨.leaf ⟨[0, 5, 16]⟩ (List.replicate 40 7), [9], [], [], [], []⟩ [5]
      (.ok [[236, 130, 32, 5, 168] ++ List.replicate 40 7])
      ⟨.leaf ⟨[0, 5, 16]⟩ (List.replicate 40 7), [9], [], [], [], []⟩
      (by decide)).2.2.2.2⟩

/-! ## C2: delete inverts insert -/

theorem commonPrefixAux_le_left : ∀ (l1 l2 : List Nat),
    Nibbles.commonPrefixAux l1 l2 ≤ l1.length := by
  intro l1
  induction l1 with
  | nil => intro l2; cases l2 <;> simp [Nibbles.commonPrefixAux]
  | cons a as' ih =>
    intro l2
    cases l2 with
    | nil => simp [Nibbles.commonPrefixAux]
    | cons b bs =>
      by_cases hab : a = b
      · rw [show Nibbles.commonPrefixAux (a :: as') (b :: bs) =
            Nibbles.commonPrefixAux as' bs + 1 from by
          simp [Nibbles.commonPrefixAux, hab]]
        simpa using ih bs
      · rw [show Nibbles.commonPrefixAux (a :: as') (b :: bs) = 0 from by
          simp [Nibbles.commonPrefixAux, hab]]
        simp

theorem commonPrefixAux_le_right : ∀ (l1 l2 : List Nat),
    Nibbles.commonPrefixAux l1 l2 ≤ l2.length := by
  intro l1
  induction l1 with
  | nil => intro l2; cases l2 <;> simp [Nibbles.commonPrefixAux]
  | cons a as' ih =>
    intro l2
    cases l2 with
    | nil => simp [Nibbles.commonPrefixAux]
    | cons b bs =>
      by_cases hab : a = b
      · rw [show Nibbles.commonPrefixAux (a :: as') (b :: bs) =
            Nibbles.commonPrefixAux as' bs + 1 from by
          simp [Nibbles.commonPrefixAux, hab]]
        simpa using ih bs
      · rw [show Nibbles.commonPrefixAux (a :: as') (b :: bs) = 0 from by
          simp [Nibbles.commonPrefixAux, hab]]
        simp

theorem commonPrefixAux_take : ∀ (l1 l2 : List Nat),
    l1.take (Nibbles.commonPrefixAux l1 l2) = l2.take (Nibbles.commonPrefixAux l1 l2) := by
  intro l1
  induction l1 with
  | nil => intro l2; cases l2 <;> rfl
  | cons a as' ih =>
    intro l2
    cases l2 with
    | nil => rfl
    | cons b bs =>
      by_cases hab : a = b
      · rw [show Nibbles.commonPrefixAux (a :: as') (b :: bs) =
            Nibbles.commonPrefixAux as' bs + 1 from by
          simp [Nibbles.commonPrefixAux, hab]]
        simp only [List.take_succ_cons]
        rw [hab, ih bs]
      · rw [show Nibbles.commonPrefixAux (a :: as') (b :: bs) = 0 from by
          simp [Nibbles.commonPrefixAux, hab]]
        rfl

theorem commonPrefixAux_getD_ne : ∀ (l1 l2 : List Nat) (d : Nat),
    Nibbles.commonPrefixAux l1 l2 < l1.length →
    Nibbles.commonPrefixAux l1 l2 < l2.length →
    l1.getD (Nibbles.commonPrefixAux l1 l2) d ≠
      l2.getD (Nibbles.commonPrefixAux l1 l2) d := by
  intro l1
  induction l1 with
  | nil => intro l2 d h1 _; simp at h1
  | cons a as' ih =>
    intro l2 d h1 h2
    cases l2 with
    | nil => simp at h2
    | cons b bs =>
      by_cases hab : a = b
      · rw [show Nibbles.commonPrefixAux (a :: as') (b :: bs) =
            Nibbles.commonPrefixAux as' bs + 1 from by
          simp [Nibbles.commonPrefixAux, hab]] at h1 h2 ⊢
        simp only [List.getD_cons_succ]
        exact ih bs d (by simpa using h1) (by simpa using h2)
      · rw [show Nibbles.commonPrefixAux (a :: as') (b :: bs) = 0 from by
          simp [Nibbles.commonPrefixAux, hab]]
        simpa using hab

theorem commonPrefixAux_take_self (l : List Nat) : ∀ (m : Nat), m ≤ l.length →
    Nibbles.commonPrefixAux l (l.take m) = m := by
  induction l with
  | nil => intro m hm; simp at hm; subst hm; rfl
  | cons a as' ih =>
    intro m hm
    cases m with
    | zero => rfl
    | succ k =>
      rw [List.take_succ_cons]
      rw [show Nibbles.commonPrefixAux (a :: as') (a :: as'.take k) =
          Nibbles.commonPrefixAux as' (as'.take k) + 1 from by
        simp [Nibbles.commonPrefixAux]]
      rw [ih k (by simpa using hm)]

theorem getD_decomp (l : List Nat) (m : Nat) (h : m < l.length) :
    l = l.take m ++ l.getD m 16 :: l.drop (m + 1) := by
  conv_lhs => rw [← List.take_append_drop m l]
  congr 1
  rw [List.getD_eq_getElem?_getD, List.getElem?_eq_getElem h]
  rw [show l.drop m = l[m] :: l.drop (m + 1) from List.drop_eq_getElem_cons h]
  rfl

theorem wfLeafKey_iff (l : List Nat) :
    wfLeafKey l = true ↔ ∃ xs, l = xs ++ [16] ∧ ∀ x ∈ xs, x < 16 := by
  unfold wfLeafKey
  simp only [Bool.and_eq_true, List.all_eq_true, decide_eq_true_eq]
  constructor
  · rintro ⟨hlast, hall⟩
    have hne : l ≠ [] := by
      intro hc; subst hc; simp at hlast
    refine ⟨l.dropLast, ?_, ?_⟩
    · conv_lhs => rw [← List.dropLast_append_getLast hne]
      congr 1
      rw [List.getLast?_eq_getLast l hne] at hlast
      simp only [Option.some.injEq] at hlast
      rw [hlast]
    · intro x hx
      apply hall
      rw [← List.dropLast_eq_take]
      exact hx
  · rintro ⟨xs, rfl, hall⟩
    constructor
    · exact List.getLast?_concat xs
    · intro x hx
      apply hall
      have hlen : (xs ++ [16]).length - 1 = xs.length := by simp
      rw [hlen, List.take_left] at hx
      exact hx

theorem wfLeafKey_ne_nil (l : List Nat) (h : wfLeafKey l = true) : l ≠ [] := by
  rw [wfLeafKey_iff] at h
  obtain ⟨xs, rfl, -⟩ := h
  simp

theorem wfLeafKey_getD_lt (l : List Nat) (h : wfLeafKey l = true) (j : Nat)
    (hj : j < l.length - 1) : l.getD j 16 < 16 := by
  rw [wfLeafKey_iff] at h
  obtain ⟨xs, rfl, hall⟩ := h
  have hjx : j < xs.length := by simp at hj; omega
  rw [List.getD_eq_getElem?_getD, List.getElem?_append_left hjx,
    List.getElem?_eq_getElem hjx]
  exact hall _ (by simp)

theorem wfLeafKey_term_pos (l : List Nat) (h : wfLeafKey l = true) (m : Nat)
    (hm : l.getD m 16 = 16) (hlt : m < l.length) : m = l.length - 1 := by
  by_contra hne
  have : m < l.length - 1 := by omega
  have := wfLeafKey_getD_lt l h m this
  omega

theorem wfLeafKey_eq_take_term (l : List Nat) (h : wfLeafKey l = true) (m : Nat)
    (hm : l.getD m 16 = 16) (hlt : m < l.length) : l = l.take m ++ [16] := by
  have hpos := wfLeafKey_term_pos l h m hm hlt
  have hd := getD_decomp l m hlt
  rw [hm] at hd
  have hdrop : l.drop (m + 1) = [] := by
    rw [List.drop_eq_nil_iff]
    omega
  rw [hdrop] at hd
  exact hd

theorem wfLeafKey_drop (l : List Nat) (h : wfLeafKey l = true) (i : Nat)
    (hi : i < l.length) : wfLeafKey (l.drop i) = true := by
  rw [wfLeafKey_iff] at h ⊢
  obtain ⟨xs, rfl, hall⟩ := h
  have hix : i ≤ xs.length := by simp at hi; omega
  refine ⟨xs.drop i, ?_, ?_⟩
  · rw [List.drop_append_of_le_length hix]
  · intro x hx
    exact hall _ (List.mem_of_mem_drop hx)

theorem wfLeafKey_fromRaw (key : Bytes) (h : BytesWF key) :
    wfLeafKey (Nibbles.fromRaw key true).hexData = true := by
  rw [wfLeafKey_iff]
  unfold Nibbles.fromRaw
  refine ⟨(key.map (fun b => [b / 16, b % 16])).flatten, by simp, ?_⟩
  intro x hx
  simp only [List.mem_flatten, List.mem_map] at hx
  obtain ⟨l, ⟨b, hb, rfl⟩, hxl⟩ := hx
  have hb256 : b < 256 := h b hb
  simp only [List.mem_cons, List.mem_singleton] at hxl
  rcases hxl with rfl | rfl | hc
  · omega
  · exact Nat.mod_lt b (by omega)
  · simp at hc

theorem getD_set_self (l : List Node) (i : Nat) (x : Node) (h : i < l.length) :
    (l.set i x).getD i .empty = x := by
  rw [List.getD_eq_getElem?_getD, List.getElem?_set_self (by omega)]
  rfl

theorem length_emptyChildren : Node.emptyChildren.length = 16 := rfl

theorem range_filter_eq_nil (n : Nat) (p : Nat → Bool)
    (h : ∀ j < n, p j = false) : (List.range n).filter p = [] := by
  rw [List.filter_eq_nil_iff]
  intro a ha
  rw [List.mem_range] at ha
  simp [h a ha]

theorem range_filter_eq_singleton (n a : Nat) (p : Nat → Bool) (ha : a < n)
    (hpa : p a = true) (h : ∀ j < n, j ≠ a → p j = false) :
    (List.range n).filter p = [a] := by
  induction n with
  | zero => omega
  | succ k ih =>
    rw [List.range_succ, List.filter_append]
    by_cases hak : a = k
    · subst hak
      rw [range_filter_eq_nil a p (fun j hj => h j (by omega) (by omega))]
      simp [hpa]
    · rw [ih (by omega) (fun j hj hja => h j (by omega) hja)]
      have : p k = false := h k (by omega) (fun hc => hak hc.symm)
      simp [this]

theorem hexData_eq_cons (l : List Nat) (h : ¬l = []) :
    l = l.getD 0 16 :: l.drop 1 := by
  cases l with
  | nil => exact absurd rfl h
  | cons a as' => rfl

theorem singleton_of_len_one (l : List Nat) (h : l.length = 1) :
    l = [l.getD 0 16] := by
  cases l with
  | nil => simp at h
  | cons a as' =>
    have has : as' = [] := by
      simp only [List.length_cons] at h
      exact List.eq_nil_of_length_eq_zero (by omega)
    subst has
    rfl

/-- Safety of an insertion (auxiliary device for stating C2): the `insert_at`
walk never lands the new value in the value slot of a freshly created branch,
i.e. at every leaf or extension divergence the remaining path continues with
a proper nibble rather than the terminator.  Without this, `delete_at`'s
early-`return` in its branch-terminator arm skips the trailing `degenerate`
and leaves a non-canonical single-child branch behind (see the
counterexample).  Fuel only decreases along child recursion; `0` reports
unsafe. -/
def insertSafeB : Nat → Node → Nibbles → Nat → Bool
  | 0, _, _, _ => false
  | f + 1, n, p, i =>
    match n with
    | .empty => true
    | .leaf lk _ =>
      decide ((p.offset i).commonPrefix lk = lk.len) ||
        !decide ((p.offset i).nAt ((p.offset i).commonPrefix lk) = 16)
    | .branch cs _ =>
      if (p.offset i).nAt 0 = 16 then true
      else insertSafeB f (cs.getD ((p.offset i).nAt 0) .empty) p (i + 1)
    | .extension pfx child =>
      if (p.offset i).commonPrefix pfx = 0 then
        !decide ((p.offset i).nAt 0 = 16)
      else if (p.offset i).commonPrefix pfx = pfx.len then
        insertSafeB f child p (i + (p.offset i).commonPrefix pfx)
      else !decide ((p.offset i).nAt ((p.offset i).commonPrefix pfx) = 16)
    | .hash _ => true

/-- All ways `degenerate` can collapse `Extension(pfx, x)`: for every fuel it
either runs out (`none`) or yields the fixed node `d`. -/
def degenOutP (db : Store) (rh : Bytes) (pfx : Nibbles) (x d : Node) : Prop :=
  ∀ f, degenerate db rh f (.extension pfx x) = ([], none) ∨
       degenerate db rh f (.extension pfx x) = ([], rok d)

theorem degenOutP_leaf (db : Store) (rh : Bytes) (pfx lk : Nibbles) (lv : Bytes) :
    degenOutP db rh pfx (.leaf lk lv) (.leaf (pfx.join lk) lv) := by
  intro f
  cases f with
  | zero => exact Or.inl rfl
  | succ f => exact Or.inr rfl

theorem degenOutP_branch (db : Store) (rh : Bytes) (pfx : Nibbles)
    (bcs : List Node) (bv : Option Bytes) :
    degenOutP db rh pfx (.branch bcs bv) (.extension pfx (.branch bcs bv)) := by
  intro f
  cases f with
  | zero => exact Or.inl rfl
  | succ f => exact Or.inr (degenerate_ext_branch db rh f pfx bcs bv)

theorem degenOutP_ext (db : Store) (rh : Bytes) (pfx p2 : Nibbles) (c2 d : Node)
    (h : degenOutP db rh (pfx.join p2) c2 d) :
    degenOutP db rh pfx (.extension p2 c2) d := by
  intro f
  cases f with
  | zero => exact Or.inl rfl
  | succ f =>
    rw [show degenerate db rh (f + 1) (.extension pfx (.extension p2 c2)) =
        degenerate db rh f (.extension (pfx.join p2) c2) from rfl]
    exact h f

theorem terminalOf_branch_step (db : Store) (f : Nat) (path : Nibbles) (i : Nat)
    (cs : List Node) (v : Option Bytes) (h : ¬(path.offset i).nAt 0 = 16) :
    terminalOf db (f + 1) (.branch cs v) path i =
      terminalOf db f (cs.getD ((path.offset i).nAt 0) .empty) path (i + 1) := by
  have hcond : ¬((path.offset i).isEmpty = true ∨ (path.offset i).nAt 0 = 16) := by
    intro hc
    rcases hc with hc | hc
    · exact h (nAt_zero_of_isEmpty _ hc)
    · exact h hc
  simp only [terminalOf]
  rw [if_neg (by simpa using hcond)]

theorem terminalOf_ext_match (db : Store) (f : Nat) (path : Nibbles) (i : Nat)
    (pfx : Nibbles) (child : Node)
    (h : (path.offset i).commonPrefix pfx = pfx.len) :
    terminalOf db (f + 1) (.extension pfx child) path i =
      terminalOf db f child path (i + (path.offset i).commonPrefix pfx) := by
  simp [terminalOf, h]

/-- Deleting the just-inserted key from a freshly split branch whose value
slot took the old leaf's value: the old leaf is rebuilt with the bare
terminator key. -/
theorem deleteAt_freshValueBranch (db : Store) (rh : Bytes) (f2 : Nat)
    (path : Nibbles) (j : Nat) (v lv : Bytes) (pkd : List Bytes) (r : Node × Bool)
    (hpat : (path.offset j).nAt 0 < 16)
    (hdel : deleteAt db rh f2
      (.branch (Node.emptyChildren.set ((path.offset j).nAt 0)
        (.leaf ((path.offset j).offset 1) v)) (some lv)) path j = (pkd, rok r)) :
    pkd = [] ∧ r = (.leaf (Nibbles.fromHex [16]) lv, true) := by
  cases f2 with
  | zero =>
    rw [deleteAt_zero, Prod.mk.injEq] at hdel
    exact absurd hdel.2 (by simp [rok])
  | succ f =>
    rw [deleteAt_branch_step db rh f path j _ _ (by omega)] at hdel
    rw [getD_set_self _ _ _ (by rw [length_emptyChildren]; exact hpat)] at hdel
    cases f with
    | zero =>
      have hdel2 : (([], none) : List Bytes × TRes (Node × Bool)) = (pkd, rok r) := hdel
      rw [Prod.mk.injEq] at hdel2
      exact absurd hdel2.2 (by simp [rok])
    | succ f' =>
      rw [deleteAt_leaf db rh f' path (j + 1),
        if_pos (offset_offset path j 1).symm] at hdel
      have hdel2 : postDegen db rh (f' + 1) []
          (rok (Node.branch ((Node.emptyChildren.set ((path.offset j).nAt 0)
              (Node.leaf ((path.offset j).offset 1) v)).set ((path.offset j).nAt 0)
              Node.empty) (some lv), true)) = (pkd, rok r) := hdel
      rw [List.set_set] at hdel2
      have hall : ∀ k, (Node.emptyChildren.set ((path.offset j).nAt 0)
          Node.empty).getD k .empty = .empty := by
        intro k
        by_cases hk : k = (path.offset j).nAt 0
        · subst hk
          exact getD_set_self _ _ _ (by rw [length_emptyChildren]; exact hpat)
        · rw [getD_set_ne Node.emptyChildren _ k _ hk]
          exact getD_emptyChildren k
      have hdeg : degenerate db rh (f' + 1)
          (.branch (Node.emptyChildren.set ((path.offset j).nAt 0) Node.empty)
            (some lv)) = ([], rok (.leaf (Nibbles.fromHex [16]) lv)) := by
        rw [degenerate_branch_eq,
          range_filter_eq_nil _ _ (fun k _ => by simp only [hall k]; simp)]
        rfl
      rw [postDegen_rok_true, hdeg] at hdel2
      rw [rbind_rok] at hdel2
      rw [Prod.mk.injEq] at hdel2
      refine ⟨by simpa using hdel2.1.symm, ?_⟩
      have := hdel2.2.symm
      simpa [rok] using this

/-- Deleting the just-inserted key from a freshly split branch that keeps the
pre-existing content under child slot `u`: the branch collapses through
`degenerate` into whatever `Extension([u], x)` degenerates to. -/
theorem deleteAt_freshChildBranch (db : Store) (rh : Bytes) (f2 : Nat)
    (path : Nibbles) (j : Nat) (v : Bytes) (u : Nat) (x d : Node)
    (pkd : List Bytes) (r : Node × Bool)
    (hpat : (path.offset j).nAt 0 < 16) (hu : u < 16)
    (hne : ¬u = (path.offset j).nAt 0) (hx : ¬x = .empty)
    (hD : degenOutP db rh (Nibbles.fromHex [u]) x d)
    (hdel : deleteAt db rh f2
      (.branch ((Node.emptyChildren.set u x).set ((path.offset j).nAt 0)
        (.leaf ((path.offset j).offset 1) v)) none) path j = (pkd, rok r)) :
    pkd = [] ∧ r = (d, true) := by
  cases f2 with
  | zero =>
    rw [deleteAt_zero, Prod.mk.injEq] at hdel
    exact absurd hdel.2 (by simp [rok])
  | succ f =>
    rw [deleteAt_branch_step db rh f path j _ _ (by omega)] at hdel
    rw [getD_set_self _ _ _
      (by rw [List.length_set, length_emptyChildren]; exact hpat)] at hdel
    cases f with
    | zero =>
      have hdel2 : (([], none) : List Bytes × TRes (Node × Bool)) = (pkd, rok r) := hdel
      rw [Prod.mk.injEq] at hdel2
      exact absurd hdel2.2 (by simp [rok])
    | succ f' =>
      rw [deleteAt_leaf db rh f' path (j + 1),
        if_pos (offset_offset path j 1).symm] at hdel
      have hdel2 : postDegen db rh (f' + 1) []
          (rok (Node.branch (((Node.emptyChildren.set u x).set
              ((path.offset j).nAt 0) (Node.leaf ((path.offset j).offset 1) v)).set
              ((path.offset j).nAt 0) Node.empty) none, true)) = (pkd, rok r) := hdel
      rw [List.set_set] at hdel2
      have hgu : ((Node.emptyChildren.set u x).set ((path.offset j).nAt 0)
          Node.empty).getD u .empty = x := by
        rw [getD_set_ne (Node.emptyChildren.set u x) _ u _ hne]
        exact getD_set_self _ _ _ (by rw [length_emptyChildren]; exact hu)
      have hgother : ∀ k, ¬k = u → ((Node.emptyChildren.set u x).set
          ((path.offset j).nAt 0) Node.empty).getD k .empty = .empty := by
        intro k hk
        by_cases hkp : k = (path.offset j).nAt 0
        · subst hkp
          exact getD_set_self _ _ _
            (by rw [List.length_set, length_emptyChildren]; exact hpat)
        · rw [getD_set_ne (Node.emptyChildren.set u x) _ k _ hkp]
          rw [getD_set_ne Node.emptyChildren _ k _ hk]
          exact getD_emptyChildren k
      have hfilter : (List.range ((Node.emptyChildren.set u x).set
            ((path.offset j).nAt 0) Node.empty).length).filter
          (fun k => ¬((Node.emptyChildren.set u x).set
            ((path.offset j).nAt 0) Node.empty).getD k .empty = .empty) = [u] := by
        apply range_filter_eq_singleton
        · rw [List.length_set, List.length_set, length_emptyChildren]
          exact hu
        · simp only [hgu]
          simpa using hx
        · intro k _ hk
          simp only [hgother k hk]
          simp
      have hstep : degenerate db rh (f' + 1)
          (.branch ((Node.emptyChildren.set u x).set ((path.offset j).nAt 0)
            Node.empty) none) =
          degenerate db rh f' (.extension (Nibbles.fromHex [u])
            (((Node.emptyChildren.set u x).set ((path.offset j).nAt 0)
              Node.empty).getD u .empty)) := by
        rw [degenerate_branch_eq, hfilter]
      rw [hgu] at hstep
      rw [postDegen_rok_true, hstep] at hdel2
      rcases hD f' with hno | hok
      · rw [hno] at hdel2
        have hdel3 : (([] : List Bytes) ++ [], (none : TRes (Node × Bool))) =
            (pkd, rok r) := hdel2
        rw [Prod.mk.injEq] at hdel3
        exact absurd hdel3.2 (by simp [rok])
      · rw [hok] at hdel2
        have hdel3 : (([] : List Bytes) ++ [], rok ((d, true) : Node × Bool)) =
            (pkd, rok r) := hdel2
        rw [Prod.mk.injEq] at hdel3
        refine ⟨by simpa using hdel3.1.symm, ?_⟩
        have := hdel3.2.symm
        simpa [rok] using this

/-- Deleting through the extension wrapper `insert_at` places above a freshly
split branch: the inner deletion yields `d`, and the wrapper collapses by
`degenerate` to whatever `Extension(partial[0..m], d)` degenerates to. -/
theorem deleteAt_ext_over (db : Store) (rh : Bytes) (f2 : Nat) (path : Nibbles)
    (i m : Nat) (B d dd : Node) (pkd : List Bytes) (r : Node × Bool)
    (hm : m ≤ (path.offset i).len)
    (hIn : ∀ (f' : Nat) (pk' : List Bytes) (r' : Node × Bool),
      deleteAt db rh f' B path (i + m) = (pk', rok r') → pk' = [] ∧ r' = (d, true))
    (hDD : degenOutP db rh ((path.offset i).slice 0 m) d dd)
    (hdel : deleteAt db rh f2 (.extension ((path.offset i).slice 0 m) B) path i =
      (pkd, rok r)) :
    pkd = [] ∧ r = (dd, true) := by
  have hcpm : (path.offset i).commonPrefix ((path.offset i).slice 0 m) = m := by
    unfold Nibbles.commonPrefix Nibbles.slice
    simp only [List.drop_zero]
    exact commonPrefixAux_take_self _ m hm
  have hslen : ((path.offset i).slice 0 m).len = m := by
    unfold Nibbles.len Nibbles.slice
    simp only [List.drop_zero, List.length_take]
    exact Nat.min_eq_left hm
  cases f2 with
  | zero =>
    rw [deleteAt_zero, Prod.mk.injEq] at hdel
    exact absurd hdel.2 (by simp [rok])
  | succ f =>
    rw [deleteAt_ext_match db rh f path i _ B (by rw [hcpm, hslen])] at hdel
    rw [hcpm] at hdel
    rcases hres : deleteAt db rh f B path (i + m) with ⟨pk1, r1⟩
    rw [hres] at hdel
    rcases r1 with _ | r1
    · have hdel2 : (pk1, (none : TRes (Node × Bool))) = (pkd, rok r) := hdel
      rw [Prod.mk.injEq] at hdel2
      exact absurd hdel2.2 (by simp [rok])
    · rcases r1 with e | p
      · have hdel2 : (pk1, (some (.error e) : TRes (Node × Bool))) = (pkd, rok r) := hdel
        rw [Prod.mk.injEq] at hdel2
        exact absurd hdel2.2 (by simp [rok])
      · obtain ⟨hpk1, hp⟩ := hIn f pk1 p hres
        subst hpk1
        subst hp
        have hdel2 : postDegen db rh f []
            (rok ((Node.extension ((path.offset i).slice 0 m) d), true)) =
            (pkd, rok r) := hdel
        rw [postDegen_rok_true] at hdel2
        rcases hDD f with hno | hok
        · rw [hno] at hdel2
          have hdel3 : (([] : List Bytes) ++ [], (none : TRes (Node × Bool))) =
              (pkd, rok r) := hdel2
          rw [Prod.mk.injEq] at hdel3
          exact absurd hdel3.2 (by simp [rok])
        · rw [hok] at hdel2
          have hdel3 : (([] : List Bytes) ++ [], rok ((dd, true) : Node × Bool)) =
              (pkd, rok r) := hdel2
          rw [Prod.mk.injEq] at hdel3
          refine ⟨by simpa using hdel3.1.symm, ?_⟩
          have := hdel3.2.symm
          simpa [rok] using this

theorem nibbles_ext (a b : Nibbles) (h : a.hexData = b.hexData) : a = b := by
  cases a
  cases b
  simpa using h

theorem nAt_getD (p : Nibbles) (i k : Nat) :
    (p.offset i).nAt k = p.hexData.getD (i + k) 16 := by
  unfold Nibbles.nAt Nibbles.offset
  rw [List.getD_eq_getElem?_getD, List.getD_eq_getElem?_getD, List.getElem?_drop]

theorem getD_oob (l : List Nat) (i : Nat) (h : l.length ≤ i) : l.getD i 16 = 16 := by
  rw [List.getD_eq_getElem?_getD, List.getElem?_eq_none h]
  rfl

theorem wfLeafKey_getD_last (l : List Nat) (h : wfLeafKey l = true) :
    l.getD (l.length - 1) 16 = 16 := by
  rw [wfLeafKey_iff] at h
  obtain ⟨xs, rfl, -⟩ := h
  have hlen : (xs ++ [16]).length - 1 = xs.length := by simp
  rw [hlen, List.getD_eq_getElem?_getD,
    List.getElem?_append_right (Nat.le_refl xs.length)]
  simp

theorem wfLeafKey_le (l : List Nat) (h : wfLeafKey l = true) :
    ∀ x ∈ l, x ≤ 16 := by
  rw [wfLeafKey_iff] at h
  obtain ⟨xs, rfl, hall⟩ := h
  intro x hx
  rw [List.mem_append] at hx
  rcases hx with hx | hx
  · exact Nat.le_of_lt (hall x hx)
  · simp only [List.mem_singleton] at hx
    omega

theorem wfLeafKey_step (l : List Nat) (h : wfLeafKey l = true) (j : Nat)
    (hj : j < l.length) (hne : ¬l.getD j 16 = 16) : j + 1 < l.length := by
  by_contra hc
  have : j = l.length - 1 := by omega
  subst this
  exact hne (wfLeafKey_getD_last l h)

theorem wfPfx_ne_nil (l : List Nat) (h : wfPfx l = true) : l ≠ [] := by
  unfold wfPfx at h
  simp only [Bool.and_eq_true, Bool.not_eq_true'] at h
  intro hc
  subst hc
  simp at h

theorem wfPfx_getD_lt (l : List Nat) (h : wfPfx l = true) (j : Nat)
    (hj : j < l.length) : l.getD j 16 < 16 := by
  unfold wfPfx at h
  simp only [Bool.and_eq_true, List.all_eq_true, decide_eq_true_eq] at h
  have : l.getD j 16 ∈ l := by
    rw [List.getD_eq_getElem?_getD, List.getElem?_eq_getElem hj]
    exact List.getElem_mem hj
  exact h.2 _ this

theorem commonPrefixAux_getD_eq : ∀ (a b : List Nat) (j : Nat),
    j < Nibbles.commonPrefixAux a b → a.getD j 16 = b.getD j 16 := by
  intro a
  induction a with
  | nil =>
    intro b j hj
    cases b <;> simp [Nibbles.commonPrefixAux] at hj
  | cons x as' ih =>
    intro b j hj
    cases b with
    | nil => simp [Nibbles.commonPrefixAux] at hj
    | cons y bs =>
      by_cases hxy : x = y
      · rw [show Nibbles.commonPrefixAux (x :: as') (y :: bs) =
            Nibbles.commonPrefixAux as' bs + 1 from by
          simp [Nibbles.commonPrefixAux, hxy]] at hj
        cases j with
        | zero => simpa using hxy
        | succ k =>
          simp only [List.getD_cons_succ]
          exact ih bs k (by omega)
      · rw [show Nibbles.commonPrefixAux (x :: as') (y :: bs) = 0 from by
          simp [Nibbles.commonPrefixAux, hxy]] at hj
        omega

theorem commonPrefix_full_eq (a b : List Nat) (ha : wfLeafKey a = true)
    (hb : wfLeafKey b = true) (h : Nibbles.commonPrefixAux a b = b.length) :
    a = b := by
  have htake := commonPrefixAux_take a b
  rw [h, List.take_length] at htake
  have hle := commonPrefixAux_le_left a b
  rw [h] at hle
  rcases Nat.lt_or_ge b.length a.length with hlt | hge
  · exfalso
    have hbne := wfLeafKey_ne_nil b hb
    have hpos : 0 < b.length := List.length_pos_of_ne_nil hbne
    have hblast := wfLeafKey_getD_last b hb
    have haval : a.getD (b.length - 1) 16 = 16 := by
      rw [commonPrefixAux_getD_eq a b (b.length - 1) (by omega)]
      exact hblast
    have := wfLeafKey_getD_lt a ha (b.length - 1) (by omega)
    omega
  · have hlen : a.length = b.length := by omega
    rw [← htake, ← hlen, List.take_length]

/-- Induction motive for C2: inserting a fresh, safely-placed key into a
canonical materialised tree and then deleting it restores the tree exactly
(both walks add nothing to `passing_keys`). -/
def InvertsP (db : Store) (rh : Bytes) (f3 : Nat) : Prop :=
  ∀ (n : Node) (p : Nibbles) (i : Nat) (v : Bytes) (f1 f2 f4 : Nat)
    (pks pkd : List Bytes) (m : Node) (r : Node × Bool),
    hashFreeB n = true → canonicalB n = true → wfTreeB n = true →
    wfLeafKey p.hexData = true → i < p.len →
    absentTerminal (terminalOf db f3 n p i) →
    insertSafeB f4 n p i = true →
    insertAt db rh f1 n p i v = (pks, rok m) →
    deleteAt db rh f2 m p i = (pkd, rok r) →
    pks = [] ∧ pkd = [] ∧ r = (n, true)

theorem inverts_empty (db : Store) (rh : Bytes) (p : Nibbles) (i : Nat)
    (v : Bytes) (f1 f2 : Nat) (pks pkd : List Bytes) (m : Node) (r : Node × Bool)
    (hins : insertAt db rh f1 .empty p i v = (pks, rok m))
    (hdel : deleteAt db rh f2 m p i = (pkd, rok r)) :
    pks = [] ∧ pkd = [] ∧ r = (.empty, true) := by
  cases f1 with
  | zero =>
    rw [insertAt_zero, Prod.mk.injEq] at hins
    exact absurd hins.2 (by simp [rok])
  | succ fi =>
    rw [insertAt_empty, Prod.mk.injEq] at hins
    obtain ⟨hpks, hm⟩ := hins
    have hm2 : Node.leaf (p.offset i) v = m := by simpa [rok] using hm
    subst hm2
    cases f2 with
    | zero =>
      rw [deleteAt_zero, Prod.mk.injEq] at hdel
      exact absurd hdel.2 (by simp [rok])
    | succ fd =>
      rw [deleteAt_leaf, if_pos rfl, Prod.mk.injEq] at hdel
      refine ⟨hpks.symm, hdel.1.symm, ?_⟩
      have := hdel.2.symm
      simpa [rok] using this

theorem inverts_branch (db : Store) (rh : Bytes) (f3 : Nat)
    (ih : InvertsP db rh f3) (cs : List Node) (vv : Option Bytes) (p : Nibbles)
    (i : Nat) (v : Bytes) (f1 f2 f4 : Nat) (pks pkd : List Bytes) (m : Node)
    (r : Node × Bool)
    (hhf : hashFreeB (.branch cs vv) = true)
    (hcan : canonicalB (.branch cs vv) = true)
    (hwf : wfTreeB (.branch cs vv) = true)
    (hp : wfLeafKey p.hexData = true) (hi : i < p.len)
    (habs : absentTerminal (terminalOf db (f3 + 1) (.branch cs vv) p i))
    (hsafe : insertSafeB f4 (.branch cs vv) p i = true)
    (hins : insertAt db rh f1 (.branch cs vv) p i v = (pks, rok m))
    (hdel : deleteAt db rh f2 m p i = (pkd, rok r)) :
    pks = [] ∧ pkd = [] ∧ r = (.branch cs vv, true) := by
  obtain ⟨hcnt, hcanl⟩ := canonicalB_branch cs vv hcan
  obtain ⟨hlen, hwfl⟩ := wfTreeB_branch cs vv hwf
  by_cases hterm : (p.offset i).nAt 0 = 16
  · -- terminator at an existing branch: insert fills the value slot, delete
    -- clears it; absence forces the original value to be None
    have hvv : vv = none := by
      rcases vv with _ | v0
      · rfl
      · exfalso
        have hstep : terminalOf db (f3 + 1) (.branch cs (some v0)) p i =
            some (.atBranchValue (some v0)) := by
          simp [terminalOf, Or.inr hterm]
        rw [hstep] at habs
        simp [absentTerminal] at habs
    subst hvv
    cases f1 with
    | zero =>
      rw [insertAt_zero, Prod.mk.injEq] at hins
      exact absurd hins.2 (by simp [rok])
    | succ fi =>
      rw [insertAt_branch_term db rh fi p i v cs none hterm,
        Prod.mk.injEq] at hins
      obtain ⟨hpks, hm⟩ := hins
      have hm2 : Node.branch cs (some v) = m := by simpa [rok] using hm
      subst hm2
      cases f2 with
      | zero =>
        rw [deleteAt_zero, Prod.mk.injEq] at hdel
        exact absurd hdel.2 (by simp [rok])
      | succ fd =>
        rw [deleteAt_branch_term db rh fd p i cs (some v) hterm,
          Prod.mk.injEq] at hdel
        refine ⟨hpks.symm, hdel.1.symm, ?_⟩
        have := hdel.2.symm
        simpa [rok] using this
  · -- recursive step through child slot (p.offset i).nAt 0
    have hidx : (p.offset i).nAt 0 < 16 := by
      have h16 : (p.offset i).nAt 0 ≤ 16 :=
        nAt_le_of_path p i (wfLeafKey_le p.hexData hp)
      omega
    have hidxlen : (p.offset i).nAt 0 < cs.length := by omega
    have hi2 : i + 1 < p.len := by
      apply wfLeafKey_step p.hexData hp i hi
      rw [show p.hexData.getD i 16 = (p.offset i).nAt 0 from by
        rw [nAt_getD, Nat.add_zero]]
      exact hterm
    cases f4 with
    | zero => exact absurd hsafe (by simp [insertSafeB])
    | succ fs =>
    rw [show insertSafeB (fs + 1) (.branch cs vv) p i =
        (if (p.offset i).nAt 0 = 16 then true
         else insertSafeB fs (cs.getD ((p.offset i).nAt 0) .empty) p (i + 1))
      from rfl, if_neg hterm] at hsafe
    cases f1 with
    | zero =>
      rw [insertAt_zero, Prod.mk.injEq] at hins
      exact absurd hins.2 (by simp [rok])
    | succ fi =>
      rw [insertAt_branch_step db rh fi p i v cs vv hterm] at hins
      rcases hresi : insertAt db rh fi (cs.getD ((p.offset i).nAt 0) .empty)
        p (i + 1) v with ⟨pk1, r1⟩
      rw [hresi] at hins
      rcases r1 with _ | r1
      · have hins2 : ((pk1, none) : List Bytes × TRes Node) = (pks, rok m) := hins
        rw [Prod.mk.injEq] at hins2
        exact absurd hins2.2 (by simp [rok])
      · rcases r1 with e | mc
        · have hins2 : ((pk1, some (.error e)) : List Bytes × TRes Node) =
              (pks, rok m) := hins
          rw [Prod.mk.injEq] at hins2
          exact absurd hins2.2 (by simp [rok])
        · have hins2 : ((pk1, rok (Node.branch (cs.set ((p.offset i).nAt 0) mc) vv)) :
              List Bytes × TRes Node) = (pks, rok m) := hins
          rw [Prod.mk.injEq] at hins2
          obtain ⟨hpks, hm⟩ := hins2
          have hm2 : Node.branch (cs.set ((p.offset i).nAt 0) mc) vv = m := by
            simpa [rok] using hm
          subst hm2
          cases f2 with
          | zero =>
            rw [deleteAt_zero, Prod.mk.injEq] at hdel
            exact absurd hdel.2 (by simp [rok])
          | succ fd =>
            rw [deleteAt_branch_step db rh fd p i _ vv hterm] at hdel
            rw [getD_set_self cs _ mc hidxlen] at hdel
            rcases hresd : deleteAt db rh fd mc p (i + 1) with ⟨pk2, r2⟩
            rw [hresd] at hdel
            rcases r2 with _ | r2
            · have hdel2 : ((pk2, none) : List Bytes × TRes (Node × Bool)) =
                  (pkd, rok r) := hdel
              rw [Prod.mk.injEq] at hdel2
              exact absurd hdel2.2 (by simp [rok])
            · rcases r2 with e | p2
              · have hdel2 : ((pk2, some (.error e)) :
                    List Bytes × TRes (Node × Bool)) = (pkd, rok r) := hdel
                rw [Prod.mk.injEq] at hdel2
                exact absurd hdel2.2 (by simp [rok])
              · rw [terminalOf_branch_step db f3 p i cs vv hterm] at habs
                obtain ⟨hpk1, hpk2, hp2⟩ := ih
                  (cs.getD ((p.offset i).nAt 0) .empty) p (i + 1) v fi fd fs
                  pk1 pk2 mc p2
                  (hashFreeListB_getD cs (hashFreeB_branch cs vv hhf) _)
                  (canonicalListB_getD cs hcanl _)
                  (wfTreeListB_getD cs hwfl _)
                  hp hi2 habs hsafe hresi hresd
                subst hpk1
                subst hpk2
                subst hp2
                have hdel2 : postDegen db rh fd []
                    (rok ((Node.branch ((cs.set ((p.offset i).nAt 0) mc).set
                      ((p.offset i).nAt 0) (cs.getD ((p.offset i).nAt 0) .empty))
                      vv), true)) = (pkd, rok r) := hdel
                rw [List.set_set, set_getD_self cs _ hidxlen] at hdel2
                rw [postDegen_rok_true] at hdel2
                cases fd with
                | zero =>
                  rw [show degenerate db rh 0 (.branch cs vv) = ([], none)
                    from rfl] at hdel2
                  have hdel3 : (([] : List Bytes) ++ [],
                      (none : TRes (Node × Bool))) = (pkd, rok r) := hdel2
                  rw [Prod.mk.injEq] at hdel3
                  exact absurd hdel3.2 (by simp [rok])
                | succ fdd =>
                  rw [degenerate_branch_keep db rh fdd cs vv hcnt] at hdel2
                  rw [rbind_rok] at hdel2
                  rw [Prod.mk.injEq] at hdel2
                  refine ⟨hpks.symm, by simpa using hdel2.1.symm, ?_⟩
                  have := hdel2.2.symm
                  simpa [rok] using this

theorem inverts_ext (db : Store) (rh : Bytes) (f3 : Nat)
    (ih : InvertsP db rh f3) (pfx : Nibbles) (child : Node) (p : Nibbles)
    (i : Nat) (v : Bytes) (f1 f2 f4 : Nat) (pks pkd : List Bytes) (m : Node)
    (r : Node × Bool)
    (hhf : hashFreeB (.extension pfx child) = true)
    (hcan : canonicalB (.extension pfx child) = true)
    (hwf : wfTreeB (.extension pfx child) = true)
    (hp : wfLeafKey p.hexData = true) (hi : i < p.len)
    (habs : absentTerminal (terminalOf db (f3 + 1) (.extension pfx child) p i))
    (hsafe : insertSafeB f4 (.extension pfx child) p i = true)
    (hins : insertAt db rh f1 (.extension pfx child) p i v = (pks, rok m))
    (hdel : deleteAt db rh f2 m p i = (pkd, rok r)) :
    pks = [] ∧ pkd = [] ∧ r = (.extension pfx child, true) := by
  -- the child of a canonical, hash-free extension is a branch
  have hshape : ∃ bcs bv, child = .branch bcs bv := by
    cases child with
    | branch bcs bv => exact ⟨bcs, bv, rfl⟩
    | hash hh =>
      exfalso
      rw [hashFreeB, hashFreeB] at hhf
      simp at hhf
    | empty => exfalso; simp [canonicalB] at hcan
    | leaf _ _ => exfalso; simp [canonicalB] at hcan
    | extension _ _ => exfalso; simp [canonicalB] at hcan
  obtain ⟨bcs, bv, rfl⟩ := hshape
  have hwfp : wfPfx pfx.hexData = true := by
    have h' := hwf
    rw [show wfTreeB (.extension pfx (.branch bcs bv)) =
        (wfPfx pfx.hexData && wfTreeB (.branch bcs bv)) from rfl] at h'
    simp only [Bool.and_eq_true] at h'
    exact h'.1
  have hwfc : wfTreeB (.branch bcs bv) = true := by
    have h' := hwf
    rw [show wfTreeB (.extension pfx (.branch bcs bv)) =
        (wfPfx pfx.hexData && wfTreeB (.branch bcs bv)) from rfl] at h'
    simp only [Bool.and_eq_true] at h'
    exact h'.2
  have hcanc : canonicalB (.branch bcs bv) = true := by
    have h' := hcan
    rw [show canonicalB (.extension pfx (.branch bcs bv)) =
        (true && canonicalB (.branch bcs bv)) from rfl] at h'
    simpa using h'
  have hhfc : hashFreeB (.branch bcs bv) = true := by
    have h' := hhf
    rw [show hashFreeB (.extension pfx (.branch bcs bv)) =
        hashFreeB (.branch bcs bv) from rfl] at h'
    exact h'
  have hpne : pfx.hexData ≠ [] := wfPfx_ne_nil pfx.hexData hwfp
  have hplen : 0 < pfx.len := by
    unfold Nibbles.len
    exact List.length_pos_of_ne_nil hpne
  have hwfpart : wfLeafKey (p.offset i).hexData = true := wfLeafKey_drop p.hexData hp i hi
  by_cases hm0z : (p.offset i).commonPrefix pfx = 0
  · -- divergence at the first nibble: a fresh branch replaces the extension
    cases f4 with
    | zero => exact absurd hsafe (by simp [insertSafeB])
    | succ fs =>
    rw [show insertSafeB (fs + 1) (.extension pfx (.branch bcs bv)) p i =
        (if (p.offset i).commonPrefix pfx = 0 then
          !decide ((p.offset i).nAt 0 = 16)
        else if (p.offset i).commonPrefix pfx = pfx.len then
          insertSafeB fs (.branch bcs bv) p (i + (p.offset i).commonPrefix pfx)
        else !decide ((p.offset i).nAt ((p.offset i).commonPrefix pfx) = 16))
      from rfl, if_pos hm0z] at hsafe
    have hterm : ¬(p.offset i).nAt 0 = 16 := by simpa using hsafe
    have hpat16 : (p.offset i).nAt 0 < 16 := by
      have h16 : (p.offset i).nAt 0 ≤ 16 :=
        nAt_le_of_path p i (wfLeafKey_le p.hexData hp)
      omega
    have hpartne : (p.offset i).hexData ≠ [] := by
      intro hc
      apply hterm
      unfold Nibbles.nAt
      rw [hc]
      rfl
    have hpfx0 : pfx.nAt 0 < 16 := by
      have := wfPfx_getD_lt pfx.hexData hwfp 0
        (List.length_pos_of_ne_nil hpne)
      exact this
    have hne0 : ¬pfx.nAt 0 = (p.offset i).nAt 0 := by
      have hne := commonPrefixAux_getD_ne (p.offset i).hexData pfx.hexData 16
        (by
          rw [show Nibbles.commonPrefixAux (p.offset i).hexData pfx.hexData =
              (p.offset i).commonPrefix pfx from rfl, hm0z]
          exact List.length_pos_of_ne_nil hpartne)
        (by
          rw [show Nibbles.commonPrefixAux (p.offset i).hexData pfx.hexData =
              (p.offset i).commonPrefix pfx from rfl, hm0z]
          exact List.length_pos_of_ne_nil hpne)
      rw [show Nibbles.commonPrefixAux (p.offset i).hexData pfx.hexData =
          (p.offset i).commonPrefix pfx from rfl, hm0z] at hne
      exact fun hc => hne hc.symm
    cases f1 with
    | zero =>
      rw [insertAt_zero, Prod.mk.injEq] at hins
      exact absurd hins.2 (by simp [rok])
    | succ fi =>
      rw [insertAt_ext_div db rh fi p i v pfx (.branch bcs bv) hm0z] at hins
      have hbput : Node.branchPut Node.emptyChildren none (pfx.nAt 0)
          (if pfx.len = 1 then Node.branch bcs bv
           else .extension (pfx.offset 1) (.branch bcs bv)) =
          (Node.emptyChildren.set (pfx.nAt 0)
            (if pfx.len = 1 then Node.branch bcs bv
             else .extension (pfx.offset 1) (.branch bcs bv)), none) := by
        unfold Node.branchPut
        rw [if_neg (by omega)]
      rw [hbput] at hins
      have hins2 : insertAt db rh fi
          (.branch (Node.emptyChildren.set (pfx.nAt 0)
            (if pfx.len = 1 then Node.branch bcs bv
             else .extension (pfx.offset 1) (.branch bcs bv))) none) p i v =
          (pks, rok m) := hins
      cases fi with
      | zero =>
        rw [insertAt_zero, Prod.mk.injEq] at hins2
        exact absurd hins2.2 (by simp [rok])
      | succ fi' =>
        rw [insertAt_branch_step db rh fi' p i v _ none hterm] at hins2
        rw [getD_set_ne Node.emptyChildren _ _ _ (fun hc => hne0 hc.symm),
          getD_emptyChildren] at hins2
        cases fi' with
        | zero =>
          rw [insertAt_zero] at hins2
          have hins3 : (([], none) : List Bytes × TRes Node) = (pks, rok m) := hins2
          rw [Prod.mk.injEq] at hins3
          exact absurd hins3.2 (by simp [rok])
        | succ fi'' =>
          rw [insertAt_empty] at hins2
          have hins3 : (([] : List Bytes),
              rok (Node.branch ((Node.emptyChildren.set (pfx.nAt 0)
                (if pfx.len = 1 then Node.branch bcs bv
                 else .extension (pfx.offset 1) (.branch bcs bv))).set
                ((p.offset i).nAt 0) (.leaf (p.offset (i + 1)) v)) none)) =
              (pks, rok m) := hins2
          rw [offset_offset p i 1] at hins3
          rw [Prod.mk.injEq] at hins3
          obtain ⟨hpks, hm⟩ := hins3
          have hm2 : Node.branch ((Node.emptyChildren.set (pfx.nAt 0)
              (if pfx.len = 1 then Node.branch bcs bv
               else .extension (pfx.offset 1) (.branch bcs bv))).set
              ((p.offset i).nAt 0) (.leaf ((p.offset i).offset 1) v)) none = m := by
            simpa [rok] using hm
          subst hm2
          by_cases hL : pfx.len = 1
          · rw [if_pos hL] at hdel
            have hsingle : Nibbles.fromHex [pfx.nAt 0] = pfx := by
              apply nibbles_ext
              show [pfx.nAt 0] = pfx.hexData
              exact (singleton_of_len_one pfx.hexData hL).symm
            obtain ⟨h1, h2⟩ := deleteAt_freshChildBranch db rh f2 p i v
              (pfx.nAt 0) (Node.branch bcs bv)
              (.extension (Nibbles.fromHex [pfx.nAt 0]) (.branch bcs bv))
              pkd r hpat16 hpfx0 hne0 (by simp)
              (degenOutP_branch db rh (Nibbles.fromHex [pfx.nAt 0]) bcs bv) hdel
            rw [hsingle] at h2
            exact ⟨hpks.symm, h1, h2⟩
          · rw [if_neg hL] at hdel
            have hjoin : (Nibbles.fromHex [pfx.nAt 0]).join (pfx.offset 1) = pfx := by
              apply nibbles_ext
              show [pfx.nAt 0] ++ pfx.hexData.drop 1 = pfx.hexData
              conv_rhs => rw [hexData_eq_cons pfx.hexData hpne]
              rfl
            have h0 : degenOutP db rh
                ((Nibbles.fromHex [pfx.nAt 0]).join (pfx.offset 1))
                (.branch bcs bv) (.extension pfx (.branch bcs bv)) := by
              rw [hjoin]
              exact degenOutP_branch db rh pfx bcs bv
            obtain ⟨h1, h2⟩ := deleteAt_freshChildBranch db rh f2 p i v
              (pfx.nAt 0) (.extension (pfx.offset 1) (.branch bcs bv))
              (.extension pfx (.branch bcs bv)) pkd r hpat16 hpfx0 hne0 (by simp)
              (degenOutP_ext db rh (Nibbles.fromHex [pfx.nAt 0]) (pfx.offset 1)
                (.branch bcs bv) (.extension pfx (.branch bcs bv)) h0) hdel
            exact ⟨hpks.symm, h1, h2⟩
  · by_cases hm0len : (p.offset i).commonPrefix pfx = pfx.len
    · -- full prefix match: step into the child branch
      cases f4 with
      | zero => exact absurd hsafe (by simp [insertSafeB])
      | succ fs =>
      rw [show insertSafeB (fs + 1) (.extension pfx (.branch bcs bv)) p i =
          (if (p.offset i).commonPrefix pfx = 0 then
            !decide ((p.offset i).nAt 0 = 16)
          else if (p.offset i).commonPrefix pfx = pfx.len then
            insertSafeB fs (.branch bcs bv) p (i + (p.offset i).commonPrefix pfx)
          else !decide ((p.offset i).nAt ((p.offset i).commonPrefix pfx) = 16))
        from rfl, if_neg hm0z, if_pos hm0len] at hsafe
      have hle : (p.offset i).commonPrefix pfx ≤ (p.offset i).len :=
        commonPrefixAux_le_left _ _
      have hplen_eq : p.len = p.hexData.length := rfl
      have hpartlen : (p.offset i).len = p.hexData.length - i :=
        List.length_drop i p.hexData
      have hauxeq : Nibbles.commonPrefixAux (p.offset i).hexData pfx.hexData =
          (p.offset i).commonPrefix pfx := rfl
      have hpfxlen_eq : pfx.len = pfx.hexData.length := rfl
      have hm0pos : 0 < (p.offset i).commonPrefix pfx := by omega
      have hilen : i < p.hexData.length := hi
      have hjlt : i + ((p.offset i).commonPrefix pfx - 1) < p.hexData.length := by
        omega
      have hgd : ¬p.hexData.getD (i + ((p.offset i).commonPrefix pfx - 1)) 16 = 16 := by
        rw [← nAt_getD]
        rw [show (p.offset i).nAt ((p.offset i).commonPrefix pfx - 1) =
            (p.offset i).hexData.getD ((p.offset i).commonPrefix pfx - 1) 16
          from rfl]
        rw [commonPrefixAux_getD_eq (p.offset i).hexData pfx.hexData _
          (by rw [hauxeq]; omega)]
        have hlt := wfPfx_getD_lt pfx.hexData hwfp
          ((p.offset i).commonPrefix pfx - 1)
          (by omega)
        omega
      have hstep := wfLeafKey_step p.hexData hp _ hjlt hgd
      have hi2 : i + (p.offset i).commonPrefix pfx < p.len := by
        rw [hplen_eq]
        omega
      cases f1 with
      | zero =>
        rw [insertAt_zero, Prod.mk.injEq] at hins
        exact absurd hins.2 (by simp [rok])
      | succ fi =>
        rw [insertAt_ext_match db rh fi p i v pfx (.branch bcs bv) hm0z hm0len] at hins
        rcases hresi : insertAt db rh fi (.branch bcs bv) p
          (i + (p.offset i).commonPrefix pfx) v with ⟨pk1, r1⟩
        rw [hresi] at hins
        rcases r1 with _ | r1
        · have hins2 : ((pk1, none) : List Bytes × TRes Node) = (pks, rok m) := hins
          rw [Prod.mk.injEq] at hins2
          exact absurd hins2.2 (by simp [rok])
        · rcases r1 with e | mc
          · have hins2 : ((pk1, some (.error e)) : List Bytes × TRes Node) =
                (pks, rok m) := hins
            rw [Prod.mk.injEq] at hins2
            exact absurd hins2.2 (by simp [rok])
          · have hins2 : ((pk1, rok (Node.extension pfx mc)) :
                List Bytes × TRes Node) = (pks, rok m) := hins
            rw [Prod.mk.injEq] at hins2
            obtain ⟨hpks, hm⟩ := hins2
            have hm2 : Node.extension pfx mc = m := by simpa [rok] using hm
            subst hm2
            cases f2 with
            | zero =>
              rw [deleteAt_zero, Prod.mk.injEq] at hdel
              exact absurd hdel.2 (by simp [rok])
            | succ fd =>
              rw [deleteAt_ext_match db rh fd p i pfx mc hm0len] at hdel
              rcases hresd : deleteAt db rh fd mc p
                (i + (p.offset i).commonPrefix pfx) with ⟨pk2, r2⟩
              rw [hresd] at hdel
              rcases r2 with _ | r2
              · have hdel2 : ((pk2, none) : List Bytes × TRes (Node × Bool)) =
                    (pkd, rok r) := hdel
                rw [Prod.mk.injEq] at hdel2
                exact absurd hdel2.2 (by simp [rok])
              · rcases r2 with e | p2
                · have hdel2 : ((pk2, some (.error e)) :
                      List Bytes × TRes (Node × Bool)) = (pkd, rok r) := hdel
                  rw [Prod.mk.injEq] at hdel2
                  exact absurd hdel2.2 (by simp [rok])
                · rw [terminalOf_ext_match db f3 p i pfx (.branch bcs bv)
                    hm0len] at habs
                  obtain ⟨hpk1, hpk2, hp2⟩ := ih (.branch bcs bv) p
                    (i + (p.offset i).commonPrefix pfx) v fi fd fs pk1 pk2 mc p2
                    hhfc hcanc hwfc hp hi2 habs hsafe hresi hresd
                  subst hpk1
                  subst hpk2
                  subst hp2
                  have hdel2 : postDegen db rh fd []
                      (rok ((Node.extension pfx (.branch bcs bv)), true)) =
                      (pkd, rok r) := hdel
                  rw [postDegen_rok_true] at hdel2
                  cases fd with
                  | zero =>
                    rw [show degenerate db rh 0
                        (.extension pfx (.branch bcs bv)) = ([], none)
                      from rfl] at hdel2
                    have hdel3 : (([] : List Bytes) ++ [],
                        (none : TRes (Node × Bool))) = (pkd, rok r) := hdel2
                    rw [Prod.mk.injEq] at hdel3
                    exact absurd hdel3.2 (by simp [rok])
                  | succ fdd =>
                    rw [degenerate_ext_branch db rh fdd pfx bcs bv] at hdel2
                    rw [rbind_rok] at hdel2
                    rw [Prod.mk.injEq] at hdel2
                    refine ⟨hpks.symm, by simpa using hdel2.1.symm, ?_⟩
                    have := hdel2.2.symm
                    simpa [rok] using this
    · -- partial prefix match: the extension splits
      cases f4 with
      | zero => exact absurd hsafe (by simp [insertSafeB])
      | succ fs =>
      rw [show insertSafeB (fs + 1) (.extension pfx (.branch bcs bv)) p i =
          (if (p.offset i).commonPrefix pfx = 0 then
            !decide ((p.offset i).nAt 0 = 16)
          else if (p.offset i).commonPrefix pfx = pfx.len then
            insertSafeB fs (.branch bcs bv) p (i + (p.offset i).commonPrefix pfx)
          else !decide ((p.offset i).nAt ((p.offset i).commonPrefix pfx) = 16))
        from rfl, if_neg hm0z, if_neg hm0len] at hsafe
      have hterm16 : ¬(p.offset i).nAt ((p.offset i).commonPrefix pfx) = 16 := by
        simpa using hsafe
      have hm0le : (p.offset i).commonPrefix pfx ≤ pfx.len :=
        commonPrefixAux_le_right _ _
      have hm0lt : (p.offset i).commonPrefix pfx < pfx.len := by omega
      have hm0pos : 0 < (p.offset i).commonPrefix pfx := by omega
      have hm0ltpart : (p.offset i).commonPrefix pfx < (p.offset i).len := by
        by_contra hc
        exact hterm16 (getD_oob _ _ (by
          unfold Nibbles.len at hc
          omega))
      have hpatm : (p.offset i).nAt ((p.offset i).commonPrefix pfx) < 16 := by
        have h16 : (p.offset i).nAt ((p.offset i).commonPrefix pfx) ≤ 16 := by
          rw [nAt_getD]
          rcases Nat.lt_or_ge (i + (p.offset i).commonPrefix pfx)
            p.hexData.length with hlt | hge
          · exact wfLeafKey_le p.hexData hp _ (by
              rw [List.getD_eq_getElem?_getD, List.getElem?_eq_getElem hlt]
              exact List.getElem_mem hlt)
          · rw [getD_oob _ _ hge]
        omega
      have hpfxm : pfx.nAt ((p.offset i).commonPrefix pfx) < 16 :=
        wfPfx_getD_lt pfx.hexData hwfp _ hm0lt
      have hnem : ¬pfx.nAt ((p.offset i).commonPrefix pfx) =
          (p.offset i).nAt ((p.offset i).commonPrefix pfx) := by
        have hne := commonPrefixAux_getD_ne (p.offset i).hexData pfx.hexData 16
          hm0ltpart hm0lt
        exact fun hc => hne hc.symm
      have hcp0 : (p.offset (i + (p.offset i).commonPrefix pfx)).commonPrefix
          (pfx.offset ((p.offset i).commonPrefix pfx)) = 0 := by
        rw [offset_offset p i ((p.offset i).commonPrefix pfx)]
        exact commonPrefixAux_drop (p.offset i).hexData pfx.hexData
      have hpatm0 : (p.offset (i + (p.offset i).commonPrefix pfx)).nAt 0 =
          (p.offset i).nAt ((p.offset i).commonPrefix pfx) := by
        rw [nAt_getD, nAt_getD, Nat.add_zero]
      have hu0 : (pfx.offset ((p.offset i).commonPrefix pfx)).nAt 0 =
          pfx.nAt ((p.offset i).commonPrefix pfx) := by
        rw [nAt_getD]
        rw [show pfx.nAt ((p.offset i).commonPrefix pfx) =
            pfx.hexData.getD ((p.offset i).commonPrefix pfx) 16 from rfl]
        rw [Nat.add_zero]
      have htermQ : ¬(p.offset (i + (p.offset i).commonPrefix pfx)).nAt 0 = 16 := by
        rw [hpatm0]
        exact hterm16
      have hneu : ¬(p.offset (i + (p.offset i).commonPrefix pfx)).nAt 0 =
          (pfx.offset ((p.offset i).commonPrefix pfx)).nAt 0 := by
        rw [hpatm0, hu0]
        exact fun hc => hnem hc.symm
      have htakeQ : (p.offset i).hexData.take ((p.offset i).commonPrefix pfx) =
          pfx.hexData.take ((p.offset i).commonPrefix pfx) :=
        commonPrefixAux_take _ _
      have hslice : pfx.slice 0 ((p.offset i).commonPrefix pfx) =
          (p.offset i).slice 0 ((p.offset i).commonPrefix pfx) := by
        apply nibbles_ext
        show (pfx.hexData.take ((p.offset i).commonPrefix pfx)).drop 0 =
          ((p.offset i).hexData.take ((p.offset i).commonPrefix pfx)).drop 0
        rw [htakeQ]
      have hjoin2 : ((p.offset i).slice 0 ((p.offset i).commonPrefix pfx)).join
          (pfx.offset ((p.offset i).commonPrefix pfx)) = pfx := by
        apply nibbles_ext
        show ((p.offset i).hexData.take ((p.offset i).commonPrefix pfx)).drop 0 ++
          pfx.hexData.drop ((p.offset i).commonPrefix pfx) = pfx.hexData
        rw [List.drop_zero, htakeQ]
        exact List.take_append_drop _ pfx.hexData
      have hoffne : (pfx.offset ((p.offset i).commonPrefix pfx)).hexData ≠ [] := by
        show pfx.hexData.drop ((p.offset i).commonPrefix pfx) ≠ []
        rw [Ne, List.drop_eq_nil_iff]
        unfold Nibbles.len at hm0lt
        omega
      cases f1 with
      | zero =>
        rw [insertAt_zero, Prod.mk.injEq] at hins
        exact absurd hins.2 (by simp [rok])
      | succ fi =>
        rw [insertAt_ext_split db rh fi p i v pfx (.branch bcs bv) hm0z
          hm0len] at hins
        rcases hresi : insertAt db rh fi
          (.extension (pfx.offset ((p.offset i).commonPrefix pfx)) (.branch bcs bv))
          p (i + (p.offset i).commonPrefix pfx) v with ⟨pk1, r1⟩
        rw [hresi] at hins
        rcases r1 with _ | r1
        · have hins2 : ((pk1, none) : List Bytes × TRes Node) = (pks, rok m) := hins
          rw [Prod.mk.injEq] at hins2
          exact absurd hins2.2 (by simp [rok])
        · rcases r1 with e | mc
          · have hins2 : ((pk1, some (.error e)) : List Bytes × TRes Node) =
                (pks, rok m) := hins
            rw [Prod.mk.injEq] at hins2
            exact absurd hins2.2 (by simp [rok])
          · have hins2 : ((pk1, rok (Node.extension
                (pfx.slice 0 ((p.offset i).commonPrefix pfx)) mc)) :
                List Bytes × TRes Node) = (pks, rok m) := hins
            rw [Prod.mk.injEq] at hins2
            obtain ⟨hpks, hm⟩ := hins2
            have hm2 : Node.extension
                (pfx.slice 0 ((p.offset i).commonPrefix pfx)) mc = m := by
              simpa [rok] using hm
            subst hm2
            cases fi with
            | zero =>
              rw [insertAt_zero, Prod.mk.injEq] at hresi
              exact absurd hresi.2 (by simp [rok])
            | succ fa =>
              rw [insertAt_ext_div db rh fa p
                (i + (p.offset i).commonPrefix pfx) v
                (pfx.offset ((p.offset i).commonPrefix pfx)) (.branch bcs bv)
                hcp0] at hresi
              have hbput : Node.branchPut Node.emptyChildren none
                  ((pfx.offset ((p.offset i).commonPrefix pfx)).nAt 0)
                  (if (pfx.offset ((p.offset i).commonPrefix pfx)).len = 1 then
                    Node.branch bcs bv
                   else .extension
                    ((pfx.offset ((p.offset i).commonPrefix pfx)).offset 1)
                    (.branch bcs bv)) =
                  (Node.emptyChildren.set
                    ((pfx.offset ((p.offset i).commonPrefix pfx)).nAt 0)
                    (if (pfx.offset ((p.offset i).commonPrefix pfx)).len = 1 then
                      Node.branch bcs bv
                     else .extension
                      ((pfx.offset ((p.offset i).commonPrefix pfx)).offset 1)
                      (.branch bcs bv)), none) := by
                unfold Node.branchPut
                rw [if_neg (by rw [hu0]; omega)]
              rw [hbput] at hresi
              have hresi2 : insertAt db rh fa
                  (.branch (Node.emptyChildren.set
                    ((pfx.offset ((p.offset i).commonPrefix pfx)).nAt 0)
                    (if (pfx.offset ((p.offset i).commonPrefix pfx)).len = 1 then
                      Node.branch bcs bv
                     else .extension
                      ((pfx.offset ((p.offset i).commonPrefix pfx)).offset 1)
                      (.branch bcs bv))) none) p
                  (i + (p.offset i).commonPrefix pfx) v = (pk1, rok mc) := hresi
              cases fa with
              | zero =>
                rw [insertAt_zero, Prod.mk.injEq] at hresi2
                exact absurd hresi2.2 (by simp [rok])
              | succ fb =>
                rw [insertAt_branch_step db rh fb p
                  (i + (p.offset i).commonPrefix pfx) v _ none htermQ] at hresi2
                rw [getD_set_ne Node.emptyChildren _ _ _ hneu,
                  getD_emptyChildren] at hresi2
                cases fb with
                | zero =>
                  rw [insertAt_zero] at hresi2
                  have hresi3 : (([], none) : List Bytes × TRes Node) =
                      (pk1, rok mc) := hresi2
                  rw [Prod.mk.injEq] at hresi3
                  exact absurd hresi3.2 (by simp [rok])
                | succ fc =>
                  rw [insertAt_empty] at hresi2
                  have hresi3 : (([] : List Bytes),
                      rok (Node.branch ((Node.emptyChildren.set
                        ((pfx.offset ((p.offset i).commonPrefix pfx)).nAt 0)
                        (if (pfx.offset ((p.offset i).commonPrefix pfx)).len = 1
                         then Node.branch bcs bv
                         else .extension
                          ((pfx.offset ((p.offset i).commonPrefix pfx)).offset 1)
                          (.branch bcs bv))).set
                        ((p.offset (i + (p.offset i).commonPrefix pfx)).nAt 0)
                        (.leaf (p.offset (i + (p.offset i).commonPrefix pfx + 1))
                          v)) none)) = (pk1, rok mc) := hresi2
                  rw [offset_offset p (i + (p.offset i).commonPrefix pfx) 1] at hresi3
                  rw [Prod.mk.injEq] at hresi3
                  obtain ⟨hpk1, hmc⟩ := hresi3
                  have hmc2 : Node.branch ((Node.emptyChildren.set
                      ((pfx.offset ((p.offset i).commonPrefix pfx)).nAt 0)
                      (if (pfx.offset ((p.offset i).commonPrefix pfx)).len = 1
                       then Node.branch bcs bv
                       else .extension
                        ((pfx.offset ((p.offset i).commonPrefix pfx)).offset 1)
                        (.branch bcs bv))).set
                      ((p.offset (i + (p.offset i).commonPrefix pfx)).nAt 0)
                      (.leaf ((p.offset (i + (p.offset i).commonPrefix pfx)).offset 1)
                        v)) none = mc := by
                    simpa [rok] using hmc
                  subst hmc2
                  subst hpk1
                  rw [hslice] at hdel
                  by_cases hL : (pfx.offset ((p.offset i).commonPrefix pfx)).len = 1
                  · rw [if_pos hL] at hdel
                    have hsingle : Nibbles.fromHex
                        [(pfx.offset ((p.offset i).commonPrefix pfx)).nAt 0] =
                        pfx.offset ((p.offset i).commonPrefix pfx) := by
                      apply nibbles_ext
                      show [(pfx.offset ((p.offset i).commonPrefix pfx)).nAt 0] =
                        (pfx.offset ((p.offset i).commonPrefix pfx)).hexData
                      exact (singleton_of_len_one _ hL).symm
                    have hDb : degenOutP db rh (Nibbles.fromHex
                        [(pfx.offset ((p.offset i).commonPrefix pfx)).nAt 0])
                        (.branch bcs bv)
                        (.extension (pfx.offset ((p.offset i).commonPrefix pfx))
                          (.branch bcs bv)) := by
                      rw [hsingle]
                      exact degenOutP_branch db rh _ bcs bv
                    have hDD : degenOutP db rh
                        ((p.offset i).slice 0 ((p.offset i).commonPrefix pfx))
                        (.extension (pfx.offset ((p.offset i).commonPrefix pfx))
                          (.branch bcs bv))
                        (.extension pfx (.branch bcs bv)) := by
                      apply degenOutP_ext
                      rw [hjoin2]
                      exact degenOutP_branch db rh pfx bcs bv
                    obtain ⟨h1, h2⟩ := deleteAt_ext_over db rh f2 p i
                      ((p.offset i).commonPrefix pfx) _
                      (.extension (pfx.offset ((p.offset i).commonPrefix pfx))
                        (.branch bcs bv))
                      (.extension pfx (.branch bcs bv)) pkd r
                      (by omega)
                      (fun fQ pkQ rQ hQ =>
                        deleteAt_freshChildBranch db rh fQ p
                          (i + (p.offset i).commonPrefix pfx) v _ _ _ pkQ rQ
                          (by rw [hpatm0]; exact hpatm)
                          (by rw [hu0]; exact hpfxm)
                          (fun hc => hneu (hc.symm)) (by simp) hDb hQ)
                      hDD hdel
                    exact ⟨hpks.symm, h1, h2⟩
                  · rw [if_neg hL] at hdel
                    have hjoin3 : (Nibbles.fromHex
                        [(pfx.offset ((p.offset i).commonPrefix pfx)).nAt 0]).join
                        ((pfx.offset ((p.offset i).commonPrefix pfx)).offset 1) =
                        pfx.offset ((p.offset i).commonPrefix pfx) := by
                      apply nibbles_ext
                      show [(pfx.offset ((p.offset i).commonPrefix pfx)).nAt 0] ++
                        (pfx.offset ((p.offset i).commonPrefix pfx)).hexData.drop 1 =
                        (pfx.offset ((p.offset i).commonPrefix pfx)).hexData
                      conv_rhs => rw [hexData_eq_cons _ hoffne]
                      rfl
                    have hDb : degenOutP db rh (Nibbles.fromHex
                        [(pfx.offset ((p.offset i).commonPrefix pfx)).nAt 0])
                        (.extension
                          ((pfx.offset ((p.offset i).commonPrefix pfx)).offset 1)
                          (.branch bcs bv))
                        (.extension (pfx.offset ((p.offset i).commonPrefix pfx))
                          (.branch bcs bv)) := by
                      apply degenOutP_ext
                      rw [hjoin3]
                      exact degenOutP_branch db rh _ bcs bv
                    have hDD : degenOutP db rh
                        ((p.offset i).slice 0 ((p.offset i).commonPrefix pfx))
                        (.extension (pfx.offset ((p.offset i).commonPrefix pfx))
                          (.branch bcs bv))
                        (.extension pfx (.branch bcs bv)) := by
                      apply degenOutP_ext
                      rw [hjoin2]
                      exact degenOutP_branch db rh pfx bcs bv
                    obtain ⟨h1, h2⟩ := deleteAt_ext_over db rh f2 p i
                      ((p.offset i).commonPrefix pfx) _
                      (.extension (pfx.offset ((p.offset i).commonPrefix pfx))
                        (.branch bcs bv))
                      (.extension pfx (.branch bcs bv)) pkd r
                      (by omega)
                      (fun fQ pkQ rQ hQ =>
                        deleteAt_freshChildBranch db rh fQ p
                          (i + (p.offset i).commonPrefix pfx) v _ _ _ pkQ rQ
                          (by rw [hpatm0]; exact hpatm)
                          (by rw [hu0]; exact hpfxm)
                          (fun hc => hneu (hc.symm)) (by simp) hDb hQ)
                      hDD hdel
                    exact ⟨hpks.symm, h1, h2⟩

section LeafSplit

variable (db : Store) (rh : Bytes) (f : Nat) (path : Nibbles) (i : Nat) (value : Bytes)

theorem insertAt_leaf_term0 (lk : Nibbles) (lv : Bytes)
    (hne : ¬(path.offset i).commonPrefix lk = lk.len)
    (holm : lk.nAt ((path.offset i).commonPrefix lk) = 16)
    (hpat : ¬(path.offset i).nAt ((path.offset i).commonPrefix lk) = 16)
    (h0 : (path.offset i).commonPrefix lk = 0) :
    insertAt db rh (f + 1) (.leaf lk lv) path i value =
      ([], rok (.branch (Node.emptyChildren.set
        ((path.offset i).nAt ((path.offset i).commonPrefix lk))
        (.leaf ((path.offset i).offset ((path.offset i).commonPrefix lk + 1))
          value)) (some lv))) := by
  rw [insertAt_leaf]
  simp only [if_neg hne, Node.branchPut, if_pos holm, if_neg hpat, if_pos h0]

theorem insertAt_leaf_term_ext (lk : Nibbles) (lv : Bytes)
    (hne : ¬(path.offset i).commonPrefix lk = lk.len)
    (holm : lk.nAt ((path.offset i).commonPrefix lk) = 16)
    (hpat : ¬(path.offset i).nAt ((path.offset i).commonPrefix lk) = 16)
    (h0 : ¬(path.offset i).commonPrefix lk = 0) :
    insertAt db rh (f + 1) (.leaf lk lv) path i value =
      ([], rok (.extension ((path.offset i).slice 0 ((path.offset i).commonPrefix lk))
        (.branch (Node.emptyChildren.set
          ((path.offset i).nAt ((path.offset i).commonPrefix lk))
          (.leaf ((path.offset i).offset ((path.offset i).commonPrefix lk + 1))
            value)) (some lv)))) := by
  rw [insertAt_leaf]
  simp only [if_neg hne, Node.branchPut, if_pos holm, if_neg hpat, if_neg h0]

theorem insertAt_leaf_child0 (lk : Nibbles) (lv : Bytes)
    (hne : ¬(path.offset i).commonPrefix lk = lk.len)
    (holm : ¬lk.nAt ((path.offset i).commonPrefix lk) = 16)
    (hpat : ¬(path.offset i).nAt ((path.offset i).commonPrefix lk) = 16)
    (h0 : (path.offset i).commonPrefix lk = 0) :
    insertAt db rh (f + 1) (.leaf lk lv) path i value =
      ([], rok (.branch ((Node.emptyChildren.set
        (lk.nAt ((path.offset i).commonPrefix lk))
        (.leaf (lk.offset ((path.offset i).commonPrefix lk + 1)) lv)).set
        ((path.offset i).nAt ((path.offset i).commonPrefix lk))
        (.leaf ((path.offset i).offset ((path.offset i).commonPrefix lk + 1))
          value)) none)) := by
  rw [insertAt_leaf]
  simp only [if_neg hne, Node.branchPut, if_neg holm, if_neg hpat, if_pos h0]

theorem insertAt_leaf_child_ext (lk : Nibbles) (lv : Bytes)
    (hne : ¬(path.offset i).commonPrefix lk = lk.len)
    (holm : ¬lk.nAt ((path.offset i).commonPrefix lk) = 16)
    (hpat : ¬(path.offset i).nAt ((path.offset i).commonPrefix lk) = 16)
    (h0 : ¬(path.offset i).commonPrefix lk = 0) :
    insertAt db rh (f + 1) (.leaf lk lv) path i value =
      ([], rok (.extension ((path.offset i).slice 0 ((path.offset i).commonPrefix lk))
        (.branch ((Node.emptyChildren.set
          (lk.nAt ((path.offset i).commonPrefix lk))
          (.leaf (lk.offset ((path.offset i).commonPrefix lk + 1)) lv)).set
          ((path.offset i).nAt ((path.offset i).commonPrefix lk))
          (.leaf ((path.offset i).offset ((path.offset i).commonPrefix lk + 1))
            value)) none))) := by
  rw [insertAt_leaf]
  simp only [if_neg hne, Node.branchPut, if_neg holm, if_neg hpat, if_neg h0]

end LeafSplit

theorem inverts_leaf (db : Store) (rh : Bytes) (lk : Nibbles) (lv : Bytes)
    (p : Nibbles) (i : Nat) (v : Bytes) (f1 f2 f4 : Nat)
    (pks pkd : List Bytes) (m : Node) (r : Node × Bool)
    (hwfk : wfLeafKey lk.hexData = true)
    (hp : wfLeafKey p.hexData = true) (hi : i < p.len)
    (hkne : ¬lk = p.offset i)
    (hsafe : insertSafeB f4 (.leaf lk lv) p i = true)
    (hins : insertAt db rh f1 (.leaf lk lv) p i v = (pks, rok m))
    (hdel : deleteAt db rh f2 m p i = (pkd, rok r)) :
    pks = [] ∧ pkd = [] ∧ r = (.leaf lk lv, true) := by
  have hwfpart : wfLeafKey (p.offset i).hexData = true :=
    wfLeafKey_drop p.hexData hp i hi
  have hm0ne : ¬(p.offset i).commonPrefix lk = lk.len := by
    intro hc
    exact hkne (nibbles_ext lk (p.offset i)
      (commonPrefix_full_eq (p.offset i).hexData lk.hexData hwfpart hwfk hc).symm)
  cases f4 with
  | zero => exact absurd hsafe (by simp [insertSafeB])
  | succ fs =>
  rw [show insertSafeB (fs + 1) (.leaf lk lv) p i =
      (decide ((p.offset i).commonPrefix lk = lk.len) ||
        !decide ((p.offset i).nAt ((p.offset i).commonPrefix lk) = 16))
    from rfl] at hsafe
  have hterm16 : ¬(p.offset i).nAt ((p.offset i).commonPrefix lk) = 16 := by
    simp [hm0ne] at hsafe
    exact hsafe
  have hpartlen_eq : (p.offset i).len = (p.offset i).hexData.length := rfl
  have hm0ltpart : (p.offset i).commonPrefix lk < (p.offset i).len := by
    by_contra hc
    exact hterm16 (getD_oob _ _ (by omega))
  have hm0lelk : (p.offset i).commonPrefix lk ≤ lk.len :=
    commonPrefixAux_le_right _ _
  have hlklen_eq : lk.len = lk.hexData.length := rfl
  have hm0ltlk : (p.offset i).commonPrefix lk < lk.len := by omega
  have hpatm : (p.offset i).nAt ((p.offset i).commonPrefix lk) < 16 := by
    rcases Nat.lt_or_ge ((p.offset i).commonPrefix lk)
      ((p.offset i).hexData.length - 1) with hlt | hge
    · exact wfLeafKey_getD_lt _ hwfpart _ hlt
    · exfalso
      apply hterm16
      have heq : (p.offset i).commonPrefix lk = (p.offset i).hexData.length - 1 := by
        omega
      rw [show (p.offset i).nAt ((p.offset i).commonPrefix lk) =
          (p.offset i).hexData.getD ((p.offset i).commonPrefix lk) 16 from rfl, heq]
      exact wfLeafKey_getD_last _ hwfpart
  have hnem : ¬lk.nAt ((p.offset i).commonPrefix lk) =
      (p.offset i).nAt ((p.offset i).commonPrefix lk) := by
    have hne := commonPrefixAux_getD_ne (p.offset i).hexData lk.hexData 16
      hm0ltpart hm0ltlk
    exact fun hc => hne hc.symm
  have htake : (p.offset i).hexData.take ((p.offset i).commonPrefix lk) =
      lk.hexData.take ((p.offset i).commonPrefix lk) := commonPrefixAux_take _ _
  have hrw1 : (p.offset i).nAt ((p.offset i).commonPrefix lk) =
      (p.offset (i + (p.offset i).commonPrefix lk)).nAt 0 := by
    rw [nAt_getD, nAt_getD, Nat.add_zero]
  have hrw2 : (p.offset i).offset ((p.offset i).commonPrefix lk + 1) =
      (p.offset (i + (p.offset i).commonPrefix lk)).offset 1 := by
    rw [← offset_offset, ← offset_offset,
      show i + ((p.offset i).commonPrefix lk + 1) =
        i + (p.offset i).commonPrefix lk + 1 from by omega]
  by_cases holm : lk.nAt ((p.offset i).commonPrefix lk) = 16
  · -- the old leaf's value moves into the fresh branch's value slot
    have hlktake : lk.hexData = lk.hexData.take ((p.offset i).commonPrefix lk)
        ++ [16] :=
      wfLeafKey_eq_take_term lk.hexData hwfk _ holm hm0ltlk
    by_cases hm00 : (p.offset i).commonPrefix lk = 0
    · cases f1 with
      | zero =>
        rw [insertAt_zero, Prod.mk.injEq] at hins
        exact absurd hins.2 (by simp [rok])
      | succ fi =>
        rw [insertAt_leaf_term0 db rh fi p i v lk lv hm0ne holm hterm16 hm00,
          Prod.mk.injEq] at hins
        obtain ⟨hpks, hm⟩ := hins
        have hm2 : Node.branch (Node.emptyChildren.set
            ((p.offset i).nAt ((p.offset i).commonPrefix lk))
            (.leaf ((p.offset i).offset ((p.offset i).commonPrefix lk + 1)) v))
            (some lv) = m := by
          simpa [rok] using hm
        subst hm2
        rw [hm00] at hdel
        rw [show (0 : Nat) + 1 = 1 from rfl] at hdel
        obtain ⟨h1, h2⟩ := deleteAt_freshValueBranch db rh f2 p i v lv pkd r
          (by rw [← hm00]; exact hpatm) hdel
        have hlk : lk = Nibbles.fromHex [16] := by
          apply nibbles_ext
          rw [hlktake, hm00]
          rfl
        rw [← hlk] at h2
        exact ⟨hpks.symm, h1, h2⟩
    · cases f1 with
      | zero =>
        rw [insertAt_zero, Prod.mk.injEq] at hins
        exact absurd hins.2 (by simp [rok])
      | succ fi =>
        rw [insertAt_leaf_term_ext db rh fi p i v lk lv hm0ne holm hterm16 hm00,
          Prod.mk.injEq] at hins
        obtain ⟨hpks, hm⟩ := hins
        have hm2 : Node.extension
            ((p.offset i).slice 0 ((p.offset i).commonPrefix lk))
            (.branch (Node.emptyChildren.set
              ((p.offset i).nAt ((p.offset i).commonPrefix lk))
              (.leaf ((p.offset i).offset ((p.offset i).commonPrefix lk + 1)) v))
              (some lv)) = m := by
          simpa [rok] using hm
        subst hm2
        rw [hrw1, hrw2] at hdel
        obtain ⟨h1, h2⟩ := deleteAt_ext_over db rh f2 p i
          ((p.offset i).commonPrefix lk) _ (.leaf (Nibbles.fromHex [16]) lv)
          (.leaf (((p.offset i).slice 0 ((p.offset i).commonPrefix lk)).join
            (Nibbles.fromHex [16])) lv) pkd r
          (by omega)
          (fun fQ pkQ rQ hQ =>
            deleteAt_freshValueBranch db rh fQ p
              (i + (p.offset i).commonPrefix lk) v lv pkQ rQ
              (by rw [← hrw1]; exact hpatm) hQ)
          (degenOutP_leaf db rh _ _ lv) hdel
        have hlk : ((p.offset i).slice 0 ((p.offset i).commonPrefix lk)).join
            (Nibbles.fromHex [16]) = lk := by
          apply nibbles_ext
          show ((p.offset i).hexData.take ((p.offset i).commonPrefix lk)).drop 0
            ++ [16] = lk.hexData
          rw [List.drop_zero, htake]
          exact hlktake.symm
        rw [hlk] at h2
        exact ⟨hpks.symm, h1, h2⟩
  · -- the old leaf survives as a child of the fresh branch
    have hu16 : lk.nAt ((p.offset i).commonPrefix lk) < 16 := by
      rcases Nat.lt_or_ge ((p.offset i).commonPrefix lk)
        (lk.hexData.length - 1) with hlt | hge
      · exact wfLeafKey_getD_lt _ hwfk _ hlt
      · exfalso
        apply holm
        have heq : (p.offset i).commonPrefix lk = lk.hexData.length - 1 := by
          omega
        rw [show lk.nAt ((p.offset i).commonPrefix lk) =
            lk.hexData.getD ((p.offset i).commonPrefix lk) 16 from rfl, heq]
        exact wfLeafKey_getD_last _ hwfk
    have hlkdecomp : lk.hexData =
        lk.hexData.take ((p.offset i).commonPrefix lk) ++
          lk.hexData.getD ((p.offset i).commonPrefix lk) 16 ::
          lk.hexData.drop ((p.offset i).commonPrefix lk + 1) :=
      getD_decomp lk.hexData _ hm0ltlk
    by_cases hm00 : (p.offset i).commonPrefix lk = 0
    · cases f1 with
      | zero =>
        rw [insertAt_zero, Prod.mk.injEq] at hins
        exact absurd hins.2 (by simp [rok])
      | succ fi =>
        rw [insertAt_leaf_child0 db rh fi p i v lk lv hm0ne holm hterm16 hm00,
          Prod.mk.injEq] at hins
        obtain ⟨hpks, hm⟩ := hins
        have hm2 : Node.branch ((Node.emptyChildren.set
            (lk.nAt ((p.offset i).commonPrefix lk))
            (.leaf (lk.offset ((p.offset i).commonPrefix lk + 1)) lv)).set
            ((p.offset i).nAt ((p.offset i).commonPrefix lk))
            (.leaf ((p.offset i).offset ((p.offset i).commonPrefix lk + 1)) v))
            none = m := by
          simpa [rok] using hm
        subst hm2
        rw [hm00] at hdel
        rw [show (0 : Nat) + 1 = 1 from rfl] at hdel
        obtain ⟨h1, h2⟩ := deleteAt_freshChildBranch db rh f2 p i v
          (lk.nAt 0) (.leaf (lk.offset 1) lv)
          (.leaf ((Nibbles.fromHex [lk.nAt 0]).join (lk.offset 1)) lv) pkd r
          (by rw [← hm00]; exact hpatm)
          (by rw [show lk.nAt 0 = lk.nAt ((p.offset i).commonPrefix lk) from by
            rw [hm00]]; exact hu16)
          (by
            rw [show lk.nAt 0 = lk.nAt ((p.offset i).commonPrefix lk) from by
              rw [hm00]]
            rw [show (p.offset i).nAt 0 =
              (p.offset i).nAt ((p.offset i).commonPrefix lk) from by rw [hm00]]
            exact hnem)
          (by simp)
          (degenOutP_leaf db rh _ _ lv) hdel
        have hlk : (Nibbles.fromHex [lk.nAt 0]).join (lk.offset 1) = lk := by
          apply nibbles_ext
          show [lk.nAt 0] ++ lk.hexData.drop 1 = lk.hexData
          conv_rhs => rw [hexData_eq_cons lk.hexData (wfLeafKey_ne_nil _ hwfk)]
          rfl
        rw [hlk] at h2
        exact ⟨hpks.symm, h1, h2⟩
    · cases f1 with
      | zero =>
        rw [insertAt_zero, Prod.mk.injEq] at hins
        exact absurd hins.2 (by simp [rok])
      | succ fi =>
        rw [insertAt_leaf_child_ext db rh fi p i v lk lv hm0ne holm hterm16 hm00,
          Prod.mk.injEq] at hins
        obtain ⟨hpks, hm⟩ := hins
        have hm2 : Node.extension
            ((p.offset i).slice 0 ((p.offset i).commonPrefix lk))
            (.branch ((Node.emptyChildren.set
              (lk.nAt ((p.offset i).commonPrefix lk))
              (.leaf (lk.offset ((p.offset i).commonPrefix lk + 1)) lv)).set
              ((p.offset i).nAt ((p.offset i).commonPrefix lk))
              (.leaf ((p.offset i).offset ((p.offset i).commonPrefix lk + 1)) v))
              none) = m := by
          simpa [rok] using hm
        subst hm2
        rw [hrw1, hrw2] at hdel
        obtain ⟨h1, h2⟩ := deleteAt_ext_over db rh f2 p i
          ((p.offset i).commonPrefix lk) _
          (.leaf ((Nibbles.fromHex [lk.nAt ((p.offset i).commonPrefix lk)]).join
            (lk.offset ((p.offset i).commonPrefix lk + 1))) lv)
          (.leaf (((p.offset i).slice 0 ((p.offset i).commonPrefix lk)).join
            ((Nibbles.fromHex [lk.nAt ((p.offset i).commonPrefix lk)]).join
              (lk.offset ((p.offset i).commonPrefix lk + 1)))) lv) pkd r
          (by omega)
          (fun fQ pkQ rQ hQ =>
            deleteAt_freshChildBranch db rh fQ p
              (i + (p.offset i).commonPrefix lk) v
              (lk.nAt ((p.offset i).commonPrefix lk))
              (.leaf (lk.offset ((p.offset i).commonPrefix lk + 1)) lv)
              (.leaf ((Nibbles.fromHex
                [lk.nAt ((p.offset i).commonPrefix lk)]).join
                (lk.offset ((p.offset i).commonPrefix lk + 1))) lv) pkQ rQ
              (by rw [← hrw1]; exact hpatm) hu16
              (by rw [← hrw1]; exact hnem) (by simp)
              (degenOutP_leaf db rh _ _ lv) hQ)
          (degenOutP_leaf db rh _ _ lv) hdel
        have hlk : ((p.offset i).slice 0 ((p.offset i).commonPrefix lk)).join
            ((Nibbles.fromHex [lk.nAt ((p.offset i).commonPrefix lk)]).join
              (lk.offset ((p.offset i).commonPrefix lk + 1))) = lk := by
          apply nibbles_ext
          show ((p.offset i).hexData.take ((p.offset i).commonPrefix lk)).drop 0
            ++ ([lk.nAt ((p.offset i).commonPrefix lk)] ++
              lk.hexData.drop ((p.offset i).commonPrefix lk + 1)) = lk.hexData
          rw [List.drop_zero, htake]
          exact hlkdecomp.symm
        rw [hlk] at h2
        exact ⟨hpks.symm, h1, h2⟩

theorem insertAt_deleteAt_inverts (db : Store) (rh : Bytes) :
    ∀ f3 : Nat, InvertsP db rh f3 := by
  intro f3
  induction f3 with
  | zero =>
    intro n p i v f1 f2 f4 pks pkd m r _ _ _ _ _ habs _ _ _
    simp [terminalOf, absentTerminal] at habs
  | succ f3 ih =>
    intro n p i v f1 f2 f4 pks pkd m r hhf hcan hwf hp hi habs hsafe hins hdel
    cases n with
    | empty => exact inverts_empty db rh p i v f1 f2 pks pkd m r hins hdel
    | leaf lk lv =>
      have hwfk : wfLeafKey lk.hexData = true := hwf
      have hkne : ¬lk = p.offset i := by
        intro hc
        rw [show terminalOf db (f3 + 1) (.leaf lk lv) p i =
            some (.atLeafMatch lv) from by simp [terminalOf, hc]] at habs
        simp [absentTerminal] at habs
      exact inverts_leaf db rh lk lv p i v f1 f2 f4 pks pkd m r hwfk hp hi
        hkne hsafe hins hdel
    | branch cs vv =>
      exact inverts_branch db rh f3 ih cs vv p i v f1 f2 f4 pks pkd m r
        hhf hcan hwf hp hi habs hsafe hins hdel
    | extension pfx child =>
      exact inverts_ext db rh f3 ih pfx child p i v f1 f2 f4 pks pkd m r
        hhf hcan hwf hp hi habs hsafe hins hdel
    | hash hn =>
      rw [hashFreeB] at hhf
      exact absurd hhf (by simp)

/-- C2 (amended): put-then-del restores the trie exactly — root node, books
and hence the `commit` root hash — provided the trie is fully materialised
and canonical, the key is absent, and the insertion is *safe*: the remaining
path at the divergence point is not the bare terminator.  (When it is, the
new value lands in the value slot of a freshly created branch, and `del`'s
early-`return` in the branch-terminator arm skips the trailing `degenerate`,
leaving a non-canonical single-child branch with a different root hash — see
the counterexample.) -/
theorem claim2_put_del_restores (t : Trie) (key v : Bytes) (kec : Bytes → Bytes)
    (f1 f2 f3 f4 fc : Nat) (t1 t2 : Trie)
    (hv : ¬v = [])
    (hhf : hashFreeB t.root = true) (hcan : canonicalB t.root = true)
    (hwf : wfTreeB t.root = true) (hkey : BytesWF key)
    (habs : absentTerminal (terminalOf t.db f3 t.root (Nibbles.fromRaw key true) 0))
    (hsafe : insertSafeB f4 t.root (Nibbles.fromRaw key true) 0 = true)
    (hput : putT f1 t key v = some t1)
    (hdel : delT f2 t1 key = some (t2, .ok ())) :
    t2 = t ∧ commitT kec fc t2 = commitT kec fc t := by
  unfold putT at hput
  rw [if_neg hv] at hput
  rcases hresi : insertAt t.db t.rootHash f1 t.root (Nibbles.fromRaw key true) 0 v
    with ⟨pk1, r1⟩
  rw [hresi] at hput
  rcases r1 with _ | r1
  · exact Option.noConfusion (show (none : Option Trie) = some t1 from hput)
  · rcases r1 with e | m
    · exact Option.noConfusion (show (none : Option Trie) = some t1 from hput)
    · have hput2 : some (Trie.mk m t.rootHash t.db t.cache
          (pk1.foldl setInsert t.passingKeys) t.genKeys) = some t1 := hput
      have ht1 : t1 = Trie.mk m t.rootHash t.db t.cache
          (pk1.foldl setInsert t.passingKeys) t.genKeys := by
        injection hput2 with h
        exact h.symm
      subst ht1
      have hdel1 : (match (deleteAt t.db t.rootHash f2 m
            (Nibbles.fromRaw key true) 0).2 with
          | none => none
          | some (.error (.missingTrieNode nh tr rh2 _)) =>
            some (Trie.mk m t.rootHash t.db t.cache
              (((deleteAt t.db t.rootHash f2 m (Nibbles.fromRaw key true) 0).1).foldl
                setInsert (pk1.foldl setInsert t.passingKeys)) t.genKeys,
              (Except.error (TrieError.missingTrieNode nh tr rh2 (some key)) :
                Except TrieError Unit))
          | some (.error _) => none
          | some (.ok q) =>
            some (Trie.mk q.1 t.rootHash t.db t.cache
              (((deleteAt t.db t.rootHash f2 m (Nibbles.fromRaw key true) 0).1).foldl
                setInsert (pk1.foldl setInsert t.passingKeys)) t.genKeys,
              Except.ok ())) = some (t2, Except.ok ()) := hdel
      rcases hresd : deleteAt t.db t.rootHash f2 m (Nibbles.fromRaw key true) 0
        with ⟨pk2, r2⟩
      rw [hresd] at hdel1
      rcases r2 with _ | r2
      · exact Option.noConfusion
          (show (none : Option (Trie × Except TrieError Unit)) =
            some (t2, Except.ok ()) from hdel1)
      · rcases r2 with e | q
        · cases e <;> simp at hdel1
        · have hp0 : wfLeafKey (Nibbles.fromRaw key true).hexData = true :=
            wfLeafKey_fromRaw key hkey
          have hi0 : 0 < (Nibbles.fromRaw key true).len :=
            List.length_pos_of_ne_nil (wfLeafKey_ne_nil _ hp0)
          obtain ⟨hpk1, hpk2, hq⟩ := insertAt_deleteAt_inverts t.db t.rootHash f3
            t.root (Nibbles.fromRaw key true) 0 v f1 f2 f4 pk1 pk2 m q
            hhf hcan hwf hp0 hi0 habs hsafe hresi hresd
          subst hpk1
          subst hpk2
          subst hq
          have hdel3 : some ((Trie.mk t.root t.rootHash t.db t.cache
              t.passingKeys t.genKeys : Trie), Except.ok ()) =
              some (t2, Except.ok ()) := hdel1
          injection hdel3 with h
          have ht2 : t2 = Trie.mk t.root t.rootHash t.db t.cache
              t.passingKeys t.genKeys := (congrArg Prod.fst h).symm
          have hteta : Trie.mk t.root t.rootHash t.db t.cache
              t.passingKeys t.genKeys = t := rfl
          rw [hteta] at ht2
          exact ⟨ht2, by rw [ht2]⟩

/-- C2 counterexample: a single-leaf trie holding raw key `0x0534`; inserting
raw key `0x05` makes the leaf split with the remaining path exactly `[16]`,
so the new value lands in the fresh branch's value slot.  Deleting it again
returns `Ok(())` but leaves `Extension([0,5], Branch{3: Leaf([4,16],[9])})`
with one child and no value — not the original leaf — and the `commit` root
hash differs from the original trie's. -/
theorem claim2_counterexample :
    absentTerminal (terminalOf [] 4 (.leaf ⟨[0, 5, 3, 4, 16]⟩ [9])
      (Nibbles.fromRaw [5] true) 0) ∧
    putT 6 ⟨.leaf ⟨[0, 5, 3, 4, 16]⟩ [9], [7], [], [], [], []⟩ [5] [7] =
      some ⟨.extension ⟨[0, 5]⟩ (.branch (Node.emptyChildren.set 3
        (.leaf ⟨[4, 16]⟩ [9])) (some [7])), [7], [], [], [], []⟩ ∧
    delT 6 ⟨.extension ⟨[0, 5]⟩ (.branch (Node.emptyChildren.set 3
        (.leaf ⟨[4, 16]⟩ [9])) (some [7])), [7], [], [], [], []⟩ [5] =
      some (⟨.extension ⟨[0, 5]⟩ (.branch (Node.emptyChildren.set 3
        (.leaf ⟨[4, 16]⟩ [9])) none), [7], [], [], [], []⟩, .ok ()) ∧
    ¬((commitT (fun b => b) 9 ⟨.extension ⟨[0, 5]⟩ (.branch
        (Node.emptyChildren.set 3 (.leaf ⟨[4, 16]⟩ [9])) none),
        [7], [], [], [], []⟩).map (fun q => q.1) =
      (commitT (fun b => b) 9
        ⟨.leaf ⟨[0, 5, 3, 4, 16]⟩ [9], [7], [], [], [], []⟩).map (fun q => q.1)) :=
  ⟨by decide, by decide, by decide, by decide⟩

theorem claim2_witness :
    (⟨Node.empty, [0], [], [], [], []⟩ : Trie) =
      ⟨Node.empty, [0], [], [], [], []⟩ ∧
    commitT (fun _ => [0]) 3 ⟨Node.empty, [0], [], [], [], []⟩ =
      commitT (fun _ => [0]) 3 ⟨Node.empty, [0], [], [], [], []⟩ :=
  claim2_put_del_restores ⟨Node.empty, [0], [], [], [], []⟩ [5] [7] (fun _ => [0])
    3 3 3 3 3
    ⟨.leaf (Nibbles.fromRaw [5] true) [7], [0], [], [], [], []⟩
    ⟨Node.empty, [0], [], [], [], []⟩
    (by decide) (by decide) (by decide) (by decide) (by decide)
    (by decide) (by decide) (by decide) (by decide)

/-! ## C4: structural invariants under insertion -/

theorem filter_length_mono (l : List Nat) (q1 q2 : Nat → Bool)
    (h : ∀ x ∈ l, q1 x = true → q2 x = true) :
    (l.filter q1).length ≤ (l.filter q2).length := by
  induction l with
  | nil => simp
  | cons a l ih =>
    rw [List.filter_cons, List.filter_cons]
    by_cases ha : q1 a = true
    · rw [if_pos ha, if_pos (h a (List.mem_cons_self a l) ha)]
      simpa using ih (fun x hx hq => h x (List.mem_cons_of_mem a hx) hq)
    · rw [if_neg ha]
      have hle := ih (fun x hx hq => h x (List.mem_cons_of_mem a hx) hq)
      by_cases hb : q2 a = true
      · rw [if_pos hb]
        simp only [List.length_cons]
        omega
      · rw [if_neg hb]
        exact hle

theorem two_le_length_of_two_mem (l : List Nat) (a b : Nat) (ha : a ∈ l)
    (hb : b ∈ l) (hne : a ≠ b) : 2 ≤ l.length := by
  have hbe : b ∈ l.erase a := (List.mem_erase_of_ne (fun hc => hne hc.symm)).mpr hb
  have h1 : 1 ≤ (l.erase a).length := List.length_pos_of_mem hbe
  have h2 := List.length_erase_of_mem ha
  omega

theorem usedCount_singleton (a : Nat) (x : Node) (ha : a < 16)
    (hx : ¬x = .empty) : usedCount (Node.emptyChildren.set a x) = 1 := by
  unfold usedCount
  rw [show (Node.emptyChildren.set a x).length = 16 from by
    simp [Node.emptyChildren]]
  rw [range_filter_eq_singleton 16 a _ ha
    (by
      rw [show (Node.emptyChildren.set a x).getD a .empty = x from
        getD_set_self _ _ _ (by rw [length_emptyChildren]; exact ha)]
      simpa using hx)
    (fun j _ hj => by
      rw [getD_set_ne Node.emptyChildren _ j _ hj, getD_emptyChildren]
      simp)]
  rfl

theorem two_le_usedCount_pair (a b : Nat) (x y : Node) (ha : a < 16)
    (hb : b < 16) (hne : ¬a = b) (hx : ¬x = .empty) (hy : ¬y = .empty) :
    2 ≤ usedCount ((Node.emptyChildren.set a x).set b y) := by
  unfold usedCount
  have hlen : ((Node.emptyChildren.set a x).set b y).length = 16 := by
    simp [Node.emptyChildren]
  apply two_le_length_of_two_mem _ a b _ _ hne
  · rw [List.mem_filter]
    constructor
    · rw [List.mem_range, hlen]; exact ha
    · rw [getD_set_ne (Node.emptyChildren.set a x) _ a _ hne,
        getD_set_self _ _ _ (by rw [length_emptyChildren]; exact ha)]
      simpa using hx
  · rw [List.mem_filter]
    constructor
    · rw [List.mem_range, hlen]; exact hb
    · rw [getD_set_self _ _ _ (by
        rw [List.length_set, length_emptyChildren]; exact hb)]
      simpa using hy

theorem usedCount_le_set (cs : List Node) (idx : Nat) (x : Node)
    (hx : ¬x = .empty) (hidx : idx < cs.length) :
    usedCount cs ≤ usedCount (cs.set idx x) := by
  unfold usedCount
  rw [List.length_set]
  apply filter_length_mono
  intro j _ hj
  by_cases hji : j = idx
  · subst hji
    rw [getD_set_self _ _ _ hidx]
    simpa using hx
  · rw [getD_set_ne cs _ j _ hji]
    exact hj

theorem wfTreeListB_set : ∀ (cs : List Node) (idx : Nat) (x : Node),
    wfTreeListB cs = true → wfTreeB x = true → wfTreeListB (cs.set idx x) = true := by
  intro cs
  induction cs with
  | nil => intro idx x _ _; rfl
  | cons c cs ih =>
    intro idx x hl hx
    rw [wfTreeListB, Bool.and_eq_true] at hl
    cases idx with
    | zero =>
      rw [List.set_cons_zero, wfTreeListB, Bool.and_eq_true]
      exact ⟨hx, hl.2⟩
    | succ j =>
      rw [List.set_cons_succ, wfTreeListB, Bool.and_eq_true]
      exact ⟨hl.1, ih j x hl.2 hx⟩

theorem canonicalListB_set : ∀ (cs : List Node) (idx : Nat) (x : Node),
    canonicalListB cs = true → canonicalB x = true →
    canonicalListB (cs.set idx x) = true := by
  intro cs
  induction cs with
  | nil => intro idx x _ _; rfl
  | cons c cs ih =>
    intro idx x hl hx
    rw [canonicalListB, Bool.and_eq_true] at hl
    cases idx with
    | zero =>
      rw [List.set_cons_zero, canonicalListB, Bool.and_eq_true]
      exact ⟨hx, hl.2⟩
    | succ j =>
      rw [List.set_cons_succ, canonicalListB, Bool.and_eq_true]
      exact ⟨hl.1, ih j x hl.2 hx⟩

theorem hashFreeListB_set : ∀ (cs : List Node) (idx : Nat) (x : Node),
    hashFreeListB cs = true → hashFreeB x = true →
    hashFreeListB (cs.set idx x) = true := by
  intro cs
  induction cs with
  | nil => intro idx x _ _; rfl
  | cons c cs ih =>
    intro idx x hl hx
    rw [hashFreeListB, Bool.and_eq_true] at hl
    cases idx with
    | zero =>
      rw [List.set_cons_zero, hashFreeListB, Bool.and_eq_true]
      exact ⟨hx, hl.2⟩
    | succ j =>
      rw [List.set_cons_succ, hashFreeListB, Bool.and_eq_true]
      exact ⟨hl.1, ih j x hl.2 hx⟩

theorem wfTreeListB_emptyChildren : wfTreeListB Node.emptyChildren = true := rfl

theorem canonicalListB_emptyChildren : canonicalListB Node.emptyChildren = true := rfl

theorem hashFreeListB_emptyChildren : hashFreeListB Node.emptyChildren = true := rfl

theorem length_set_emptyChildren (a : Nat) (x : Node) :
    (Node.emptyChildren.set a x).length = 16 := by
  simp [Node.emptyChildren]

section LeafSplitTerm

variable (db : Store) (rh : Bytes) (f : Nat) (path : Nibbles) (i : Nat) (value : Bytes)

theorem insertAt_leaf_pterm0 (lk : Nibbles) (lv : Bytes)
    (hne : ¬(path.offset i).commonPrefix lk = lk.len)
    (holm : ¬lk.nAt ((path.offset i).commonPrefix lk) = 16)
    (hpat : (path.offset i).nAt ((path.offset i).commonPrefix lk) = 16)
    (h0 : (path.offset i).commonPrefix lk = 0) :
    insertAt db rh (f + 1) (.leaf lk lv) path i value =
      ([], rok (.branch (Node.emptyChildren.set
        (lk.nAt ((path.offset i).commonPrefix lk))
        (.leaf (lk.offset ((path.offset i).commonPrefix lk + 1)) lv))
        (some value))) := by
  rw [insertAt_leaf]
  simp only [if_neg hne, Node.branchPut, if_neg holm, if_pos hpat, if_pos h0]

theorem insertAt_leaf_pterm_ext (lk : Nibbles) (lv : Bytes)
    (hne : ¬(path.offset i).commonPrefix lk = lk.len)
    (holm : ¬lk.nAt ((path.offset i).commonPrefix lk) = 16)
    (hpat : (path.offset i).nAt ((path.offset i).commonPrefix lk) = 16)
    (h0 : ¬(path.offset i).commonPrefix lk = 0) :
    insertAt db rh (f + 1) (.leaf lk lv) path i value =
      ([], rok (.extension ((path.offset i).slice 0 ((path.offset i).commonPrefix lk))
        (.branch (Node.emptyChildren.set
          (lk.nAt ((path.offset i).commonPrefix lk))
          (.leaf (lk.offset ((path.offset i).commonPrefix lk + 1)) lv))
          (some value)))) := by
  rw [insertAt_leaf]
  simp only [if_neg hne, Node.branchPut, if_neg holm, if_pos hpat, if_neg h0]

end LeafSplitTerm

theorem wfPfx_offset_one (pfx : Nibbles) (hwfp : wfPfx pfx.hexData = true)
    (hlen : ¬pfx.len = 1) : wfPfx (pfx.offset 1).hexData = true := by
  have hpne := wfPfx_ne_nil pfx.hexData hwfp
  have hpos : 0 < pfx.hexData.length := List.length_pos_of_ne_nil hpne
  have hlen2 : 2 ≤ pfx.hexData.length := by
    rcases Nat.lt_or_ge pfx.hexData.length 2 with h | h
    · exfalso
      apply hlen
      show pfx.hexData.length = 1
      omega
    · exact h
  unfold wfPfx at hwfp ⊢
  simp only [Bool.and_eq_true, Bool.not_eq_true', List.all_eq_true] at hwfp ⊢
  constructor
  · show (pfx.hexData.drop 1).isEmpty = false
    rw [List.isEmpty_eq_false_iff_exists_mem]
    have : pfx.hexData.drop 1 ≠ [] := by
      rw [Ne, List.drop_eq_nil_iff]
      omega
    rcases List.exists_mem_of_ne_nil _ this with ⟨x, hx⟩
    exact ⟨x, hx⟩
  · intro x hx
    exact hwfp.2 x (List.mem_of_mem_drop hx)

/-- The divergence arm of `insert_at` on an extension always produces a
branch satisfying the structural invariants. -/
theorem insertAt_ext_div_preserves (db : Store) (rh : Bytes) (f : Nat)
    (pfx : Nibbles) (bcs : List Node) (bv : Option Bytes) (p : Nibbles)
    (i : Nat) (v : Bytes) (pks : List Bytes) (m : Node)
    (hwfp : wfPfx pfx.hexData = true)
    (hhfc : hashFreeB (.branch bcs bv) = true)
    (hcanc : canonicalB (.branch bcs bv) = true)
    (hwfc : wfTreeB (.branch bcs bv) = true)
    (hp : wfLeafKey p.hexData = true) (hi : i < p.len)
    (hdiv : (p.offset i).commonPrefix pfx = 0)
    (hins : insertAt db rh f (.extension pfx (.branch bcs bv)) p i v =
      (pks, rok m)) :
    (∃ bcs2 bv2, m = .branch bcs2 bv2) ∧ hashFreeB m = true ∧
      canonicalB m = true ∧ wfTreeB m = true := by
  have hpne := wfPfx_ne_nil pfx.hexData hwfp
  have hpfx0 : pfx.nAt 0 < 16 :=
    wfPfx_getD_lt pfx.hexData hwfp 0 (List.length_pos_of_ne_nil hpne)
  have hXhf : hashFreeB (if pfx.len = 1 then Node.branch bcs bv
      else .extension (pfx.offset 1) (.branch bcs bv)) = true := by
    split
    · exact hhfc
    · exact hhfc
  have hXcan : canonicalB (if pfx.len = 1 then Node.branch bcs bv
      else .extension (pfx.offset 1) (.branch bcs bv)) = true := by
    split
    · exact hcanc
    · rw [show canonicalB (.extension (pfx.offset 1) (.branch bcs bv)) =
        (true && canonicalB (.branch bcs bv)) from rfl]
      simpa using hcanc
  have hXwf : wfTreeB (if pfx.len = 1 then Node.branch bcs bv
      else .extension (pfx.offset 1) (.branch bcs bv)) = true := by
    split
    · exact hwfc
    · rename_i hlen1
      rw [show wfTreeB (.extension (pfx.offset 1) (.branch bcs bv)) =
        (wfPfx (pfx.offset 1).hexData && wfTreeB (.branch bcs bv)) from rfl,
        Bool.and_eq_true]
      exact ⟨wfPfx_offset_one pfx hwfp hlen1, hwfc⟩
  have hXne : ¬(if pfx.len = 1 then Node.branch bcs bv
      else .extension (pfx.offset 1) (.branch bcs bv)) = Node.empty := by
    split <;> simp
  cases f with
  | zero =>
    rw [insertAt_zero, Prod.mk.injEq] at hins
    exact absurd hins.2 (by simp [rok])
  | succ f1 =>
    rw [insertAt_ext_div db rh f1 p i v pfx (.branch bcs bv) hdiv] at hins
    have hbput : Node.branchPut Node.emptyChildren none (pfx.nAt 0)
        (if pfx.len = 1 then Node.branch bcs bv
         else .extension (pfx.offset 1) (.branch bcs bv)) =
        (Node.emptyChildren.set (pfx.nAt 0)
          (if pfx.len = 1 then Node.branch bcs bv
           else .extension (pfx.offset 1) (.branch bcs bv)), none) := by
      unfold Node.branchPut
      rw [if_neg (by omega)]
    rw [hbput] at hins
    have hins2 : insertAt db rh f1
        (.branch (Node.emptyChildren.set (pfx.nAt 0)
          (if pfx.len = 1 then Node.branch bcs bv
           else .extension (pfx.offset 1) (.branch bcs bv))) none) p i v =
        (pks, rok m) := hins
    cases f1 with
    | zero =>
      rw [insertAt_zero, Prod.mk.injEq] at hins2
      exact absurd hins2.2 (by simp [rok])
    | succ f2 =>
      by_cases hterm : (p.offset i).nAt 0 = 16
      · rw [insertAt_branch_term db rh f2 p i v _ none hterm,
          Prod.mk.injEq] at hins2
        have hm2 : Node.branch (Node.emptyChildren.set (pfx.nAt 0)
            (if pfx.len = 1 then Node.branch bcs bv
             else .extension (pfx.offset 1) (.branch bcs bv))) (some v) = m := by
          simpa [rok] using hins2.2
        subst hm2
        refine ⟨⟨_, _, rfl⟩, ?_, ?_, ?_⟩
        · exact hashFreeListB_set _ _ _ hashFreeListB_emptyChildren hXhf
        · rw [canonicalB, Bool.and_eq_true]
          refine ⟨?_, canonicalListB_set _ _ _ canonicalListB_emptyChildren hXcan⟩
          rw [usedCount_singleton _ _ hpfx0 hXne]
          simp
        · rw [wfTreeB, Bool.and_eq_true]
          exact ⟨by rw [length_set_emptyChildren]; simp,
            wfTreeListB_set _ _ _ wfTreeListB_emptyChildren hXwf⟩
      · have hpat16 : (p.offset i).nAt 0 < 16 := by
          have h16 : (p.offset i).nAt 0 ≤ 16 :=
            nAt_le_of_path p i (wfLeafKey_le p.hexData hp)
          omega
        have hpartne : (p.offset i).hexData ≠ [] := by
          intro hc
          apply hterm
          unfold Nibbles.nAt
          rw [hc]
          rfl
        have hne0 : ¬pfx.nAt 0 = (p.offset i).nAt 0 := by
          have hne := commonPrefixAux_getD_ne (p.offset i).hexData pfx.hexData 16
            (by
              rw [show Nibbles.commonPrefixAux (p.offset i).hexData pfx.hexData =
                  (p.offset i).commonPrefix pfx from rfl, hdiv]
              exact List.length_pos_of_ne_nil hpartne)
            (by
              rw [show Nibbles.commonPrefixAux (p.offset i).hexData pfx.hexData =
                  (p.offset i).commonPrefix pfx from rfl, hdiv]
              exact List.length_pos_of_ne_nil hpne)
          rw [show Nibbles.commonPrefixAux (p.offset i).hexData pfx.hexData =
              (p.offset i).commonPrefix pfx from rfl, hdiv] at hne
          exact fun hc => hne hc.symm
        have hi1 : i + 1 < p.len := by
          apply wfLeafKey_step p.hexData hp i hi
          rw [show p.hexData.getD i 16 = (p.offset i).nAt 0 from by
            rw [nAt_getD, Nat.add_zero]]
          exact hterm
        rw [insertAt_branch_step db rh f2 p i v _ none hterm] at hins2
        rw [getD_set_ne Node.emptyChildren _ _ _ (fun hc => hne0 hc.symm),
          getD_emptyChildren] at hins2
        cases f2 with
        | zero =>
          rw [insertAt_zero] at hins2
          have hins3 : (([], none) : List Bytes × TRes Node) = (pks, rok m) := hins2
          rw [Prod.mk.injEq] at hins3
          exact absurd hins3.2 (by simp [rok])
        | succ f3 =>
          rw [insertAt_empty] at hins2
          have hins3 : (([] : List Bytes),
              rok (Node.branch ((Node.emptyChildren.set (pfx.nAt 0)
                (if pfx.len = 1 then Node.branch bcs bv
                 else .extension (pfx.offset 1) (.branch bcs bv))).set
                ((p.offset i).nAt 0) (.leaf (p.offset (i + 1)) v)) none)) =
              (pks, rok m) := hins2
          rw [Prod.mk.injEq] at hins3
          have hm2 : Node.branch ((Node.emptyChildren.set (pfx.nAt 0)
              (if pfx.len = 1 then Node.branch bcs bv
               else .extension (pfx.offset 1) (.branch bcs bv))).set
              ((p.offset i).nAt 0) (.leaf (p.offset (i + 1)) v)) none = m := by
            simpa [rok] using hins3.2
          subst hm2
          refine ⟨⟨_, _, rfl⟩, ?_, ?_, ?_⟩
          · exact hashFreeListB_set _ _ _
              (hashFreeListB_set _ _ _ hashFreeListB_emptyChildren hXhf) rfl
          · rw [canonicalB, Bool.and_eq_true]
            refine ⟨?_, canonicalListB_set _ _ _
              (canonicalListB_set _ _ _ canonicalListB_emptyChildren hXcan) rfl⟩
            have := two_le_usedCount_pair (pfx.nAt 0) ((p.offset i).nAt 0)
              (if pfx.len = 1 then Node.branch bcs bv
               else .extension (pfx.offset 1) (.branch bcs bv))
              (.leaf (p.offset (i + 1)) v)
              hpfx0 hpat16 hne0 hXne (by simp)
            simpa using this
          · rw [wfTreeB, Bool.and_eq_true]
            refine ⟨by simp [Node.emptyChildren], ?_⟩
            apply wfTreeListB_set _ _ _
              (wfTreeListB_set _ _ _ wfTreeListB_emptyChildren hXwf)
            show wfLeafKey (p.offset (i + 1)).hexData = true
            exact wfLeafKey_drop p.hexData hp (i + 1) hi1

theorem insertAt_leaf_over (db : Store) (rh : Bytes) (f : Nat) (path : Nibbles)
    (i : Nat) (value : Bytes) (lk : Nibbles) (lv : Bytes)
    (hov : (path.offset i).commonPrefix lk = lk.len) :
    insertAt db rh (f + 1) (.leaf lk lv) path i value =
      ([], rok (.leaf lk value)) := by
  rw [insertAt_leaf]
  simp only [if_pos hov]

theorem wfPfx_take (l : List Nat) (m0 : Nat) (h : wfLeafKey l = true)
    (h0 : 0 < m0) (hlt : m0 < l.length) : wfPfx (l.take m0) = true := by
  unfold wfPfx
  simp only [Bool.and_eq_true, Bool.not_eq_true', List.all_eq_true]
  constructor
  · rw [List.isEmpty_eq_false_iff_exists_mem]
    have hne : l.take m0 ≠ [] := by
      intro hc
      have hlen := congrArg List.length hc
      rw [List.length_take, List.length_nil] at hlen
      omega
    rcases List.exists_mem_of_ne_nil _ hne with ⟨x, hx⟩
    exact ⟨x, hx⟩
  · intro x hx
    rw [List.mem_take_iff_getElem] at hx
    obtain ⟨j, hj, rfl⟩ := hx
    have hjlt : j < l.length - 1 := by omega
    have := wfLeafKey_getD_lt l h j hjlt
    rw [List.getD_eq_getElem?_getD, List.getElem?_eq_getElem (by omega)] at this
    simpa using this

theorem wfPfx_take_pfx (l : List Nat) (m0 : Nat) (h : wfPfx l = true)
    (h0 : 0 < m0) (hlt : 0 < l.length) : wfPfx (l.take m0) = true := by
  unfold wfPfx at h ⊢
  simp only [Bool.and_eq_true, Bool.not_eq_true', List.all_eq_true] at h ⊢
  constructor
  · rw [List.isEmpty_eq_false_iff_exists_mem]
    have hne : l.take m0 ≠ [] := by
      intro hc
      have hlen := congrArg List.length hc
      rw [List.length_take, List.length_nil] at hlen
      omega
    rcases List.exists_mem_of_ne_nil _ hne with ⟨x, hx⟩
    exact ⟨x, hx⟩
  · intro x hx
    exact h.2 x (List.mem_of_mem_take hx)

theorem wfPfx_drop_pfx (l : List Nat) (m0 : Nat) (h : wfPfx l = true)
    (hlt : m0 < l.length) : wfPfx (l.drop m0) = true := by
  unfold wfPfx at h ⊢
  simp only [Bool.and_eq_true, Bool.not_eq_true', List.all_eq_true] at h ⊢
  constructor
  · rw [List.isEmpty_eq_false_iff_exists_mem]
    have hne : l.drop m0 ≠ [] := by
      rw [Ne, List.drop_eq_nil_iff]
      omega
    rcases List.exists_mem_of_ne_nil _ hne with ⟨x, hx⟩
    exact ⟨x, hx⟩
  · intro x hx
    exact h.2 x (List.mem_of_mem_drop hx)

theorem commonPrefix_lt_partLen (q lk : Nibbles) (hq : wfLeafKey q.hexData = true)
    (hlk : wfLeafKey lk.hexData = true)
    (hov : ¬Nibbles.commonPrefix q lk = lk.len) :
    Nibbles.commonPrefix q lk < q.len := by
  have hauxeq : Nibbles.commonPrefixAux q.hexData lk.hexData =
      Nibbles.commonPrefix q lk := rfl
  have hqlen : q.len = q.hexData.length := rfl
  have hlklen : lk.len = lk.hexData.length := rfl
  have hle := commonPrefixAux_le_left q.hexData lk.hexData
  have hle2 := commonPrefixAux_le_right q.hexData lk.hexData
  rw [hauxeq] at hle hle2
  have hqne := wfLeafKey_ne_nil q.hexData hq
  have hqpos : 0 < q.hexData.length := List.length_pos_of_ne_nil hqne
  rcases Nat.lt_or_ge (Nibbles.commonPrefix q lk) q.len with h | h
  · exact h
  · exfalso
    have heq : Nibbles.commonPrefix q lk = q.hexData.length := by omega
    have hm0pos : 0 < Nibbles.commonPrefix q lk := by omega
    have hlast : q.hexData.getD (Nibbles.commonPrefix q lk - 1) 16 = 16 := by
      rw [show Nibbles.commonPrefix q lk - 1 = q.hexData.length - 1 from by omega]
      exact wfLeafKey_getD_last q.hexData hq
    have hagree := commonPrefixAux_getD_eq q.hexData lk.hexData
      (Nibbles.commonPrefix q lk - 1) (by rw [hauxeq]; omega)
    have hlk16 : lk.hexData.getD (Nibbles.commonPrefix q lk - 1) 16 = 16 := by
      rw [← hagree]
      exact hlast
    have hm0ltlk : Nibbles.commonPrefix q lk < lk.len := by omega
    have hpos := wfLeafKey_term_pos lk.hexData hlk
      (Nibbles.commonPrefix q lk - 1) hlk16 (by omega)
    omega

theorem path_step_common (p : Nibbles) (hp : wfLeafKey p.hexData = true)
    (i : Nat) (hi : i < p.len) (pfx : Nibbles)
    (hwfp : wfPfx pfx.hexData = true)
    (hpos : 0 < (p.offset i).commonPrefix pfx)
    (hle : (p.offset i).commonPrefix pfx ≤ pfx.len) :
    i + (p.offset i).commonPrefix pfx < p.len := by
  have hlep : (p.offset i).commonPrefix pfx ≤ (p.offset i).len :=
    commonPrefixAux_le_left _ _
  have hplen_eq : p.len = p.hexData.length := rfl
  have hpartlen : (p.offset i).len = p.hexData.length - i :=
    List.length_drop i p.hexData
  have hpfxlen_eq : pfx.len = pfx.hexData.length := rfl
  have hilen : i < p.hexData.length := hi
  have hjlt : i + ((p.offset i).commonPrefix pfx - 1) < p.hexData.length := by omega
  have hgd : ¬p.hexData.getD (i + ((p.offset i).commonPrefix pfx - 1)) 16 = 16 := by
    rw [← nAt_getD]
    rw [show (p.offset i).nAt ((p.offset i).commonPrefix pfx - 1) =
        (p.offset i).hexData.getD ((p.offset i).commonPrefix pfx - 1) 16
      from rfl]
    rw [commonPrefixAux_getD_eq (p.offset i).hexData pfx.hexData _ (by
      rw [show Nibbles.commonPrefixAux (p.offset i).hexData pfx.hexData =
          (p.offset i).commonPrefix pfx from rfl]
      omega)]
    have hlt := wfPfx_getD_lt pfx.hexData hwfp
      ((p.offset i).commonPrefix pfx - 1) (by omega)
    omega
  have hstep := wfLeafKey_step p.hexData hp _ hjlt hgd
  rw [hplen_eq]
  omega

theorem preserved_single_value (a : Nat) (x : Node) (w : Bytes) (ha : a < 16)
    (hx : ¬x = .empty) (hxh : hashFreeB x = true) (hxc : canonicalB x = true)
    (hxw : wfTreeB x = true) :
    hashFreeB (.branch (Node.emptyChildren.set a x) (some w)) = true ∧
    canonicalB (.branch (Node.emptyChildren.set a x) (some w)) = true ∧
    wfTreeB (.branch (Node.emptyChildren.set a x) (some w)) = true := by
  refine ⟨?_, ?_, ?_⟩
  · exact hashFreeListB_set _ _ _ hashFreeListB_emptyChildren hxh
  · rw [canonicalB, Bool.and_eq_true]
    refine ⟨?_, canonicalListB_set _ _ _ canonicalListB_emptyChildren hxc⟩
    rw [usedCount_singleton a x ha hx]
    simp
  · rw [wfTreeB, Bool.and_eq_true]
    exact ⟨by rw [length_set_emptyChildren]; simp,
      wfTreeListB_set _ _ _ wfTreeListB_emptyChildren hxw⟩

theorem preserved_pair (a b : Nat) (x y : Node) (ha : a < 16) (hb : b < 16)
    (hne : ¬a = b) (hx : ¬x = .empty) (hy : ¬y = .empty)
    (hxh : hashFreeB x = true) (hxc : canonicalB x = true) (hxw : wfTreeB x = true)
    (hyh : hashFreeB y = true) (hyc : canonicalB y = true) (hyw : wfTreeB y = true) :
    hashFreeB (.branch ((Node.emptyChildren.set a x).set b y) none) = true ∧
    canonicalB (.branch ((Node.emptyChildren.set a x).set b y) none) = true ∧
    wfTreeB (.branch ((Node.emptyChildren.set a x).set b y) none) = true := by
  refine ⟨?_, ?_, ?_⟩
  · exact hashFreeListB_set _ _ _
      (hashFreeListB_set _ _ _ hashFreeListB_emptyChildren hxh) hyh
  · rw [canonicalB, Bool.and_eq_true]
    refine ⟨?_, canonicalListB_set _ _ _
      (canonicalListB_set _ _ _ canonicalListB_emptyChildren hxc) hyc⟩
    have := two_le_usedCount_pair a b x y ha hb hne hx hy
    simpa using this
  · rw [wfTreeB, Bool.and_eq_true]
    refine ⟨by simp [Node.emptyChildren], ?_⟩
    exact wfTreeListB_set _ _ _
      (wfTreeListB_set _ _ _ wfTreeListB_emptyChildren hxw) hyw

theorem preserved_ext (pfxN : Nibbles) (B : Node)
    (hwfpN : wfPfx pfxN.hexData = true)
    (hB : ∃ bcs bv, B = .branch bcs bv)
    (hBh : hashFreeB B = true) (hBc : canonicalB B = true)
    (hBw : wfTreeB B = true) :
    hashFreeB (.extension pfxN B) = true ∧
    canonicalB (.extension pfxN B) = true ∧
    wfTreeB (.extension pfxN B) = true := by
  obtain ⟨bcs, bv, rfl⟩ := hB
  refine ⟨hBh, ?_, ?_⟩
  · rw [show canonicalB (.extension pfxN (.branch bcs bv)) =
      (true && canonicalB (.branch bcs bv)) from rfl]
    simpa using hBc
  · rw [show wfTreeB (.extension pfxN (.branch bcs bv)) =
      (wfPfx pfxN.hexData && wfTreeB (.branch bcs bv)) from rfl,
      Bool.and_eq_true]
    exact ⟨hwfpN, hBw⟩

/-- `insert_at` with a terminated path preserves the §3.2 structural
invariants, full materialisation and path well-formedness, never returns
Empty, and maps branches to branches. -/
theorem insertAt_preserves (db : Store) (rh : Bytes) : ∀ (f1 : Nat) (n : Node)
    (p : Nibbles) (i : Nat) (v : Bytes) (pks : List Bytes) (m : Node),
    hashFreeB n = true → canonicalB n = true → wfTreeB n = true →
    wfLeafKey p.hexData = true → i < p.len →
    insertAt db rh f1 n p i v = (pks, rok m) →
    hashFreeB m = true ∧ canonicalB m = true ∧ wfTreeB m = true ∧
      ¬m = .empty ∧
      (∀ bcs bv, n = .branch bcs bv → ∃ bcs2 bv2, m = .branch bcs2 bv2) := by
  intro f1
  induction f1 with
  | zero =>
    intro n p i v pks m _ _ _ _ _ hins
    rw [insertAt_zero, Prod.mk.injEq] at hins
    exact absurd hins.2 (by simp [rok])
  | succ f ih =>
    intro n p i v pks m hhf hcan hwf hp hi hins
    cases n with
    | empty =>
      rw [insertAt_empty, Prod.mk.injEq] at hins
      have hm2 : Node.leaf (p.offset i) v = m := by simpa [rok] using hins.2
      subst hm2
      exact ⟨rfl, rfl, wfLeafKey_drop p.hexData hp i hi, by simp,
        fun bcs bv h => Node.noConfusion h⟩
    | leaf lk lv =>
      have hwfk : wfLeafKey lk.hexData = true := hwf
      have hwfpart : wfLeafKey (p.offset i).hexData = true :=
        wfLeafKey_drop p.hexData hp i hi
      by_cases hov : (p.offset i).commonPrefix lk = lk.len
      · rw [insertAt_leaf_over db rh f p i v lk lv hov, Prod.mk.injEq] at hins
        have hm2 : Node.leaf lk v = m := by simpa [rok] using hins.2
        subst hm2
        exact ⟨rfl, rfl, hwfk, by simp, fun bcs bv h => Node.noConfusion h⟩
      · have hm0ltpart : (p.offset i).commonPrefix lk < (p.offset i).len :=
          commonPrefix_lt_partLen (p.offset i) lk hwfpart hwfk hov
        have hm0lelk : (p.offset i).commonPrefix lk ≤ lk.len :=
          commonPrefixAux_le_right _ _
        have hlklen_eq : lk.len = lk.hexData.length := rfl
        have hpartlen_eq : (p.offset i).len = (p.offset i).hexData.length := rfl
        have hm0ltlk : (p.offset i).commonPrefix lk < lk.len := by omega
        have hnem := commonPrefixAux_getD_ne (p.offset i).hexData lk.hexData 16
          hm0ltpart hm0ltlk
        by_cases hpat : (p.offset i).nAt ((p.offset i).commonPrefix lk) = 16
        · have holm : ¬lk.nAt ((p.offset i).commonPrefix lk) = 16 := by
            intro hc
            exact hnem (hpat.trans hc.symm)
          have hu16 : lk.nAt ((p.offset i).commonPrefix lk) < 16 := by
            rcases Nat.lt_or_ge ((p.offset i).commonPrefix lk)
              (lk.hexData.length - 1) with hlt | hge
            · exact wfLeafKey_getD_lt _ hwfk _ hlt
            · exfalso
              apply holm
              rw [show lk.nAt ((p.offset i).commonPrefix lk) =
                  lk.hexData.getD ((p.offset i).commonPrefix lk) 16 from rfl,
                show (p.offset i).commonPrefix lk = lk.hexData.length - 1
                  from by omega]
              exact wfLeafKey_getD_last _ hwfk
          have hm1 : (p.offset i).commonPrefix lk + 1 < lk.hexData.length := by
            have hne1 : (p.offset i).commonPrefix lk ≠ lk.hexData.length - 1 := by
              intro hc
              apply holm
              rw [show lk.nAt ((p.offset i).commonPrefix lk) =
                  lk.hexData.getD ((p.offset i).commonPrefix lk) 16 from rfl, hc]
              exact wfLeafKey_getD_last _ hwfk
            omega
          have hL1wf : wfTreeB (.leaf
              (lk.offset ((p.offset i).commonPrefix lk + 1)) lv) = true :=
            wfLeafKey_drop lk.hexData hwfk _ hm1
          by_cases hm00 : (p.offset i).commonPrefix lk = 0
          · rw [insertAt_leaf_pterm0 db rh f p i v lk lv hov holm hpat hm00,
              Prod.mk.injEq] at hins
            have hm2 : Node.branch (Node.emptyChildren.set
                (lk.nAt ((p.offset i).commonPrefix lk))
                (.leaf (lk.offset ((p.offset i).commonPrefix lk + 1)) lv))
                (some v) = m := by
              simpa [rok] using hins.2
            subst hm2
            obtain ⟨hA, hB, hC⟩ := preserved_single_value
              (lk.nAt ((p.offset i).commonPrefix lk))
              (.leaf (lk.offset ((p.offset i).commonPrefix lk + 1)) lv) v hu16
              (by simp) rfl rfl hL1wf
            exact ⟨hA, hB, hC, by simp, fun bcs bv h => Node.noConfusion h⟩
          · rw [insertAt_leaf_pterm_ext db rh f p i v lk lv hov holm hpat hm00,
              Prod.mk.injEq] at hins
            have hm2 : Node.extension
                ((p.offset i).slice 0 ((p.offset i).commonPrefix lk))
                (.branch (Node.emptyChildren.set
                  (lk.nAt ((p.offset i).commonPrefix lk))
                  (.leaf (lk.offset ((p.offset i).commonPrefix lk + 1)) lv))
                  (some v)) = m := by
              simpa [rok] using hins.2
            subst hm2
            obtain ⟨hA, hB, hC⟩ := preserved_single_value
              (lk.nAt ((p.offset i).commonPrefix lk))
              (.leaf (lk.offset ((p.offset i).commonPrefix lk + 1)) lv) v hu16
              (by simp) rfl rfl hL1wf
            obtain ⟨hA2, hB2, hC2⟩ := preserved_ext _ _
              (by
                show wfPfx (((p.offset i).hexData.take
                  ((p.offset i).commonPrefix lk)).drop 0) = true
                rw [List.drop_zero]
                exact wfPfx_take _ _ hwfpart (by omega) (by omega))
              ⟨_, _, rfl⟩ hA hB hC
            exact ⟨hA2, hB2, hC2, by simp, fun bcs bv h => Node.noConfusion h⟩
        · have hpatm : (p.offset i).nAt ((p.offset i).commonPrefix lk) < 16 := by
            rcases Nat.lt_or_ge ((p.offset i).commonPrefix lk)
              ((p.offset i).hexData.length - 1) with hlt | hge
            · exact wfLeafKey_getD_lt _ hwfpart _ hlt
            · exfalso
              apply hpat
              rw [show (p.offset i).nAt ((p.offset i).commonPrefix lk) =
                  (p.offset i).hexData.getD ((p.offset i).commonPrefix lk) 16
                from rfl,
                show (p.offset i).commonPrefix lk =
                  (p.offset i).hexData.length - 1 from by omega]
              exact wfLeafKey_getD_last _ hwfpart
          have hm1p : (p.offset i).commonPrefix lk + 1 <
              (p.offset i).hexData.length := by
            have hne1 : (p.offset i).commonPrefix lk ≠
                (p.offset i).hexData.length - 1 := by
              intro hc
              apply hpat
              rw [show (p.offset i).nAt ((p.offset i).commonPrefix lk) =
                  (p.offset i).hexData.getD ((p.offset i).commonPrefix lk) 16
                from rfl, hc]
              exact wfLeafKey_getD_last _ hwfpart
            omega
          have hL2wf : wfTreeB (.leaf
              ((p.offset i).offset ((p.offset i).commonPrefix lk + 1)) v) = true :=
            wfLeafKey_drop (p.offset i).hexData hwfpart _ hm1p
          by_cases holm : lk.nAt ((p.offset i).commonPrefix lk) = 16
          · by_cases hm00 : (p.offset i).commonPrefix lk = 0
            · rw [insertAt_leaf_term0 db rh f p i v lk lv hov holm hpat hm00,
                Prod.mk.injEq] at hins
              have hm2 : Node.branch (Node.emptyChildren.set
                  ((p.offset i).nAt ((p.offset i).commonPrefix lk))
                  (.leaf ((p.offset i).offset ((p.offset i).commonPrefix lk + 1))
                    v)) (some lv) = m := by
                simpa [rok] using hins.2
              subst hm2
              obtain ⟨hA, hB, hC⟩ := preserved_single_value
                ((p.offset i).nAt ((p.offset i).commonPrefix lk))
                (.leaf ((p.offset i).offset ((p.offset i).commonPrefix lk + 1)) v)
                lv hpatm (by simp) rfl rfl hL2wf
              exact ⟨hA, hB, hC, by simp, fun bcs bv h => Node.noConfusion h⟩
            · rw [insertAt_leaf_term_ext db rh f p i v lk lv hov holm hpat hm00,
                Prod.mk.injEq] at hins
              have hm2 : Node.extension
                  ((p.offset i).slice 0 ((p.offset i).commonPrefix lk))
                  (.branch (Node.emptyChildren.set
                    ((p.offset i).nAt ((p.offset i).commonPrefix lk))
                    (.leaf ((p.offset i).offset
                      ((p.offset i).commonPrefix lk + 1)) v)) (some lv)) = m := by
                simpa [rok] using hins.2
              subst hm2
              obtain ⟨hA, hB, hC⟩ := preserved_single_value
                ((p.offset i).nAt ((p.offset i).commonPrefix lk))
                (.leaf ((p.offset i).offset ((p.offset i).commonPrefix lk + 1)) v)
                lv hpatm (by simp) rfl rfl hL2wf
              obtain ⟨hA2, hB2, hC2⟩ := preserved_ext _ _
                (by
                  show wfPfx (((p.offset i).hexData.take
                    ((p.offset i).commonPrefix lk)).drop 0) = true
                  rw [List.drop_zero]
                  exact wfPfx_take _ _ hwfpart (by omega) (by omega))
                ⟨_, _, rfl⟩ hA hB hC
              exact ⟨hA2, hB2, hC2, by simp, fun bcs bv h => Node.noConfusion h⟩
          · have hu16 : lk.nAt ((p.offset i).commonPrefix lk) < 16 := by
              rcases Nat.lt_or_ge ((p.offset i).commonPrefix lk)
                (lk.hexData.length - 1) with hlt | hge
              · exact wfLeafKey_getD_lt _ hwfk _ hlt
              · exfalso
                apply holm
                rw [show lk.nAt ((p.offset i).commonPrefix lk) =
                    lk.hexData.getD ((p.offset i).commonPrefix lk) 16 from rfl,
                  show (p.offset i).commonPrefix lk = lk.hexData.length - 1
                    from by omega]
                exact wfLeafKey_getD_last _ hwfk
            have hm1 : (p.offset i).commonPrefix lk + 1 < lk.hexData.length := by
              have hne1 : (p.offset i).commonPrefix lk ≠
                  lk.hexData.length - 1 := by
                intro hc
                apply holm
                rw [show lk.nAt ((p.offset i).commonPrefix lk) =
                    lk.hexData.getD ((p.offset i).commonPrefix lk) 16 from rfl, hc]
                exact wfLeafKey_getD_last _ hwfk
              omega
            have hL1wf : wfTreeB (.leaf
                (lk.offset ((p.offset i).commonPrefix lk + 1)) lv) = true :=
              wfLeafKey_drop lk.hexData hwfk _ hm1
            have hneab : ¬lk.nAt ((p.offset i).commonPrefix lk) =
                (p.offset i).nAt ((p.offset i).commonPrefix lk) :=
              fun hc => hnem hc.symm
            by_cases hm00 : (p.offset i).commonPrefix lk = 0
            · rw [insertAt_leaf_child0 db rh f p i v lk lv hov holm hpat hm00,
                Prod.mk.injEq] at hins
              have hm2 : Node.branch ((Node.emptyChildren.set
                  (lk.nAt ((p.offset i).commonPrefix lk))
                  (.leaf (lk.offset ((p.offset i).commonPrefix lk + 1)) lv)).set
                  ((p.offset i).nAt ((p.offset i).commonPrefix lk))
                  (.leaf ((p.offset i).offset ((p.offset i).commonPrefix lk + 1))
                    v)) none = m := by
                simpa [rok] using hins.2
              subst hm2
              obtain ⟨hA, hB, hC⟩ := preserved_pair
                (lk.nAt ((p.offset i).commonPrefix lk))
                ((p.offset i).nAt ((p.offset i).commonPrefix lk))
                (.leaf (lk.offset ((p.offset i).commonPrefix lk + 1)) lv)
                (.leaf ((p.offset i).offset ((p.offset i).commonPrefix lk + 1)) v)
                hu16 hpatm hneab
                (by simp) (by simp) rfl rfl hL1wf rfl rfl hL2wf
              exact ⟨hA, hB, hC, by simp, fun bcs bv h => Node.noConfusion h⟩
            · rw [insertAt_leaf_child_ext db rh f p i v lk lv hov holm hpat hm00,
                Prod.mk.injEq] at hins
              have hm2 : Node.extension
                  ((p.offset i).slice 0 ((p.offset i).commonPrefix lk))
                  (.branch ((Node.emptyChildren.set
                    (lk.nAt ((p.offset i).commonPrefix lk))
                    (.leaf (lk.offset ((p.offset i).commonPrefix lk + 1)) lv)).set
                    ((p.offset i).nAt ((p.offset i).commonPrefix lk))
                    (.leaf ((p.offset i).offset
                      ((p.offset i).commonPrefix lk + 1)) v)) none) = m := by
                simpa [rok] using hins.2
              subst hm2
              obtain ⟨hA, hB, hC⟩ := preserved_pair
                (lk.nAt ((p.offset i).commonPrefix lk))
                ((p.offset i).nAt ((p.offset i).commonPrefix lk))
                (.leaf (lk.offset ((p.offset i).commonPrefix lk + 1)) lv)
                (.leaf ((p.offset i).offset ((p.offset i).commonPrefix lk + 1)) v)
                hu16 hpatm hneab
                (by simp) (by simp) rfl rfl hL1wf rfl rfl hL2wf
              obtain ⟨hA2, hB2, hC2⟩ := preserved_ext _ _
                (by
                  show wfPfx (((p.offset i).hexData.take
                    ((p.offset i).commonPrefix lk)).drop 0) = true
                  rw [List.drop_zero]
                  exact wfPfx_take _ _ hwfpart (by omega) (by omega))
                ⟨_, _, rfl⟩ hA hB hC
              exact ⟨hA2, hB2, hC2, by simp, fun bcs bv h => Node.noConfusion h⟩
    | branch cs vv =>
      obtain ⟨hcnt, hcanl⟩ := canonicalB_branch cs vv hcan
      obtain ⟨hlen, hwfl⟩ := wfTreeB_branch cs vv hwf
      by_cases hterm : (p.offset i).nAt 0 = 16
      · rw [insertAt_branch_term db rh f p i v cs vv hterm,
          Prod.mk.injEq] at hins
        have hm2 : Node.branch cs (some v) = m := by simpa [rok] using hins.2
        subst hm2
        refine ⟨hhf, ?_, ?_, by simp, fun bcs2 bv2 h => ⟨cs, some v, rfl⟩⟩
        · rw [canonicalB, Bool.and_eq_true]
          refine ⟨?_, hcanl⟩
          rcases vv with _ | w
          · simp only [Option.isSome_none] at hcnt ⊢
            simp only [decide_eq_true_eq]
            have h2 : 2 ≤ usedCount cs := by simpa using hcnt
            simp
            omega
          · simp only [decide_eq_true_eq]
            simpa using hcnt
        · exact hwf
      · have hidx : (p.offset i).nAt 0 < 16 := by
          have h16 : (p.offset i).nAt 0 ≤ 16 :=
            nAt_le_of_path p i (wfLeafKey_le p.hexData hp)
          omega
        have hidxlen : (p.offset i).nAt 0 < cs.length := by omega
        have hi2 : i + 1 < p.len := by
          apply wfLeafKey_step p.hexData hp i hi
          rw [show p.hexData.getD i 16 = (p.offset i).nAt 0 from by
            rw [nAt_getD, Nat.add_zero]]
          exact hterm
        rw [insertAt_branch_step db rh f p i v cs vv hterm] at hins
        rcases hresi : insertAt db rh f (cs.getD ((p.offset i).nAt 0) .empty)
          p (i + 1) v with ⟨pk1, r1⟩
        rw [hresi] at hins
        rcases r1 with _ | r1
        · have hins2 : ((pk1, none) : List Bytes × TRes Node) = (pks, rok m) := hins
          rw [Prod.mk.injEq] at hins2
          exact absurd hins2.2 (by simp [rok])
        · rcases r1 with e | mc
          · have hins2 : ((pk1, some (.error e)) : List Bytes × TRes Node) =
                (pks, rok m) := hins
            rw [Prod.mk.injEq] at hins2
            exact absurd hins2.2 (by simp [rok])
          · have hins2 : ((pk1, rok (Node.branch
                (cs.set ((p.offset i).nAt 0) mc) vv)) :
                List Bytes × TRes Node) = (pks, rok m) := hins
            rw [Prod.mk.injEq] at hins2
            have hm2 : Node.branch (cs.set ((p.offset i).nAt 0) mc) vv = m := by
              simpa [rok] using hins2.2
            subst hm2
            obtain ⟨hch, hcc, hcw, hcne, -⟩ := ih
              (cs.getD ((p.offset i).nAt 0) .empty) p (i + 1) v pk1 mc
              (hashFreeListB_getD cs (hashFreeB_branch cs vv hhf) _)
              (canonicalListB_getD cs hcanl _)
              (wfTreeListB_getD cs hwfl _)
              hp hi2 hresi
            refine ⟨?_, ?_, ?_, by simp, fun bcs2 bv2 h => ⟨_, _, rfl⟩⟩
            · exact hashFreeListB_set cs _ mc (hashFreeB_branch cs vv hhf) hch
            · rw [canonicalB, Bool.and_eq_true]
              refine ⟨?_, canonicalListB_set cs _ mc hcanl hcc⟩
              have hle := usedCount_le_set cs ((p.offset i).nAt 0) mc hcne hidxlen
              simp only [decide_eq_true_eq] at hcnt ⊢
              omega
            · rw [wfTreeB, Bool.and_eq_true]
              exact ⟨by rw [List.length_set]; simpa using hlen,
                wfTreeListB_set cs _ mc hwfl hcw⟩
    | extension pfx child =>
      have hshape : ∃ bcs bv, child = .branch bcs bv := by
        cases child with
        | branch bcs bv => exact ⟨bcs, bv, rfl⟩
        | hash hh =>
          exfalso
          rw [hashFreeB, hashFreeB] at hhf
          simp at hhf
        | empty => exfalso; simp [canonicalB] at hcan
        | leaf _ _ => exfalso; simp [canonicalB] at hcan
        | extension _ _ => exfalso; simp [canonicalB] at hcan
      obtain ⟨bcs, bv, rfl⟩ := hshape
      have hwfp : wfPfx pfx.hexData = true := by
        have h' := hwf
        rw [show wfTreeB (.extension pfx (.branch bcs bv)) =
            (wfPfx pfx.hexData && wfTreeB (.branch bcs bv)) from rfl] at h'
        simp only [Bool.and_eq_true] at h'
        exact h'.1
      have hwfc : wfTreeB (.branch bcs bv) = true := by
        have h' := hwf
        rw [show wfTreeB (.extension pfx (.branch bcs bv)) =
            (wfPfx pfx.hexData && wfTreeB (.branch bcs bv)) from rfl] at h'
        simp only [Bool.and_eq_true] at h'
        exact h'.2
      have hcanc : canonicalB (.branch bcs bv) = true := by
        have h' := hcan
        rw [show canonicalB (.extension pfx (.branch bcs bv)) =
            (true && canonicalB (.branch bcs bv)) from rfl] at h'
        simpa using h'
      have hhfc : hashFreeB (.branch bcs bv) = true := hhf
      have hpne := wfPfx_ne_nil pfx.hexData hwfp
      have hppos : 0 < pfx.hexData.length := List.length_pos_of_ne_nil hpne
      have hpfxlen_eq : pfx.len = pfx.hexData.length := rfl
      by_cases hm0z : (p.offset i).commonPrefix pfx = 0
      · exact And.intro
          ((insertAt_ext_div_preserves db rh (f + 1) pfx bcs bv p i v pks m
            hwfp hhfc hcanc hwfc hp hi hm0z hins).2.1)
          (And.intro
            ((insertAt_ext_div_preserves db rh (f + 1) pfx bcs bv p i v pks m
              hwfp hhfc hcanc hwfc hp hi hm0z hins).2.2.1)
            (And.intro
              ((insertAt_ext_div_preserves db rh (f + 1) pfx bcs bv p i v pks m
                hwfp hhfc hcanc hwfc hp hi hm0z hins).2.2.2)
              (And.intro
                (by
                  obtain ⟨b2, v2, hb⟩ := (insertAt_ext_div_preserves db rh (f + 1)
                    pfx bcs bv p i v pks m hwfp hhfc hcanc hwfc hp hi hm0z hins).1
                  rw [hb]
                  simp)
                (fun bcs2 bv2 h => Node.noConfusion h))))
      · by_cases hm0len : (p.offset i).commonPrefix pfx = pfx.len
        · have hle0 : (p.offset i).commonPrefix pfx ≤ pfx.len := le_of_eq hm0len
          have hi2 := path_step_common p hp i hi pfx hwfp (by omega) hle0
          rw [insertAt_ext_match db rh f p i v pfx (.branch bcs bv) hm0z
            hm0len] at hins
          rcases hresi : insertAt db rh f (.branch bcs bv) p
            (i + (p.offset i).commonPrefix pfx) v with ⟨pk1, r1⟩
          rw [hresi] at hins
          rcases r1 with _ | r1
          · have hins2 : ((pk1, none) : List Bytes × TRes Node) =
                (pks, rok m) := hins
            rw [Prod.mk.injEq] at hins2
            exact absurd hins2.2 (by simp [rok])
          · rcases r1 with e | mc
            · have hins2 : ((pk1, some (.error e)) : List Bytes × TRes Node) =
                  (pks, rok m) := hins
              rw [Prod.mk.injEq] at hins2
              exact absurd hins2.2 (by simp [rok])
            · have hins2 : ((pk1, rok (Node.extension pfx mc)) :
                  List Bytes × TRes Node) = (pks, rok m) := hins
              rw [Prod.mk.injEq] at hins2
              have hm2 : Node.extension pfx mc = m := by simpa [rok] using hins2.2
              subst hm2
              obtain ⟨hch, hcc, hcw, -, hsh⟩ := ih (.branch bcs bv) p
                (i + (p.offset i).commonPrefix pfx) v pk1 mc hhfc hcanc hwfc
                hp hi2 hresi
              obtain ⟨hA, hB, hC⟩ := preserved_ext pfx mc hwfp
                (hsh bcs bv rfl) hch hcc hcw
              exact ⟨hA, hB, hC, by simp, fun bcs2 bv2 h => Node.noConfusion h⟩
        · have hm0le : (p.offset i).commonPrefix pfx ≤ pfx.len :=
            commonPrefixAux_le_right _ _
          have hm0lt : (p.offset i).commonPrefix pfx < pfx.len := by omega
          have hi2 := path_step_common p hp i hi pfx hwfp (by omega) hm0le
          have hcp0 : (p.offset (i + (p.offset i).commonPrefix pfx)).commonPrefix
              (pfx.offset ((p.offset i).commonPrefix pfx)) = 0 := by
            rw [offset_offset p i ((p.offset i).commonPrefix pfx)]
            exact commonPrefixAux_drop (p.offset i).hexData pfx.hexData
          rw [insertAt_ext_split db rh f p i v pfx (.branch bcs bv) hm0z
            hm0len] at hins
          rcases hresi : insertAt db rh f
            (.extension (pfx.offset ((p.offset i).commonPrefix pfx))
              (.branch bcs bv)) p (i + (p.offset i).commonPrefix pfx) v
            with ⟨pk1, r1⟩
          rw [hresi] at hins
          rcases r1 with _ | r1
          · have hins2 : ((pk1, none) : List Bytes × TRes Node) =
                (pks, rok m) := hins
            rw [Prod.mk.injEq] at hins2
            exact absurd hins2.2 (by simp [rok])
          · rcases r1 with e | mc
            · have hins2 : ((pk1, some (.error e)) : List Bytes × TRes Node) =
                  (pks, rok m) := hins
              rw [Prod.mk.injEq] at hins2
              exact absurd hins2.2 (by simp [rok])
            · have hins2 : ((pk1, rok (Node.extension
                  (pfx.slice 0 ((p.offset i).commonPrefix pfx)) mc)) :
                  List Bytes × TRes Node) = (pks, rok m) := hins
              rw [Prod.mk.injEq] at hins2
              have hm2 : Node.extension
                  (pfx.slice 0 ((p.offset i).commonPrefix pfx)) mc = m := by
                simpa [rok] using hins2.2
              subst hm2
              obtain ⟨hbr, hch, hcc, hcw⟩ := insertAt_ext_div_preserves db rh f
                (pfx.offset ((p.offset i).commonPrefix pfx)) bcs bv p
                (i + (p.offset i).commonPrefix pfx) v pk1 mc
                (wfPfx_drop_pfx pfx.hexData _ hwfp (by omega))
                hhfc hcanc hwfc hp hi2 hcp0 hresi
              obtain ⟨hA, hB, hC⟩ := preserved_ext _ mc
                (by
                  show wfPfx ((pfx.hexData.take
                    ((p.offset i).commonPrefix pfx)).drop 0) = true
                  rw [List.drop_zero]
                  exact wfPfx_take_pfx pfx.hexData _ hwfp (by omega) hppos)
                hbr hch hcc hcw
              exact ⟨hA, hB, hC, by simp, fun bcs2 bv2 h => Node.noConfusion h⟩
    | hash hn =>
      rw [hashFreeB] at hhf
      exact absurd hhf (by simp)

/-- C4 (amended): `put` with a non-empty value preserves the §3.2 structural
invariants of a fully materialised canonical trie.  The claim as stated —
that *any* put/del sequence followed by commit leaves no violating node — is
false: `del` can leave a branch with no value and exactly one non-Empty
child (see the counterexample), and `commit` faithfully persists and
re-materialises that shape. -/
theorem claim4_put_preserves_canonical (t : Trie) (key v : Bytes) (f1 : Nat)
    (t1 : Trie) (hv : ¬v = [])
    (hhf : hashFreeB t.root = true) (hcan : canonicalB t.root = true)
    (hwf : wfTreeB t.root = true) (hkey : BytesWF key)
    (hput : putT f1 t key v = some t1) :
    hashFreeB t1.root = true ∧ canonicalB t1.root = true ∧
      wfTreeB t1.root = true := by
  unfold putT at hput
  rw [if_neg hv] at hput
  rcases hresi : insertAt t.db t.rootHash f1 t.root (Nibbles.fromRaw key true) 0 v
    with ⟨pk1, r1⟩
  rw [hresi] at hput
  rcases r1 with _ | r1
  · exact Option.noConfusion (show (none : Option Trie) = some t1 from hput)
  · rcases r1 with e | m
    · exact Option.noConfusion (show (none : Option Trie) = some t1 from hput)
    · have hput2 : some (Trie.mk m t.rootHash t.db t.cache
          (pk1.foldl setInsert t.passingKeys) t.genKeys) = some t1 := hput
      have ht1 : t1 = Trie.mk m t.rootHash t.db t.cache
          (pk1.foldl setInsert t.passingKeys) t.genKeys := by
        injection hput2 with h
        exact h.symm
      subst ht1
      have hp0 : wfLeafKey (Nibbles.fromRaw key true).hexData = true :=
        wfLeafKey_fromRaw key hkey
      have hi0 : 0 < (Nibbles.fromRaw key true).len :=
        List.length_pos_of_ne_nil (wfLeafKey_ne_nil _ hp0)
      obtain ⟨hA, hB, hC, -, -⟩ := insertAt_preserves t.db t.rootHash f1 t.root
        (Nibbles.fromRaw key true) 0 v pk1 m hhf hcan hwf hp0 hi0 hresi
      exact ⟨hA, hB, hC⟩

/-- C4 counterexample: from an empty trie, `put(0x0534, [9]); put(0x05, [7]);
del(0x05); commit()` leaves — both in memory and re-materialised from the
store — `Extension([0,5], Branch{3: Leaf([4,16],[9]), value: None})`: a
branch with no value and exactly one non-Empty child, violating §3.2. -/
theorem claim4_counterexample :
    ((((putT 9 (newTrie (fun b => b) []) [5, 52] [9]).bind
      (fun t1 => putT 9 t1 [5] [7])).bind
      (fun t2 => (delT 9 t2 [5]).map (fun q => q.1))).bind
      (fun t3 => (commitT (fun b => b) 9 t3).bind
        (fun q => q.2.map (fun t4 => (t4.root, canonicalB t4.root))))) =
      some (.extension ⟨[0, 5]⟩ (.branch (Node.emptyChildren.set 3
        (.leaf ⟨[4, 16]⟩ [9])) none), false) ∧
    usedCount (Node.emptyChildren.set 3 (.leaf ⟨[4, 16]⟩ [9])) = 1 := by
  constructor
  · decide
  · decide

theorem claim4_witness :
    hashFreeB (Node.leaf (Nibbles.fromRaw [5] true) [7]) = true ∧
    canonicalB (Node.leaf (Nibbles.fromRaw [5] true) [7]) = true ∧
    wfTreeB (Node.leaf (Nibbles.fromRaw [5] true) [7]) = true :=
  claim4_put_preserves_canonical ⟨Node.empty, [0], [], [], [], []⟩ [5] [7] 3
    ⟨.leaf (Nibbles.fromRaw [5] true) [7], [0], [], [], [], []⟩
    (by decide) (by decide) (by decide) (by decide) (by decide) (by decide)

/-! ## RLP codec lemmas -/

theorem beVal_append_singleton (l : Bytes) (a : Nat) :
    beVal (l ++ [a]) = beVal l * 256 + a := by
  unfold beVal
  rw [List.foldl_append]
  rfl

theorem natBEAux_val : ∀ (f n : Nat), n ≤ f → beVal (natBEAux f n) = n := by
  intro f
  induction f with
  | zero =>
    intro n hn
    interval_cases n
    rfl
  | succ f ih =>
    intro n hn
    cases n with
    | zero => rfl
    | succ k =>
      rw [show natBEAux (f + 1) (k + 1) =
        natBEAux f ((k + 1) / 256) ++ [(k + 1) % 256] from rfl]
      rw [beVal_append_singleton]
      rw [ih ((k + 1) / 256) (by omega)]
      omega

theorem natBE_val (n : Nat) : beVal (natBE n) = n := natBEAux_val n n (le_refl n)

theorem natBEAux_ne_nil (f n : Nat) (hf : 1 ≤ f) (hn : 1 ≤ n) :
    natBEAux f n ≠ [] := by
  cases f with
  | zero => omega
  | succ f =>
    cases n with
    | zero => omega
    | succ k =>
      rw [show natBEAux (f + 1) (k + 1) =
        natBEAux f ((k + 1) / 256) ++ [(k + 1) % 256] from rfl]
      simp

theorem natBE_ne_nil (n : Nat) (hn : 1 ≤ n) : natBE n ≠ [] :=
  natBEAux_ne_nil n n hn hn

theorem natBEAux_len : ∀ (k f n : Nat), n < 256 ^ k → (natBEAux f n).length ≤ k := by
  intro k
  induction k with
  | zero =>
    intro f n hn
    simp at hn
    subst hn
    cases f <;> simp [natBEAux]
  | succ k ih =>
    intro f n hn
    cases f with
    | zero => cases n <;> simp [natBEAux]
    | succ f =>
      cases n with
      | zero => simp [natBEAux]
      | succ m =>
        rw [show natBEAux (f + 1) (m + 1) =
          natBEAux f ((m + 1) / 256) ++ [(m + 1) % 256] from rfl]
        rw [List.length_append]
        have hlt : (m + 1) / 256 < 256 ^ k := by
          rw [Nat.div_lt_iff_lt_mul (by omega)]
          calc m + 1 < 256 ^ (k + 1) := hn
          _ = 256 ^ k * 256 := by ring
        have := ih f ((m + 1) / 256) hlt
        simp only [List.length_singleton]
        omega

theorem natBE_len (k n : Nat) (hn : n < 256 ^ k) : (natBE n).length ≤ k :=
  natBEAux_len k n n hn

theorem rlpHeader_cons (f : Nat) (rest : Bytes) :
    rlpHeader (f :: rest) =
      (if f < 128 then some (false, 0, 1)
       else if f < 184 then some (false, 1, f - 128)
       else if f < 192 then
         (if f - 183 ≤ rest.length then some (false, 1 + (f - 183), beVal (rest.take (f - 183)))
          else none)
       else if f < 248 then some (true, 1, f - 192)
       else
         (if f - 247 ≤ rest.length then some (true, 1 + (f - 247), beVal (rest.take (f - 247)))
          else none)) := rfl

theorem rlpStr_spec (s : Bytes) (hs : s.length < 256 ^ 8) :
    ∃ hl, rlpHeader (rlpStr s) = some (false, hl, s.length) ∧
      (rlpStr s).length = max 1 (hl + s.length) ∧
      (rlpStr s).drop hl = s ∧ hl ≤ (rlpStr s).length := by
  match s with
  | [] =>
    refine ⟨1, ?_, ?_, ?_, ?_⟩ <;> rfl
  | [b] =>
    by_cases hb : b < 128
    · have hrw : rlpStr [b] = [b] := by simp [rlpStr, hb]
      refine ⟨0, ?_, ?_, ?_, ?_⟩ <;> rw [hrw]
      · rw [rlpHeader_cons, if_pos hb]
        rfl
      · rfl
      · rfl
      · simp
    · have hrw : rlpStr [b] = [129, b] := by simp [rlpStr, hb]
      refine ⟨1, ?_, ?_, ?_, ?_⟩ <;> rw [hrw]
      · rw [rlpHeader_cons, if_neg (by omega), if_pos (by omega)]
        rfl
      · rfl
      · rfl
      · simp
  | a :: c :: t =>
    have hrw : rlpStr (a :: c :: t) =
        (if (a :: c :: t).length < 56 then (128 + (a :: c :: t).length) :: (a :: c :: t)
         else (183 + (natBE (a :: c :: t).length).length) ::
           (natBE (a :: c :: t).length ++ (a :: c :: t))) := rfl
    set s := a :: c :: t with hsdef
    have hs2 : 2 ≤ s.length := by rw [hsdef]; simp
    by_cases hlen : s.length < 56
    · rw [if_pos hlen] at hrw
      refine ⟨1, ?_, ?_, ?_, ?_⟩ <;> rw [hrw]
      · rw [rlpHeader_cons, if_neg (by omega), if_pos (by omega)]
        simp
      · simp; omega
      · simp
      · simp
    · rw [if_neg hlen] at hrw
      have hll1 : 1 ≤ (natBE s.length).length := by
        have := natBE_ne_nil s.length (by omega)
        cases hne : natBE s.length with
        | nil => exact absurd hne this
        | cons x xs => simp [hne]
      have hll8 : (natBE s.length).length ≤ 8 := natBE_len 8 s.length hs
      refine ⟨1 + (natBE s.length).length, ?_, ?_, ?_, ?_⟩ <;> rw [hrw]
      · rw [rlpHeader_cons, if_neg (by omega), if_neg (by omega), if_pos (by omega)]
        have htk : (natBE s.length ++ s).take (183 + (natBE s.length).length - 183) =
            natBE s.length := by
          rw [show 183 + (natBE s.length).length - 183 = (natBE s.length).length by omega]
          exact List.take_left _ _
        rw [if_pos (by simp)]
        rw [htk, natBE_val]
        rw [show 183 + (natBE s.length).length - 183 = (natBE s.length).length by omega]
      · simp; omega
      · rw [show (1 : Nat) + (natBE s.length).length = (natBE s.length).length + 1 by omega]
        rw [List.drop_succ_cons]
        exact List.drop_left _ _
      · simp; omega

theorem rlpList_spec (p : Bytes) (hp : p.length < 256 ^ 8) :
    ∃ hl, rlpHeader (rlpList p) = some (true, hl, p.length) ∧
      (rlpList p).length = hl + p.length ∧
      (rlpList p).drop hl = p ∧ 1 ≤ hl := by
  by_cases hlen : p.length < 56
  · have hrw : rlpList p = (192 + p.length) :: p := by
      unfold rlpList; rw [if_pos hlen]
    refine ⟨1, ?_, ?_, ?_, ?_⟩
    · rw [hrw, rlpHeader_cons, if_neg (by omega), if_neg (by omega), if_neg (by omega),
        if_pos (by omega)]
      simp
    · rw [hrw]; simp; omega
    · rw [hrw]; simp
    · omega
  · have hrw : rlpList p =
        (247 + (natBE p.length).length) :: (natBE p.length ++ p) := by
      unfold rlpList; rw [if_neg hlen]; rfl
    have hll1 : 1 ≤ (natBE p.length).length := by
      have := natBE_ne_nil p.length (by omega)
      cases hne : natBE p.length with
      | nil => exact absurd hne this
      | cons x xs => simp [hne]
    refine ⟨1 + (natBE p.length).length, ?_, ?_, ?_, ?_⟩
    · rw [hrw, rlpHeader_cons, if_neg (by omega), if_neg (by omega), if_neg (by omega),
        if_neg (by omega)]
      have htk : (natBE p.length ++ p).take (247 + (natBE p.length).length - 247) =
          natBE p.length := by
        rw [show 247 + (natBE p.length).length - 247 = (natBE p.length).length by omega]
        exact List.take_left _ _
      rw [if_pos (by simp)]
      rw [htk, natBE_val]
      rw [show 247 + (natBE p.length).length - 247 = (natBE p.length).length by omega]
    · rw [hrw]; simp; omega
    · rw [hrw]
      rw [show (1 : Nat) + (natBE p.length).length = (natBE p.length).length + 1 by omega]
      rw [List.drop_succ_cons]
      exact List.drop_left _ _
    · omega

/-- Decoding the payload of an encoded string item returns the string. -/
theorem rlpData_rlpStr (s : Bytes) (hs : s.length < 256 ^ 8) :
    rlpData (rlpStr s) = some s := by
  obtain ⟨hl, hhd, hlen, hdrop, _⟩ := rlpStr_spec s hs
  unfold rlpData
  rw [hhd]
  have hlen2 : (rlpStr s).length = hl + s.length := by
    rcases Nat.eq_zero_or_pos hl with h0 | hpos
    · subst h0
      have hss : rlpStr s = s := by simpa using hdrop
      rw [hss]
      simp
    · omega
  show (if (rlpStr s).length = hl + s.length then
    some (((rlpStr s).drop hl).take s.length) else none) = some s
  rw [if_pos hlen2, hdrop]
  have hts : s.take s.length = s := by simp
  rw [hts]

theorem rlpItemLen_rlpStr (s : Bytes) (hs : s.length < 256 ^ 8) :
    rlpItemLen (rlpStr s) = some (rlpStr s).length := by
  obtain ⟨hl, hhd, hlen, _, _⟩ := rlpStr_spec s hs
  unfold rlpItemLen
  rw [hhd, hlen]

theorem rlpItemLen_rlpList (p : Bytes) (hp : p.length < 256 ^ 8) :
    rlpItemLen (rlpList p) = some (rlpList p).length := by
  obtain ⟨hl, hhd, hlen, _, hl1⟩ := rlpList_spec p hp
  unfold rlpItemLen
  rw [hhd]
  show some (max 1 (hl + p.length)) = some (rlpList p).length
  rw [hlen]
  congr 1
  omega

theorem rlpStr_ne_nil (s : Bytes) : rlpStr s ≠ [] := by
  match s with
  | [] => simp [rlpStr]
  | [b] => by_cases hb : b < 128 <;> simp [rlpStr, hb]
  | a :: c :: t =>
    have hrw : rlpStr (a :: c :: t) =
        (if (a :: c :: t).length < 56 then (128 + (a :: c :: t).length) :: (a :: c :: t)
         else (183 + (natBE (a :: c :: t).length).length) ::
           (natBE (a :: c :: t).length ++ (a :: c :: t))) := rfl
    rw [hrw]
    split <;> simp

theorem rlpList_ne_nil (p : Bytes) : rlpList p ≠ [] := by
  unfold rlpList
  split <;> simp

theorem length_le_rlpStr (s : Bytes) : s.length ≤ (rlpStr s).length := by
  match s with
  | [] => simp [rlpStr]
  | [b] => by_cases hb : b < 128 <;> simp [rlpStr, hb]
  | a :: c :: t =>
    have hrw : rlpStr (a :: c :: t) =
        (if (a :: c :: t).length < 56 then (128 + (a :: c :: t).length) :: (a :: c :: t)
         else (183 + (natBE (a :: c :: t).length).length) ::
           (natBE (a :: c :: t).length ++ (a :: c :: t))) := rfl
    rw [hrw]
    split <;> simp <;> omega

theorem length_le_rlpList (p : Bytes) : p.length ≤ (rlpList p).length := by
  unfold rlpList
  split <;> simp <;> omega

/-- A parsed header survives appending a suffix: all header information lives
in a prefix of the item. -/
theorem rlpHeader_append (b X : Bytes) (fl : Bool) (hl pl : Nat)
    (h : rlpHeader b = some (fl, hl, pl)) :
    rlpHeader (b ++ X) = some (fl, hl, pl) := by
  match b with
  | [] => simp [rlpHeader] at h
  | f :: rest =>
    rw [rlpHeader_cons] at h
    rw [List.cons_append, rlpHeader_cons]
    by_cases h1 : f < 128
    · rw [if_pos h1] at h; rw [if_pos h1]; exact h
    · rw [if_neg h1] at h; rw [if_neg h1]
      by_cases h2 : f < 184
      · rw [if_pos h2] at h; rw [if_pos h2]; exact h
      · rw [if_neg h2] at h; rw [if_neg h2]
        by_cases h3 : f < 192
        · rw [if_pos h3] at h; rw [if_pos h3]
          by_cases h4 : f - 183 ≤ rest.length
          · rw [if_pos h4] at h
            rw [if_pos (by simp; omega)]
            rw [List.take_append_eq_append_take,
              show f - 183 - rest.length = 0 by omega, List.take_zero,
              List.append_nil]
            exact h
          · rw [if_neg h4] at h; exact absurd h (by simp)
        · rw [if_neg h3] at h; rw [if_neg h3]
          by_cases h5 : f < 248
          · rw [if_pos h5] at h; rw [if_pos h5]; exact h
          · rw [if_neg h5] at h; rw [if_neg h5]
            by_cases h6 : f - 247 ≤ rest.length
            · rw [if_pos h6] at h
              rw [if_pos (by simp; omega)]
              rw [List.take_append_eq_append_take,
                show f - 247 - rest.length = 0 by omega, List.take_zero,
                List.append_nil]
              exact h
            · rw [if_neg h6] at h; exact absurd h (by simp)

theorem rlpItemLen_append (b X : Bytes) (n : Nat)
    (h : rlpItemLen b = some n) :
    rlpItemLen (b ++ X) = some n := by
  unfold rlpItemLen at h ⊢
  match hh : rlpHeader b with
  | none => rw [hh] at h; exact absurd h (by simp)
  | some (fl, hl, pl) =>
    rw [hh] at h
    rw [rlpHeader_append b X fl hl pl hh]
    exact h

/-- A self-delimiting RLP item: non-empty, and its parsed total length is its
own length. -/
def selfDelim (b : Bytes) : Prop := rlpItemLen b = some b.length ∧ b ≠ []

theorem selfDelim_rlpStr (s : Bytes) (hs : s.length < 256 ^ 8) :
    selfDelim (rlpStr s) := ⟨rlpItemLen_rlpStr s hs, rlpStr_ne_nil s⟩

theorem selfDelim_rlpList (p : Bytes) (hp : p.length < 256 ^ 8) :
    selfDelim (rlpList p) := ⟨rlpItemLen_rlpList p hp, rlpList_ne_nil p⟩

theorem rlpItemsF_succ_cons (f x : Nat) (xs : Bytes) :
    rlpItemsF (f + 1) (x :: xs) =
      (match rlpItemLen (x :: xs) with
       | none => none
       | some n =>
         if n ≤ (x :: xs).length then
           match rlpItemsF f ((x :: xs).drop n) with
           | none => none
           | some items => some ((x :: xs).take n :: items)
         else none) := rfl

/-- Splitting a concatenation of self-delimiting items recovers the items. -/
theorem rlpItemsF_step (f : Nat) (b : Bytes) (hb : b ≠ []) (n : Nat)
    (hn : rlpItemLen b = some n) :
    rlpItemsF (f + 1) b =
      (if n ≤ b.length then
        match rlpItemsF f (b.drop n) with
        | none => none
        | some items => some (b.take n :: items)
       else none) := by
  match b with
  | [] => exact absurd rfl hb
  | x :: xs => rw [rlpItemsF_succ_cons, hn]

/-- Splitting a concatenation of self-delimiting items recovers the items. -/
theorem rlpItemsF_flatten : ∀ (f : Nat) (pieces : List Bytes),
    (∀ pc ∈ pieces, selfDelim pc) →
    pieces.flatten.length ≤ f →
    rlpItemsF f pieces.flatten = some pieces := by
  intro f
  induction f with
  | zero =>
    intro pieces hsd hlen
    cases pieces with
    | nil => rfl
    | cons pc rest =>
      have h1 := (hsd pc (by simp)).2
      have hple : pc.length ≤ ((pc :: rest).flatten).length := by simp
      have hpz : pc.length = 0 := by omega
      exact absurd (List.eq_nil_of_length_eq_zero hpz) h1
  | succ f ih =>
    intro pieces hsd hlen
    cases pieces with
    | nil => rfl
    | cons pc rest =>
      have hflat : (pc :: rest).flatten = pc ++ rest.flatten := by simp
      obtain ⟨hil, hne⟩ := hsd pc (by simp)
      have hpc1 : 1 ≤ pc.length := by
        cases pc with
        | nil => exact absurd rfl hne
        | cons a t => simp
      have hbne : pc ++ rest.flatten ≠ [] := by
        intro hx
        exact hne (List.append_eq_nil.mp hx).1
      rw [hflat,
        rlpItemsF_step f (pc ++ rest.flatten) hbne pc.length
          (rlpItemLen_append pc rest.flatten pc.length hil)]
      have hble : pc.length ≤ (pc ++ rest.flatten).length := by simp
      rw [if_pos hble]
      have hdrop : (pc ++ rest.flatten).drop pc.length = rest.flatten :=
        List.drop_left _ _
      have htake : (pc ++ rest.flatten).take pc.length = pc :=
        List.take_left _ _
      rw [hdrop, htake]
      have hihlen : rest.flatten.length ≤ f := by
        have hlf : ((pc :: rest).flatten).length = pc.length + rest.flatten.length := by
          simp
        rw [hlf] at hlen
        omega
      rw [ih rest (fun q hq => hsd q (by simp [hq])) hihlen]

theorem rlpItems_flatten (pieces : List Bytes)
    (hsd : ∀ pc ∈ pieces, selfDelim pc) :
    rlpItems pieces.flatten = some pieces :=
  rlpItemsF_flatten pieces.flatten.length pieces hsd (le_refl _)

/-- The only string whose encoding is `[128]` is the empty string. -/
theorem rlpStr_eq_128 (s : Bytes) (hs : s.length < 256 ^ 8)
    (h : rlpStr s = [128]) : s = [] := by
  obtain ⟨hl, hhd, _, _, _⟩ := rlpStr_spec s hs
  rw [h] at hhd
  rw [rlpHeader_cons] at hhd
  simp at hhd
  cases s with
  | nil => rfl
  | cons a t => simp at hhd

/-- No string encodes to the empty-list item `[192]`. -/
theorem rlpStr_ne_192 (s : Bytes) (hs : s.length < 256 ^ 8) :
    rlpStr s ≠ [192] := by
  intro h
  obtain ⟨hl, hhd, _, _, _⟩ := rlpStr_spec s hs
  rw [h] at hhd
  rw [rlpHeader_cons] at hhd
  simp at hhd

/-! ## Compact (hex-prefix) encoding roundtrip -/

theorem unpack_packPairs : ∀ (m : Nat) (l : List Nat), l.length ≤ m →
    l.length % 2 = 0 → (∀ x ∈ l, x < 16) →
    ((Nibbles.packPairs l).map (fun b => [b / 16, b % 16])).flatten = l := by
  intro m
  induction m with
  | zero =>
    intro l hm _ _
    have : l = [] := List.eq_nil_of_length_eq_zero (by omega)
    subst this
    rfl
  | succ m ih =>
    intro l hm hpar hall
    match l with
    | [] => rfl
    | [a] => simp at hpar
    | a :: b :: rest =>
      have hstep : Nibbles.packPairs (a :: b :: rest) =
          (a * 16 + b) :: Nibbles.packPairs rest := rfl
      rw [hstep]
      have ha : a < 16 := hall a (by simp)
      have hb : b < 16 := hall b (by simp)
      have hd : (a * 16 + b) / 16 = a := by omega
      have hm2 : (a * 16 + b) % 16 = b := by omega
      simp only [List.map_cons, List.flatten_cons, hd, hm2]
      have hrest : ((Nibbles.packPairs rest).map (fun x => [x / 16, x % 16])).flatten
          = rest := by
        apply ih rest
        · simp at hm; omega
        · simp at hpar; omega
        · intro x hx; exact hall x (by simp [hx])
      rw [hrest]
      rfl

theorem encodeCompact_eq (l : List Nat) :
    Nibbles.encodeCompact ⟨l⟩ =
      (if (if decide (l.getLast? = some 16) then l.take (l.length - 1) else l).length % 2 = 1
       then (16 + (if decide (l.getLast? = some 16) then l.take (l.length - 1)
               else l).headD 0 + if decide (l.getLast? = some 16) then 32 else 0) ::
         Nibbles.packPairs ((if decide (l.getLast? = some 16) then l.take (l.length - 1)
           else l).drop 1)
       else (if decide (l.getLast? = some 16) then (32 : Nat) else 0) ::
         Nibbles.packPairs (if decide (l.getLast? = some 16) then l.take (l.length - 1)
           else l)) := rfl

theorem fromCompact_cons (flag : Nat) (rest : Bytes) :
    Nibbles.fromCompact (flag :: rest) =
      ⟨if flag / 16 = 0 then (rest.map (fun b => [b / 16, b % 16])).flatten
        else if flag / 16 = 1 then
          (flag % 16) :: (rest.map (fun b => [b / 16, b % 16])).flatten
        else if flag / 16 = 2 then
          (rest.map (fun b => [b / 16, b % 16])).flatten ++ [16]
        else (flag % 16) :: (rest.map (fun b => [b / 16, b % 16])).flatten ++ [16]⟩ := rfl

theorem encodeCompact_eq_leaf (l : List Nat) (hlast : l.getLast? = some 16) :
    Nibbles.encodeCompact ⟨l⟩ =
      (if (l.take (l.length - 1)).length % 2 = 1
       then (16 + (l.take (l.length - 1)).headD 0 + 32) ::
         Nibbles.packPairs ((l.take (l.length - 1)).drop 1)
       else 32 :: Nibbles.packPairs (l.take (l.length - 1))) := by
  simp [encodeCompact_eq, hlast]

theorem encodeCompact_eq_pfx (l : List Nat) (hlast : ¬l.getLast? = some 16) :
    Nibbles.encodeCompact ⟨l⟩ =
      (if l.length % 2 = 1
       then (16 + l.headD 0) :: Nibbles.packPairs (l.drop 1)
       else 0 :: Nibbles.packPairs l) := by
  simp [encodeCompact_eq, hlast]

/-- Compact-encoding a terminated leaf key and decoding restores the key. -/
theorem fromCompact_encodeCompact_leaf (l : List Nat) (h : wfLeafKey l = true) :
    Nibbles.fromCompact (Nibbles.encodeCompact ⟨l⟩) = ⟨l⟩ := by
  rw [wfLeafKey_iff] at h
  obtain ⟨xs, rfl, hall⟩ := h
  have hlast : (xs ++ [16]).getLast? = some 16 := List.getLast?_concat xs
  have hlen1 : (xs ++ [16]).length - 1 = xs.length := by simp
  have htake : (xs ++ [16]).take ((xs ++ [16]).length - 1) = xs := by
    rw [hlen1]; exact List.take_left _ _
  rw [encodeCompact_eq_leaf (xs ++ [16]) hlast, htake]
  by_cases hodd : xs.length % 2 = 1
  · rw [if_pos hodd]
    match xs, hodd, hall with
    | x0 :: xt, hodd, hall =>
      have hx0 : x0 < 16 := hall x0 (by simp)
      have hhd : (x0 :: xt).headD 0 = x0 := rfl
      have hdrop : (x0 :: xt).drop 1 = xt := rfl
      rw [hhd, hdrop, fromCompact_cons]
      have h0 : ¬(16 + x0 + 32) / 16 = 0 := by omega
      have h1 : ¬(16 + x0 + 32) / 16 = 1 := by omega
      have h2 : ¬(16 + x0 + 32) / 16 = 2 := by omega
      rw [if_neg h0, if_neg h1, if_neg h2]
      have hm : (16 + x0 + 32) % 16 = x0 := by omega
      rw [hm]
      have hun : ((Nibbles.packPairs xt).map (fun b => [b / 16, b % 16])).flatten = xt := by
        apply unpack_packPairs xt.length xt (le_refl _)
        · simp at hodd; omega
        · intro x hx; exact hall x (by simp [hx])
      rw [hun]
  · rw [if_neg hodd, fromCompact_cons]
    have h2 : (32 : Nat) / 16 = 2 := by norm_num
    have h0 : ¬(32 : Nat) / 16 = 0 := by norm_num
    have h1 : ¬(32 : Nat) / 16 = 1 := by norm_num
    rw [if_neg h0, if_neg h1, if_pos h2]
    have hun : ((Nibbles.packPairs xs).map (fun b => [b / 16, b % 16])).flatten = xs := by
      apply unpack_packPairs xs.length xs (le_refl _)
      · omega
      · exact hall
    rw [hun]

/-- Compact-encoding an extension prefix and decoding restores the prefix. -/
theorem fromCompact_encodeCompact_pfx (l : List Nat) (h : wfPfx l = true) :
    Nibbles.fromCompact (Nibbles.encodeCompact ⟨l⟩) = ⟨l⟩ := by
  have hne : l ≠ [] := wfPfx_ne_nil l h
  have hall : ∀ x ∈ l, x < 16 := by
    unfold wfPfx at h
    simp only [Bool.and_eq_true, List.all_eq_true, decide_eq_true_eq] at h
    exact h.2
  have hlast : ¬l.getLast? = some 16 := by
    rw [List.getLast?_eq_getLast l hne]
    intro hc
    simp only [Option.some.injEq] at hc
    have := hall (l.getLast hne) (List.getLast_mem hne)
    omega
  rw [encodeCompact_eq_pfx l hlast]
  by_cases hodd : l.length % 2 = 1
  · rw [if_pos hodd]
    match l, hodd, hall, hne with
    | x0 :: xt, hodd, hall, hne =>
      have hx0 : x0 < 16 := hall x0 (by simp)
      have hhd : (x0 :: xt).headD 0 = x0 := rfl
      have hdrop : (x0 :: xt).drop 1 = xt := rfl
      rw [hhd, hdrop, fromCompact_cons]
      have h0 : ¬(16 + x0) / 16 = 0 := by omega
      have h1 : (16 + x0) / 16 = 1 := by omega
      rw [if_neg h0, if_pos h1]
      have hm : (16 + x0) % 16 = x0 := by omega
      rw [hm]
      have hun : ((Nibbles.packPairs xt).map (fun b => [b / 16, b % 16])).flatten = xt := by
        apply unpack_packPairs xt.length xt (le_refl _)
        · simp at hodd; omega
        · intro x hx; exact hall x (by simp [hx])
      rw [hun]
  · rw [if_neg hodd, fromCompact_cons]
    have h0 : (0 : Nat) / 16 = 0 := by norm_num
    rw [if_pos h0]
    have hun : ((Nibbles.packPairs l).map (fun b => [b / 16, b % 16])).flatten = l := by
      apply unpack_packPairs l.length l (le_refl _)
      · omega
      · exact hall
    rw [hun]

/-! ## The pure encoding and the decoded shadow of a node

`encode_raw`'s byte output does not depend on the cache/`gen_keys` state it
threads; `encB` is that state-free projection (proved against `encNode` in
`encNode_encB`).  `shadowB` is the node a decoder reconstructs from those
bytes: children whose encoding reaches 32 bytes collapse to HashRefs. -/

/-- The bytes a child contributes to its parent's payload (`write_node`
without the cache effects): HashRefs verbatim as string items, small
encodings spliced raw, large ones as their digest's string item. -/
def encPieceWith (kec : Bytes → Bytes) (encf : Node → Option Bytes) (c : Node) :
    Option Bytes :=
  match c with
  | .hash h => some (rlpStr h)
  | _ =>
    match encf c with
    | none => none
    | some d => if d.length < 32 then some d else some (rlpStr (kec d))

/-- State-free `encode_raw`. -/
def encB (kec : Bytes → Bytes) : Nat → Node → Option Bytes
  | 0, _ => none
  | f + 1, n =>
    match n with
    | .empty => some [128]
    | .leaf k v => some (rlpList (rlpStr k.encodeCompact ++ rlpStr v))
    | .branch cs v =>
      match (List.range 16).foldl (fun acc i =>
          match acc with
          | none => none
          | some payload =>
            match encPieceWith kec (fun c => encB kec f c) (cs.getD i .empty) with
            | none => none
            | some pb => some (payload ++ pb)) (some []) with
      | none => none
      | some payload =>
        some (rlpList (payload ++ (match v with
          | some vv => rlpStr vv
          | none => [128])))
    | .extension pfx child =>
      match encPieceWith kec (fun c => encB kec f c) child with
      | none => none
      | some pb => some (rlpList (rlpStr pfx.encodeCompact ++ pb))
    | .hash _ => none

/-- The pure branch-payload step, named so rewrites line up syntactically. -/
def encBStep (kec : Bytes → Bytes) (f : Nat) (cs : List Node)
    (acc : Option Bytes) (i : Nat) : Option Bytes :=
  match acc with
  | none => none
  | some payload =>
    match encPieceWith kec (fun c' => encB kec f c') (cs.getD i .empty) with
    | none => none
    | some pb => some (payload ++ pb)

/-- The node a child piece decodes back to: HashRefs and large children by
hash, small children by their recursive shadow. -/
def shadowPieceWith (kec : Bytes → Bytes) (encf : Node → Option Bytes)
    (shf : Node → Option Node) (c : Node) : Option Node :=
  match c with
  | .hash h => some (.hash h)
  | _ =>
    match encf c with
    | none => none
    | some d => if d.length < 32 then shf c else some (.hash (kec d))

/-- The decoded image of a node's encoding. -/
def shadowB (kec : Bytes → Bytes) : Nat → Node → Option Node
  | 0, _ => none
  | f + 1, n =>
    match n with
    | .empty => some .empty
    | .leaf k v => some (.leaf k v)
    | .hash h => some (.hash h)
    | .extension pfx child =>
      match shadowPieceWith kec (encB kec f) (fun c => shadowB kec f c) child with
      | none => none
      | some sc => some (.extension pfx sc)
    | .branch cs v =>
      match (List.range 16).foldl (fun acc i =>
          match acc with
          | none => none
          | some scs =>
            match shadowPieceWith kec (encB kec f) (fun c => shadowB kec f c)
                (cs.getD i .empty) with
            | none => none
            | some sc => some (scs ++ [sc])) (some []) with
      | none => none
      | some scs => some (.branch scs v)

/-! Generic facts about the option-threading folds used above. -/

theorem foldl_opt_append_none {α β : Type} (step : α → Option β) (xs : List α) :
    xs.foldl (fun acc x =>
      match acc with
      | none => none
      | some l =>
        match step x with
        | none => none
        | some y => some (l ++ [y])) none = none := by
  induction xs with
  | nil => rfl
  | cons x xs ih => exact ih

theorem foldl_opt_append {α β : Type} (step : α → Option β) :
    ∀ (xs : List α) (acc0 : List β) (res : List β),
    xs.foldl (fun acc x =>
      match acc with
      | none => none
      | some l =>
        match step x with
        | none => none
        | some y => some (l ++ [y])) (some acc0) = some res →
    ∃ ys, res = acc0 ++ ys ∧ List.Forall₂ (fun x y => step x = some y) xs ys := by
  intro xs
  induction xs with
  | nil =>
    intro acc0 res h
    simp only [List.foldl_nil, Option.some.injEq] at h
    exact ⟨[], by simp [← h]⟩
  | cons x xs ih =>
    intro acc0 res h
    rw [List.foldl_cons] at h
    match hs : step x with
    | none =>
      rw [hs] at h
      rw [foldl_opt_append_none step xs] at h
      exact absurd h (by simp)
    | some y =>
      rw [hs] at h
      obtain ⟨ys, hres, hfa⟩ := ih (acc0 ++ [y]) res h
      exact ⟨y :: ys, by simp [hres], List.Forall₂.cons hs hfa⟩

theorem foldl_opt_concat_none {α : Type} (step : α → Option Bytes) (xs : List α) :
    xs.foldl (fun acc x =>
      match acc with
      | none => none
      | some l =>
        match step x with
        | none => none
        | some y => some (l ++ y)) none = none := by
  induction xs with
  | nil => rfl
  | cons x xs ih => exact ih

theorem foldl_opt_concat {α : Type} (step : α → Option Bytes) :
    ∀ (xs : List α) (acc0 : Bytes) (res : Bytes),
    xs.foldl (fun acc x =>
      match acc with
      | none => none
      | some l =>
        match step x with
        | none => none
        | some y => some (l ++ y)) (some acc0) = some res →
    ∃ ys, res = acc0 ++ ys.flatten ∧ List.Forall₂ (fun x y => step x = some y) xs ys := by
  intro xs
  induction xs with
  | nil =>
    intro acc0 res h
    simp only [List.foldl_nil, Option.some.injEq] at h
    exact ⟨[], by simp [← h]⟩
  | cons x xs ih =>
    intro acc0 res h
    rw [List.foldl_cons] at h
    match hs : step x with
    | none =>
      rw [hs] at h
      rw [foldl_opt_concat_none step xs] at h
      exact absurd h (by simp)
    | some y =>
      rw [hs] at h
      obtain ⟨ys, hres, hfa⟩ := ih (acc0 ++ y) res h
      exact ⟨y :: ys, by simp [hres], List.Forall₂.cons hs hfa⟩

theorem childStep_foldl_none (kec : Bytes → Bytes)
    (enc : Node → List (Bytes × Bytes) → List Bytes →
      Option (Bytes × List (Bytes × Bytes) × List Bytes))
    (cs : List Node) (idxs : List Nat) :
    idxs.foldl (childStep kec enc cs) none = none := by
  induction idxs with
  | nil => rfl
  | cons i idxs ih => exact ih

theorem writePiece_encPiece_aux (kec : Bytes → Bytes) (d : Bytes)
    (c' : List (Bytes × Bytes)) (g' : List Bytes) (en : EncodedNode)
    (c2 : List (Bytes × Bytes)) (g2 : List Bytes)
    (h : (if d.length < 32 then some (EncodedNode.inline d, c', g')
          else some (EncodedNode.hashE (kec d), mapInsert c' (kec d) d,
            setInsert g' (kec d))) = some (en, c2, g2)) :
    (if d.length < 32 then some d else some (rlpStr (kec d))) = some (pieceBytes en) := by
  by_cases hlt : d.length < 32
  · rw [if_pos hlt] at h ⊢
    simp only [Option.some.injEq, Prod.mk.injEq] at h
    obtain ⟨he, -, -⟩ := h
    subst he
    rfl
  · rw [if_neg hlt] at h ⊢
    simp only [Option.some.injEq, Prod.mk.injEq] at h
    obtain ⟨he, -, -⟩ := h
    subst he
    rfl

/-- `write_node`'s byte outcome is the pure child piece. -/
theorem writePiece_encPiece (kec : Bytes → Bytes) (f : Nat) (n : Node)
    (c : List (Bytes × Bytes)) (g : List Bytes) (en : EncodedNode)
    (c2 : List (Bytes × Bytes)) (g2 : List Bytes)
    (hIH : ∀ n' c' g' e' c2' g2', encNode kec f n' c' g' = some (e', c2', g2') →
      encB kec f n' = some e')
    (h : writePieceWith kec (fun n' c' g' => encNode kec f n' c' g') n c g =
      some (en, c2, g2)) :
    encPieceWith kec (fun c' => encB kec f c') n = some (pieceBytes en) := by
  cases n with
  | hash hh =>
    simp only [writePieceWith] at h
    simp only [Option.some.injEq, Prod.mk.injEq] at h
    obtain ⟨he, -, -⟩ := h
    subst he
    rfl
  | empty =>
    simp only [writePieceWith] at h
    match he : encNode kec f .empty c g with
    | none => rw [he] at h; exact absurd h (by simp)
    | some (d, c', g') =>
      rw [he] at h
      have h2 : (if d.length < 32 then some (EncodedNode.inline d, c', g')
          else some (EncodedNode.hashE (kec d), mapInsert c' (kec d) d,
            setInsert g' (kec d))) = some (en, c2, g2) := h
      have hd := hIH _ _ _ _ _ _ he
      show (match encB kec f .empty with
        | none => none
        | some d => if d.length < 32 then some d else some (rlpStr (kec d))) =
        some (pieceBytes en)
      rw [hd]
      exact writePiece_encPiece_aux kec d c' g' en c2 g2 h2
  | leaf k v =>
    simp only [writePieceWith] at h
    match he : encNode kec f (.leaf k v) c g with
    | none => rw [he] at h; exact absurd h (by simp)
    | some (d, c', g') =>
      rw [he] at h
      have h2 : (if d.length < 32 then some (EncodedNode.inline d, c', g')
          else some (EncodedNode.hashE (kec d), mapInsert c' (kec d) d,
            setInsert g' (kec d))) = some (en, c2, g2) := h
      have hd := hIH _ _ _ _ _ _ he
      show (match encB kec f (.leaf k v) with
        | none => none
        | some d => if d.length < 32 then some d else some (rlpStr (kec d))) =
        some (pieceBytes en)
      rw [hd]
      exact writePiece_encPiece_aux kec d c' g' en c2 g2 h2
  | branch cs v =>
    simp only [writePieceWith] at h
    match he : encNode kec f (.branch cs v) c g with
    | none => rw [he] at h; exact absurd h (by simp)
    | some (d, c', g') =>
      rw [he] at h
      have h2 : (if d.length < 32 then some (EncodedNode.inline d, c', g')
          else some (EncodedNode.hashE (kec d), mapInsert c' (kec d) d,
            setInsert g' (kec d))) = some (en, c2, g2) := h
      have hd := hIH _ _ _ _ _ _ he
      show (match encB kec f (.branch cs v) with
        | none => none
        | some d => if d.length < 32 then some d else some (rlpStr (kec d))) =
        some (pieceBytes en)
      rw [hd]
      exact writePiece_encPiece_aux kec d c' g' en c2 g2 h2
  | extension pfx ch =>
    simp only [writePieceWith] at h
    match he : encNode kec f (.extension pfx ch) c g with
    | none => rw [he] at h; exact absurd h (by simp)
    | some (d, c', g') =>
      rw [he] at h
      have h2 : (if d.length < 32 then some (EncodedNode.inline d, c', g')
          else some (EncodedNode.hashE (kec d), mapInsert c' (kec d) d,
            setInsert g' (kec d))) = some (en, c2, g2) := h
      have hd := hIH _ _ _ _ _ _ he
      show (match encB kec f (.extension pfx ch) with
        | none => none
        | some d => if d.length < 32 then some d else some (rlpStr (kec d))) =
        some (pieceBytes en)
      rw [hd]
      exact writePiece_encPiece_aux kec d c' g' en c2 g2 h2

theorem childStep_fold_encB (kec : Bytes → Bytes) (f : Nat) (cs : List Node)
    (hIH : ∀ n' c' g' e' c2' g2', encNode kec f n' c' g' = some (e', c2', g2') →
      encB kec f n' = some e') :
    ∀ (idxs : List Nat) (p0 : Bytes) (c : List (Bytes × Bytes)) (g : List Bytes)
      (out : Bytes × List (Bytes × Bytes) × List Bytes),
    idxs.foldl (childStep kec (fun n' c' g' => encNode kec f n' c' g') cs)
      (some (p0, c, g)) = some out →
    idxs.foldl (encBStep kec f cs) (some p0) = some out.1 := by
  intro idxs
  induction idxs with
  | nil =>
    intro p0 c g out h
    simp only [List.foldl_nil, Option.some.injEq] at h
    subst h
    rfl
  | cons i idxs ih =>
    intro p0 c g out h
    rw [List.foldl_cons] at h
    rw [List.foldl_cons]
    match hw : writePieceWith kec (fun n' c' g' => encNode kec f n' c' g')
        (cs.getD i .empty) c g with
    | none =>
      rw [show childStep kec (fun n' c' g' => encNode kec f n' c' g') cs
          (some (p0, c, g)) i = none by
        simp only [childStep]; rw [hw]] at h
      rw [childStep_foldl_none] at h
      exact absurd h (by simp)
    | some (en, c2, g2) =>
      rw [show childStep kec (fun n' c' g' => encNode kec f n' c' g') cs
          (some (p0, c, g)) i = some (p0 ++ pieceBytes en, c2, g2) by
        simp only [childStep]; rw [hw]] at h
      have hstep : encBStep kec f cs (some p0) i =
          (match encPieceWith kec (fun c' => encB kec f c') (cs.getD i .empty) with
           | none => none
           | some pb => some (p0 ++ pb)) := rfl
      rw [hstep, writePiece_encPiece kec f _ c g en c2 g2 hIH hw]
      exact ih (p0 ++ pieceBytes en) c2 g2 out h

theorem encNode_branch_eq (kec : Bytes → Bytes) (f : Nat) (cs : List Node)
    (v : Option Bytes) (c : List (Bytes × Bytes)) (g : List Bytes) :
    encNode kec (f + 1) (.branch cs v) c g =
      (match (List.range 16).foldl
          (childStep kec (fun n' c' g' => encNode kec f n' c' g') cs)
          (some ([], c, g)) with
       | none => none
       | some (payload, c, g) =>
         some (rlpList (payload ++ (match v with
           | some vv => rlpStr vv
           | none => [128])), c, g)) := rfl

/-- The branch value slot's RLP item. -/
def vPieceB (v : Option Bytes) : Bytes :=
  match v with
  | some vv => rlpStr vv
  | none => [128]

theorem encB_branch_eq (kec : Bytes → Bytes) (f : Nat) (cs : List Node)
    (v : Option Bytes) :
    encB kec (f + 1) (.branch cs v) =
      (match (List.range 16).foldl (encBStep kec f cs) (some []) with
       | none => none
       | some payload =>
         some (rlpList (payload ++ vPieceB v))) := rfl

/-- `encode_raw`'s bytes are state-independent: `encB` computes them. -/
theorem encNode_encB (kec : Bytes → Bytes) : ∀ (f : Nat) (n : Node)
    (c : List (Bytes × Bytes)) (g : List Bytes) (e : Bytes)
    (c2 : List (Bytes × Bytes)) (g2 : List Bytes),
    encNode kec f n c g = some (e, c2, g2) → encB kec f n = some e := by
  intro f
  induction f with
  | zero =>
    intro n c g e c2 g2 h
    have h0 : encNode kec 0 n c g = none := rfl
    rw [h0] at h
    exact absurd h (by simp)
  | succ f ih =>
    intro n c g e c2 g2 h
    cases n with
    | empty =>
      have hrw : encNode kec (f + 1) .empty c g = some ([128], c, g) := rfl
      rw [hrw] at h
      simp only [Option.some.injEq, Prod.mk.injEq] at h
      obtain ⟨he, -, -⟩ := h
      subst he
      rfl
    | leaf k v =>
      have hrw : encNode kec (f + 1) (.leaf k v) c g =
          some (rlpList (rlpStr k.encodeCompact ++ rlpStr v), c, g) := rfl
      rw [hrw] at h
      simp only [Option.some.injEq, Prod.mk.injEq] at h
      obtain ⟨he, -, -⟩ := h
      subst he
      rfl
    | hash hh =>
      have hrw : encNode kec (f + 1) (.hash hh) c g = none := rfl
      rw [hrw] at h
      exact absurd h (by simp)
    | extension pfx ch =>
      have hrw : encNode kec (f + 1) (.extension pfx ch) c g =
          (match writePieceWith kec (fun n' c' g' => encNode kec f n' c' g') ch c g with
           | none => none
           | some (e, c, g) =>
             some (rlpList (rlpStr pfx.encodeCompact ++ pieceBytes e), c, g)) := rfl
      rw [hrw] at h
      match hw : writePieceWith kec (fun n' c' g' => encNode kec f n' c' g') ch c g with
      | none => rw [hw] at h; exact absurd h (by simp)
      | some (en, c3, g3) =>
        rw [hw] at h
        simp only [Option.some.injEq, Prod.mk.injEq] at h
        obtain ⟨he, -, -⟩ := h
        have hrw2 : encB kec (f + 1) (.extension pfx ch) =
            (match encPieceWith kec (fun c' => encB kec f c') ch with
             | none => none
             | some pb => some (rlpList (rlpStr pfx.encodeCompact ++ pb))) := rfl
        rw [hrw2, writePiece_encPiece kec f ch c g en c3 g3 ih hw, ← he]
    | branch cs v =>
      rw [encNode_branch_eq] at h
      match hfold : (List.range 16).foldl
          (childStep kec (fun n' c' g' => encNode kec f n' c' g') cs)
          (some ([], c, g)) with
      | none => rw [hfold] at h; exact absurd h (by simp)
      | some (payload, c3, g3) =>
        rw [hfold] at h
        simp only [Option.some.injEq, Prod.mk.injEq] at h
        obtain ⟨he, -, -⟩ := h
        rw [encB_branch_eq, childStep_fold_encB kec f cs ih (List.range 16) [] c g
          (payload, c3, g3) hfold, ← he]
        rfl

def shadowBStep (kec : Bytes → Bytes) (f : Nat) (cs : List Node)
    (acc : Option (List Node)) (i : Nat) : Option (List Node) :=
  match acc with
  | none => none
  | some scs =>
    match shadowPieceWith kec (encB kec f) (fun c => shadowB kec f c)
        (cs.getD i .empty) with
    | none => none
    | some sc => some (scs ++ [sc])

theorem shadowB_branch_eq (kec : Bytes → Bytes) (f : Nat) (cs : List Node)
    (v : Option Bytes) :
    shadowB kec (f + 1) (.branch cs v) =
      (match (List.range 16).foldl (shadowBStep kec f cs) (some []) with
       | none => none
       | some scs => some (.branch scs v)) := rfl

theorem shadowB_ext_eq (kec : Bytes → Bytes) (f : Nat) (pfx : Nibbles)
    (child : Node) :
    shadowB kec (f + 1) (.extension pfx child) =
      (match shadowPieceWith kec (encB kec f) (fun c => shadowB kec f c) child with
       | none => none
       | some sc => some (.extension pfx sc)) := rfl

theorem encB_ext_eq (kec : Bytes → Bytes) (f : Nat) (pfx : Nibbles)
    (child : Node) :
    encB kec (f + 1) (.extension pfx child) =
      (match encPieceWith kec (fun c' => encB kec f c') child with
       | none => none
       | some pb => some (rlpList (rlpStr pfx.encodeCompact ++ pb))) := rfl

/-- Head test for the HashRef variant. -/
def isHashB : Node → Bool
  | .hash _ => true
  | _ => false

theorem isHashB_exists (c : Node) (h : isHashB c = true) : ∃ h0, c = .hash h0 := by
  cases c with
  | hash hh => exact ⟨hh, rfl⟩
  | empty => exact absurd h (by simp [isHashB])
  | leaf k v => exact absurd h (by simp [isHashB])
  | extension p ch => exact absurd h (by simp [isHashB])
  | branch cs v => exact absurd h (by simp [isHashB])

theorem encPieceWith_nonhash (kec : Bytes → Bytes) (encf : Node → Option Bytes)
    (c : Node) (hc : isHashB c = false) :
    encPieceWith kec encf c =
      (match encf c with
       | none => none
       | some d => if d.length < 32 then some d else some (rlpStr (kec d))) := by
  cases c with
  | hash hh => exact absurd hc (by simp [isHashB])
  | empty => rfl
  | leaf k v => rfl
  | extension pfx ch => rfl
  | branch cs v => rfl

theorem shadowPieceWith_nonhash (kec : Bytes → Bytes) (encf : Node → Option Bytes)
    (shf : Node → Option Node) (c : Node) (hc : isHashB c = false) :
    shadowPieceWith kec encf shf c =
      (match encf c with
       | none => none
       | some d => if d.length < 32 then shf c else some (.hash (kec d))) := by
  cases c with
  | hash hh => exact absurd hc (by simp [isHashB])
  | empty => rfl
  | leaf k v => rfl
  | extension pfx ch => rfl
  | branch cs v => rfl

theorem shadowBStep_foldl_none (kec : Bytes → Bytes) (f : Nat) (cs : List Node)
    (idxs : List Nat) :
    idxs.foldl (shadowBStep kec f cs) none = none := by
  induction idxs with
  | nil => rfl
  | cons i idxs ih => exact ih

theorem encBStep_foldl_none (kec : Bytes → Bytes) (f : Nat) (cs : List Node)
    (idxs : List Nat) :
    idxs.foldl (encBStep kec f cs) none = none := by
  induction idxs with
  | nil => rfl
  | cons i idxs ih => exact ih

/-- Success of the branch-payload fold yields the per-child pieces. -/
theorem encBStep_fold_pieces (kec : Bytes → Bytes) (f : Nat) (cs : List Node) :
    ∀ (idxs : List Nat) (acc0 : Bytes) (payload : Bytes),
    idxs.foldl (encBStep kec f cs) (some acc0) = some payload →
    ∃ pbs, payload = acc0 ++ pbs.flatten ∧
      List.Forall₂ (fun i pb =>
        encPieceWith kec (fun c' => encB kec f c') (cs.getD i .empty) = some pb) idxs pbs := by
  intro idxs
  induction idxs with
  | nil =>
    intro acc0 payload h
    simp only [List.foldl_nil, Option.some.injEq] at h
    exact ⟨[], by simp [← h]⟩
  | cons i idxs ih =>
    intro acc0 payload h
    rw [List.foldl_cons] at h
    have hstep : encBStep kec f cs (some acc0) i =
        (match encPieceWith kec (fun c' => encB kec f c') (cs.getD i .empty) with
         | none => none
         | some pb => some (acc0 ++ pb)) := rfl
    rw [hstep] at h
    match hp : encPieceWith kec (fun c' => encB kec f c') (cs.getD i .empty) with
    | none =>
      rw [hp] at h
      rw [encBStep_foldl_none] at h
      exact absurd h (by simp)
    | some pb =>
      rw [hp] at h
      obtain ⟨pbs, hpl, hfa⟩ := ih (acc0 ++ pb) payload h
      exact ⟨pb :: pbs, by simp [hpl], List.Forall₂.cons hp hfa⟩

/-- Pointwise success of the shadow pieces gives the shadow fold's success. -/
theorem shadowBStep_fold_some (kec : Bytes → Bytes) (f : Nat) (cs : List Node) :
    ∀ (idxs : List Nat) (acc0 : List Node),
    (∀ i ∈ idxs, ∃ sc, shadowPieceWith kec (encB kec f) (fun c => shadowB kec f c)
      (cs.getD i .empty) = some sc) →
    ∃ scs, idxs.foldl (shadowBStep kec f cs) (some acc0) = some (acc0 ++ scs) ∧
      List.Forall₂ (fun i sc =>
        shadowPieceWith kec (encB kec f) (fun c => shadowB kec f c)
          (cs.getD i .empty) = some sc) idxs scs := by
  intro idxs
  induction idxs with
  | nil =>
    intro acc0 hall
    exact ⟨[], by simp, List.Forall₂.nil⟩
  | cons i idxs ih =>
    intro acc0 hall
    obtain ⟨sc, hsc⟩ := hall i (by simp)
    obtain ⟨scs, hfold, hfa⟩ := ih (acc0 ++ [sc])
      (fun j hj => hall j (by simp [hj]))
    refine ⟨sc :: scs, ?_, List.Forall₂.cons hsc hfa⟩
    rw [List.foldl_cons]
    have hstep : shadowBStep kec f cs (some acc0) i =
        (match shadowPieceWith kec (encB kec f) (fun c => shadowB kec f c)
            (cs.getD i .empty) with
         | none => none
         | some sc => some (acc0 ++ [sc])) := rfl
    rw [hstep, hsc, hfold]
    simp

/-- The shadow fold mirrors a successful shadow run (extraction direction). -/
theorem shadowBStep_fold_pieces (kec : Bytes → Bytes) (f : Nat) (cs : List Node) :
    ∀ (idxs : List Nat) (acc0 scs : List Node),
    idxs.foldl (shadowBStep kec f cs) (some acc0) = some scs →
    ∃ ys, scs = acc0 ++ ys ∧
      List.Forall₂ (fun i sc =>
        shadowPieceWith kec (encB kec f) (fun c => shadowB kec f c)
          (cs.getD i .empty) = some sc) idxs ys := by
  intro idxs
  induction idxs with
  | nil =>
    intro acc0 scs h
    simp only [List.foldl_nil, Option.some.injEq] at h
    exact ⟨[], by simp [← h]⟩
  | cons i idxs ih =>
    intro acc0 scs h
    rw [List.foldl_cons] at h
    have hstep : shadowBStep kec f cs (some acc0) i =
        (match shadowPieceWith kec (encB kec f) (fun c => shadowB kec f c)
            (cs.getD i .empty) with
         | none => none
         | some sc => some (acc0 ++ [sc])) := rfl
    rw [hstep] at h
    match hp : shadowPieceWith kec (encB kec f) (fun c => shadowB kec f c)
        (cs.getD i .empty) with
    | none =>
      rw [hp] at h
      rw [shadowBStep_foldl_none] at h
      exact absurd h (by simp)
    | some sc =>
      rw [hp] at h
      obtain ⟨ys, hys, hfa⟩ := ih (acc0 ++ [sc]) scs h
      exact ⟨sc :: ys, by simp [hys], List.Forall₂.cons hp hfa⟩

/-- An encoding under `encB` succeeds only at `[128]` or a framed list. -/
theorem encB_shape (kec : Bytes → Bytes) (f : Nat) (n : Node) (e : Bytes)
    (h : encB kec f n = some e) : e = [128] ∨ ∃ p, e = rlpList p := by
  cases f with
  | zero =>
    have h0 : (none : Option Bytes) = some e := h
    exact absurd h0 (by simp)
  | succ f =>
    cases n with
    | empty =>
      left
      have h2 : some [128] = some e := h
      simp only [Option.some.injEq] at h2
      rw [← h2]
    | leaf k v =>
      right
      have h2 : some (rlpList (rlpStr k.encodeCompact ++ rlpStr v)) = some e := h
      simp only [Option.some.injEq] at h2
      exact ⟨_, h2.symm⟩
    | hash hh =>
      have h0 : (none : Option Bytes) = some e := h
      exact absurd h0 (by simp)
    | extension pfx ch =>
      right
      rw [encB_ext_eq] at h
      match hp : encPieceWith kec (fun c' => encB kec f c') ch with
      | none => rw [hp] at h; exact absurd h (by simp)
      | some pb =>
        rw [hp] at h
        simp only [Option.some.injEq] at h
        exact ⟨_, h.symm⟩
    | branch cs v =>
      right
      rw [encB_branch_eq] at h
      match hfold : (List.range 16).foldl (encBStep kec f cs) (some []) with
      | none => rw [hfold] at h; exact absurd h (by simp)
      | some payload =>
        rw [hfold] at h
        match v with
        | some vv =>
          have h2 : some (rlpList (payload ++ rlpStr vv)) = some e := h
          simp only [Option.some.injEq] at h2
          exact ⟨_, h2.symm⟩
        | none =>
          have h2 : some (rlpList (payload ++ [128])) = some e := h
          simp only [Option.some.injEq] at h2
          exact ⟨_, h2.symm⟩

theorem selfDelim_128 : selfDelim [128] := by
  constructor
  · rfl
  · simp

/-- Encodings are self-delimiting RLP items. -/
theorem encB_selfDelim (kec : Bytes → Bytes) (f : Nat) (n : Node) (e : Bytes)
    (h : encB kec f n = some e) (hlen : e.length < 256 ^ 8) : selfDelim e := by
  rcases encB_shape kec f n e h with h1 | ⟨p, hp⟩
  · rw [h1]; exact selfDelim_128
  · subst hp
    apply selfDelim_rlpList
    have := length_le_rlpList p
    omega

/-- A successful encoded piece yields a successful shadow piece, and the two
stand in the inline/hashed relation. -/
theorem piece_rel (kec : Bytes → Bytes) (f : Nat) (c : Node) (pb : Bytes)
    (hIH : ∀ e', encB kec f c = some e' → ∃ dn', shadowB kec f c = some dn')
    (hp : encPieceWith kec (fun c' => encB kec f c') c = some pb) :
    ∃ sc, shadowPieceWith kec (encB kec f) (fun c' => shadowB kec f c') c = some sc ∧
      ((∃ h0, c = .hash h0 ∧ pb = rlpStr h0 ∧ sc = .hash h0) ∨
       (∃ d, encB kec f c = some d ∧
         ((d.length < 32 ∧ pb = d ∧ shadowB kec f c = some sc) ∨
          (¬d.length < 32 ∧ pb = rlpStr (kec d) ∧ sc = .hash (kec d))))) := by
  by_cases hh : isHashB c = true
  · obtain ⟨h0, rfl⟩ := isHashB_exists c hh
    have hp2 : some (rlpStr h0) = some pb := hp
    simp only [Option.some.injEq] at hp2
    exact ⟨.hash h0, rfl, Or.inl ⟨h0, rfl, hp2.symm, rfl⟩⟩
  · have hfalse : isHashB c = false := by simpa using hh
    rw [shadowPieceWith_nonhash kec _ _ c hfalse]
    rw [encPieceWith_nonhash kec _ c hfalse] at hp
    match he : encB kec f c with
    | none => rw [he] at hp; exact absurd hp (by simp)
    | some d =>
      rw [he] at hp
      have hp2 : (if d.length < 32 then some d else some (rlpStr (kec d))) = some pb := hp
      by_cases hlt : d.length < 32
      · rw [if_pos hlt] at hp2
        simp only [Option.some.injEq] at hp2
        obtain ⟨dn, hdn⟩ := hIH d he
        refine ⟨dn, ?_, Or.inr ⟨d, rfl, Or.inl ⟨hlt, hp2.symm, hdn⟩⟩⟩
        show (if d.length < 32 then shadowB kec f c else some (.hash (kec d))) = some dn
        rw [if_pos hlt]
        exact hdn
      · rw [if_neg hlt] at hp2
        simp only [Option.some.injEq] at hp2
        refine ⟨.hash (kec d), ?_, Or.inr ⟨d, rfl, Or.inr ⟨hlt, hp2.symm, rfl⟩⟩⟩
        show (if d.length < 32 then shadowB kec f c else some (.hash (kec d))) =
          some (.hash (kec d))
        rw [if_neg hlt]

theorem forall2_mem_left {α β : Type} {R : α → β → Prop} :
    ∀ {xs : List α} {ys : List β}, List.Forall₂ R xs ys → ∀ x ∈ xs, ∃ y, R x y := by
  intro xs ys h
  induction h with
  | nil => intro x hx; simp at hx
  | cons hr hrest ih =>
    intro x hx
    rcases List.mem_cons.mp hx with rfl | hx2
    · exact ⟨_, hr⟩
    · exact ih x hx2

/-- An encoding succeeding at fuel `f` yields a shadow at the same fuel. -/
theorem encB_shadowB (kec : Bytes → Bytes) : ∀ (f : Nat) (n : Node) (e : Bytes),
    encB kec f n = some e → ∃ dn, shadowB kec f n = some dn := by
  intro f
  induction f with
  | zero =>
    intro n e h
    have h0 : (none : Option Bytes) = some e := h
    exact absurd h0 (by simp)
  | succ f ih =>
    intro n e h
    cases n with
    | empty => exact ⟨.empty, rfl⟩
    | leaf k v => exact ⟨.leaf k v, rfl⟩
    | hash hh => exact ⟨.hash hh, rfl⟩
    | extension pfx ch =>
      rw [encB_ext_eq] at h
      match hp : encPieceWith kec (fun c' => encB kec f c') ch with
      | none => rw [hp] at h; exact absurd h (by simp)
      | some pb =>
        obtain ⟨sc, hsc, -⟩ := piece_rel kec f ch pb (fun e' he' => ih ch e' he') hp
        rw [shadowB_ext_eq, hsc]
        exact ⟨.extension pfx sc, rfl⟩
    | branch cs v =>
      rw [encB_branch_eq] at h
      match hfold : (List.range 16).foldl (encBStep kec f cs) (some []) with
      | none => rw [hfold] at h; exact absurd h (by simp)
      | some payload =>
        obtain ⟨pbs, -, hfa⟩ := encBStep_fold_pieces kec f cs (List.range 16) [] payload hfold
        have hall : ∀ i ∈ List.range 16, ∃ sc,
            shadowPieceWith kec (encB kec f) (fun c => shadowB kec f c)
              (cs.getD i .empty) = some sc := by
          intro i hi
          obtain ⟨pb, hpb⟩ := forall2_mem_left hfa i hi
          obtain ⟨sc, hsc, -⟩ := piece_rel kec f (cs.getD i .empty) pb
            (fun e' he' => ih (cs.getD i .empty) e' he') hpb
          exact ⟨sc, hsc⟩
        obtain ⟨scs, hfold2, -⟩ := shadowBStep_fold_some kec f cs (List.range 16) [] hall
        rw [shadowB_branch_eq, hfold2]
        exact ⟨.branch ([] ++ scs) v, rfl⟩

/-! ## Value well-formedness and decoding an encoding -/

mutual

/-- Branch values must be non-empty byte strings for the encoding to decode
back: an empty branch value encodes as `[128]`, which the decoder reads as an
absent value. -/
def wfValsB : Node → Bool
  | .empty => true
  | .leaf _ _ => true
  | .hash _ => true
  | .extension _ c => wfValsB c
  | .branch cs v =>
    (match v with
     | some vv => !vv.isEmpty
     | none => true) && wfValsListB cs

def wfValsListB : List Node → Bool
  | [] => true
  | c :: cs => wfValsB c && wfValsListB cs

end

theorem wfValsListB_getD (cs : List Node) (h : wfValsListB cs = true) (idx : Nat) :
    wfValsB (cs.getD idx .empty) = true := by
  induction cs generalizing idx with
  | nil => cases idx <;> rfl
  | cons c cs ih =>
    have h2 : (wfValsB c && wfValsListB cs) = true := h
    simp only [Bool.and_eq_true] at h2
    cases idx with
    | zero => exact h2.1
    | succ j => exact ih h2.2 j

theorem wfValsB_branch (cs : List Node) (v : Option Bytes)
    (h : wfValsB (.branch cs v) = true) :
    (∀ vv, v = some vv → ¬vv = []) ∧ wfValsListB cs = true := by
  cases v with
  | none =>
    have h2 : (true && wfValsListB cs) = true := h
    simp only [Bool.true_and] at h2
    exact ⟨by intro vv hvv; exact absurd hvv (by simp), h2⟩
  | some vv =>
    have h2 : (!vv.isEmpty && wfValsListB cs) = true := h
    simp only [Bool.and_eq_true, Bool.not_eq_eq_eq_not, Bool.not_true] at h2
    refine ⟨?_, h2.2⟩
    intro vv2 hvv2 hnil
    have hv2 : vv = vv2 := by simpa using hvv2
    subst hv2
    subst hnil
    simp at h2

theorem wfValsB_ext (pfx : Nibbles) (c : Node)
    (h : wfValsB (.extension pfx c) = true) : wfValsB c = true := h

theorem wfTreeB_ext (pfx : Nibbles) (c : Node)
    (h : wfTreeB (.extension pfx c) = true) :
    wfPfx pfx.hexData = true ∧ wfTreeB c = true := by
  have h2 : (wfPfx pfx.hexData && wfTreeB c) = true := h
  simpa using h2

theorem hashFreeB_ext (pfx : Nibbles) (c : Node)
    (h : hashFreeB (.extension pfx c) = true) : hashFreeB c = true := h

theorem isHashB_false_of_hashFree (c : Node) (h : hashFreeB c = true) :
    isHashB c = false := by
  cases c with
  | hash hh => exact absurd h (by simp [hashFreeB])
  | empty => rfl
  | leaf k v => rfl
  | extension p ch => rfl
  | branch cs v => rfl

theorem isLeafN_of_wfLeafKey (l : List Nat) (h : wfLeafKey l = true) :
    (Nibbles.mk l).isLeafN = true := by
  rw [wfLeafKey_iff] at h
  obtain ⟨xs, rfl, -⟩ := h
  simp [Nibbles.isLeafN, List.getLast?_concat]

theorem isLeafN_of_wfPfx (l : List Nat) (h : wfPfx l = true) :
    (Nibbles.mk l).isLeafN = false := by
  have hne : l ≠ [] := wfPfx_ne_nil l h
  have hall : ∀ x ∈ l, x < 16 := by
    unfold wfPfx at h
    simp only [Bool.and_eq_true, List.all_eq_true, decide_eq_true_eq] at h
    exact h.2
  unfold Nibbles.isLeafN
  simp only [decide_eq_false_iff_not]
  show ¬l.getLast? = some 16
  rw [List.getLast?_eq_getLast l hne]
  intro hc
  simp only [Option.some.injEq] at hc
  have := hall (l.getLast hne) (List.getLast_mem hne)
  omega

theorem getD_append_self {α : Type} (l : List α) (x d : α) :
    (l ++ [x]).getD l.length d = x := by
  induction l with
  | nil => rfl
  | cons a l ih => exact ih

/-- Deterministic piece relation: a child's encoded piece and shadow piece
are simultaneously inline (with the recursive shadow) or hashed. -/
theorem piece_rel2 (kec : Bytes → Bytes) (f : Nat) (c : Node) (pb : Bytes)
    (sc : Node)
    (hp : encPieceWith kec (fun c' => encB kec f c') c = some pb)
    (hs : shadowPieceWith kec (encB kec f) (fun c' => shadowB kec f c') c = some sc) :
    (∃ h0, c = .hash h0 ∧ pb = rlpStr h0 ∧ sc = .hash h0) ∨
    (∃ d, encB kec f c = some d ∧
      ((d.length < 32 ∧ pb = d ∧ shadowB kec f c = some sc) ∨
       (¬d.length < 32 ∧ pb = rlpStr (kec d) ∧ sc = .hash (kec d)))) := by
  by_cases hh : isHashB c = true
  · obtain ⟨h0, rfl⟩ := isHashB_exists c hh
    have hp2 : some (rlpStr h0) = some pb := hp
    have hs2 : some (Node.hash h0) = some sc := hs
    simp only [Option.some.injEq] at hp2 hs2
    exact Or.inl ⟨h0, rfl, hp2.symm, hs2.symm⟩
  · have hfalse : isHashB c = false := by simpa using hh
    rw [encPieceWith_nonhash kec _ c hfalse] at hp
    rw [shadowPieceWith_nonhash kec _ _ c hfalse] at hs
    match he : encB kec f c with
    | none => rw [he] at hp; exact absurd hp (by simp)
    | some d =>
      rw [he] at hp hs
      have hp2 : (if d.length < 32 then some d else some (rlpStr (kec d))) = some pb := hp
      have hs2 : (if d.length < 32 then shadowB kec f c else some (.hash (kec d))) =
          some sc := hs
      by_cases hlt : d.length < 32
      · rw [if_pos hlt] at hp2 hs2
        simp only [Option.some.injEq] at hp2
        exact Or.inr ⟨d, rfl, Or.inl ⟨hlt, hp2.symm, hs2⟩⟩
      · rw [if_neg hlt] at hp2 hs2
        simp only [Option.some.injEq] at hp2 hs2
        exact Or.inr ⟨d, rfl, Or.inr ⟨hlt, hp2.symm, hs2.symm⟩⟩

theorem forall2_pair {α β γ : Type} {R : α → β → Prop} {S : α → γ → Prop} :
    ∀ {xs : List α} {ys : List β} {zs : List γ},
    List.Forall₂ R xs ys → List.Forall₂ S xs zs →
    List.Forall₂ (fun y z => ∃ x, x ∈ xs ∧ R x y ∧ S x z) ys zs := by
  intro xs
  induction xs with
  | nil =>
    intro ys zs h1 h2
    cases h1
    cases h2
    exact List.Forall₂.nil
  | cons x xs ih =>
    intro ys zs h1 h2
    cases h1 with
    | cons hr h1rest =>
      cases h2 with
      | cons hs h2rest =>
        refine List.Forall₂.cons ⟨x, by simp, hr, hs⟩ ?_
        have := ih h1rest h2rest
        apply List.Forall₂.imp ?_ this
        rintro y z ⟨x', hx', h1', h2'⟩
        exact ⟨x', by simp [hx'], h1', h2'⟩

theorem decodeNode_succ_eq (fd : Nat) (b : Bytes) :
    decodeNode (fd + 1) b =
      (match rlpHeader b with
       | none => rerr .decoder
       | some (isList, hl, pl) =>
         if b.length ≠ hl + pl then rerr .decoder
         else if isList then
           match rlpItems (b.drop hl) with
           | none => rerr .decoder
           | some items =>
             if items.length = 2 then
               match rlpData (items.getD 0 []) with
               | none => rerr .decoder
               | some keyBytes =>
                 let key := Nibbles.fromCompact keyBytes
                 if key.isLeafN then
                   match rlpData (items.getD 1 []) with
                   | none => rerr .decoder
                   | some v => rok (.leaf key v)
                 else
                   rbind (decodeNode fd (items.getD 1 [])) fun n =>
                     rok (.extension key n)
             else if items.length = 17 then
               rbind ((items.take 16).foldl
                   (fun acc it => rbind acc fun ns =>
                     rbind (decodeNode fd it) fun n => rok (ns ++ [n]))
                   (rok [])) fun children =>
                 let vraw := items.getD 16 []
                 if vraw = [128] ∨ vraw = [192] then
                   rok (.branch children none)
                 else
                   match rlpData vraw with
                   | none => rerr .decoder
                   | some v => rok (.branch children (some v))
             else rerr .invalidData
         else
           if pl = 0 then rok .empty
           else if pl = 32 then rok (.hash ((b.drop hl).take 32))
           else rerr .invalidData) := rfl

/-- A 32-byte string item decodes to the HashRef node of its payload. -/
theorem decode_hashPiece (h32 : Bytes) (hlen : h32.length = 32) :
    ∀ (fd : Nat) (r : Except TrieError Node),
    decodeNode fd (rlpStr h32) = some r → r = .ok (.hash h32) := by
  intro fd r h
  match fd with
  | 0 => exact absurd h (by simp [decodeNode])
  | fd + 1 =>
    rw [decodeNode_succ_eq] at h
    have hbound : h32.length < 256 ^ 8 := by rw [hlen]; norm_num
    obtain ⟨hl, hhd, hlength, hdrop, -⟩ := rlpStr_spec h32 hbound
    rw [hhd] at h
    have hlen2 : (rlpStr h32).length = hl + h32.length := by
      rcases Nat.eq_zero_or_pos hl with h0 | hpos
      · subst h0
        have hss : rlpStr h32 = h32 := by simpa using hdrop
        rw [hss]
        simp
      · omega
    have h2 : (if (rlpStr h32).length ≠ hl + h32.length then rerr .decoder
        else if false = true then rerr TrieError.decoder
        else if h32.length = 0 then rok Node.empty
          else if h32.length = 32 then
            rok (.hash (((rlpStr h32).drop hl).take 32))
          else rerr .invalidData) = some r := h
    rw [if_neg (by omega), if_neg (by simp), if_neg (by omega), if_pos hlen,
      hdrop] at h2
    have htake : h32.take 32 = h32 := by
      rw [← hlen]
      simp
    rw [htake] at h2
    have h3 : some (Except.ok (Node.hash h32)) = some r := h2
    simp only [Option.some.injEq] at h3
    exact h3.symm

/-- The list-prototype arm of `decode_node`, factored out. -/
def decodeListArm (fd : Nat) (items : List Bytes) : TRes Node :=
  if items.length = 2 then
    match rlpData (items.getD 0 []) with
    | none => rerr .decoder
    | some keyBytes =>
      let key := Nibbles.fromCompact keyBytes
      if key.isLeafN then
        match rlpData (items.getD 1 []) with
        | none => rerr .decoder
        | some v => rok (.leaf key v)
      else
        rbind (decodeNode fd (items.getD 1 [])) fun n => rok (.extension key n)
  else if items.length = 17 then
    rbind ((items.take 16).foldl
        (fun acc it => rbind acc fun ns =>
          rbind (decodeNode fd it) fun n => rok (ns ++ [n]))
        (rok [])) fun children =>
      let vraw := items.getD 16 []
      if vraw = [128] ∨ vraw = [192] then rok (.branch children none)
      else
        match rlpData vraw with
        | none => rerr .decoder
        | some v => rok (.branch children (some v))
  else rerr .invalidData

theorem decodeNode_list_eq (fd : Nat) (b : Bytes) (hl pl : Nat)
    (items : List Bytes)
    (hhd : rlpHeader b = some (true, hl, pl))
    (hlen : b.length = hl + pl)
    (hitems : rlpItems (b.drop hl) = some items) :
    decodeNode (fd + 1) b = decodeListArm fd items := by
  rw [decodeNode_succ_eq, hhd]
  show (if b.length ≠ hl + pl then rerr .decoder
        else if true = true then
          (match rlpItems (b.drop hl) with
           | none => rerr TrieError.decoder
           | some items => decodeListArm fd items)
        else
          if pl = 0 then rok .empty
          else if pl = 32 then rok (.hash ((b.drop hl).take 32))
          else rerr .invalidData) = decodeListArm fd items
  rw [if_neg (by omega), if_pos rfl, hitems]

theorem decodeListArm_pair (fd : Nat) (i0 i1 : Bytes) :
    decodeListArm fd [i0, i1] =
      (match rlpData i0 with
       | none => rerr .decoder
       | some keyBytes =>
         if (Nibbles.fromCompact keyBytes).isLeafN then
           match rlpData i1 with
           | none => rerr .decoder
           | some v => rok (.leaf (Nibbles.fromCompact keyBytes) v)
         else
           rbind (decodeNode fd i1) fun n =>
             rok (.extension (Nibbles.fromCompact keyBytes) n)) := rfl

theorem decodeListArm_17 (fd : Nat) (items : List Bytes)
    (h17 : items.length = 17) :
    decodeListArm fd items =
      (rbind ((items.take 16).foldl
          (fun acc it => rbind acc fun ns =>
            rbind (decodeNode fd it) fun n => rok (ns ++ [n]))
          (rok [])) fun children =>
        if items.getD 16 [] = [128] ∨ items.getD 16 [] = [192] then
          rok (.branch children none)
        else
          match rlpData (items.getD 16 []) with
          | none => rerr .decoder
          | some v => rok (.branch children (some v))) := by
  unfold decodeListArm
  rw [if_neg (by omega), if_pos h17]

theorem decodeFold_none (fd : Nat) (pieces : List Bytes) :
    pieces.foldl (fun acc it => rbind acc fun ns =>
      rbind (decodeNode fd it) fun n => rok (ns ++ [n])) none = none := by
  induction pieces with
  | nil => rfl
  | cons pc pieces ih =>
    rw [List.foldl_cons]
    rw [show rbind (none : TRes (List Node)) (fun ns =>
      rbind (decodeNode fd pc) fun n => rok (ns ++ [n])) = none from rfl]
    exact ih

theorem decodeFold_err (fd : Nat) (e0 : TrieError) (pieces : List Bytes) :
    pieces.foldl (fun acc it => rbind acc fun ns =>
      rbind (decodeNode fd it) fun n => rok (ns ++ [n])) (some (.error e0)) =
      some (.error e0) := by
  induction pieces with
  | nil => rfl
  | cons pc pieces ih =>
    rw [List.foldl_cons]
    rw [show rbind (some (.error e0) : TRes (List Node)) (fun ns =>
      rbind (decodeNode fd pc) fun n => rok (ns ++ [n])) = some (.error e0) from rfl]
    exact ih

/-- The decoder's branch-children fold returns exactly the pointwise-decoded
children. -/
theorem decode_children_fold (fd : Nat) :
    ∀ (pieces : List Bytes) (scs : List Node),
    List.Forall₂ (fun pb sc => ∀ fd' r', decodeNode fd' pb = some r' → r' = .ok sc)
      pieces scs →
    ∀ (acc0 : List Node) (res : Except TrieError (List Node)),
    pieces.foldl (fun acc it => rbind acc fun ns =>
      rbind (decodeNode fd it) fun n => rok (ns ++ [n])) (rok acc0) = some res →
    res = .ok (acc0 ++ scs) := by
  intro pieces scs hfa
  induction hfa with
  | nil =>
    intro acc0 res h
    have h2 : some (Except.ok acc0) = some res := h
    simp only [Option.some.injEq] at h2
    rw [← h2]
    simp
  | cons hr hrest ih =>
    intro acc0 res h
    rename_i pb sc pieces2 scs2
    rw [List.foldl_cons] at h
    rw [show rbind (rok acc0) (fun ns =>
      rbind (decodeNode fd pb) fun n => rok (ns ++ [n])) =
      rbind (decodeNode fd pb) fun n => rok (acc0 ++ [n]) from rfl] at h
    match hdec : decodeNode fd pb with
    | none =>
      rw [hdec] at h
      rw [show rbind (none : TRes Node) (fun n => rok (acc0 ++ [n])) = none from rfl,
        decodeFold_none] at h
      exact absurd h (by simp)
    | some (.error e2) =>
      exact absurd (hr fd (.error e2) hdec) (by simp)
    | some (.ok nn) =>
      have hnn : Except.ok nn = Except.ok sc := hr fd (.ok nn) hdec
      simp only [Except.ok.injEq] at hnn
      subst hnn
      rw [hdec] at h
      rw [show rbind (some (Except.ok nn) : TRes Node) (fun n => rok (acc0 ++ [n])) =
        some (Except.ok (acc0 ++ [nn])) from rfl] at h
      have := ih (acc0 ++ [nn]) res h
      rw [this]
      simp

/-- Decoding an `encB` encoding recovers exactly the shadow of the encoded
node, whatever the decoder's fuel. -/
theorem decode_encB (kec : Bytes → Bytes) (hk32 : ∀ d, (kec d).length = 32) :
    ∀ (f : Nat) (n : Node) (e : Bytes) (dn : Node),
    hashFreeB n = true → wfTreeB n = true → wfValsB n = true →
    encB kec f n = some e → shadowB kec f n = some dn →
    e.length < 256 ^ 8 →
    ∀ (fd : Nat) (r : Except TrieError Node), decodeNode fd e = some r →
      r = .ok dn := by
  intro f
  induction f with
  | zero =>
    intro n e dn _ _ _ henc _ _ fd r _
    have h0 : (none : Option Bytes) = some e := henc
    exact absurd h0 (by simp)
  | succ f ih =>
    intro n e dn hhf hwf hwv henc hsh hb fd r hrun
    have hpiece : ∀ (c : Node) (pb : Bytes) (sc : Node),
        hashFreeB c = true → wfTreeB c = true → wfValsB c = true →
        encPieceWith kec (fun c' => encB kec f c') c = some pb →
        shadowPieceWith kec (encB kec f) (fun c' => shadowB kec f c') c = some sc →
        (∀ fd' r', decodeNode fd' pb = some r' → r' = .ok sc) ∧ selfDelim pb := by
      intro c pb sc hhf2 hwf2 hwv2 hp hs
      have h32e8 : (32 : Nat) < 256 ^ 8 := by norm_num
      rcases piece_rel2 kec f c pb sc hp hs with ⟨h0, rfl, -, -⟩ | ⟨d, hd, hcase⟩
      · exact absurd hhf2 (by simp [hashFreeB])
      · rcases hcase with ⟨hlt, rfl, hsh2⟩ | ⟨hge, rfl, rfl⟩
        · constructor
          · intro fd' r' hrun2
            exact ih c pb sc hhf2 hwf2 hwv2 hd hsh2 (by omega) fd' r' hrun2
          · exact encB_selfDelim kec f c pb hd (by omega)
        · constructor
          · intro fd' r' hrun2
            exact decode_hashPiece (kec d) (hk32 d) fd' r' hrun2
          · exact selfDelim_rlpStr (kec d) (by rw [hk32 d]; norm_num)
    cases n with
    | empty =>
      have he2 : some [128] = some e := henc
      simp only [Option.some.injEq] at he2
      subst he2
      have hdn2 : some Node.empty = some dn := hsh
      simp only [Option.some.injEq] at hdn2
      subst hdn2
      match fd with
      | 0 => exact absurd hrun (by simp [decodeNode])
      | fd + 1 =>
        have h2 : some (Except.ok Node.empty) = some r := hrun
        simp only [Option.some.injEq] at h2
        exact h2.symm
    | hash hh =>
      have h0 : (none : Option Bytes) = some e := henc
      exact absurd h0 (by simp)
    | leaf k v =>
      have he2 : some (rlpList (rlpStr k.encodeCompact ++ rlpStr v)) = some e := henc
      simp only [Option.some.injEq] at he2
      subst he2
      have hdn2 : some (Node.leaf k v) = some dn := hsh
      simp only [Option.some.injEq] at hdn2
      subst hdn2
      have hwfk : wfLeafKey k.hexData = true := hwf
      have hpayb : (rlpStr k.encodeCompact ++ rlpStr v).length < 256 ^ 8 :=
        lt_of_le_of_lt (length_le_rlpList _) hb
      have hckb : k.encodeCompact.length < 256 ^ 8 := by
        have h1 := length_le_rlpStr k.encodeCompact
        have h2 : (rlpStr k.encodeCompact).length ≤
            (rlpStr k.encodeCompact ++ rlpStr v).length := by simp
        omega
      have hvb : v.length < 256 ^ 8 := by
        have h1 := length_le_rlpStr v
        have h2 : (rlpStr v).length ≤
            (rlpStr k.encodeCompact ++ rlpStr v).length := by simp
        omega
      obtain ⟨hl, hhd, hlen, hdrop, -⟩ :=
        rlpList_spec (rlpStr k.encodeCompact ++ rlpStr v) hpayb
      have hitems : rlpItems ((rlpList (rlpStr k.encodeCompact ++ rlpStr v)).drop hl) =
          some [rlpStr k.encodeCompact, rlpStr v] := by
        rw [hdrop]
        have hflat : rlpStr k.encodeCompact ++ rlpStr v =
            List.flatten [rlpStr k.encodeCompact, rlpStr v] := by simp
        rw [hflat]
        apply rlpItems_flatten
        intro pc hpc
        rcases List.mem_cons.mp hpc with rfl | hpc2
        · exact selfDelim_rlpStr _ hckb
        · rcases List.mem_cons.mp hpc2 with rfl | hpc3
          · exact selfDelim_rlpStr _ hvb
          · simp at hpc3
      match fd with
      | 0 => exact absurd hrun (by simp [decodeNode])
      | fd + 1 =>
        rw [decodeNode_list_eq fd _ hl (rlpStr k.encodeCompact ++ rlpStr v).length
          [rlpStr k.encodeCompact, rlpStr v] hhd hlen hitems,
          decodeListArm_pair, rlpData_rlpStr _ hckb] at hrun
        have hrt : Nibbles.fromCompact (Nibbles.encodeCompact k) = k :=
          fromCompact_encodeCompact_leaf k.hexData hwfk
        have hterm : (Nibbles.fromCompact (Nibbles.encodeCompact k)).isLeafN = true := by
          rw [hrt]
          exact isLeafN_of_wfLeafKey k.hexData hwfk
        have h2 : (if (Nibbles.fromCompact k.encodeCompact).isLeafN then
            match rlpData (rlpStr v) with
            | none => rerr .decoder
            | some v2 => rok (.leaf (Nibbles.fromCompact k.encodeCompact) v2)
          else rbind (decodeNode fd (rlpStr v)) fun nn =>
            rok (.extension (Nibbles.fromCompact k.encodeCompact) nn)) = some r := hrun
        rw [if_pos hterm, rlpData_rlpStr _ hvb] at h2
        have h3 : some (Except.ok (Node.leaf (Nibbles.fromCompact k.encodeCompact) v)) =
            some r := h2
        simp only [Option.some.injEq] at h3
        rw [← h3, hrt]
    | extension pfx ch =>
      rw [encB_ext_eq] at henc
      match hp : encPieceWith kec (fun c' => encB kec f c') ch with
      | none => rw [hp] at henc; exact absurd henc (by simp)
      | some pb =>
        rw [hp] at henc
        simp only [Option.some.injEq] at henc
        subst henc
        rw [shadowB_ext_eq] at hsh
        match hs : shadowPieceWith kec (encB kec f) (fun c => shadowB kec f c) ch with
        | none => rw [hs] at hsh; exact absurd hsh (by simp)
        | some sc =>
          rw [hs] at hsh
          simp only [Option.some.injEq] at hsh
          subst hsh
          obtain ⟨hwfp, hwfc⟩ := wfTreeB_ext pfx ch hwf
          have hhfc : hashFreeB ch = true := hhf
          have hwvc : wfValsB ch = true := hwv
          obtain ⟨hdec_pb, hsd_pb⟩ := hpiece ch pb sc hhfc hwfc hwvc hp hs
          have hpayb : (rlpStr pfx.encodeCompact ++ pb).length < 256 ^ 8 :=
            lt_of_le_of_lt (length_le_rlpList _) hb
          have hckb : pfx.encodeCompact.length < 256 ^ 8 := by
            have h1 := length_le_rlpStr pfx.encodeCompact
            have h2 : (rlpStr pfx.encodeCompact).length ≤
                (rlpStr pfx.encodeCompact ++ pb).length := by simp
            omega
          obtain ⟨hl, hhd, hlen, hdrop, -⟩ :=
            rlpList_spec (rlpStr pfx.encodeCompact ++ pb) hpayb
          have hitems : rlpItems ((rlpList (rlpStr pfx.encodeCompact ++ pb)).drop hl) =
              some [rlpStr pfx.encodeCompact, pb] := by
            rw [hdrop]
            have hflat : rlpStr pfx.encodeCompact ++ pb =
                List.flatten [rlpStr pfx.encodeCompact, pb] := by simp
            rw [hflat]
            apply rlpItems_flatten
            intro pc hpc
            rcases List.mem_cons.mp hpc with rfl | hpc2
            · exact selfDelim_rlpStr _ hckb
            · rcases List.mem_cons.mp hpc2 with rfl | hpc3
              · exact hsd_pb
              · simp at hpc3
          match fd with
          | 0 => exact absurd hrun (by simp [decodeNode])
          | fd + 1 =>
            rw [decodeNode_list_eq fd _ hl (rlpStr pfx.encodeCompact ++ pb).length
              [rlpStr pfx.encodeCompact, pb] hhd hlen hitems,
              decodeListArm_pair, rlpData_rlpStr _ hckb] at hrun
            have hrt : Nibbles.fromCompact (Nibbles.encodeCompact pfx) = pfx :=
              fromCompact_encodeCompact_pfx pfx.hexData hwfp
            have hterm : (Nibbles.fromCompact (Nibbles.encodeCompact pfx)).isLeafN
                = false := by
              rw [hrt]
              exact isLeafN_of_wfPfx pfx.hexData hwfp
            have h2 : (if (Nibbles.fromCompact pfx.encodeCompact).isLeafN then
                match rlpData pb with
                | none => rerr .decoder
                | some v2 => rok (.leaf (Nibbles.fromCompact pfx.encodeCompact) v2)
              else rbind (decodeNode fd pb) fun nn =>
                rok (.extension (Nibbles.fromCompact pfx.encodeCompact) nn)) =
                some r := hrun
            rw [if_neg (by rw [hterm]; simp)] at h2
            match hdec : decodeNode fd pb with
            | none =>
              rw [hdec] at h2
              exact absurd h2 (by simp)
            | some (.error e2) =>
              exact absurd (hdec_pb fd (.error e2) hdec) (by simp)
            | some (.ok nn) =>
              have hnn : Except.ok nn = Except.ok sc := hdec_pb fd (.ok nn) hdec
              simp only [Except.ok.injEq] at hnn
              subst hnn
              rw [hdec] at h2
              have h3 : some (Except.ok
                  (Node.extension (Nibbles.fromCompact pfx.encodeCompact) nn)) =
                  some r := h2
              simp only [Option.some.injEq] at h3
              rw [← h3, hrt]
    | branch cs v =>
      rw [encB_branch_eq] at henc
      match hfold : (List.range 16).foldl (encBStep kec f cs) (some []) with
      | none => rw [hfold] at henc; exact absurd henc (by simp)
      | some payload =>
        rw [hfold] at henc
        simp only [Option.some.injEq] at henc
        subst henc
        rw [shadowB_branch_eq] at hsh
        match hfold2 : (List.range 16).foldl (shadowBStep kec f cs) (some []) with
        | none => rw [hfold2] at hsh; exact absurd hsh (by simp)
        | some scs0 =>
          rw [hfold2] at hsh
          simp only [Option.some.injEq] at hsh
          subst hsh
          obtain ⟨hcs16, hwfl⟩ := wfTreeB_branch cs v hwf
          obtain ⟨hvfact, hwvl⟩ := wfValsB_branch cs v hwv
          have hhfl : hashFreeListB cs = true := hhf
          obtain ⟨pbs, hpay, hfa1⟩ :=
            encBStep_fold_pieces kec f cs (List.range 16) [] payload hfold
          obtain ⟨ys, hscs, hfa2⟩ :=
            shadowBStep_fold_pieces kec f cs (List.range 16) [] scs0 hfold2
          simp only [List.nil_append] at hpay hscs
          subst hpay
          have hpbs16 : pbs.length = 16 := by
            have := List.Forall₂.length_eq hfa1
            simpa using this.symm
          have hpair := forall2_pair hfa1 hfa2
          have hfa3 : List.Forall₂ (fun pb sc =>
              (∀ fd' r', decodeNode fd' pb = some r' → r' = .ok sc) ∧
                selfDelim pb) pbs ys := by
            apply List.Forall₂.imp ?_ hpair
            rintro pb sc ⟨i, hi, hp, hs⟩
            exact hpiece (cs.getD i .empty) pb sc
              (hashFreeListB_getD cs hhfl i)
              (wfTreeListB_getD cs hwfl i)
              (wfValsListB_getD cs hwvl i) hp hs
          have hsdall : ∀ pc ∈ pbs, selfDelim pc := by
            intro pc hpc
            obtain ⟨sc, -, hsd⟩ := forall2_mem_left hfa3 pc hpc
            exact hsd
          have hvpb : (vPieceB v).length < 256 ^ 8 := by
            have h2 : (vPieceB v).length ≤ (pbs.flatten ++ vPieceB v).length := by simp
            have h3 := length_le_rlpList (pbs.flatten ++ vPieceB v)
            omega
          have hsdv : selfDelim (vPieceB v) := by
            cases v with
            | none => exact selfDelim_128
            | some vv =>
              rw [show vPieceB (some vv) = rlpStr vv from rfl] at hvpb ⊢
              have h4 := length_le_rlpStr vv
              exact selfDelim_rlpStr vv (by omega)
          have hpayb : (pbs.flatten ++ vPieceB v).length < 256 ^ 8 :=
            lt_of_le_of_lt (length_le_rlpList _) hb
          obtain ⟨hl, hhd, hlen, hdrop, -⟩ := rlpList_spec _ hpayb
          have hitems : rlpItems ((rlpList (pbs.flatten ++ vPieceB v)).drop hl) =
              some (pbs ++ [vPieceB v]) := by
            rw [hdrop]
            have hflat : pbs.flatten ++ vPieceB v =
                List.flatten (pbs ++ [vPieceB v]) := by simp
            rw [hflat]
            apply rlpItems_flatten
            intro pc hpc
            rcases List.mem_append.mp hpc with hpc1 | hpc2
            · exact hsdall pc hpc1
            · rcases List.mem_singleton.mp hpc2 with rfl
              exact hsdv
          have h17 : (pbs ++ [vPieceB v]).length = 17 := by simp [hpbs16]
          have htake16 : (pbs ++ [vPieceB v]).take 16 = pbs := by
            rw [← hpbs16]
            exact List.take_left _ _
          have hgd16 : (pbs ++ [vPieceB v]).getD 16 [] = vPieceB v := by
            rw [← hpbs16]
            exact getD_append_self _ _ _
          match fd with
          | 0 => exact absurd hrun (by simp [decodeNode])
          | fd + 1 =>
            rw [decodeNode_list_eq fd _ hl _ _ hhd hlen hitems,
              decodeListArm_17 fd _ h17, htake16, hgd16] at hrun
            match hF : pbs.foldl (fun acc it => rbind acc fun ns =>
                rbind (decodeNode fd it) fun nn => rok (ns ++ [nn])) (rok []) with
            | none =>
              rw [hF] at hrun
              exact absurd hrun (by simp [rbind])
            | some (.error e2) =>
              have := decode_children_fold fd pbs ys
                (List.Forall₂.imp (fun pb sc h => h.1) hfa3) [] (.error e2) hF
              exact absurd this (by simp)
            | some (.ok children) =>
              have hch : Except.ok children = Except.ok ([] ++ ys) :=
                decode_children_fold fd pbs ys
                  (List.Forall₂.imp (fun pb sc h => h.1) hfa3) [] (.ok children) hF
              simp only [List.nil_append, Except.ok.injEq] at hch
              rw [hF] at hrun
              have h2 : (if vPieceB v = [128] ∨ vPieceB v = [192] then
                  rok (.branch children none)
                else
                  match rlpData (vPieceB v) with
                  | none => rerr .decoder
                  | some v2 => rok (.branch children (some v2))) = some r := hrun
              cases v with
              | none =>
                rw [show vPieceB none = [128] from rfl] at h2
                rw [if_pos (by simp)] at h2
                have h3 : some (Except.ok (Node.branch children none)) = some r := h2
                simp only [Option.some.injEq] at h3
                rw [← h3, hch, hscs]
              | some vv =>
                have hvvne : ¬vv = [] := hvfact vv rfl
                rw [show vPieceB (some vv) = rlpStr vv from rfl] at h2 hvpb
                have hvvb : vv.length < 256 ^ 8 := by
                  have h4 := length_le_rlpStr vv
                  omega
                rw [if_neg (by
                  push_neg
                  constructor
                  · intro hc
                    exact hvvne (rlpStr_eq_128 vv hvvb hc)
                  · exact rlpStr_ne_192 vv hvvb),
                  rlpData_rlpStr vv hvvb] at h2
                have h3 : some (Except.ok (Node.branch children (some vv))) =
                    some r := h2
                simp only [Option.some.injEq] at h3
                rw [← h3, hch, hscs]
/-! ## Stored-along predicate and the walk simulation -/

/-- A child piece is resolvable from the store `S`: inline pieces trivially,
hashed pieces by an exact-bytes hit under their digest (with the size bound
the decoder needs). -/
def pieceStoredB (kec : Bytes → Bytes) (S : Store) (f : Nat) (c : Node) : Bool :=
  match encB kec f c with
  | none => false
  | some d =>
    if d.length < 32 then true
    else decide (S.getB (kec d) = some d) && decide (d.length < 256 ^ 8)

/-- Along the walk of `path` from index `i`, every hashed piece entered is
stored in `S`.  Mirrors `get_at`'s traversal. -/
def storedAlongB (kec : Bytes → Bytes) (S : Store) :
    Nat → Node → Nibbles → Nat → Bool
  | 0, _, _, _ => false
  | f + 1, n, path, i =>
    match n with
    | .empty => true
    | .leaf _ _ => true
    | .hash _ => false
    | .branch cs _ =>
      if (path.offset i).isEmpty || (path.offset i).nAt 0 = 16 then true
      else
        pieceStoredB kec S f (cs.getD ((path.offset i).nAt 0) .empty) &&
          storedAlongB kec S f (cs.getD ((path.offset i).nAt 0) .empty) path (i + 1)
    | .extension pfx child =>
      if (path.offset i).commonPrefix pfx = pfx.len then
        pieceStoredB kec S f child &&
          storedAlongB kec S f child path (i + (path.offset i).commonPrefix pfx)
      else true

/-- The pairing between a materialised node and the node the decoded-side walk
is standing on: either the decoded shadow, or a stored hash reference to its
encoding. -/
def relNode (kec : Bytes → Bytes) (S : Store) (f : Nat) (n dn : Node) : Prop :=
  shadowB kec f n = some dn ∨
  (∃ d, encB kec f n = some d ∧ ¬d.length < 32 ∧ d.length < 256 ^ 8 ∧
    S.getB (kec d) = some d ∧ dn = .hash (kec d))

theorem getAt_empty_eq (kec : Bytes → Bytes) (db : Store) (rh : Bytes) (fd : Nat)
    (path : Nibbles) (i : Nat) :
    getAt kec db rh (fd + 1) .empty path i =
      rerr (.missingTrieNode (kec []) (some (path.slice 0 i)) (some rh) none) := rfl

theorem getAt_leaf_eq (kec : Bytes → Bytes) (db : Store) (rh : Bytes) (fd : Nat)
    (lk : Nibbles) (lv : Bytes) (path : Nibbles) (i : Nat) :
    getAt kec db rh (fd + 1) (.leaf lk lv) path i =
      (if lk = path.offset i then rok (some lv)
       else rerr (.missingTrieNode (kec []) (some (path.slice 0 i)) (some rh) none)) := rfl

theorem getAt_branch_eq (kec : Bytes → Bytes) (db : Store) (rh : Bytes) (fd : Nat)
    (cs : List Node) (v : Option Bytes) (path : Nibbles) (i : Nat) :
    getAt kec db rh (fd + 1) (.branch cs v) path i =
      (if (path.offset i).isEmpty || (path.offset i).nAt 0 = 16 then rok v
       else getAt kec db rh fd (cs.getD ((path.offset i).nAt 0) .empty) path (i + 1)) := rfl

theorem getAt_ext_eq (kec : Bytes → Bytes) (db : Store) (rh : Bytes) (fd : Nat)
    (pfx : Nibbles) (child : Node) (path : Nibbles) (i : Nat) :
    getAt kec db rh (fd + 1) (.extension pfx child) path i =
      (if (path.offset i).commonPrefix pfx = pfx.len then
        getAt kec db rh fd child path (i + (path.offset i).commonPrefix pfx)
       else rerr (.missingTrieNode (kec []) (some (path.slice 0 i)) (some rh) none)) := rfl

theorem getAt_hash_eq (kec : Bytes → Bytes) (db : Store) (rh : Bytes) (fd : Nat)
    (hn : Bytes) (path : Nibbles) (i : Nat) :
    getAt kec db rh (fd + 1) (.hash hn) path i =
      rbind (recoverFromDb db hn) fun mres =>
        match mres with
        | none => rerr (.missingTrieNode hn (some (path.slice 0 i)) (some rh) none)
        | some nd => getAt kec db rh fd nd path i := rfl

theorem forall2_range_getD {β : Type} {R : Nat → β → Prop} (m : Nat)
    (ys : List β) (d0 : β)
    (h : List.Forall₂ R (List.range m) ys) (u : Nat) (hu : u < m) :
    R u (ys.getD u d0) := by
  obtain ⟨hlen, hget⟩ := List.forall₂_iff_get.mp h
  have hlen2 : ys.length = m := by simpa using hlen.symm
  have h1 : u < (List.range m).length := by simpa using hu
  have h2 : u < ys.length := by omega
  have hr := hget u h1 h2
  rw [List.get_range] at hr
  rw [List.getD_eq_getElem?_getD, List.getElem?_eq_getElem h2]
  simpa using hr

theorem offset_isEmpty_iff (path : Nibbles) (i : Nat) :
    (path.offset i).isEmpty = true ↔ path.len ≤ i := by
  show (path.hexData.drop i).isEmpty = true ↔ path.hexData.length ≤ i
  rw [List.isEmpty_iff, List.drop_eq_nil_iff]

theorem branch_walk_idx (path : Nibbles) (i : Nat)
    (hpath : wfLeafKey path.hexData = true)
    (hne : ¬((path.offset i).isEmpty = true ∨ (path.offset i).nAt 0 = 16)) :
    (path.offset i).nAt 0 < 16 ∧ i < path.len := by
  push_neg at hne
  obtain ⟨hne1, hne2⟩ := hne
  have hi : i < path.len := by
    by_contra hc
    exact hne1 (offset_isEmpty_iff path i |>.mpr (by omega))
  refine ⟨?_, hi⟩
  rw [nAt_getD] at hne2 ⊢
  simp only [Nat.add_zero] at hne2 ⊢
  have hle : path.hexData.getD i 16 ≤ 16 := by
    have hmem : path.hexData.getD i 16 ∈ path.hexData := by
      rw [List.getD_eq_getElem?_getD, List.getElem?_eq_getElem hi]
      exact List.getElem_mem _
    exact wfLeafKey_le path.hexData hpath _ hmem
  omega

/-- The decoded-side `get_at` walk (over store `S`) simulates the walk on the
materialised tree: successful reads agree, and decoded-side failures are
always `MissingTrieNode`s. -/
theorem getAt_shadow_sim (kec : Bytes → Bytes) (hk32 : ∀ d, (kec d).length = 32)
    (S : Store) (rh2 : Bytes) (db0 : Store) (rh0 : Bytes) :
    ∀ (fd : Nat) (f : Nat) (n dn : Node) (path : Nibbles) (i : Nat)
      (res : Except TrieError (Option Bytes)),
    hashFreeB n = true → wfTreeB n = true → wfValsB n = true →
    wfLeafKey path.hexData = true →
    relNode kec S f n dn →
    storedAlongB kec S f n path i = true →
    getAt kec S rh2 fd dn path i = some res →
    (∀ w, res = .ok w → ∃ f0, getAt kec db0 rh0 f0 n path i = some (.ok w)) ∧
    (∀ f0 res0, getAt kec db0 rh0 f0 n path i = some res0 →
      ∀ w, res = .ok w ↔ res0 = .ok w) ∧
    (∀ e2, res = .error e2 → ∃ nh tr rh3 k3, e2 = .missingTrieNode nh tr rh3 k3) := by
  intro fd
  induction fd with
  | zero =>
    intro f n dn path i res _ _ _ _ _ _ hget
    have h0 : (none : TRes (Option Bytes)) = some res := hget
    exact absurd h0 (by simp)
  | succ fd ih =>
    intro f n dn path i res hhf hwf hwv hpath hrel hstored hget
    rcases hrel with hsh | ⟨d, henc, hge, hb, hgetb, rfl⟩
    · -- decoded side stands on the shadow
      match f with
      | 0 =>
        have h0 : (none : Option Node) = some dn := hsh
        exact absurd h0 (by simp)
      | f' + 1 =>
        cases n with
        | hash hh => exact absurd hhf (by simp [hashFreeB])
        | empty =>
          have hdn : some Node.empty = some dn := hsh
          simp only [Option.some.injEq] at hdn
          subst hdn
          rw [getAt_empty_eq] at hget
          have hres : some (Except.error (TrieError.missingTrieNode (kec [])
              (some (path.slice 0 i)) (some rh2) none)) = some res := hget
          simp only [Option.some.injEq] at hres
          refine ⟨?_, ?_, ?_⟩
          · intro w hw
            rw [← hres] at hw
            exact absurd hw (by simp)
          · intro f0 res0 h0 w
            match f0 with
            | 0 =>
              have h00 : (none : TRes (Option Bytes)) = some res0 := h0
              exact absurd h00 (by simp)
            | f0 + 1 =>
              rw [getAt_empty_eq] at h0
              have hres0 : some (Except.error (TrieError.missingTrieNode (kec [])
                  (some (path.slice 0 i)) (some rh0) none)) = some res0 := h0
              simp only [Option.some.injEq] at hres0
              rw [← hres, ← hres0]
              simp
          · intro e2 he2
            rw [← hres] at he2
            simp only [Except.error.injEq] at he2
            exact ⟨_, _, _, _, he2.symm⟩
        | leaf lk lv =>
          have hdn : some (Node.leaf lk lv) = some dn := hsh
          simp only [Option.some.injEq] at hdn
          subst hdn
          rw [getAt_leaf_eq] at hget
          by_cases hc : lk = path.offset i
          · rw [if_pos hc] at hget
            have hres : some (Except.ok (some lv)) = some res := hget
            simp only [Option.some.injEq] at hres
            refine ⟨?_, ?_, ?_⟩
            · intro w hw
              have hres2 : res = .ok (some lv) := hres.symm
              rw [hres2] at hw
              simp only [Except.ok.injEq] at hw
              refine ⟨1, ?_⟩
              rw [getAt_leaf_eq, if_pos hc, ← hw]
              rfl
            · intro f0 res0 h0 w
              match f0 with
              | 0 =>
              have h00 : (none : TRes (Option Bytes)) = some res0 := h0
              exact absurd h00 (by simp)
              | f0 + 1 =>
                rw [getAt_leaf_eq, if_pos hc] at h0
                have hres0 : some (Except.ok (some lv)) = some res0 := h0
                simp only [Option.some.injEq] at hres0
                rw [← hres, ← hres0]
            · intro e2 he2
              rw [← hres] at he2
              exact absurd he2 (by simp)
          · rw [if_neg hc] at hget
            have hres : some (Except.error (TrieError.missingTrieNode (kec [])
                (some (path.slice 0 i)) (some rh2) none)) = some res := hget
            simp only [Option.some.injEq] at hres
            refine ⟨?_, ?_, ?_⟩
            · intro w hw
              rw [← hres] at hw
              exact absurd hw (by simp)
            · intro f0 res0 h0 w
              match f0 with
              | 0 =>
              have h00 : (none : TRes (Option Bytes)) = some res0 := h0
              exact absurd h00 (by simp)
              | f0 + 1 =>
                rw [getAt_leaf_eq, if_neg hc] at h0
                have hres0 : some (Except.error (TrieError.missingTrieNode (kec [])
                    (some (path.slice 0 i)) (some rh0) none)) = some res0 := h0
                simp only [Option.some.injEq] at hres0
                rw [← hres, ← hres0]
                simp
            · intro e2 he2
              rw [← hres] at he2
              simp only [Except.error.injEq] at he2
              exact ⟨_, _, _, _, he2.symm⟩
        | branch cs v =>
          rw [shadowB_branch_eq] at hsh
          match hfold2 : (List.range 16).foldl (shadowBStep kec f' cs) (some []) with
          | none => rw [hfold2] at hsh; exact absurd hsh (by simp)
          | some scs0 =>
            rw [hfold2] at hsh
            simp only [Option.some.injEq] at hsh
            subst hsh
            rw [getAt_branch_eq] at hget
            have hst2 : (if (path.offset i).isEmpty || (path.offset i).nAt 0 = 16
                then true
                else pieceStoredB kec S f' (cs.getD ((path.offset i).nAt 0) .empty) &&
                  storedAlongB kec S f' (cs.getD ((path.offset i).nAt 0) .empty)
                    path (i + 1)) = true := hstored
            by_cases hterm : ((path.offset i).isEmpty || (path.offset i).nAt 0 = 16)
                = true
            · rw [if_pos hterm] at hget
              have hres : some (Except.ok v) = some res := hget
              simp only [Option.some.injEq] at hres
              refine ⟨?_, ?_, ?_⟩
              · intro w hw
                have hres2 : res = .ok v := hres.symm
                rw [hres2] at hw
                simp only [Except.ok.injEq] at hw
                refine ⟨1, ?_⟩
                rw [getAt_branch_eq, if_pos hterm, ← hw]
                rfl
              · intro f0 res0 h0 w
                match f0 with
                | 0 =>
                  have h00 : (none : TRes (Option Bytes)) = some res0 := h0
                  exact absurd h00 (by simp)
                | f0 + 1 =>
                  rw [getAt_branch_eq, if_pos hterm] at h0
                  have hres0 : some (Except.ok v) = some res0 := h0
                  simp only [Option.some.injEq] at hres0
                  rw [← hres, ← hres0]
              · intro e2 he2
                rw [← hres] at he2
                exact absurd he2 (by simp)
            · have hterm2 : ¬((path.offset i).isEmpty = true ∨
                  (path.offset i).nAt 0 = 16) := by
                simpa using hterm
              obtain ⟨hu16, hilen⟩ := branch_walk_idx path i hpath hterm2
              rw [if_neg hterm] at hget
              rw [if_neg hterm] at hst2
              simp only [Bool.and_eq_true] at hst2
              obtain ⟨hpc, hsa⟩ := hst2
              obtain ⟨hcs16, hwfl⟩ := wfTreeB_branch cs v hwf
              obtain ⟨-, hwvl⟩ := wfValsB_branch cs v hwv
              have hhfl : hashFreeListB cs = true := hhf
              have hchf := hashFreeListB_getD cs hhfl ((path.offset i).nAt 0)
              have hcwf := wfTreeListB_getD cs hwfl ((path.offset i).nAt 0)
              have hcwv := wfValsListB_getD cs hwvl ((path.offset i).nAt 0)
              obtain ⟨ys, hscs, hfa2⟩ :=
                shadowBStep_fold_pieces kec f' cs (List.range 16) [] scs0 hfold2
              simp only [List.nil_append] at hscs
              have hscu := forall2_range_getD 16 ys Node.empty hfa2
                ((path.offset i).nAt 0) hu16
              rw [shadowPieceWith_nonhash kec _ _ _
                (isHashB_false_of_hashFree _ hchf)] at hscu
              have hpc2 : (match encB kec f' (cs.getD ((path.offset i).nAt 0) .empty)
                  with
                | none => false
                | some d =>
                  if d.length < 32 then true
                  else decide (S.getB (kec d) = some d) &&
                    decide (d.length < 256 ^ 8)) = true := hpc
              match hec : encB kec f' (cs.getD ((path.offset i).nAt 0) .empty) with
              | none =>
                rw [hec] at hpc2
                exact absurd hpc2 (by simp)
              | some dch =>
                rw [hec] at hscu hpc2
                have hscu2 : (if dch.length < 32
                    then shadowB kec f' (cs.getD ((path.offset i).nAt 0) .empty)
                    else some (.hash (kec dch))) =
                    some (ys.getD ((path.offset i).nAt 0) .empty) := hscu
                have hpc3 : (if dch.length < 32 then true
                    else decide (S.getB (kec dch) = some dch) &&
                      decide (dch.length < 256 ^ 8)) = true := hpc2
                have hrelc : relNode kec S f'
                    (cs.getD ((path.offset i).nAt 0) .empty)
                    (ys.getD ((path.offset i).nAt 0) .empty) := by
                  by_cases hlt : dch.length < 32
                  · rw [if_pos hlt] at hscu2
                    exact Or.inl hscu2
                  · rw [if_neg hlt] at hscu2 hpc3
                    simp only [Bool.and_eq_true, decide_eq_true_eq] at hpc3
                    simp only [Option.some.injEq] at hscu2
                    exact Or.inr ⟨dch, hec, hlt, hpc3.2, hpc3.1, hscu2.symm⟩
                have hgetc : getAt kec S rh2 fd
                    (ys.getD ((path.offset i).nAt 0) .empty) path (i + 1) =
                    some res := by
                  rw [← hget]
                  congr 1
                  rw [hscs]
                have IH := ih f' (cs.getD ((path.offset i).nAt 0) .empty)
                  (ys.getD ((path.offset i).nAt 0) .empty) path (i + 1) res
                  hchf hcwf hcwv hpath hrelc hsa hgetc
                refine ⟨?_, ?_, IH.2.2⟩
                · intro w hw
                  obtain ⟨f0, hsrc⟩ := IH.1 w hw
                  refine ⟨f0 + 1, ?_⟩
                  rw [getAt_branch_eq, if_neg hterm]
                  exact hsrc
                · intro f0 res0 h0 w
                  match f0 with
                  | 0 =>
                  have h00 : (none : TRes (Option Bytes)) = some res0 := h0
                  exact absurd h00 (by simp)
                  | f0 + 1 =>
                    rw [getAt_branch_eq, if_neg hterm] at h0
                    exact IH.2.1 f0 res0 h0 w
        | extension pfx child =>
          rw [shadowB_ext_eq] at hsh
          match hs : shadowPieceWith kec (encB kec f') (fun c => shadowB kec f' c)
              child with
          | none => rw [hs] at hsh; exact absurd hsh (by simp)
          | some sc =>
            rw [hs] at hsh
            simp only [Option.some.injEq] at hsh
            subst hsh
            rw [getAt_ext_eq] at hget
            obtain ⟨hwfp, hwfc⟩ := wfTreeB_ext pfx child hwf
            have hchf : hashFreeB child = true := hhf
            have hcwv : wfValsB child = true := hwv
            have hst2 : (if (path.offset i).commonPrefix pfx = pfx.len
                then pieceStoredB kec S f' child &&
                  storedAlongB kec S f' child path
                    (i + (path.offset i).commonPrefix pfx)
                else true) = true := hstored
            by_cases hm : (path.offset i).commonPrefix pfx = pfx.len
            · rw [if_pos hm] at hget hst2
              simp only [Bool.and_eq_true] at hst2
              obtain ⟨hpc, hsa⟩ := hst2
              rw [shadowPieceWith_nonhash kec _ _ _
                (isHashB_false_of_hashFree _ hchf)] at hs
              have hpc2 : (match encB kec f' child with
                | none => false
                | some d =>
                  if d.length < 32 then true
                  else decide (S.getB (kec d) = some d) &&
                    decide (d.length < 256 ^ 8)) = true := hpc
              match hec : encB kec f' child with
              | none =>
                rw [hec] at hpc2
                exact absurd hpc2 (by simp)
              | some dch =>
                rw [hec] at hs hpc2
                have hs2 : (if dch.length < 32 then shadowB kec f' child
                    else some (.hash (kec dch))) = some sc := hs
                have hpc3 : (if dch.length < 32 then true
                    else decide (S.getB (kec dch) = some dch) &&
                      decide (dch.length < 256 ^ 8)) = true := hpc2
                have hrelc : relNode kec S f' child sc := by
                  by_cases hlt : dch.length < 32
                  · rw [if_pos hlt] at hs2
                    exact Or.inl hs2
                  · rw [if_neg hlt] at hs2 hpc3
                    simp only [Bool.and_eq_true, decide_eq_true_eq] at hpc3
                    simp only [Option.some.injEq] at hs2
                    exact Or.inr ⟨dch, hec, hlt, hpc3.2, hpc3.1, hs2.symm⟩
                have IH := ih f' child sc path
                  (i + (path.offset i).commonPrefix pfx) res
                  hchf hwfc hcwv hpath hrelc hsa hget
                refine ⟨?_, ?_, IH.2.2⟩
                · intro w hw
                  obtain ⟨f0, hsrc⟩ := IH.1 w hw
                  refine ⟨f0 + 1, ?_⟩
                  rw [getAt_ext_eq, if_pos hm]
                  exact hsrc
                · intro f0 res0 h0 w
                  match f0 with
                  | 0 =>
                  have h00 : (none : TRes (Option Bytes)) = some res0 := h0
                  exact absurd h00 (by simp)
                  | f0 + 1 =>
                    rw [getAt_ext_eq, if_pos hm] at h0
                    exact IH.2.1 f0 res0 h0 w
            · rw [if_neg hm] at hget
              have hres : some (Except.error (TrieError.missingTrieNode (kec [])
                  (some (path.slice 0 i)) (some rh2) none)) = some res := hget
              simp only [Option.some.injEq] at hres
              refine ⟨?_, ?_, ?_⟩
              · intro w hw
                rw [← hres] at hw
                exact absurd hw (by simp)
              · intro f0 res0 h0 w
                match f0 with
                | 0 =>
                  have h00 : (none : TRes (Option Bytes)) = some res0 := h0
                  exact absurd h00 (by simp)
                | f0 + 1 =>
                  rw [getAt_ext_eq, if_neg hm] at h0
                  have hres0 : some (Except.error (TrieError.missingTrieNode (kec [])
                      (some (path.slice 0 i)) (some rh0) none)) = some res0 := h0
                  simp only [Option.some.injEq] at hres0
                  rw [← hres, ← hres0]
                  simp
              · intro e2 he2
                rw [← hres] at he2
                simp only [Except.error.injEq] at he2
                exact ⟨_, _, _, _, he2.symm⟩
    · -- decoded side stands on a stored hash reference
      rw [getAt_hash_eq] at hget
      have hrec : recoverFromDb S (kec d) =
          rbind (decodeNode (d.length + 1) d) fun nd => rok (some nd) := by
        unfold recoverFromDb
        rw [hgetb]
      rw [hrec] at hget
      obtain ⟨dn2, hdn2⟩ := encB_shadowB kec f n d henc
      match hdec : decodeNode (d.length + 1) d with
      | none =>
        rw [hdec] at hget
        simp only [rbind_none] at hget
        exact absurd hget (by simp)
      | some (.error e2) =>
        have := decode_encB kec hk32 f n d dn2 hhf hwf hwv henc hdn2 hb
          (d.length + 1) (.error e2) hdec
        exact absurd this (by simp)
      | some (.ok nd) =>
        have hnd : Except.ok nd = Except.ok dn2 :=
          decode_encB kec hk32 f n d dn2 hhf hwf hwv henc hdn2 hb
            (d.length + 1) (.ok nd) hdec
        simp only [Except.ok.injEq] at hnd
        subst hnd
        rw [hdec] at hget
        have hget2 : getAt kec S rh2 fd nd path i = some res := hget
        exact ih f n nd path i res hhf hwf hwv hpath (Or.inl hdn2) hstored hget2

theorem verifyAt_empty_eq (pdb : Store) (fd : Nat) (path : Nibbles) (i : Nat) :
    verifyAt pdb (fd + 1) .empty path i = .ok none := rfl

theorem verifyAt_leaf_eq (pdb : Store) (fd : Nat) (lk : Nibbles) (lv : Bytes)
    (path : Nibbles) (i : Nat) :
    verifyAt pdb (fd + 1) (.leaf lk lv) path i =
      (if lk = path.offset i then .ok (some lv) else .ok none) := rfl

theorem verifyAt_branch_eq (pdb : Store) (fd : Nat) (cs : List Node)
    (v : Option Bytes) (path : Nibbles) (i : Nat) :
    verifyAt pdb (fd + 1) (.branch cs v) path i =
      (if (path.offset i).isEmpty || (path.offset i).nAt 0 = 16 then .ok v
       else verifyAt pdb fd (cs.getD ((path.offset i).nAt 0) .empty) path (i + 1)) := rfl

theorem verifyAt_ext_eq (pdb : Store) (fd : Nat) (pfx : Nibbles) (child : Node)
    (path : Nibbles) (i : Nat) :
    verifyAt pdb (fd + 1) (.extension pfx child) path i =
      (if (path.offset i).commonPrefix pfx = pfx.len then
        verifyAt pdb fd child path (i + (path.offset i).commonPrefix pfx)
       else .ok none) := rfl

theorem verifyAt_hash_eq (pdb : Store) (fd : Nat) (hn : Bytes) (path : Nibbles)
    (i : Nat) :
    verifyAt pdb (fd + 1) (.hash hn) path i =
      (match pdb.getB hn with
       | none => .error .invalidProof
       | some bytes =>
         match decodeNode (bytes.length + 1) bytes with
         | some (.ok nd) => verifyAt pdb fd nd path i
         | _ => .error .invalidProof) := rfl

/-- The `verify_proof` walk over the proof map simulates the walk on the
materialised tree: values found agree, and a `None` verdict means the live
read cannot return a value either. -/
theorem verifyAt_shadow_sim (kec : Bytes → Bytes) (hk32 : ∀ d, (kec d).length = 32)
    (S : Store) (db0 : Store) (rh0 : Bytes) :
    ∀ (fd : Nat) (f : Nat) (n dn : Node) (path : Nibbles) (i : Nat)
      (w : Option Bytes),
    hashFreeB n = true → wfTreeB n = true → wfValsB n = true →
    wfLeafKey path.hexData = true →
    relNode kec S f n dn →
    storedAlongB kec S f n path i = true →
    verifyAt S fd dn path i = .ok w →
    (∀ v, w = some v → ∃ f0, getAt kec db0 rh0 f0 n path i = some (.ok (some v))) ∧
    (∀ f0 res0, getAt kec db0 rh0 f0 n path i = some res0 →
      ∀ v, w = some v ↔ res0 = .ok (some v)) := by
  intro fd
  induction fd with
  | zero =>
    intro f n dn path i w _ _ _ _ _ _ hver
    have h0 : (Except.error TrieError.invalidProof :
      Except TrieError (Option Bytes)) = .ok w := hver
    exact absurd h0 (by simp)
  | succ fd ih =>
    intro f n dn path i w hhf hwf hwv hpath hrel hstored hver
    rcases hrel with hsh | ⟨d, henc, hge, hb, hgetb, rfl⟩
    · match f with
      | 0 =>
        have h0 : (none : Option Node) = some dn := hsh
        exact absurd h0 (by simp)
      | f' + 1 =>
        cases n with
        | hash hh => exact absurd hhf (by simp [hashFreeB])
        | empty =>
          have hdn : some Node.empty = some dn := hsh
          simp only [Option.some.injEq] at hdn
          subst hdn
          rw [verifyAt_empty_eq] at hver
          have hw : (none : Option Bytes) = w := by
            have := hver
            simp only [Except.ok.injEq] at this
            exact this
          refine ⟨?_, ?_⟩
          · intro v hv
            rw [← hw] at hv
            exact absurd hv (by simp)
          · intro f0 res0 h0 v
            match f0 with
            | 0 =>
              have h00 : (none : TRes (Option Bytes)) = some res0 := h0
              exact absurd h00 (by simp)
            | f0 + 1 =>
              rw [getAt_empty_eq] at h0
              have hres0 : some (Except.error (TrieError.missingTrieNode (kec [])
                  (some (path.slice 0 i)) (some rh0) none)) = some res0 := h0
              simp only [Option.some.injEq] at hres0
              rw [← hw, ← hres0]
              simp
        | leaf lk lv =>
          have hdn : some (Node.leaf lk lv) = some dn := hsh
          simp only [Option.some.injEq] at hdn
          subst hdn
          rw [verifyAt_leaf_eq] at hver
          by_cases hc : lk = path.offset i
          · rw [if_pos hc] at hver
            have hw : some lv = w := by
              have := hver
              simp only [Except.ok.injEq] at this
              exact this
            refine ⟨?_, ?_⟩
            · intro v hv
              rw [← hw] at hv
              simp only [Option.some.injEq] at hv
              refine ⟨1, ?_⟩
              rw [getAt_leaf_eq, if_pos hc, ← hv]
              rfl
            · intro f0 res0 h0 v
              match f0 with
              | 0 =>
                have h00 : (none : TRes (Option Bytes)) = some res0 := h0
                exact absurd h00 (by simp)
              | f0 + 1 =>
                rw [getAt_leaf_eq, if_pos hc] at h0
                have hres0 : some (Except.ok (some lv)) = some res0 := h0
                simp only [Option.some.injEq] at hres0
                rw [← hw, ← hres0]
                simp
          · rw [if_neg hc] at hver
            have hw : (none : Option Bytes) = w := by
              have := hver
              simp only [Except.ok.injEq] at this
              exact this
            refine ⟨?_, ?_⟩
            · intro v hv
              rw [← hw] at hv
              exact absurd hv (by simp)
            · intro f0 res0 h0 v
              match f0 with
              | 0 =>
                have h00 : (none : TRes (Option Bytes)) = some res0 := h0
                exact absurd h00 (by simp)
              | f0 + 1 =>
                rw [getAt_leaf_eq, if_neg hc] at h0
                have hres0 : some (Except.error (TrieError.missingTrieNode (kec [])
                    (some (path.slice 0 i)) (some rh0) none)) = some res0 := h0
                simp only [Option.some.injEq] at hres0
                rw [← hw, ← hres0]
                simp
        | branch cs v =>
          rw [shadowB_branch_eq] at hsh
          match hfold2 : (List.range 16).foldl (shadowBStep kec f' cs) (some []) with
          | none => rw [hfold2] at hsh; exact absurd hsh (by simp)
          | some scs0 =>
            rw [hfold2] at hsh
            simp only [Option.some.injEq] at hsh
            subst hsh
            rw [verifyAt_branch_eq] at hver
            have hst2 : (if (path.offset i).isEmpty || (path.offset i).nAt 0 = 16
                then true
                else pieceStoredB kec S f' (cs.getD ((path.offset i).nAt 0) .empty) &&
                  storedAlongB kec S f' (cs.getD ((path.offset i).nAt 0) .empty)
                    path (i + 1)) = true := hstored
            by_cases hterm : ((path.offset i).isEmpty || (path.offset i).nAt 0 = 16)
                = true
            · rw [if_pos hterm] at hver
              have hw : v = w := by
                have := hver
                simp only [Except.ok.injEq] at this
                exact this
              refine ⟨?_, ?_⟩
              · intro v2 hv2
                rw [← hw] at hv2
                refine ⟨1, ?_⟩
                rw [getAt_branch_eq, if_pos hterm, hv2]
                rfl
              · intro f0 res0 h0 v2
                match f0 with
                | 0 =>
                  have h00 : (none : TRes (Option Bytes)) = some res0 := h0
                  exact absurd h00 (by simp)
                | f0 + 1 =>
                  rw [getAt_branch_eq, if_pos hterm] at h0
                  have hres0 : some (Except.ok v) = some res0 := h0
                  simp only [Option.some.injEq] at hres0
                  rw [← hw, ← hres0]
                  simp
            · have hterm2 : ¬((path.offset i).isEmpty = true ∨
                  (path.offset i).nAt 0 = 16) := by
                simpa using hterm
              obtain ⟨hu16, hilen⟩ := branch_walk_idx path i hpath hterm2
              rw [if_neg hterm] at hver
              rw [if_neg hterm] at hst2
              simp only [Bool.and_eq_true] at hst2
              obtain ⟨hpc, hsa⟩ := hst2
              obtain ⟨hcs16, hwfl⟩ := wfTreeB_branch cs v hwf
              obtain ⟨-, hwvl⟩ := wfValsB_branch cs v hwv
              have hhfl : hashFreeListB cs = true := hhf
              have hchf := hashFreeListB_getD cs hhfl ((path.offset i).nAt 0)
              have hcwf := wfTreeListB_getD cs hwfl ((path.offset i).nAt 0)
              have hcwv := wfValsListB_getD cs hwvl ((path.offset i).nAt 0)
              obtain ⟨ys, hscs, hfa2⟩ :=
                shadowBStep_fold_pieces kec f' cs (List.range 16) [] scs0 hfold2
              simp only [List.nil_append] at hscs
              have hscu := forall2_range_getD 16 ys Node.empty hfa2
                ((path.offset i).nAt 0) hu16
              rw [shadowPieceWith_nonhash kec _ _ _
                (isHashB_false_of_hashFree _ hchf)] at hscu
              have hpc2 : (match encB kec f' (cs.getD ((path.offset i).nAt 0) .empty)
                  with
                | none => false
                | some d =>
                  if d.length < 32 then true
                  else decide (S.getB (kec d) = some d) &&
                    decide (d.length < 256 ^ 8)) = true := hpc
              match hec : encB kec f' (cs.getD ((path.offset i).nAt 0) .empty) with
              | none =>
                rw [hec] at hpc2
                exact absurd hpc2 (by simp)
              | some dch =>
                rw [hec] at hscu hpc2
                have hscu2 : (if dch.length < 32
                    then shadowB kec f' (cs.getD ((path.offset i).nAt 0) .empty)
                    else some (.hash (kec dch))) =
                    some (ys.getD ((path.offset i).nAt 0) .empty) := hscu
                have hpc3 : (if dch.length < 32 then true
                    else decide (S.getB (kec dch) = some dch) &&
                      decide (dch.length < 256 ^ 8)) = true := hpc2
                have hrelc : relNode kec S f'
                    (cs.getD ((path.offset i).nAt 0) .empty)
                    (ys.getD ((path.offset i).nAt 0) .empty) := by
                  by_cases hlt : dch.length < 32
                  · rw [if_pos hlt] at hscu2
                    exact Or.inl hscu2
                  · rw [if_neg hlt] at hscu2 hpc3
                    simp only [Bool.and_eq_true, decide_eq_true_eq] at hpc3
                    simp only [Option.some.injEq] at hscu2
                    exact Or.inr ⟨dch, hec, hlt, hpc3.2, hpc3.1, hscu2.symm⟩
                have hverc : verifyAt S fd
                    (ys.getD ((path.offset i).nAt 0) .empty) path (i + 1) =
                    .ok w := by
                  rw [← hver]
                  congr 1
                  rw [hscs]
                have IH := ih f' (cs.getD ((path.offset i).nAt 0) .empty)
                  (ys.getD ((path.offset i).nAt 0) .empty) path (i + 1) w
                  hchf hcwf hcwv hpath hrelc hsa hverc
                refine ⟨?_, ?_⟩
                · intro v2 hv2
                  obtain ⟨f0, hsrc⟩ := IH.1 v2 hv2
                  refine ⟨f0 + 1, ?_⟩
                  rw [getAt_branch_eq, if_neg hterm]
                  exact hsrc
                · intro f0 res0 h0 v2
                  match f0 with
                  | 0 =>
                    have h00 : (none : TRes (Option Bytes)) = some res0 := h0
                    exact absurd h00 (by simp)
                  | f0 + 1 =>
                    rw [getAt_branch_eq, if_neg hterm] at h0
                    exact IH.2 f0 res0 h0 v2
        | extension pfx child =>
          rw [shadowB_ext_eq] at hsh
          match hs : shadowPieceWith kec (encB kec f') (fun c => shadowB kec f' c)
              child with
          | none => rw [hs] at hsh; exact absurd hsh (by simp)
          | some sc =>
            rw [hs] at hsh
            simp only [Option.some.injEq] at hsh
            subst hsh
            rw [verifyAt_ext_eq] at hver
            obtain ⟨hwfp, hwfc⟩ := wfTreeB_ext pfx child hwf
            have hchf : hashFreeB child = true := hhf
            have hcwv : wfValsB child = true := hwv
            have hst2 : (if (path.offset i).commonPrefix pfx = pfx.len
                then pieceStoredB kec S f' child &&
                  storedAlongB kec S f' child path
                    (i + (path.offset i).commonPrefix pfx)
                else true) = true := hstored
            by_cases hm : (path.offset i).commonPrefix pfx = pfx.len
            · rw [if_pos hm] at hver hst2
              simp only [Bool.and_eq_true] at hst2
              obtain ⟨hpc, hsa⟩ := hst2
              rw [shadowPieceWith_nonhash kec _ _ _
                (isHashB_false_of_hashFree _ hchf)] at hs
              have hpc2 : (match encB kec f' child with
                | none => false
                | some d =>
                  if d.length < 32 then true
                  else decide (S.getB (kec d) = some d) &&
                    decide (d.length < 256 ^ 8)) = true := hpc
              match hec : encB kec f' child with
              | none =>
                rw [hec] at hpc2
                exact absurd hpc2 (by simp)
              | some dch =>
                rw [hec] at hs hpc2
                have hs2 : (if dch.length < 32 then shadowB kec f' child
                    else some (.hash (kec dch))) = some sc := hs
                have hpc3 : (if dch.length < 32 then true
                    else decide (S.getB (kec dch) = some dch) &&
                      decide (dch.length < 256 ^ 8)) = true := hpc2
                have hrelc : relNode kec S f' child sc := by
                  by_cases hlt : dch.length < 32
                  · rw [if_pos hlt] at hs2
                    exact Or.inl hs2
                  · rw [if_neg hlt] at hs2 hpc3
                    simp only [Bool.and_eq_true, decide_eq_true_eq] at hpc3
                    simp only [Option.some.injEq] at hs2
                    exact Or.inr ⟨dch, hec, hlt, hpc3.2, hpc3.1, hs2.symm⟩
                have IH := ih f' child sc path
                  (i + (path.offset i).commonPrefix pfx) w
                  hchf hwfc hcwv hpath hrelc hsa hver
                refine ⟨?_, ?_⟩
                · intro v2 hv2
                  obtain ⟨f0, hsrc⟩ := IH.1 v2 hv2
                  refine ⟨f0 + 1, ?_⟩
                  rw [getAt_ext_eq, if_pos hm]
                  exact hsrc
                · intro f0 res0 h0 v2
                  match f0 with
                  | 0 =>
                    have h00 : (none : TRes (Option Bytes)) = some res0 := h0
                    exact absurd h00 (by simp)
                  | f0 + 1 =>
                    rw [getAt_ext_eq, if_pos hm] at h0
                    exact IH.2 f0 res0 h0 v2
            · rw [if_neg hm] at hver
              have hw : (none : Option Bytes) = w := by
                have := hver
                simp only [Except.ok.injEq] at this
                exact this
              refine ⟨?_, ?_⟩
              · intro v hv
                rw [← hw] at hv
                exact absurd hv (by simp)
              · intro f0 res0 h0 v
                match f0 with
                | 0 =>
                  have h00 : (none : TRes (Option Bytes)) = some res0 := h0
                  exact absurd h00 (by simp)
                | f0 + 1 =>
                  rw [getAt_ext_eq, if_neg hm] at h0
                  have hres0 : some (Except.error (TrieError.missingTrieNode (kec [])
                      (some (path.slice 0 i)) (some rh0) none)) = some res0 := h0
                  simp only [Option.some.injEq] at hres0
                  rw [← hw, ← hres0]
                  simp
    · rw [verifyAt_hash_eq, hgetb] at hver
      have hver1 : (match decodeNode (d.length + 1) d with
        | some (.ok nd) => verifyAt S fd nd path i
        | _ => Except.error TrieError.invalidProof) = .ok w := hver
      clear hver
      obtain ⟨dn2, hdn2⟩ := encB_shadowB kec f n d henc
      match hdec : decodeNode (d.length + 1) d with
      | none =>
        rw [hdec] at hver1
        have h0 : (Except.error TrieError.invalidProof :
          Except TrieError (Option Bytes)) = .ok w := hver1
        exact absurd h0 (by simp)
      | some (.error e2) =>
        have := decode_encB kec hk32 f n d dn2 hhf hwf hwv henc hdn2 hb
          (d.length + 1) (.error e2) hdec
        exact absurd this (by simp)
      | some (.ok nd) =>
        have hnd : Except.ok nd = Except.ok dn2 :=
          decode_encB kec hk32 f n d dn2 hhf hwf hwv henc hdn2 hb
            (d.length + 1) (.ok nd) hdec
        simp only [Except.ok.injEq] at hnd
        subst hnd
        rw [hdec] at hver1
        have hver2 : verifyAt S fd nd path i = .ok w := hver1
        exact ih f n nd path i w hhf hwf hwv hpath (Or.inl hdn2) hstored hver2

/-! ## Insert/get semantics -/

theorem branch_cond_false (q : Nibbles) (h : ¬q.nAt 0 = 16) :
    (q.isEmpty || q.nAt 0 = 16) = false := by
  simp only [Bool.or_eq_false_iff, decide_eq_false_iff_not]
  refine ⟨?_, h⟩
  by_contra hc
  simp only [Bool.not_eq_false] at hc
  exact h (nAt_zero_of_isEmpty q hc)

theorem path_nAt_le (path : Nibbles) (hpath : wfLeafKey path.hexData = true)
    (i j : Nat) : (path.offset i).nAt j ≤ 16 := by
  rw [nAt_getD]
  rcases Nat.lt_or_ge (i + j) path.hexData.length with hlt | hge
  · have hmem : path.hexData.getD (i + j) 16 ∈ path.hexData := by
      rw [List.getD_eq_getElem?_getD, List.getElem?_eq_getElem hlt]
      exact List.getElem_mem _
    exact wfLeafKey_le path.hexData hpath _ hmem
  · rw [getD_oob _ _ hge]

theorem slice_zero_take (q : Nibbles) (m : Nat) :
    q.slice 0 m = ⟨q.hexData.take m⟩ := rfl

/-- The two-key leaf split cannot see the terminator on both sides. -/
theorem split_not_both_term (part lk : Nibbles)
    (hpart : wfLeafKey part.hexData = true) (hlk : wfLeafKey lk.hexData = true)
    (hov : ¬part.commonPrefix lk = lk.len)
    (holm : lk.nAt (part.commonPrefix lk) = 16)
    (hpat : part.nAt (part.commonPrefix lk) = 16) : False := by
  have hauxeq : Nibbles.commonPrefixAux part.hexData lk.hexData =
      part.commonPrefix lk := rfl
  have hlkpos : 0 < lk.hexData.length :=
    List.length_pos_of_ne_nil (wfLeafKey_ne_nil _ hlk)
  have hpartpos : 0 < part.hexData.length :=
    List.length_pos_of_ne_nil (wfLeafKey_ne_nil _ hpart)
  have hle1 : part.commonPrefix lk ≤ part.hexData.length := by
    rw [← hauxeq]
    exact commonPrefixAux_le_left _ _
  have hle2 : part.commonPrefix lk ≤ lk.hexData.length := by
    rw [← hauxeq]
    exact commonPrefixAux_le_right _ _
  have hltlk : part.commonPrefix lk < lk.hexData.length := by
    rcases Nat.lt_or_ge (part.commonPrefix lk) lk.hexData.length with h | h
    · exact h
    · exact absurd (by omega : part.commonPrefix lk = lk.hexData.length) hov
  have hlk16 : part.commonPrefix lk = lk.hexData.length - 1 :=
    wfLeafKey_term_pos lk.hexData hlk _ holm hltlk
  rcases Nat.lt_or_ge (part.commonPrefix lk) part.hexData.length with hpl | hpl
  · have hne := commonPrefixAux_getD_ne part.hexData lk.hexData 16
      (by rw [hauxeq]; exact hpl) (by rw [hauxeq]; exact hltlk)
    rw [hauxeq] at hne
    exact hne (by
      show part.nAt (part.commonPrefix lk) = lk.nAt (part.commonPrefix lk)
      rw [holm, hpat])
  · have hmeq : part.commonPrefix lk = part.hexData.length := by omega
    have hmpos : 0 < part.commonPrefix lk := by omega
    have hgd := commonPrefixAux_getD_eq part.hexData lk.hexData
      (part.commonPrefix lk - 1) (by rw [hauxeq]; omega)
    have hlast : part.hexData.getD (part.commonPrefix lk - 1) 16 = 16 := by
      rw [hmeq]
      exact wfLeafKey_getD_last _ hpart
    rw [hlast] at hgd
    have := wfLeafKey_term_pos lk.hexData hlk _ hgd.symm (by omega)
    omega

theorem nAt_offset_assoc (p : Nibbles) (i c : Nat) :
    (p.offset (i + c)).nAt 0 = (p.offset i).nAt c := by
  rw [nAt_getD, nAt_getD, Nat.add_zero]

theorem offset_offset_succ (p : Nibbles) (i c : Nat) :
    (p.offset i).offset (c + 1) = p.offset (i + c + 1) := by
  rw [← offset_offset, Nat.add_assoc]

theorem pair_rok_inj {x m : Node} {a pks : List Bytes}
    (h : ((a, rok x) : List Bytes × TRes Node) = (pks, rok m)) : x = m := by
  have h2 : (some (Except.ok x) : TRes Node) = some (Except.ok m) :=
    congrArg Prod.snd h
  simp only [Option.some.injEq, Except.ok.injEq] at h2
  exact h2

theorem emptyChildren_length : Node.emptyChildren.length = 16 := rfl

/-- `insert_at` places the value where `get_at` at the same position finds
it. -/
theorem insertAt_found (db : Store) (rh : Bytes) (kec : Bytes → Bytes)
    (db0 : Store) (rh0 : Bytes) :
    ∀ (f1 : Nat) (n : Node) (path : Nibbles) (i : Nat) (v : Bytes)
      (pks : List Bytes) (m : Node),
    hashFreeB n = true → wfTreeB n = true →
    wfLeafKey path.hexData = true → i < path.len →
    insertAt db rh f1 n path i v = (pks, rok m) →
    ∃ f0, getAt kec db0 rh0 f0 m path i = some (.ok (some v)) := by
  intro f1
  induction f1 with
  | zero =>
    intro n path i v pks m _ _ _ _ hins
    have h2 : (([], none) : List Bytes × TRes Node) = (pks, rok m) := hins
    have h3 : (none : TRes Node) = some (.ok m) := congrArg Prod.snd h2
    exact absurd h3 (by simp)
  | succ f1 ih =>
    intro n path i v pks m hhf hwf hpath hi hins
    cases n with
    | hash hh => exact absurd hhf (by simp [hashFreeB])
    | empty =>
      rw [insertAt_empty] at hins
      have hm := pair_rok_inj hins
      subst hm
      refine ⟨1, ?_⟩
      rw [getAt_leaf_eq, if_pos rfl]
      rfl
    | leaf lk lv =>
      have hwfk : wfLeafKey lk.hexData = true := hwf
      have hwfp2 : wfLeafKey (path.offset i).hexData = true :=
        wfLeafKey_drop path.hexData hpath i hi
      by_cases hov : (path.offset i).commonPrefix lk = lk.len
      · rw [insertAt_leaf_over db rh f1 path i v lk lv hov] at hins
        have hm := pair_rok_inj hins
        subst hm
        have heq : lk = path.offset i := by
          apply nibbles_ext
          exact (commonPrefix_full_eq (path.offset i).hexData lk.hexData
            hwfp2 hwfk hov).symm
        refine ⟨1, ?_⟩
        rw [getAt_leaf_eq, if_pos heq]
        rfl
      · by_cases holm : lk.nAt ((path.offset i).commonPrefix lk) = 16
        · by_cases hpat : (path.offset i).nAt ((path.offset i).commonPrefix lk) = 16
          · exact (split_not_both_term (path.offset i) lk hwfp2 hwfk hov holm hpat).elim
          · have hu16 : ¬(path.offset i).nAt ((path.offset i).commonPrefix lk) = 16 :=
              hpat
            have hule : (path.offset i).nAt ((path.offset i).commonPrefix lk) ≤ 16 :=
              path_nAt_le path hpath i _
            by_cases h0 : (path.offset i).commonPrefix lk = 0
            · rw [insertAt_leaf_term0 db rh f1 path i v lk lv hov holm hpat h0] at hins
              have hm := pair_rok_inj hins
              subst hm
              rw [h0] at hu16 hule
              refine ⟨2, ?_⟩
              rw [getAt_branch_eq,
                if_neg (by rw [branch_cond_false (path.offset i) hu16]; simp),
                h0, getD_set_self _ _ _ (by rw [emptyChildren_length]; omega),
                getAt_leaf_eq, if_pos (by
                  rw [Nat.zero_add]
                  exact (offset_offset path i 1).symm)]
              rfl
            · rw [insertAt_leaf_term_ext db rh f1 path i v lk lv hov holm hpat h0]
                at hins
              have hm := pair_rok_inj hins
              subst hm
              have hle1 : (path.offset i).commonPrefix lk ≤ (path.offset i).len :=
                commonPrefixAux_le_left _ _
              have hcpm : (path.offset i).commonPrefix
                  ((path.offset i).slice 0 ((path.offset i).commonPrefix lk)) =
                  (path.offset i).commonPrefix lk := by
                unfold Nibbles.commonPrefix Nibbles.slice
                simp only [List.drop_zero]
                exact commonPrefixAux_take_self _ _ hle1
              have hslen : ((path.offset i).slice 0
                  ((path.offset i).commonPrefix lk)).len =
                  (path.offset i).commonPrefix lk := by
                unfold Nibbles.len Nibbles.slice
                simp only [List.drop_zero, List.length_take]
                exact Nat.min_eq_left hle1
              refine ⟨3, ?_⟩
              have hnot : ¬(path.offset (i + (path.offset i).commonPrefix lk)).nAt 0
                  = 16 := by
                rw [nAt_offset_assoc]
                exact hu16
              rw [getAt_ext_eq, if_pos (by rw [hcpm, hslen]), hcpm,
                getAt_branch_eq,
                if_neg (by rw [branch_cond_false _ hnot]; simp),
                nAt_offset_assoc,
                getD_set_self _ _ _ (by rw [emptyChildren_length]; omega),
                getAt_leaf_eq, if_pos (offset_offset_succ path i _)]
              rfl
        · by_cases hpat : (path.offset i).nAt ((path.offset i).commonPrefix lk) = 16
          · by_cases h0 : (path.offset i).commonPrefix lk = 0
            · rw [insertAt_leaf_pterm0 db rh f1 path i v lk lv hov holm hpat h0] at hins
              have hm := pair_rok_inj hins
              subst hm
              rw [h0] at hpat
              refine ⟨1, ?_⟩
              rw [getAt_branch_eq, if_pos (by rw [hpat]; simp)]
              rfl
            · rw [insertAt_leaf_pterm_ext db rh f1 path i v lk lv hov holm hpat h0]
                at hins
              have hm := pair_rok_inj hins
              subst hm
              have hle1 : (path.offset i).commonPrefix lk ≤ (path.offset i).len :=
                commonPrefixAux_le_left _ _
              have hcpm : (path.offset i).commonPrefix
                  ((path.offset i).slice 0 ((path.offset i).commonPrefix lk)) =
                  (path.offset i).commonPrefix lk := by
                unfold Nibbles.commonPrefix Nibbles.slice
                simp only [List.drop_zero]
                exact commonPrefixAux_take_self _ _ hle1
              have hslen : ((path.offset i).slice 0
                  ((path.offset i).commonPrefix lk)).len =
                  (path.offset i).commonPrefix lk := by
                unfold Nibbles.len Nibbles.slice
                simp only [List.drop_zero, List.length_take]
                exact Nat.min_eq_left hle1
              refine ⟨2, ?_⟩
              rw [getAt_ext_eq, if_pos (by rw [hcpm, hslen]), hcpm,
                getAt_branch_eq, if_pos (by
                  rw [nAt_offset_assoc, hpat]
                  simp)]
              rfl
          · have hule : (path.offset i).nAt ((path.offset i).commonPrefix lk) ≤ 16 :=
              path_nAt_le path hpath i _
            by_cases h0 : (path.offset i).commonPrefix lk = 0
            · rw [insertAt_leaf_child0 db rh f1 path i v lk lv hov holm hpat h0] at hins
              have hm := pair_rok_inj hins
              subst hm
              rw [h0] at hpat hule
              refine ⟨2, ?_⟩
              rw [getAt_branch_eq,
                if_neg (by rw [branch_cond_false (path.offset i) hpat]; simp),
                h0, getD_set_self _ _ _ (by
                  rw [List.length_set, emptyChildren_length]; omega),
                getAt_leaf_eq, if_pos (by
                  rw [Nat.zero_add]
                  exact (offset_offset path i 1).symm)]
              rfl
            · rw [insertAt_leaf_child_ext db rh f1 path i v lk lv hov holm hpat h0]
                at hins
              have hm := pair_rok_inj hins
              subst hm
              have hle1 : (path.offset i).commonPrefix lk ≤ (path.offset i).len :=
                commonPrefixAux_le_left _ _
              have hcpm : (path.offset i).commonPrefix
                  ((path.offset i).slice 0 ((path.offset i).commonPrefix lk)) =
                  (path.offset i).commonPrefix lk := by
                unfold Nibbles.commonPrefix Nibbles.slice
                simp only [List.drop_zero]
                exact commonPrefixAux_take_self _ _ hle1
              have hslen : ((path.offset i).slice 0
                  ((path.offset i).commonPrefix lk)).len =
                  (path.offset i).commonPrefix lk := by
                unfold Nibbles.len Nibbles.slice
                simp only [List.drop_zero, List.length_take]
                exact Nat.min_eq_left hle1
              refine ⟨3, ?_⟩
              have hnot : ¬(path.offset (i + (path.offset i).commonPrefix lk)).nAt 0
                  = 16 := by
                rw [nAt_offset_assoc]
                exact hpat
              rw [getAt_ext_eq, if_pos (by rw [hcpm, hslen]), hcpm,
                getAt_branch_eq,
                if_neg (by rw [branch_cond_false _ hnot]; simp),
                nAt_offset_assoc,
                getD_set_self _ _ _ (by
                  rw [List.length_set, emptyChildren_length]; omega),
                getAt_leaf_eq, if_pos (offset_offset_succ path i _)]
              rfl
    | branch cs v0 =>
      obtain ⟨hcs16, hwfl⟩ := wfTreeB_branch cs v0 hwf
      have hhfl : hashFreeListB cs = true := hhf
      by_cases hterm : (path.offset i).nAt 0 = 16
      · rw [insertAt_branch_term db rh f1 path i v cs v0 hterm] at hins
        have hm := pair_rok_inj hins
        subst hm
        refine ⟨1, ?_⟩
        rw [getAt_branch_eq, if_pos (by rw [hterm]; simp)]
        rfl
      · rw [insertAt_branch_step db rh f1 path i v cs v0 hterm] at hins
        have hule : (path.offset i).nAt 0 ≤ 16 := path_nAt_le path hpath i 0
        match hrec : insertAt db rh f1 (cs.getD ((path.offset i).nAt 0) .empty)
            path (i + 1) v with
        | (pks2, r2) =>
          rw [hrec] at hins
          match r2 with
          | none =>
            have h3 : (none : TRes Node) = some (.ok m) := congrArg Prod.snd hins
            exact absurd h3 (by simp)
          | some (.error e2) =>
            have h3 : (some (Except.error e2) : TRes Node) = some (.ok m) :=
              congrArg Prod.snd hins
            exact absurd h3 (by simp)
          | some (.ok nc) =>
            have hm := pair_rok_inj hins
            subst hm
            have hstep : i + 1 < path.len := by
              apply wfLeafKey_step path.hexData hpath i hi
              rw [nAt_getD] at hterm
              simpa using hterm
            obtain ⟨f0, hget0⟩ := ih (cs.getD ((path.offset i).nAt 0) .empty)
              path (i + 1) v pks2 nc
              (hashFreeListB_getD cs hhfl _)
              (wfTreeListB_getD cs hwfl _) hpath hstep hrec
            refine ⟨f0 + 1, ?_⟩
            rw [getAt_branch_eq,
              if_neg (by rw [branch_cond_false (path.offset i) hterm]; simp),
              getD_set_self _ _ _ (by rw [hcs16]; omega)]
            exact hget0
    | extension pfx child =>
      obtain ⟨hwfpx, hwfc⟩ := wfTreeB_ext pfx child hwf
      have hchf : hashFreeB child = true := hhf
      have hpxpos : 0 < pfx.len :=
        List.length_pos_of_ne_nil (wfPfx_ne_nil pfx.hexData hwfpx)
      by_cases h0 : (path.offset i).commonPrefix pfx = 0
      · rw [insertAt_ext_div db rh f1 path i v pfx child h0] at hins
        have hne16 : ¬pfx.nAt 0 = 16 := by
          have := wfPfx_getD_lt pfx.hexData hwfpx 0 hpxpos
          unfold Nibbles.nAt
          omega
        have hbp : Node.branchPut Node.emptyChildren none (pfx.nAt 0)
            (if pfx.len = 1 then child else .extension (pfx.offset 1) child) =
            (Node.emptyChildren.set (pfx.nAt 0)
              (if pfx.len = 1 then child else .extension (pfx.offset 1) child),
              none) := by
          unfold Node.branchPut
          rw [if_neg hne16]
        rw [hbp] at hins
        apply ih _ path i v pks m ?_ ?_ hpath hi hins
        · show hashFreeListB (Node.emptyChildren.set (pfx.nAt 0) _) = true
          apply hashFreeListB_set
          · exact hashFreeListB_emptyChildren
          · by_cases hl1 : pfx.len = 1
            · rw [if_pos hl1]; exact hchf
            · rw [if_neg hl1]; exact hchf
        · show (decide ((Node.emptyChildren.set (pfx.nAt 0) _).length = 16) &&
            wfTreeListB (Node.emptyChildren.set (pfx.nAt 0) _)) = true
          simp only [Bool.and_eq_true, decide_eq_true_eq]
          constructor
          · rw [List.length_set, emptyChildren_length]
          · apply wfTreeListB_set
            · exact wfTreeListB_emptyChildren
            · by_cases hl1 : pfx.len = 1
              · rw [if_pos hl1]; exact hwfc
              · rw [if_neg hl1]
                show (wfPfx (pfx.offset 1).hexData && wfTreeB child) = true
                simp only [Bool.and_eq_true]
                exact ⟨wfPfx_offset_one pfx hwfpx hl1, hwfc⟩
      · by_cases hm0 : (path.offset i).commonPrefix pfx = pfx.len
        · rw [insertAt_ext_match db rh f1 path i v pfx child h0 hm0] at hins
          match hrec : insertAt db rh f1 child path
              (i + (path.offset i).commonPrefix pfx) v with
          | (pks2, r2) =>
            rw [hrec] at hins
            match r2 with
            | none =>
              have h3 : (none : TRes Node) = some (.ok m) := congrArg Prod.snd hins
              exact absurd h3 (by simp)
            | some (.error e2) =>
              have h3 : (some (Except.error e2) : TRes Node) = some (.ok m) :=
                congrArg Prod.snd hins
              exact absurd h3 (by simp)
            | some (.ok nn) =>
              have hm := pair_rok_inj hins
              subst hm
              have hstep : i + (path.offset i).commonPrefix pfx < path.len :=
                path_step_common path hpath i hi pfx hwfpx (by omega) (by omega)
              obtain ⟨f0, hget0⟩ := ih child path
                (i + (path.offset i).commonPrefix pfx) v pks2 nn
                hchf hwfc hpath hstep hrec
              refine ⟨f0 + 1, ?_⟩
              rw [getAt_ext_eq, if_pos hm0]
              exact hget0
        · rw [insertAt_ext_split db rh f1 path i v pfx child h0 hm0] at hins
          match hrec : insertAt db rh f1
              (.extension (pfx.offset ((path.offset i).commonPrefix pfx)) child)
              path (i + (path.offset i).commonPrefix pfx) v with
          | (pks2, r2) =>
            rw [hrec] at hins
            match r2 with
            | none =>
              have h3 : (none : TRes Node) = some (.ok m) := congrArg Prod.snd hins
              exact absurd h3 (by simp)
            | some (.error e2) =>
              have h3 : (some (Except.error e2) : TRes Node) = some (.ok m) :=
                congrArg Prod.snd hins
              exact absurd h3 (by simp)
            | some (.ok nn) =>
              have hm := pair_rok_inj hins
              subst hm
              have hmle : (path.offset i).commonPrefix pfx ≤ pfx.len :=
                commonPrefixAux_le_right _ _
              have hmlt : (path.offset i).commonPrefix pfx < pfx.len := by omega
              have hstep : i + (path.offset i).commonPrefix pfx < path.len :=
                path_step_common path hpath i hi pfx hwfpx (by omega) (by omega)
              obtain ⟨f0, hget0⟩ := ih
                (.extension (pfx.offset ((path.offset i).commonPrefix pfx)) child)
                path (i + (path.offset i).commonPrefix pfx) v pks2 nn
                hchf
                (by
                  show (wfPfx (pfx.offset ((path.offset i).commonPrefix pfx)).hexData
                    && wfTreeB child) = true
                  simp only [Bool.and_eq_true]
                  exact ⟨wfPfx_drop_pfx pfx.hexData _ hwfpx hmlt, hwfc⟩)
                hpath hstep hrec
              have hle1 : (path.offset i).commonPrefix pfx ≤ (path.offset i).len :=
                commonPrefixAux_le_left _ _
              have htakeQ : (path.offset i).hexData.take
                  ((path.offset i).commonPrefix pfx) =
                  pfx.hexData.take ((path.offset i).commonPrefix pfx) :=
                commonPrefixAux_take _ _
              have hslice : pfx.slice 0 ((path.offset i).commonPrefix pfx) =
                  (path.offset i).slice 0 ((path.offset i).commonPrefix pfx) := by
                apply nibbles_ext
                show (pfx.hexData.take ((path.offset i).commonPrefix pfx)).drop 0 =
                  ((path.offset i).hexData.take ((path.offset i).commonPrefix pfx)).drop 0
                rw [htakeQ]
              have hcpm : (path.offset i).commonPrefix
                  ((path.offset i).slice 0 ((path.offset i).commonPrefix pfx)) =
                  (path.offset i).commonPrefix pfx := by
                unfold Nibbles.commonPrefix Nibbles.slice
                simp only [List.drop_zero]
                exact commonPrefixAux_take_self _ _ hle1
              have hslen : ((path.offset i).slice 0
                  ((path.offset i).commonPrefix pfx)).len =
                  (path.offset i).commonPrefix pfx := by
                unfold Nibbles.len Nibbles.slice
                simp only [List.drop_zero, List.length_take]
                exact Nat.min_eq_left hle1
              refine ⟨f0 + 1, ?_⟩
              rw [hslice, getAt_ext_eq, if_pos (by rw [hcpm, hslen]), hcpm]
              exact hget0

theorem commonPrefixAux_cons_eq (x : Nat) (t1 t2 : List Nat) :
    Nibbles.commonPrefixAux (x :: t1) (x :: t2) =
      Nibbles.commonPrefixAux t1 t2 + 1 := by
  simp [Nibbles.commonPrefixAux]

theorem commonPrefixAux_cons_ne {x y : Nat} (t1 t2 : List Nat) (h : ¬x = y) :
    Nibbles.commonPrefixAux (x :: t1) (y :: t2) = 0 := by
  simp [Nibbles.commonPrefixAux, h]

/-- Common prefix against a truncation is the truncated common prefix. -/
theorem commonPrefixAux_take_right : ∀ (a b : List Nat) (c : Nat),
    Nibbles.commonPrefixAux a (b.take c) =
      min (Nibbles.commonPrefixAux a b) c := by
  intro a
  induction a with
  | nil =>
    intro b c
    cases b <;> cases c <;> rfl
  | cons x as ih =>
    intro b c
    cases b with
    | nil => cases c <;> rfl
    | cons y bs =>
      cases c with
      | zero => simp [Nibbles.commonPrefixAux]
      | succ c' =>
        rw [List.take_succ_cons]
        by_cases hxy : x = y
        · subst hxy
          rw [commonPrefixAux_cons_eq, commonPrefixAux_cons_eq, ih bs c']
          omega
        · rw [commonPrefixAux_cons_ne _ _ hxy, commonPrefixAux_cons_ne _ _ hxy]
          simp

/-- Dropping an agreed-on prefix subtracts from the common-prefix length. -/
theorem commonPrefixAux_drop_of_le : ∀ (c : Nat) (a b : List Nat),
    c ≤ Nibbles.commonPrefixAux a b →
    Nibbles.commonPrefixAux (a.drop c) (b.drop c) =
      Nibbles.commonPrefixAux a b - c := by
  intro c
  induction c with
  | zero => intro a b _; simp
  | succ c' ih =>
    intro a b hc
    match a, b with
    | [], _ => simp [Nibbles.commonPrefixAux] at hc
    | x :: as, [] => simp [Nibbles.commonPrefixAux] at hc
    | x :: as, y :: bs =>
      by_cases hxy : x = y
      · subst hxy
        rw [commonPrefixAux_cons_eq] at hc ⊢
        rw [List.drop_succ_cons, List.drop_succ_cons]
        rw [ih as bs (by omega)]
        omega
      · rw [commonPrefixAux_cons_ne _ _ hxy] at hc
        omega

/-- A nibble sequence splits at any in-range position into prefix, nibble,
suffix. -/
theorem hex_recompose (x : Nibbles) (j : Nat) (hj : j < x.len) :
    x.hexData = x.hexData.take j ++ x.nAt j :: x.hexData.drop (j + 1) := by
  conv_lhs => rw [← List.take_append_drop j x.hexData]
  congr 1
  rw [List.drop_eq_getElem_cons hj]
  congr 1
  show x.hexData[j] = x.hexData.getD j 16
  rw [List.getD_eq_getElem?_getD, List.getElem?_eq_getElem hj]
  rfl

mutual

/-- Every stored value in the tree is non-empty: leaf values and branch value
slots alike.  `put` only stores non-empty values, so trees built by `put`
satisfy this; it is what lets the branch value slot produced by a leaf split
inherit a non-empty value. -/
def valsNEB : Node → Bool
  | .empty => true
  | .leaf _ lv => !lv.isEmpty
  | .extension _ c => valsNEB c
  | .branch cs v =>
    (match v with
     | some vv => !vv.isEmpty
     | none => true) && valsNEListB cs
  | .hash _ => true

def valsNEListB : List Node → Bool
  | [] => true
  | c :: cs => valsNEB c && valsNEListB cs

end

theorem valsNEListB_set : ∀ (cs : List Node) (idx : Nat) (x : Node),
    valsNEListB cs = true → valsNEB x = true → valsNEListB (cs.set idx x) = true := by
  intro cs
  induction cs with
  | nil => intro idx x _ _; rfl
  | cons c cs ih =>
    intro idx x hl hx
    rw [valsNEListB, Bool.and_eq_true] at hl
    cases idx with
    | zero =>
      rw [List.set_cons_zero, valsNEListB, Bool.and_eq_true]
      exact ⟨hx, hl.2⟩
    | succ j =>
      rw [List.set_cons_succ, valsNEListB, Bool.and_eq_true]
      exact ⟨hl.1, ih j x hl.2 hx⟩

theorem wfValsListB_set : ∀ (cs : List Node) (idx : Nat) (x : Node),
    wfValsListB cs = true → wfValsB x = true → wfValsListB (cs.set idx x) = true := by
  intro cs
  induction cs with
  | nil => intro idx x _ _; rfl
  | cons c cs ih =>
    intro idx x hl hx
    rw [wfValsListB, Bool.and_eq_true] at hl
    cases idx with
    | zero =>
      rw [List.set_cons_zero, wfValsListB, Bool.and_eq_true]
      exact ⟨hx, hl.2⟩
    | succ j =>
      rw [List.set_cons_succ, wfValsListB, Bool.and_eq_true]
      exact ⟨hl.1, ih j x hl.2 hx⟩

theorem valsNEListB_emptyChildren : valsNEListB Node.emptyChildren = true := rfl

theorem wfValsListB_emptyChildren : wfValsListB Node.emptyChildren = true := rfl

theorem valsNEListB_getD (cs : List Node) (h : valsNEListB cs = true) (idx : Nat) :
    valsNEB (cs.getD idx .empty) = true := by
  induction cs generalizing idx with
  | nil => cases idx <;> rfl
  | cons c cs ih =>
    have h2 : (valsNEB c && valsNEListB cs) = true := h
    simp only [Bool.and_eq_true] at h2
    cases idx with
    | zero => exact h2.1
    | succ j => exact ih h2.2 j

theorem valsNEB_leaf_of_ne (k : Nibbles) (v : Bytes) (hv : ¬v = []) :
    valsNEB (.leaf k v) = true := by
  cases v with
  | nil => exact absurd rfl hv
  | cons a t => rfl

theorem valsNEB_leaf_elim (k : Nibbles) (v : Bytes)
    (h : valsNEB (.leaf k v) = true) : ¬v = [] := by
  intro hc
  subst hc
  have h2 : (false : Bool) = true := h
  exact absurd h2 (by simp)

theorem valsNEB_branch_elim (cs : List Node) (v : Option Bytes)
    (h : valsNEB (.branch cs v) = true) :
    (∀ vv, v = some vv → ¬vv = []) ∧ valsNEListB cs = true := by
  cases v with
  | none =>
    have h2 : (true && valsNEListB cs) = true := h
    simp only [Bool.true_and] at h2
    exact ⟨by intro vv hvv; exact absurd hvv (by simp), h2⟩
  | some vv =>
    have h2 : (!vv.isEmpty && valsNEListB cs) = true := h
    simp only [Bool.and_eq_true] at h2
    refine ⟨?_, h2.2⟩
    intro vv2 hvv2 hnil
    have hv2 : vv = vv2 := by simpa using hvv2
    subst hv2
    subst hnil
    have h3 := h2.1
    simp at h3

theorem valsNEB_branch_intro (cs : List Node) (v : Option Bytes)
    (hv : ∀ vv, v = some vv → ¬vv = []) (hcs : valsNEListB cs = true) :
    valsNEB (.branch cs v) = true := by
  cases v with
  | none =>
    show (true && valsNEListB cs) = true
    simpa using hcs
  | some vv =>
    show (!vv.isEmpty && valsNEListB cs) = true
    cases vv with
    | nil => exact absurd rfl (hv [] rfl)
    | cons a t => simpa using hcs

theorem wfValsB_branch_intro (cs : List Node) (v : Option Bytes)
    (hv : ∀ vv, v = some vv → ¬vv = []) (hcs : wfValsListB cs = true) :
    wfValsB (.branch cs v) = true := by
  cases v with
  | none =>
    show (true && wfValsListB cs) = true
    simpa using hcs
  | some vv =>
    show (!vv.isEmpty && wfValsListB cs) = true
    cases vv with
    | nil => exact absurd rfl (hv [] rfl)
    | cons a t => simpa using hcs

/-- `insert_at` with a non-empty value preserves the value predicates: every
leaf value and branch value slot of the result is non-empty, and in
particular the branch-value side condition `wfValsB` of the encoder
correspondence holds. -/
theorem insertAt_vals (db : Store) (rh : Bytes) : ∀ (f1 : Nat) (n : Node)
    (p : Nibbles) (i : Nat) (v : Bytes) (pks : List Bytes) (m : Node),
    hashFreeB n = true → wfTreeB n = true →
    valsNEB n = true → wfValsB n = true →
    wfLeafKey p.hexData = true → i < p.len → ¬v = [] →
    insertAt db rh f1 n p i v = (pks, rok m) →
    valsNEB m = true ∧ wfValsB m = true := by
  intro f1
  induction f1 with
  | zero =>
    intro n p i v pks m _ _ _ _ _ _ _ hins
    have h2 : (([], none) : List Bytes × TRes Node) = (pks, rok m) := hins
    have h3 : (none : TRes Node) = some (.ok m) := congrArg Prod.snd h2
    exact absurd h3 (by simp)
  | succ f1 ih =>
    intro n p i v pks m hhf hwf hvne hwv hpath hi hv hins
    cases n with
    | hash hh => exact absurd hhf (by simp [hashFreeB])
    | empty =>
      rw [insertAt_empty] at hins
      have hm := pair_rok_inj hins
      subst hm
      exact ⟨valsNEB_leaf_of_ne _ _ hv, rfl⟩
    | leaf lk lv =>
      have hwfk : wfLeafKey lk.hexData = true := hwf
      have hwfp2 : wfLeafKey (p.offset i).hexData = true :=
        wfLeafKey_drop p.hexData hpath i hi
      have hlv : ¬lv = [] := valsNEB_leaf_elim lk lv hvne
      by_cases hov : (p.offset i).commonPrefix lk = lk.len
      · rw [insertAt_leaf_over db rh f1 p i v lk lv hov] at hins
        have hm := pair_rok_inj hins
        subst hm
        exact ⟨valsNEB_leaf_of_ne _ _ hv, rfl⟩
      · by_cases holm : lk.nAt ((p.offset i).commonPrefix lk) = 16
        · by_cases hpat : (p.offset i).nAt ((p.offset i).commonPrefix lk) = 16
          · exact (split_not_both_term (p.offset i) lk hwfp2 hwfk hov holm hpat).elim
          · have hvsome : ∀ vv, (some lv : Option Bytes) = some vv → ¬vv = [] := by
              intro vv hvv
              have h2 : lv = vv := by simpa using hvv
              subst h2
              exact hlv
            have hb1 : valsNEB (.branch (Node.emptyChildren.set
                ((p.offset i).nAt ((p.offset i).commonPrefix lk))
                (.leaf ((p.offset i).offset ((p.offset i).commonPrefix lk + 1))
                  v)) (some lv)) = true :=
              valsNEB_branch_intro _ _ hvsome
                (valsNEListB_set _ _ _ valsNEListB_emptyChildren
                  (valsNEB_leaf_of_ne _ _ hv))
            have hb2 : wfValsB (.branch (Node.emptyChildren.set
                ((p.offset i).nAt ((p.offset i).commonPrefix lk))
                (.leaf ((p.offset i).offset ((p.offset i).commonPrefix lk + 1))
                  v)) (some lv)) = true :=
              wfValsB_branch_intro _ _ hvsome
                (wfValsListB_set _ _ _ wfValsListB_emptyChildren rfl)
            by_cases h0 : (p.offset i).commonPrefix lk = 0
            · rw [insertAt_leaf_term0 db rh f1 p i v lk lv hov holm hpat h0] at hins
              have hm := pair_rok_inj hins
              subst hm
              exact ⟨hb1, hb2⟩
            · rw [insertAt_leaf_term_ext db rh f1 p i v lk lv hov holm hpat h0]
                at hins
              have hm := pair_rok_inj hins
              subst hm
              exact ⟨hb1, hb2⟩
        · by_cases hpat : (p.offset i).nAt ((p.offset i).commonPrefix lk) = 16
          · have hvsome : ∀ vv, (some v : Option Bytes) = some vv → ¬vv = [] := by
              intro vv hvv
              have h2 : v = vv := by simpa using hvv
              subst h2
              exact hv
            have hb1 : valsNEB (.branch (Node.emptyChildren.set
                (lk.nAt ((p.offset i).commonPrefix lk))
                (.leaf (lk.offset ((p.offset i).commonPrefix lk + 1)) lv))
                (some v)) = true :=
              valsNEB_branch_intro _ _ hvsome
                (valsNEListB_set _ _ _ valsNEListB_emptyChildren
                  (valsNEB_leaf_of_ne _ _ hlv))
            have hb2 : wfValsB (.branch (Node.emptyChildren.set
                (lk.nAt ((p.offset i).commonPrefix lk))
                (.leaf (lk.offset ((p.offset i).commonPrefix lk + 1)) lv))
                (some v)) = true :=
              wfValsB_branch_intro _ _ hvsome
                (wfValsListB_set _ _ _ wfValsListB_emptyChildren rfl)
            by_cases h0 : (p.offset i).commonPrefix lk = 0
            · rw [insertAt_leaf_pterm0 db rh f1 p i v lk lv hov holm hpat h0] at hins
              have hm := pair_rok_inj hins
              subst hm
              exact ⟨hb1, hb2⟩
            · rw [insertAt_leaf_pterm_ext db rh f1 p i v lk lv hov holm hpat h0]
                at hins
              have hm := pair_rok_inj hins
              subst hm
              exact ⟨hb1, hb2⟩
          · have hvnone : ∀ vv, (none : Option Bytes) = some vv → ¬vv = [] := by
              intro vv hvv
              exact absurd hvv (by simp)
            have hb1 : valsNEB (.branch ((Node.emptyChildren.set
                (lk.nAt ((p.offset i).commonPrefix lk))
                (.leaf (lk.offset ((p.offset i).commonPrefix lk + 1)) lv)).set
                ((p.offset i).nAt ((p.offset i).commonPrefix lk))
                (.leaf ((p.offset i).offset ((p.offset i).commonPrefix lk + 1))
                  v)) none) = true :=
              valsNEB_branch_intro _ _ hvnone
                (valsNEListB_set _ _ _
                  (valsNEListB_set _ _ _ valsNEListB_emptyChildren
                    (valsNEB_leaf_of_ne _ _ hlv))
                  (valsNEB_leaf_of_ne _ _ hv))
            have hb2 : wfValsB (.branch ((Node.emptyChildren.set
                (lk.nAt ((p.offset i).commonPrefix lk))
                (.leaf (lk.offset ((p.offset i).commonPrefix lk + 1)) lv)).set
                ((p.offset i).nAt ((p.offset i).commonPrefix lk))
                (.leaf ((p.offset i).offset ((p.offset i).commonPrefix lk + 1))
                  v)) none) = true :=
              wfValsB_branch_intro _ _ hvnone
                (wfValsListB_set _ _ _
                  (wfValsListB_set _ _ _ wfValsListB_emptyChildren rfl) rfl)
            by_cases h0 : (p.offset i).commonPrefix lk = 0
            · rw [insertAt_leaf_child0 db rh f1 p i v lk lv hov holm hpat h0] at hins
              have hm := pair_rok_inj hins
              subst hm
              exact ⟨hb1, hb2⟩
            · rw [insertAt_leaf_child_ext db rh f1 p i v lk lv hov holm hpat h0]
                at hins
              have hm := pair_rok_inj hins
              subst hm
              exact ⟨hb1, hb2⟩
    | branch cs v0 =>
      obtain ⟨hcs16, hwfl⟩ := wfTreeB_branch cs v0 hwf
      have hhfl : hashFreeListB cs = true := hhf
      obtain ⟨hv0, hvl⟩ := valsNEB_branch_elim cs v0 hvne
      obtain ⟨hwv0, hwvl⟩ := wfValsB_branch cs v0 hwv
      by_cases hterm : (p.offset i).nAt 0 = 16
      · rw [insertAt_branch_term db rh f1 p i v cs v0 hterm] at hins
        have hm := pair_rok_inj hins
        subst hm
        have hvsome : ∀ vv, (some v : Option Bytes) = some vv → ¬vv = [] := by
          intro vv hvv
          have h2 : v = vv := by simpa using hvv
          subst h2
          exact hv
        exact ⟨valsNEB_branch_intro _ _ hvsome hvl,
          wfValsB_branch_intro _ _ hvsome hwvl⟩
      · rw [insertAt_branch_step db rh f1 p i v cs v0 hterm] at hins
        match hrec : insertAt db rh f1 (cs.getD ((p.offset i).nAt 0) .empty)
            p (i + 1) v with
        | (pks2, r2) =>
          rw [hrec] at hins
          match r2 with
          | none =>
            have h3 : (none : TRes Node) = some (.ok m) := congrArg Prod.snd hins
            exact absurd h3 (by simp)
          | some (.error e2) =>
            have h3 : (some (Except.error e2) : TRes Node) = some (.ok m) :=
              congrArg Prod.snd hins
            exact absurd h3 (by simp)
          | some (.ok nc) =>
            have hm := pair_rok_inj hins
            subst hm
            have hstep : i + 1 < p.len := by
              apply wfLeafKey_step p.hexData hpath i hi
              rw [nAt_getD] at hterm
              simpa using hterm
            obtain ⟨hnc, hncw⟩ := ih (cs.getD ((p.offset i).nAt 0) .empty)
              p (i + 1) v pks2 nc
              (hashFreeListB_getD cs hhfl _)
              (wfTreeListB_getD cs hwfl _)
              (valsNEListB_getD cs hvl _)
              (wfValsListB_getD cs hwvl _) hpath hstep hv hrec
            exact ⟨valsNEB_branch_intro _ _ hv0 (valsNEListB_set _ _ _ hvl hnc),
              wfValsB_branch_intro _ _ hwv0 (wfValsListB_set _ _ _ hwvl hncw)⟩
    | extension pfx child =>
      obtain ⟨hwfpx, hwfc⟩ := wfTreeB_ext pfx child hwf
      have hchf : hashFreeB child = true := hhf
      have hcvne : valsNEB child = true := hvne
      have hcwv : wfValsB child = true := hwv
      have hpxpos : 0 < pfx.len :=
        List.length_pos_of_ne_nil (wfPfx_ne_nil pfx.hexData hwfpx)
      by_cases h0 : (p.offset i).commonPrefix pfx = 0
      · rw [insertAt_ext_div db rh f1 p i v pfx child h0] at hins
        have hne16 : ¬pfx.nAt 0 = 16 := by
          have := wfPfx_getD_lt pfx.hexData hwfpx 0 hpxpos
          unfold Nibbles.nAt
          omega
        have hbp : Node.branchPut Node.emptyChildren none (pfx.nAt 0)
            (if pfx.len = 1 then child else .extension (pfx.offset 1) child) =
            (Node.emptyChildren.set (pfx.nAt 0)
              (if pfx.len = 1 then child else .extension (pfx.offset 1) child),
              none) := by
          unfold Node.branchPut
          rw [if_neg hne16]
        rw [hbp] at hins
        have hvnone : ∀ vv, (none : Option Bytes) = some vv → ¬vv = [] := by
          intro vv hvv
          exact absurd hvv (by simp)
        apply ih _ p i v pks m ?_ ?_ ?_ ?_ hpath hi hv hins
        · show hashFreeListB (Node.emptyChildren.set (pfx.nAt 0) _) = true
          apply hashFreeListB_set
          · exact hashFreeListB_emptyChildren
          · by_cases hl1 : pfx.len = 1
            · rw [if_pos hl1]; exact hchf
            · rw [if_neg hl1]; exact hchf
        · show (decide ((Node.emptyChildren.set (pfx.nAt 0) _).length = 16) &&
            wfTreeListB (Node.emptyChildren.set (pfx.nAt 0) _)) = true
          simp only [Bool.and_eq_true, decide_eq_true_eq]
          constructor
          · rw [List.length_set, emptyChildren_length]
          · apply wfTreeListB_set
            · exact wfTreeListB_emptyChildren
            · by_cases hl1 : pfx.len = 1
              · rw [if_pos hl1]; exact hwfc
              · rw [if_neg hl1]
                show (wfPfx (pfx.offset 1).hexData && wfTreeB child) = true
                simp only [Bool.and_eq_true]
                exact ⟨wfPfx_offset_one pfx hwfpx hl1, hwfc⟩
        · apply valsNEB_branch_intro _ _ hvnone
          apply valsNEListB_set
          · exact valsNEListB_emptyChildren
          · by_cases hl1 : pfx.len = 1
            · rw [if_pos hl1]; exact hcvne
            · rw [if_neg hl1]; exact hcvne
        · apply wfValsB_branch_intro _ _ hvnone
          apply wfValsListB_set
          · exact wfValsListB_emptyChildren
          · by_cases hl1 : pfx.len = 1
            · rw [if_pos hl1]; exact hcwv
            · rw [if_neg hl1]; exact hcwv
      · by_cases hm0 : (p.offset i).commonPrefix pfx = pfx.len
        · rw [insertAt_ext_match db rh f1 p i v pfx child h0 hm0] at hins
          match hrec : insertAt db rh f1 child p
              (i + (p.offset i).commonPrefix pfx) v with
          | (pks2, r2) =>
            rw [hrec] at hins
            match r2 with
            | none =>
              have h3 : (none : TRes Node) = some (.ok m) := congrArg Prod.snd hins
              exact absurd h3 (by simp)
            | some (.error e2) =>
              have h3 : (some (Except.error e2) : TRes Node) = some (.ok m) :=
                congrArg Prod.snd hins
              exact absurd h3 (by simp)
            | some (.ok nc) =>
              have hm := pair_rok_inj hins
              subst hm
              have hstep : i + (p.offset i).commonPrefix pfx < p.len :=
                path_step_common p hpath i hi pfx hwfpx (by omega) (by omega)
              obtain ⟨hnc, hncw⟩ := ih child p
                (i + (p.offset i).commonPrefix pfx) v pks2 nc
                hchf hwfc hcvne hcwv hpath hstep hv hrec
              refine ⟨?_, ?_⟩
              · show valsNEB nc = true
                exact hnc
              · show wfValsB nc = true
                exact hncw
        · rw [insertAt_ext_split db rh f1 p i v pfx child h0 hm0] at hins
          match hrec : insertAt db rh f1
              (.extension (pfx.offset ((p.offset i).commonPrefix pfx)) child) p
              (i + (p.offset i).commonPrefix pfx) v with
          | (pks2, r2) =>
            rw [hrec] at hins
            match r2 with
            | none =>
              have h3 : (none : TRes Node) = some (.ok m) := congrArg Prod.snd hins
              exact absurd h3 (by simp)
            | some (.error e2) =>
              have h3 : (some (Except.error e2) : TRes Node) = some (.ok m) :=
                congrArg Prod.snd hins
              exact absurd h3 (by simp)
            | some (.ok nc) =>
              have hm := pair_rok_inj hins
              subst hm
              have hmle : (p.offset i).commonPrefix pfx ≤ pfx.len :=
                commonPrefixAux_le_right _ _
              have hmlt : (p.offset i).commonPrefix pfx < pfx.len := by omega
              have hstep : i + (p.offset i).commonPrefix pfx < p.len :=
                path_step_common p hpath i hi pfx hwfpx (by omega) (by omega)
              obtain ⟨hnc, hncw⟩ := ih
                (.extension (pfx.offset ((p.offset i).commonPrefix pfx)) child) p
                (i + (p.offset i).commonPrefix pfx) v pks2 nc
                hchf
                (by
                  show (wfPfx (pfx.offset ((p.offset i).commonPrefix pfx)).hexData
                    && wfTreeB child) = true
                  simp only [Bool.and_eq_true]
                  exact ⟨wfPfx_drop_pfx pfx.hexData _ hwfpx hmlt, hwfc⟩)
                hcvne hcwv hpath hstep hv hrec
              refine ⟨?_, ?_⟩
              · show valsNEB nc = true
                exact hnc
              · show wfValsB nc = true
                exact hncw

/-- `get_at` is deterministic: any two terminating runs (whatever their fuel)
produce the same result. -/
theorem getAt_det (kec : Bytes → Bytes) (db : Store) (rh : Bytes) :
    ∀ (f f' : Nat) (n : Node) (p : Nibbles) (i : Nat)
      (res res' : Except TrieError (Option Bytes)),
    getAt kec db rh f n p i = some res →
    getAt kec db rh f' n p i = some res' → res = res' := by
  intro f
  induction f with
  | zero =>
    intro f' n p i res res' h _
    have h0 : (none : TRes (Option Bytes)) = some res := h
    exact absurd h0 (by simp)
  | succ f ih =>
    intro f' n p i res res' h h'
    cases f' with
    | zero =>
      have h0 : (none : TRes (Option Bytes)) = some res' := h'
      exact absurd h0 (by simp)
    | succ f2 =>
      cases n with
      | empty =>
        rw [getAt_empty_eq] at h h'
        have h1 : _ = res := Option.some.inj h
        have h2 : _ = res' := Option.some.inj h'
        rw [← h1, ← h2]
      | leaf lk lv =>
        rw [getAt_leaf_eq] at h h'
        by_cases hc : lk = p.offset i
        · rw [if_pos hc] at h h'
          have h1 : _ = res := Option.some.inj h
          have h2 : _ = res' := Option.some.inj h'
          rw [← h1, ← h2]
        · rw [if_neg hc] at h h'
          have h1 : _ = res := Option.some.inj h
          have h2 : _ = res' := Option.some.inj h'
          rw [← h1, ← h2]
      | branch cs v =>
        rw [getAt_branch_eq] at h h'
        by_cases hc : ((p.offset i).isEmpty || decide ((p.offset i).nAt 0 = 16)) = true
        · rw [if_pos hc] at h h'
          have h1 : _ = res := Option.some.inj h
          have h2 : _ = res' := Option.some.inj h'
          rw [← h1, ← h2]
        · rw [if_neg hc] at h h'
          exact ih f2 _ p (i + 1) res res' h h'
      | extension pfx child =>
        rw [getAt_ext_eq] at h h'
        by_cases hc : (p.offset i).commonPrefix pfx = pfx.len
        · rw [if_pos hc] at h h'
          exact ih f2 child p (i + (p.offset i).commonPrefix pfx) res res' h h'
        · rw [if_neg hc] at h h'
          have h1 : _ = res := Option.some.inj h
          have h2 : _ = res' := Option.some.inj h'
          rw [← h1, ← h2]
      | hash hn =>
        rw [getAt_hash_eq] at h h'
        cases hrec : recoverFromDb db hn with
        | none =>
          rw [hrec] at h
          have h0 : (none : TRes (Option Bytes)) = some res := h
          exact absurd h0 (by simp)
        | some mr =>
          rw [hrec] at h h'
          cases mr with
          | error e =>
            have h1 : _ = res := Option.some.inj h
            have h2 : _ = res' := Option.some.inj h'
            rw [← h1, ← h2]
          | ok mres =>
            cases mres with
            | none =>
              have h1 : _ = res := Option.some.inj h
              have h2 : _ = res' := Option.some.inj h'
              rw [← h1, ← h2]
            | some nd =>
              have hh : getAt kec db rh f nd p i = some res := h
              have hh' : getAt kec db rh f2 nd p i = some res' := h'
              exact ih f2 nd p i res res' hh hh'

theorem commonPrefixAux_nil_right (l : List Nat) :
    Nibbles.commonPrefixAux l [] = 0 := by
  cases l <;> rfl

theorem hex_cons (x : Nibbles) (hx : 0 < x.len) :
    x.hexData = x.nAt 0 :: x.hexData.drop 1 := by
  have h := hex_recompose x 0 hx
  simpa using h

theorem offset_len (p : Nibbles) (i : Nat) :
    (p.offset i).len = p.len - i := by
  show (p.hexData.drop i).length = p.hexData.length - i
  rw [List.length_drop]

theorem offset_hex_succ (p : Nibbles) (i : Nat) :
    (p.offset i).hexData.drop 1 = (p.offset (i + 1)).hexData := by
  show ((p.offset i).offset 1).hexData = (p.offset (i + 1)).hexData
  rw [← offset_offset]

/-- The divergence-arm restructuring of an extension (a fresh branch holding
the shortened extension, or the bare child) is read-equivalent to the
extension itself: `get_at` runs on either shape exist together and agree on
every returned value. -/
theorem restructure_getB (kec : Bytes → Bytes) (db0 : Store) (rh0 : Bytes)
    (pfx : Nibbles) (child : Node) (hwfpx : wfPfx pfx.hexData = true)
    (p2 : Nibbles) (i2 : Nat) (hp2 : wfLeafKey p2.hexData = true)
    (hi2 : i2 < p2.len) :
    (∀ fg res, getAt kec db0 rh0 fg
        (.branch (Node.emptyChildren.set (pfx.nAt 0)
          (if pfx.len = 1 then child else .extension (pfx.offset 1) child)) none)
        p2 i2 = some res →
      ∃ fg2 res2,
        getAt kec db0 rh0 fg2 (.extension pfx child) p2 i2 = some res2 ∧
        ∀ w, res = .ok (some w) ↔ res2 = .ok (some w)) ∧
    (∀ fg res, getAt kec db0 rh0 fg (.extension pfx child) p2 i2 = some res →
      ∃ fg2 res2,
        getAt kec db0 rh0 fg2
          (.branch (Node.emptyChildren.set (pfx.nAt 0)
            (if pfx.len = 1 then child else .extension (pfx.offset 1) child)) none)
          p2 i2 = some res2 ∧
        ∀ w, res = .ok (some w) ↔ res2 = .ok (some w)) := by
  have hpxpos : 0 < pfx.len :=
    List.length_pos_of_ne_nil (wfPfx_ne_nil pfx.hexData hwfpx)
  have hu0lt : pfx.nAt 0 < 16 := wfPfx_getD_lt pfx.hexData hwfpx 0 hpxpos
  have hq2pos : 0 < (p2.offset i2).len := by
    rw [offset_len]
    have : i2 < p2.len := hi2
    omega
  have hq2cons : (p2.offset i2).hexData =
      (p2.offset i2).nAt 0 :: (p2.offset (i2 + 1)).hexData := by
    have h := hex_cons (p2.offset i2) hq2pos
    rw [offset_hex_succ] at h
    exact h
  have hpxcons : pfx.hexData = pfx.nAt 0 :: (pfx.offset 1).hexData :=
    hex_cons pfx hpxpos
  have hlen1 : (pfx.offset 1).len = pfx.len - 1 := offset_len pfx 1
  by_cases hterm : (p2.offset i2).nAt 0 = 16
  · -- terminator head: the branch answers `none`, the extension misses
    have hcp0 : (p2.offset i2).commonPrefix pfx = 0 := by
      show Nibbles.commonPrefixAux (p2.offset i2).hexData pfx.hexData = 0
      rw [hq2cons, hpxcons, commonPrefixAux_cons_ne _ _ (by omega)]
    have hextrun : getAt kec db0 rh0 1 (.extension pfx child) p2 i2 =
        some (.error (.missingTrieNode (kec []) (some (p2.slice 0 i2))
          (some rh0) none)) := by
      rw [getAt_ext_eq, if_neg (by rw [hcp0]; omega)]
      rfl
    constructor
    · intro fg res hget
      match fg with
      | 0 =>
        have h0 : (none : TRes (Option Bytes)) = some res := hget
        exact absurd h0 (by simp)
      | fgb + 1 =>
        rw [getAt_branch_eq, if_pos (by rw [hterm]; simp)] at hget
        have hres : (some (Except.ok (none : Option Bytes)) : TRes (Option Bytes))
            = some res := hget
        simp only [Option.some.injEq] at hres
        refine ⟨1, _, hextrun, ?_⟩
        intro w
        rw [← hres]
        constructor
        · intro hc; exact absurd hc (by simp)
        · intro hc; exact absurd hc (by simp)
    · intro fg res hget
      match fg with
      | 0 =>
        have h0 : (none : TRes (Option Bytes)) = some res := hget
        exact absurd h0 (by simp)
      | fge + 1 =>
        rw [getAt_ext_eq, if_neg (by rw [hcp0]; omega)] at hget
        have hres : (some (Except.error (TrieError.missingTrieNode (kec [])
            (some (p2.slice 0 i2)) (some rh0) none)) : TRes (Option Bytes))
            = some res := hget
        simp only [Option.some.injEq] at hres
        refine ⟨1, .ok none, ?_, ?_⟩
        · rw [getAt_branch_eq, if_pos (by rw [hterm]; simp)]
          rfl
        · intro w
          rw [← hres]
          constructor
          · intro hc; exact absurd hc (by simp)
          · intro hc; exact absurd hc (by simp)
  · by_cases heq : (p2.offset i2).nAt 0 = pfx.nAt 0
    · -- heads agree: both descend
      have hcp : (p2.offset i2).commonPrefix pfx =
          (p2.offset (i2 + 1)).commonPrefix (pfx.offset 1) + 1 := by
        show Nibbles.commonPrefixAux (p2.offset i2).hexData pfx.hexData = _
        rw [hq2cons, hpxcons, heq, commonPrefixAux_cons_eq]
        rfl
      have hgetX : (Node.emptyChildren.set (pfx.nAt 0)
          (if pfx.len = 1 then child else .extension (pfx.offset 1) child)).getD
          ((p2.offset i2).nAt 0) .empty =
          (if pfx.len = 1 then child else .extension (pfx.offset 1) child) := by
        rw [heq, getD_set_self _ _ _ (by rw [emptyChildren_length]; omega)]
      by_cases hl1 : pfx.len = 1
      · -- bare child in the branch slot; extension fully matches
        have hnil : (pfx.offset 1).hexData = [] := by
          have h2 : (pfx.offset 1).len = 0 := by omega
          exact List.length_eq_zero.mp h2
        have hcp1 : (p2.offset i2).commonPrefix pfx = 1 := by
          rw [hcp]
          show Nibbles.commonPrefixAux _ _ + 1 = 1
          rw [hnil, commonPrefixAux_nil_right]
        constructor
        · intro fg res hget
          match fg with
          | 0 =>
            have h0 : (none : TRes (Option Bytes)) = some res := hget
            exact absurd h0 (by simp)
          | fgb + 1 =>
            rw [getAt_branch_eq,
              if_neg (by rw [branch_cond_false _ hterm]; simp), hgetX,
              if_pos hl1] at hget
            refine ⟨fgb + 1, res, ?_, by intro w; exact Iff.rfl⟩
            rw [getAt_ext_eq, if_pos (by rw [hcp1, hl1]), hcp1]
            exact hget
        · intro fg res hget
          match fg with
          | 0 =>
            have h0 : (none : TRes (Option Bytes)) = some res := hget
            exact absurd h0 (by simp)
          | fge + 1 =>
            rw [getAt_ext_eq, if_pos (by rw [hcp1, hl1]), hcp1] at hget
            refine ⟨fge + 1, res, ?_, by intro w; exact Iff.rfl⟩
            rw [getAt_branch_eq,
              if_neg (by rw [branch_cond_false _ hterm]; simp), hgetX,
              if_pos hl1]
            exact hget
      · -- shortened extension in the branch slot
        have hl2 : 2 ≤ pfx.len := by omega
        by_cases hc2 : (p2.offset (i2 + 1)).commonPrefix (pfx.offset 1) =
            (pfx.offset 1).len
        · -- inner extension also matches: both walks reach the child
          have hcpfull : (p2.offset i2).commonPrefix pfx = pfx.len := by
            rw [hcp, hc2, hlen1]
            omega
          have hidx : i2 + (p2.offset i2).commonPrefix pfx =
              (i2 + 1) + (p2.offset (i2 + 1)).commonPrefix (pfx.offset 1) := by
            rw [hcp]
            omega
          constructor
          · intro fg res hget
            match fg with
            | 0 =>
              have h0 : (none : TRes (Option Bytes)) = some res := hget
              exact absurd h0 (by simp)
            | fgb + 1 =>
              rw [getAt_branch_eq,
                if_neg (by rw [branch_cond_false _ hterm]; simp), hgetX,
                if_neg hl1] at hget
              match fgb, hget with
              | 0, hget =>
                have h0 : (none : TRes (Option Bytes)) = some res := hget
                exact absurd h0 (by simp)
              | fgx + 1, hget =>
                rw [getAt_ext_eq, if_pos hc2] at hget
                refine ⟨fgx + 1, res, ?_, by intro w; exact Iff.rfl⟩
                rw [getAt_ext_eq, if_pos hcpfull, hidx]
                exact hget
          · intro fg res hget
            match fg with
            | 0 =>
              have h0 : (none : TRes (Option Bytes)) = some res := hget
              exact absurd h0 (by simp)
            | fge + 1 =>
              rw [getAt_ext_eq, if_pos hcpfull, hidx] at hget
              refine ⟨fge + 2, res, ?_, by intro w; exact Iff.rfl⟩
              rw [getAt_branch_eq,
                if_neg (by rw [branch_cond_false _ hterm]; simp), hgetX,
                if_neg hl1, getAt_ext_eq, if_pos hc2]
              exact hget
        · -- inner extension misses: both sides error
          have hcpne : ¬(p2.offset i2).commonPrefix pfx = pfx.len := by
            rw [hcp]
            intro hc
            apply hc2
            rw [hlen1]
            omega
          constructor
          · intro fg res hget
            match fg with
            | 0 =>
              have h0 : (none : TRes (Option Bytes)) = some res := hget
              exact absurd h0 (by simp)
            | fgb + 1 =>
              rw [getAt_branch_eq,
                if_neg (by rw [branch_cond_false _ hterm]; simp), hgetX,
                if_neg hl1] at hget
              match fgb, hget with
              | 0, hget =>
                have h0 : (none : TRes (Option Bytes)) = some res := hget
                exact absurd h0 (by simp)
              | fgx + 1, hget =>
                rw [getAt_ext_eq, if_neg hc2] at hget
                have hres : (some (Except.error (TrieError.missingTrieNode (kec [])
                    (some (p2.slice 0 (i2 + 1))) (some rh0) none)) :
                    TRes (Option Bytes)) = some res := hget
                simp only [Option.some.injEq] at hres
                refine ⟨1, .error (.missingTrieNode (kec [])
                  (some (p2.slice 0 i2)) (some rh0) none), ?_, ?_⟩
                · rw [getAt_ext_eq, if_neg hcpne]
                  rfl
                · intro w
                  rw [← hres]
                  constructor
                  · intro hc; exact absurd hc (by simp)
                  · intro hc; exact absurd hc (by simp)
          · intro fg res hget
            match fg with
            | 0 =>
              have h0 : (none : TRes (Option Bytes)) = some res := hget
              exact absurd h0 (by simp)
            | fge + 1 =>
              rw [getAt_ext_eq, if_neg hcpne] at hget
              have hres : (some (Except.error (TrieError.missingTrieNode (kec [])
                  (some (p2.slice 0 i2)) (some rh0) none)) :
                  TRes (Option Bytes)) = some res := hget
              simp only [Option.some.injEq] at hres
              refine ⟨3, .error (.missingTrieNode (kec [])
                (some (p2.slice 0 (i2 + 1))) (some rh0) none), ?_, ?_⟩
              · rw [getAt_branch_eq,
                  if_neg (by rw [branch_cond_false _ hterm]; simp), hgetX,
                  if_neg hl1, getAt_ext_eq, if_neg hc2]
                rfl
              · intro w
                rw [← hres]
                constructor
                · intro hc; exact absurd hc (by simp)
                · intro hc; exact absurd hc (by simp)
    · -- heads differ: the branch walks into Empty, the extension misses
      have hcp0 : (p2.offset i2).commonPrefix pfx = 0 := by
        show Nibbles.commonPrefixAux (p2.offset i2).hexData pfx.hexData = 0
        rw [hq2cons, hpxcons, commonPrefixAux_cons_ne _ _ heq]
      have hgetE : (Node.emptyChildren.set (pfx.nAt 0)
          (if pfx.len = 1 then child else .extension (pfx.offset 1) child)).getD
          ((p2.offset i2).nAt 0) .empty = .empty := by
        rw [getD_set_ne _ _ _ _ heq, getD_emptyChildren]
      constructor
      · intro fg res hget
        match fg with
        | 0 =>
          have h0 : (none : TRes (Option Bytes)) = some res := hget
          exact absurd h0 (by simp)
        | fgb + 1 =>
          rw [getAt_branch_eq,
            if_neg (by rw [branch_cond_false _ hterm]; simp), hgetE] at hget
          match fgb, hget with
          | 0, hget =>
            have h0 : (none : TRes (Option Bytes)) = some res := hget
            exact absurd h0 (by simp)
          | fgx + 1, hget =>
            rw [getAt_empty_eq] at hget
            have hres : (some (Except.error (TrieError.missingTrieNode (kec [])
                (some (p2.slice 0 (i2 + 1))) (some rh0) none)) :
                TRes (Option Bytes)) = some res := hget
            simp only [Option.some.injEq] at hres
            refine ⟨1, .error (.missingTrieNode (kec [])
              (some (p2.slice 0 i2)) (some rh0) none), ?_, ?_⟩
            · rw [getAt_ext_eq, if_neg (by rw [hcp0]; omega)]
              rfl
            · intro w
              rw [← hres]
              constructor
              · intro hc; exact absurd hc (by simp)
              · intro hc; exact absurd hc (by simp)
      · intro fg res hget
        match fg with
        | 0 =>
          have h0 : (none : TRes (Option Bytes)) = some res := hget
          exact absurd h0 (by simp)
        | fge + 1 =>
          rw [getAt_ext_eq, if_neg (by rw [hcp0]; omega)] at hget
          have hres : (some (Except.error (TrieError.missingTrieNode (kec [])
              (some (p2.slice 0 i2)) (some rh0) none)) :
              TRes (Option Bytes)) = some res := hget
          simp only [Option.some.injEq] at hres
          refine ⟨2, .error (.missingTrieNode (kec [])
            (some (p2.slice 0 (i2 + 1))) (some rh0) none), ?_, ?_⟩
          · rw [getAt_branch_eq,
              if_neg (by rw [branch_cond_false _ hterm]; simp), hgetE,
              getAt_empty_eq]
            rfl
          · intro w
            rw [← hres]
            constructor
            · intro hc; exact absurd hc (by simp)
            · intro hc; exact absurd hc (by simp)

theorem getD_mem_or_empty (cs : List Node) (u : Nat) :
    cs.getD u .empty = .empty ∨ cs.getD u .empty ∈ cs := by
  rcases Nat.lt_or_ge u cs.length with h | h
  · right
    rw [List.getD_eq_getElem?_getD, List.getElem?_eq_getElem h]
    exact List.getElem_mem _
  · left
    rw [List.getD_eq_getElem?_getD, List.getElem?_eq_none (by omega)]
    rfl

/-- On a fully materialised (hash-free) tree, `get_at` terminates: some fuel
returns a result. -/
theorem getAt_total (kec : Bytes → Bytes) (db0 : Store) (rh0 : Bytes) :
    ∀ (sz : Nat) (n : Node), sizeOf n ≤ sz → hashFreeB n = true →
    ∀ (p2 : Nibbles) (i2 : Nat),
    ∃ f res, getAt kec db0 rh0 f n p2 i2 = some res := by
  intro sz
  induction sz with
  | zero =>
    intro n hsz
    exfalso
    cases n <;> simp at hsz
  | succ sz ih =>
    intro n hsz hhf p2 i2
    cases n with
    | hash hh => exact absurd hhf (by simp [hashFreeB])
    | empty => exact ⟨1, _, rfl⟩
    | leaf lk lv =>
      by_cases hc : lk = p2.offset i2
      · exact ⟨1, _, by rw [getAt_leaf_eq, if_pos hc]; rfl⟩
      · exact ⟨1, _, by rw [getAt_leaf_eq, if_neg hc]; rfl⟩
    | branch cs v =>
      have hhfl : hashFreeListB cs = true := hhf
      by_cases hcond : ((p2.offset i2).isEmpty ||
          (p2.offset i2).nAt 0 = 16) = true
      · exact ⟨1, .ok v, by rw [getAt_branch_eq, if_pos hcond]; rfl⟩
      · rcases getD_mem_or_empty cs ((p2.offset i2).nAt 0) with hemp | hmem
        · refine ⟨2, .error (.missingTrieNode (kec [])
            (some (p2.slice 0 (i2 + 1))) (some rh0) none), ?_⟩
          rw [getAt_branch_eq, if_neg hcond, hemp, getAt_empty_eq]
          rfl
        · have hszc : sizeOf (cs.getD ((p2.offset i2).nAt 0) .empty) ≤ sz := by
            have h1 := List.sizeOf_lt_of_mem hmem
            have h2 : sizeOf (Node.branch cs v) = 1 + sizeOf cs + sizeOf v := by
              simp
            omega
          obtain ⟨f, res, hrun⟩ := ih _ hszc
            (hashFreeListB_getD cs hhfl _) p2 (i2 + 1)
          refine ⟨f + 1, res, ?_⟩
          rw [getAt_branch_eq, if_neg hcond]
          exact hrun
    | extension pfx child =>
      have hchf : hashFreeB child = true := hhf
      by_cases hcond : (p2.offset i2).commonPrefix pfx = pfx.len
      · have hszc : sizeOf child ≤ sz := by
          have h2 : sizeOf (Node.extension pfx child) =
              1 + sizeOf pfx + sizeOf child := by
            simp
          omega
        obtain ⟨f, res, hrun⟩ := ih child hszc hchf p2
          (i2 + (p2.offset i2).commonPrefix pfx)
        refine ⟨f + 1, res, ?_⟩
        rw [getAt_ext_eq, if_pos hcond]
        exact hrun
      · exact ⟨1, _, by rw [getAt_ext_eq, if_neg hcond]; rfl⟩

theorem offset_hex_drop (p : Nibbles) (i k : Nat) :
    (p.offset i).hexData.drop k = (p.offset (i + k)).hexData := by
  show ((p.offset i).offset k).hexData = (p.offset (i + k)).hexData
  rw [← offset_offset]

theorem getD_take_lt (l : List Nat) (c j : Nat) (h : j < c) :
    (l.take c).getD j 16 = l.getD j 16 := by
  rw [List.getD_eq_getElem?_getD, List.getD_eq_getElem?_getD,
    List.getElem?_take_of_lt h]

theorem ne_of_nAt_ne (a p2 : Nibbles) (i2 c : Nat)
    (h : ¬(p2.offset i2).nAt c = a.nAt c) : ¬a = p2.offset i2 := by
  intro hc
  rw [← hc] at h
  exact h rfl

theorem eq_of_decomp (a b : Nibbles) (c : Nat) (hca : c < a.len) (hcb : c < b.len)
    (htake : a.hexData.take c = b.hexData.take c)
    (hnat : a.nAt c = b.nAt c)
    (hdrop : a.hexData.drop (c + 1) = b.hexData.drop (c + 1)) : a = b := by
  apply nibbles_ext
  conv_lhs => rw [getD_decomp a.hexData c hca]
  conv_rhs => rw [getD_decomp b.hexData c hcb]
  rw [htake, hdrop, show a.hexData.getD c 16 = b.hexData.getD c 16 from hnat]

/-- Under a successful take-`c` prefix match, the position `c` still lies
inside the (terminated, well-formed) remaining path. -/
theorem q2_clt (p2 : Nibbles) (i2 : Nat) (hp2 : wfLeafKey p2.hexData = true)
    (hi2 : i2 < p2.len) (c : Nat) (q : Nibbles)
    (hq : wfLeafKey q.hexData = true) (hclt : c < q.len)
    (hextc : Nibbles.commonPrefixAux (p2.offset i2).hexData
      (q.hexData.take c) = c) :
    c < (p2.offset i2).len := by
  have hwfq2 : wfLeafKey (p2.offset i2).hexData = true :=
    wfLeafKey_drop p2.hexData hp2 i2 hi2
  have hq2ne : (p2.offset i2).hexData ≠ [] := wfLeafKey_ne_nil _ hwfq2
  have hq2pos : 0 < (p2.offset i2).len := List.length_pos_of_ne_nil hq2ne
  have hle : c ≤ (p2.offset i2).len := by
    have h1 := commonPrefixAux_le_left (p2.offset i2).hexData (q.hexData.take c)
    rw [hextc] at h1
    exact h1
  rcases Nat.lt_or_ge c (p2.offset i2).len with h | h
  · exact h
  · exfalso
    have hceq : c = (p2.offset i2).len := by omega
    have hcpos : 0 < c := by omega
    have hlast : (p2.offset i2).hexData.getD ((p2.offset i2).len - 1) 16 = 16 :=
      wfLeafKey_getD_last _ hwfq2
    have hgd : (p2.offset i2).hexData.getD (c - 1) 16 =
        (q.hexData.take c).getD (c - 1) 16 :=
      commonPrefixAux_getD_eq _ _ (c - 1) (by omega)
    rw [getD_take_lt q.hexData c (c - 1) (by omega)] at hgd
    have hqlt : q.hexData.getD (c - 1) 16 < 16 := by
      apply wfLeafKey_getD_lt q.hexData hq
      have : c < q.hexData.length := hclt
      omega
    rw [← hceq] at hlast
    omega

/-- Lift a run on the branch produced by a leaf split (or an extension split)
over the extension wrapper holding the shared prefix. -/
theorem leafsplit_wrap (kec : Bytes → Bytes) (db0 : Store) (rh0 : Bytes)
    (q : Nibbles) (c : Nat) (B : Node) (p2 : Nibbles) (i2 : Nat)
    (hcle : c ≤ q.len)
    (hextc : (p2.offset i2).commonPrefix ⟨q.hexData.take c⟩ = c)
    (fB : Nat) (RB : Except TrieError (Option Bytes))
    (hB : getAt kec db0 rh0 fB B p2 (i2 + c) = some RB) :
    getAt kec db0 rh0 (fB + 1) (.extension (q.slice 0 c) B) p2 i2 = some RB := by
  have hslice : q.slice 0 c = (⟨q.hexData.take c⟩ : Nibbles) := slice_zero_take q c
  have hslen : (⟨q.hexData.take c⟩ : Nibbles).len = c := by
    show (q.hexData.take c).length = c
    rw [List.length_take]
    exact Nat.min_eq_left hcle
  rw [getAt_ext_eq, hslice, if_pos (by rw [hextc, hslen]), hextc]
  exact hB

/-- The double `branch_put` of `insert_at`'s leaf-split arm, with the match
index exposed as a parameter. -/
def leafSplitPut (c : Nat) (q lk : Nibbles) (lv v : Bytes) :
    List Node × Option Bytes :=
  Node.branchPut
    (Node.branchPut Node.emptyChildren none (lk.nAt c)
      (.leaf (lk.offset (c + 1)) lv)).1
    (Node.branchPut Node.emptyChildren none (lk.nAt c)
      (.leaf (lk.offset (c + 1)) lv)).2
    (q.nAt c) (.leaf (q.offset (c + 1)) v)

/-- The node built by `insert_at`'s leaf-split arm. -/
def leafSplitNode (c : Nat) (q lk : Nibbles) (lv v : Bytes) : Node :=
  if c = 0 then
    .branch (leafSplitPut c q lk lv v).1 (leafSplitPut c q lk lv v).2
  else
    .extension (q.slice 0 c)
      (.branch (leafSplitPut c q lk lv v).1 (leafSplitPut c q lk lv v).2)

theorem insertAt_leaf_split_eq (db : Store) (rh : Bytes) (f : Nat)
    (path : Nibbles) (i : Nat) (value : Bytes) (lk : Nibbles) (lv : Bytes)
    (hov : ¬(path.offset i).commonPrefix lk = lk.len) :
    insertAt db rh (f + 1) (.leaf lk lv) path i value =
      ([], rok (leafSplitNode ((path.offset i).commonPrefix lk)
        (path.offset i) lk lv value)) := by
  rw [insertAt_leaf]
  simp only [if_neg hov]
  unfold leafSplitNode
  by_cases h0 : (path.offset i).commonPrefix lk = 0
  · simp only [if_pos h0]
    rfl
  · simp only [if_neg h0]
    rfl

/-- A leaf split keeps the read classification of every other key: the split
node and the original leaf have `get_at` runs that agree on every returned
value. -/
theorem leafsplit_pair (kec : Bytes → Bytes) (db0 : Store) (rh0 : Bytes)
    (lk q : Nibbles) (lv v : Bytes) (p2 : Nibbles) (i2 : Nat) (c : Nat)
    (hwflk : wfLeafKey lk.hexData = true)
    (hwfq : wfLeafKey q.hexData = true)
    (hp2 : wfLeafKey p2.hexData = true) (hi2 : i2 < p2.len)
    (hne : ¬q = p2.offset i2)
    (hclq : c < q.len) (hcllk : c < lk.len)
    (htake : q.hexData.take c = lk.hexData.take c)
    (hnem : ¬q.hexData.getD c 16 = lk.hexData.getD c 16) :
    ∃ fm Rm fn Rn,
      getAt kec db0 rh0 fm (leafSplitNode c q lk lv v) p2 i2 = some Rm ∧
      getAt kec db0 rh0 fn (.leaf lk lv) p2 i2 = some Rn ∧
      ∀ w, Rm = .ok (some w) ↔ Rn = .ok (some w) := by
  have hwfq2 : wfLeafKey (p2.offset i2).hexData = true :=
    wfLeafKey_drop p2.hexData hp2 i2 hi2
  have hnemn : ¬q.nAt c = lk.nAt c := hnem
  by_cases hextc : Nibbles.commonPrefixAux (p2.offset i2).hexData
      (q.hexData.take c) = c
  case neg =>
    have hc0 : ¬c = 0 := by
      intro h0
      apply hextc
      rw [h0, List.take_zero]
      exact commonPrefixAux_nil_right _
    have hlkne : ¬lk = p2.offset i2 := by
      intro hceq
      apply hextc
      rw [← hceq, htake]
      exact commonPrefixAux_take_self _ _ (Nat.le_of_lt hcllk)
    refine ⟨1, .error (.missingTrieNode (kec []) (some (p2.slice 0 i2))
        (some rh0) none), 1, .error (.missingTrieNode (kec [])
        (some (p2.slice 0 i2)) (some rh0) none), ?_, ?_, fun w => Iff.rfl⟩
    · show getAt kec db0 rh0 1 (leafSplitNode c q lk lv v) p2 i2 = _
      unfold leafSplitNode
      rw [if_neg hc0, getAt_ext_eq, if_neg ?hcnd]
      · rfl
      case hcnd =>
        rw [slice_zero_take]
        intro hcnd
        apply hextc
        have hlen : (⟨q.hexData.take c⟩ : Nibbles).len = c := by
          show (q.hexData.take c).length = c
          rw [List.length_take]
          exact Nat.min_eq_left (Nat.le_of_lt hclq)
        rw [hlen] at hcnd
        exact hcnd
    · rw [getAt_leaf_eq, if_neg hlkne]
      rfl
  case pos =>
    have hq2c : c < (p2.offset i2).len := q2_clt p2 i2 hp2 hi2 c q hwfq hclq hextc
    have hq2take : (p2.offset i2).hexData.take c = q.hexData.take c := by
      have h1 := commonPrefixAux_take (p2.offset i2).hexData (q.hexData.take c)
      rw [hextc, List.take_take] at h1
      simpa using h1
    have hi2c : i2 + c < p2.len := by
      have h1 : (p2.offset i2).len = p2.len - i2 := offset_len p2 i2
      omega
    have hwrap : ∀ fB RB,
        getAt kec db0 rh0 fB (.branch (leafSplitPut c q lk lv v).1
          (leafSplitPut c q lk lv v).2) p2 (i2 + c) = some RB →
        ∃ fm, getAt kec db0 rh0 fm (leafSplitNode c q lk lv v) p2 i2
          = some RB := by
      intro fB RB hB2
      by_cases h0 : c = 0
      · refine ⟨fB, ?_⟩
        unfold leafSplitNode
        rw [if_pos h0]
        have hidx : i2 + c = i2 := by omega
        rw [hidx] at hB2
        exact hB2
      · refine ⟨fB + 1, ?_⟩
        unfold leafSplitNode
        rw [if_neg h0]
        exact leafsplit_wrap kec db0 rh0 q c _ p2 i2 (Nat.le_of_lt hclq)
          hextc fB RB hB2
    -- decomposition tail facts
    have hpdrop : (p2.offset i2).hexData.drop (c + 1) =
        (p2.offset (i2 + c + 1)).hexData := offset_hex_drop p2 i2 (c + 1)
    by_cases holm : lk.nAt c = 16
    · -- old leaf exhausted at the split point
      have hpat : ¬q.nAt c = 16 := by
        intro hc2
        exact hnemn (hc2.trans holm.symm)
      have hput : leafSplitPut c q lk lv v =
          (Node.emptyChildren.set (q.nAt c) (.leaf (q.offset (c + 1)) v),
            some lv) := by
        simp only [leafSplitPut, Node.branchPut, if_pos holm, if_neg hpat]
      have hlkd : lk.hexData = lk.hexData.take c ++ [16] :=
        wfLeafKey_eq_take_term lk.hexData hwflk c holm hcllk
      have hu16new : q.nAt c < 16 := by
        rcases Nat.lt_or_ge c (q.hexData.length - 1) with hlt | hge
        · exact wfLeafKey_getD_lt _ hwfq _ hlt
        · exfalso
          apply hpat
          rw [show q.nAt c = q.hexData.getD c 16 from rfl,
            show c = q.hexData.length - 1 from by
              have h5 : c < q.hexData.length := hclq
              omega]
          exact wfLeafKey_getD_last _ hwfq
      by_cases h16 : (p2.offset i2).nAt c = 16
      · -- remaining key terminates exactly where the old leaf did: hit `lv`
        have hq2lk : lk = p2.offset i2 := by
          apply nibbles_ext
          rw [hlkd,
            show (p2.offset i2).hexData =
              (p2.offset i2).hexData.take c ++ [16] from
              wfLeafKey_eq_take_term _ hwfq2 c h16 hq2c,
            hq2take, htake]
        have hBrun : getAt kec db0 rh0 1 (.branch
            (Node.emptyChildren.set (q.nAt c) (.leaf (q.offset (c + 1)) v))
            (some lv)) p2 (i2 + c) = some (.ok (some lv)) := by
          rw [getAt_branch_eq, if_pos (by rw [nAt_offset_assoc, h16]; simp)]
          rfl
        obtain ⟨fm, hm⟩ := hwrap 1 (.ok (some lv)) (by rw [hput]; exact hBrun)
        refine ⟨fm, .ok (some lv), 1, .ok (some lv), hm, ?_, fun w => Iff.rfl⟩
        rw [getAt_leaf_eq, if_pos hq2lk]
        rfl
      · have hn16 : ¬(p2.offset (i2 + c)).nAt 0 = 16 := by
          rw [nAt_offset_assoc]
          exact h16
        by_cases hqc : (p2.offset i2).nAt c = q.nAt c
        · -- descends into the freshly inserted leaf: mismatch on both sides
          have hLnewcond : ¬q.offset (c + 1) = p2.offset (i2 + c + 1) := by
            intro hc2
            apply hne
            apply eq_of_decomp q (p2.offset i2) c hclq hq2c
            · exact hq2take.symm
            · exact hqc.symm
            · have h3 : (q.offset (c + 1)).hexData =
                  (p2.offset (i2 + c + 1)).hexData := by rw [hc2]
              rw [← hpdrop] at h3
              exact h3
          have hgd : (Node.emptyChildren.set (q.nAt c)
              (.leaf (q.offset (c + 1)) v)).getD
              ((p2.offset (i2 + c)).nAt 0) .empty =
              .leaf (q.offset (c + 1)) v := by
            rw [nAt_offset_assoc, hqc,
              getD_set_self _ _ _ (by rw [emptyChildren_length]; omega)]
          have hBrun : getAt kec db0 rh0 2 (.branch
              (Node.emptyChildren.set (q.nAt c) (.leaf (q.offset (c + 1)) v))
              (some lv)) p2 (i2 + c) = some (.error (.missingTrieNode (kec [])
                (some (p2.slice 0 (i2 + c + 1))) (some rh0) none)) := by
            rw [getAt_branch_eq,
              if_neg (by rw [branch_cond_false _ hn16]; simp), hgd,
              getAt_leaf_eq, if_neg hLnewcond]
            rfl
          obtain ⟨fm, hm⟩ := hwrap 2 _ (by rw [hput]; exact hBrun)
          have hlkne : ¬lk = p2.offset i2 := by
            apply ne_of_nAt_ne
            rw [hqc]
            exact fun h5 => hnemn h5
          refine ⟨fm, _, 1, .error (.missingTrieNode (kec [])
            (some (p2.slice 0 i2)) (some rh0) none), hm, ?_, ?_⟩
          · rw [getAt_leaf_eq, if_neg hlkne]
            rfl
          · intro w
            constructor
            · intro hc5; exact absurd hc5 (by simp)
            · intro hc5; exact absurd hc5 (by simp)
        · -- empty slot on the split side, key mismatch on the leaf side
          have hgd : (Node.emptyChildren.set (q.nAt c)
              (.leaf (q.offset (c + 1)) v)).getD
              ((p2.offset (i2 + c)).nAt 0) .empty = .empty := by
            rw [nAt_offset_assoc, getD_set_ne _ _ _ _ hqc, getD_emptyChildren]
          have hBrun : getAt kec db0 rh0 2 (.branch
              (Node.emptyChildren.set (q.nAt c) (.leaf (q.offset (c + 1)) v))
              (some lv)) p2 (i2 + c) = some (.error (.missingTrieNode (kec [])
                (some (p2.slice 0 (i2 + c + 1))) (some rh0) none)) := by
            rw [getAt_branch_eq,
              if_neg (by rw [branch_cond_false _ hn16]; simp), hgd,
              getAt_empty_eq]
            rfl
          obtain ⟨fm, hm⟩ := hwrap 2 _ (by rw [hput]; exact hBrun)
          have hlkne : ¬lk = p2.offset i2 := by
            apply ne_of_nAt_ne
            rw [holm]
            exact h16
          refine ⟨fm, _, 1, .error (.missingTrieNode (kec [])
            (some (p2.slice 0 i2)) (some rh0) none), hm, ?_, ?_⟩
          · rw [getAt_leaf_eq, if_neg hlkne]
            rfl
          · intro w
            constructor
            · intro hc5; exact absurd hc5 (by simp)
            · intro hc5; exact absurd hc5 (by simp)
    · have hu16old : lk.nAt c < 16 := by
        rcases Nat.lt_or_ge c (lk.hexData.length - 1) with hlt | hge
        · exact wfLeafKey_getD_lt _ hwflk _ hlt
        · exfalso
          apply holm
          rw [show lk.nAt c = lk.hexData.getD c 16 from rfl,
            show c = lk.hexData.length - 1 from by
              have h5 : c < lk.hexData.length := hcllk
              omega]
          exact wfLeafKey_getD_last _ hwflk
      by_cases hpat : q.nAt c = 16
      · -- inserted key terminates at the split point
        have hput : leafSplitPut c q lk lv v =
            (Node.emptyChildren.set (lk.nAt c) (.leaf (lk.offset (c + 1)) lv),
              some v) := by
          simp only [leafSplitPut, Node.branchPut, if_neg holm, if_pos hpat]
        have hqd : q.hexData = q.hexData.take c ++ [16] :=
          wfLeafKey_eq_take_term q.hexData hwfq c hpat hclq
        by_cases h16 : (p2.offset i2).nAt c = 16
        · -- would be the inserted key itself: excluded
          exfalso
          apply hne
          apply nibbles_ext
          rw [hqd,
            show (p2.offset i2).hexData =
              (p2.offset i2).hexData.take c ++ [16] from
              wfLeafKey_eq_take_term _ hwfq2 c h16 hq2c,
            hq2take]
        · have hn16 : ¬(p2.offset (i2 + c)).nAt 0 = 16 := by
            rw [nAt_offset_assoc]
            exact h16
          by_cases hlkc : (p2.offset i2).nAt c = lk.nAt c
          · -- walks into the relocated old leaf
            have hgd : (Node.emptyChildren.set (lk.nAt c)
                (.leaf (lk.offset (c + 1)) lv)).getD
                ((p2.offset (i2 + c)).nAt 0) .empty =
                .leaf (lk.offset (c + 1)) lv := by
              rw [nAt_offset_assoc, hlkc,
                getD_set_self _ _ _ (by rw [emptyChildren_length]; omega)]
            by_cases hcondL : lk.offset (c + 1) = p2.offset (i2 + c + 1)
            · have hq2lk : lk = p2.offset i2 := by
                apply eq_of_decomp lk (p2.offset i2) c hcllk hq2c
                · rw [← htake]
                  exact hq2take.symm
                · exact hlkc.symm
                · have h3 : (lk.offset (c + 1)).hexData =
                      (p2.offset (i2 + c + 1)).hexData := by rw [hcondL]
                  rw [← hpdrop] at h3
                  exact h3
              have hBrun : getAt kec db0 rh0 2 (.branch
                  (Node.emptyChildren.set (lk.nAt c)
                    (.leaf (lk.offset (c + 1)) lv)) (some v)) p2 (i2 + c) =
                  some (.ok (some lv)) := by
                rw [getAt_branch_eq,
                  if_neg (by rw [branch_cond_false _ hn16]; simp), hgd,
                  getAt_leaf_eq, if_pos hcondL]
                rfl
              obtain ⟨fm, hm⟩ := hwrap 2 _ (by rw [hput]; exact hBrun)
              refine ⟨fm, .ok (some lv), 1, .ok (some lv), hm, ?_,
                fun w => Iff.rfl⟩
              rw [getAt_leaf_eq, if_pos hq2lk]
              rfl
            · have hlkne : ¬lk = p2.offset i2 := by
                intro hceq
                apply hcondL
                apply nibbles_ext
                show lk.hexData.drop (c + 1) = (p2.offset (i2 + c + 1)).hexData
                rw [← hpdrop, ← hceq]
              have hBrun : getAt kec db0 rh0 2 (.branch
                  (Node.emptyChildren.set (lk.nAt c)
                    (.leaf (lk.offset (c + 1)) lv)) (some v)) p2 (i2 + c) =
                  some (.error (.missingTrieNode (kec [])
                    (some (p2.slice 0 (i2 + c + 1))) (some rh0) none)) := by
                rw [getAt_branch_eq,
                  if_neg (by rw [branch_cond_false _ hn16]; simp), hgd,
                  getAt_leaf_eq, if_neg hcondL]
                rfl
              obtain ⟨fm, hm⟩ := hwrap 2 _ (by rw [hput]; exact hBrun)
              refine ⟨fm, _, 1, .error (.missingTrieNode (kec [])
                (some (p2.slice 0 i2)) (some rh0) none), hm, ?_, ?_⟩
              · rw [getAt_leaf_eq, if_neg hlkne]
                rfl
              · intro w
                constructor
                · intro hc5; exact absurd hc5 (by simp)
                · intro hc5; exact absurd hc5 (by simp)
          · -- empty slot
            have hgd : (Node.emptyChildren.set (lk.nAt c)
                (.leaf (lk.offset (c + 1)) lv)).getD
                ((p2.offset (i2 + c)).nAt 0) .empty = .empty := by
              rw [nAt_offset_assoc, getD_set_ne _ _ _ _ hlkc,
                getD_emptyChildren]
            have hBrun : getAt kec db0 rh0 2 (.branch
                (Node.emptyChildren.set (lk.nAt c)
                  (.leaf (lk.offset (c + 1)) lv)) (some v)) p2 (i2 + c) =
                some (.error (.missingTrieNode (kec [])
                  (some (p2.slice 0 (i2 + c + 1))) (some rh0) none)) := by
              rw [getAt_branch_eq,
                if_neg (by rw [branch_cond_false _ hn16]; simp), hgd,
                getAt_empty_eq]
              rfl
            obtain ⟨fm, hm⟩ := hwrap 2 _ (by rw [hput]; exact hBrun)
            have hlkne : ¬lk = p2.offset i2 := ne_of_nAt_ne lk p2 i2 c hlkc
            refine ⟨fm, _, 1, .error (.missingTrieNode (kec [])
              (some (p2.slice 0 i2)) (some rh0) none), hm, ?_, ?_⟩
            · rw [getAt_leaf_eq, if_neg hlkne]
              rfl
            · intro w
              constructor
              · intro hc5; exact absurd hc5 (by simp)
              · intro hc5; exact absurd hc5 (by simp)
      · -- both keys continue as branch children
        have hput : leafSplitPut c q lk lv v =
            ((Node.emptyChildren.set (lk.nAt c)
              (.leaf (lk.offset (c + 1)) lv)).set (q.nAt c)
              (.leaf (q.offset (c + 1)) v), none) := by
          simp only [leafSplitPut, Node.branchPut, if_neg holm, if_neg hpat]
        have hu16new : q.nAt c < 16 := by
          rcases Nat.lt_or_ge c (q.hexData.length - 1) with hlt | hge
          · exact wfLeafKey_getD_lt _ hwfq _ hlt
          · exfalso
            apply hpat
            rw [show q.nAt c = q.hexData.getD c 16 from rfl,
              show c = q.hexData.length - 1 from by
                have h5 : c < q.hexData.length := hclq
                omega]
            exact wfLeafKey_getD_last _ hwfq
        by_cases h16 : (p2.offset i2).nAt c = 16
        · -- branch value slot is empty: read `none`; old leaf misses
          have hBrun : getAt kec db0 rh0 1 (.branch
              ((Node.emptyChildren.set (lk.nAt c)
                (.leaf (lk.offset (c + 1)) lv)).set (q.nAt c)
                (.leaf (q.offset (c + 1)) v)) none) p2 (i2 + c) =
              some (.ok none) := by
            rw [getAt_branch_eq, if_pos (by rw [nAt_offset_assoc, h16]; simp)]
            rfl
          obtain ⟨fm, hm⟩ := hwrap 1 _ (by rw [hput]; exact hBrun)
          have hlkne : ¬lk = p2.offset i2 := by
            apply ne_of_nAt_ne
            rw [h16]
            exact fun h5 => holm h5.symm
          refine ⟨fm, _, 1, .error (.missingTrieNode (kec [])
            (some (p2.slice 0 i2)) (some rh0) none), hm, ?_, ?_⟩
          · rw [getAt_leaf_eq, if_neg hlkne]
            rfl
          · intro w
            constructor
            · intro hc5; exact absurd hc5 (by simp)
            · intro hc5; exact absurd hc5 (by simp)
        · have hn16 : ¬(p2.offset (i2 + c)).nAt 0 = 16 := by
            rw [nAt_offset_assoc]
            exact h16
          by_cases hqc : (p2.offset i2).nAt c = q.nAt c
          · -- new leaf slot: always a mismatch (q2 ≠ q)
            have hLnewcond : ¬q.offset (c + 1) = p2.offset (i2 + c + 1) := by
              intro hc2
              apply hne
              apply eq_of_decomp q (p2.offset i2) c hclq hq2c
              · exact hq2take.symm
              · exact hqc.symm
              · have h3 : (q.offset (c + 1)).hexData =
                    (p2.offset (i2 + c + 1)).hexData := by rw [hc2]
                rw [← hpdrop] at h3
                exact h3
            have hgd : ((Node.emptyChildren.set (lk.nAt c)
                (.leaf (lk.offset (c + 1)) lv)).set (q.nAt c)
                (.leaf (q.offset (c + 1)) v)).getD
                ((p2.offset (i2 + c)).nAt 0) .empty =
                .leaf (q.offset (c + 1)) v := by
              rw [nAt_offset_assoc, hqc,
                getD_set_self _ _ _ (by
                  rw [List.length_set, emptyChildren_length]; omega)]
            have hBrun : getAt kec db0 rh0 2 (.branch
                ((Node.emptyChildren.set (lk.nAt c)
                  (.leaf (lk.offset (c + 1)) lv)).set (q.nAt c)
                  (.leaf (q.offset (c + 1)) v)) none) p2 (i2 + c) =
                some (.error (.missingTrieNode (kec [])
                  (some (p2.slice 0 (i2 + c + 1))) (some rh0) none)) := by
              rw [getAt_branch_eq,
                if_neg (by rw [branch_cond_false _ hn16]; simp), hgd,
                getAt_leaf_eq, if_neg hLnewcond]
              rfl
            obtain ⟨fm, hm⟩ := hwrap 2 _ (by rw [hput]; exact hBrun)
            have hlkne : ¬lk = p2.offset i2 := by
              apply ne_of_nAt_ne
              rw [hqc]
              exact fun h5 => hnemn h5
            refine ⟨fm, _, 1, .error (.missingTrieNode (kec [])
              (some (p2.slice 0 i2)) (some rh0) none), hm, ?_, ?_⟩
            · rw [getAt_leaf_eq, if_neg hlkne]
              rfl
            · intro w
              constructor
              · intro hc5; exact absurd hc5 (by simp)
              · intro hc5; exact absurd hc5 (by simp)
          · by_cases hlkc : (p2.offset i2).nAt c = lk.nAt c
            · -- old leaf slot
              have hgd : ((Node.emptyChildren.set (lk.nAt c)
                  (.leaf (lk.offset (c + 1)) lv)).set (q.nAt c)
                  (.leaf (q.offset (c + 1)) v)).getD
                  ((p2.offset (i2 + c)).nAt 0) .empty =
                  .leaf (lk.offset (c + 1)) lv := by
                rw [nAt_offset_assoc, hlkc,
                  getD_set_ne _ _ _ _ (fun h5 => hnemn h5.symm),
                  getD_set_self _ _ _ (by rw [emptyChildren_length]; omega)]
              by_cases hcondL : lk.offset (c + 1) = p2.offset (i2 + c + 1)
              · have hq2lk : lk = p2.offset i2 := by
                  apply eq_of_decomp lk (p2.offset i2) c hcllk hq2c
                  · rw [← htake]
                    exact hq2take.symm
                  · exact hlkc.symm
                  · have h3 : (lk.offset (c + 1)).hexData =
                        (p2.offset (i2 + c + 1)).hexData := by rw [hcondL]
                    rw [← hpdrop] at h3
                    exact h3
                have hBrun : getAt kec db0 rh0 2 (.branch
                    ((Node.emptyChildren.set (lk.nAt c)
                      (.leaf (lk.offset (c + 1)) lv)).set (q.nAt c)
                      (.leaf (q.offset (c + 1)) v)) none) p2 (i2 + c) =
                    some (.ok (some lv)) := by
                  rw [getAt_branch_eq,
                    if_neg (by rw [branch_cond_false _ hn16]; simp), hgd,
                    getAt_leaf_eq, if_pos hcondL]
                  rfl
                obtain ⟨fm, hm⟩ := hwrap 2 _ (by rw [hput]; exact hBrun)
                refine ⟨fm, .ok (some lv), 1, .ok (some lv), hm, ?_,
                  fun w => Iff.rfl⟩
                rw [getAt_leaf_eq, if_pos hq2lk]
                rfl
              · have hlkne : ¬lk = p2.offset i2 := by
                  intro hceq
                  apply hcondL
                  apply nibbles_ext
                  show lk.hexData.drop (c + 1) =
                    (p2.offset (i2 + c + 1)).hexData
                  rw [← hpdrop, ← hceq]
                have hBrun : getAt kec db0 rh0 2 (.branch
                    ((Node.emptyChildren.set (lk.nAt c)
                      (.leaf (lk.offset (c + 1)) lv)).set (q.nAt c)
                      (.leaf (q.offset (c + 1)) v)) none) p2 (i2 + c) =
                    some (.error (.missingTrieNode (kec [])
                      (some (p2.slice 0 (i2 + c + 1))) (some rh0) none)) := by
                  rw [getAt_branch_eq,
                    if_neg (by rw [branch_cond_false _ hn16]; simp), hgd,
                    getAt_leaf_eq, if_neg hcondL]
                  rfl
                obtain ⟨fm, hm⟩ := hwrap 2 _ (by rw [hput]; exact hBrun)
                refine ⟨fm, _, 1, .error (.missingTrieNode (kec [])
                  (some (p2.slice 0 i2)) (some rh0) none), hm, ?_, ?_⟩
                · rw [getAt_leaf_eq, if_neg hlkne]
                  rfl
                · intro w
                  constructor
                  · intro hc5; exact absurd hc5 (by simp)
                  · intro hc5; exact absurd hc5 (by simp)
            · -- empty slot
              have hgd : ((Node.emptyChildren.set (lk.nAt c)
                  (.leaf (lk.offset (c + 1)) lv)).set (q.nAt c)
                  (.leaf (q.offset (c + 1)) v)).getD
                  ((p2.offset (i2 + c)).nAt 0) .empty = .empty := by
                rw [nAt_offset_assoc, getD_set_ne _ _ _ _ hqc,
                  getD_set_ne _ _ _ _ hlkc, getD_emptyChildren]
              have hBrun : getAt kec db0 rh0 2 (.branch
                  ((Node.emptyChildren.set (lk.nAt c)
                    (.leaf (lk.offset (c + 1)) lv)).set (q.nAt c)
                    (.leaf (q.offset (c + 1)) v)) none) p2 (i2 + c) =
                  some (.error (.missingTrieNode (kec [])
                    (some (p2.slice 0 (i2 + c + 1))) (some rh0) none)) := by
                rw [getAt_branch_eq,
                  if_neg (by rw [branch_cond_false _ hn16]; simp), hgd,
                  getAt_empty_eq]
                rfl
              obtain ⟨fm, hm⟩ := hwrap 2 _ (by rw [hput]; exact hBrun)
              have hlkne : ¬lk = p2.offset i2 := ne_of_nAt_ne lk p2 i2 c hlkc
              refine ⟨fm, _, 1, .error (.missingTrieNode (kec [])
                (some (p2.slice 0 i2)) (some rh0) none), hm, ?_, ?_⟩
              · rw [getAt_leaf_eq, if_neg hlkne]
                rfl
              · intro w
                constructor
                · intro hc5; exact absurd hc5 (by simp)
                · intro hc5; exact absurd hc5 (by simp)

/-- `insert_at` at one key does not change the read classification of any
other key: the updated and the original node have `get_at` runs agreeing on
every returned value. -/
theorem insertAt_other (db : Store) (rh : Bytes) (kec : Bytes → Bytes)
    (db0 : Store) (rh0 : Bytes) :
    ∀ (f1 : Nat) (n : Node) (p : Nibbles) (i : Nat) (v : Bytes)
      (p2 : Nibbles) (i2 : Nat) (pks : List Bytes) (m : Node),
    hashFreeB n = true → wfTreeB n = true →
    wfLeafKey p.hexData = true → i < p.len →
    wfLeafKey p2.hexData = true → i2 < p2.len →
    ¬p.offset i = p2.offset i2 →
    insertAt db rh f1 n p i v = (pks, rok m) →
    ∃ fm Rm fn Rn,
      getAt kec db0 rh0 fm m p2 i2 = some Rm ∧
      getAt kec db0 rh0 fn n p2 i2 = some Rn ∧
      ∀ w, Rm = .ok (some w) ↔ Rn = .ok (some w) := by
  intro f1
  induction f1 with
  | zero =>
    intro n p i v p2 i2 pks m _ _ _ _ _ _ _ hins
    have h2 : (([], none) : List Bytes × TRes Node) = (pks, rok m) := hins
    have h3 : (none : TRes Node) = some (.ok m) := congrArg Prod.snd h2
    exact absurd h3 (by simp)
  | succ f1 ih =>
    intro n p i v p2 i2 pks m hhf hwf hp hi hp2 hi2 hne hins
    have hwfq : wfLeafKey (p.offset i).hexData = true :=
      wfLeafKey_drop p.hexData hp i hi
    have hwfq2 : wfLeafKey (p2.offset i2).hexData = true :=
      wfLeafKey_drop p2.hexData hp2 i2 hi2
    cases n with
    | hash hh => exact absurd hhf (by simp [hashFreeB])
    | empty =>
      rw [insertAt_empty] at hins
      have hmm := pair_rok_inj hins
      subst hmm
      refine ⟨1, .error (.missingTrieNode (kec []) (some (p2.slice 0 i2))
          (some rh0) none), 1,
        .error (.missingTrieNode (kec []) (some (p2.slice 0 i2))
          (some rh0) none), ?_, ?_, fun w => Iff.rfl⟩
      · rw [getAt_leaf_eq, if_neg hne]
        rfl
      · rw [getAt_empty_eq]
        rfl
    | leaf lk lv =>
      have hwflk : wfLeafKey lk.hexData = true := hwf
      by_cases hov : (p.offset i).commonPrefix lk = lk.len
      · rw [insertAt_leaf_over db rh f1 p i v lk lv hov] at hins
        have hmm := pair_rok_inj hins
        subst hmm
        have heq : lk = p.offset i := by
          apply nibbles_ext
          exact (commonPrefix_full_eq (p.offset i).hexData lk.hexData
            hwfq hwflk hov).symm
        have hlkne : ¬lk = p2.offset i2 := by
          rw [heq]
          exact hne
        refine ⟨1, .error (.missingTrieNode (kec []) (some (p2.slice 0 i2))
            (some rh0) none), 1,
          .error (.missingTrieNode (kec []) (some (p2.slice 0 i2))
            (some rh0) none), ?_, ?_, fun w => Iff.rfl⟩
        · rw [getAt_leaf_eq, if_neg hlkne]
          rfl
        · rw [getAt_leaf_eq, if_neg hlkne]
          rfl
      · rw [insertAt_leaf_split_eq db rh f1 p i v lk lv hov] at hins
        have hmm := pair_rok_inj hins
        subst hmm
        have hclq : (p.offset i).commonPrefix lk < (p.offset i).len :=
          commonPrefix_lt_partLen (p.offset i) lk hwfq hwflk hov
        have hcle : (p.offset i).commonPrefix lk ≤ lk.len :=
          commonPrefixAux_le_right _ _
        have hcllk : (p.offset i).commonPrefix lk < lk.len := by
          rcases Nat.lt_or_ge ((p.offset i).commonPrefix lk) lk.len with h5 | h5
          · exact h5
          · exact absurd (Nat.le_antisymm hcle h5) hov
        exact leafsplit_pair kec db0 rh0 lk (p.offset i) lv v p2 i2
          ((p.offset i).commonPrefix lk) hwflk hwfq hp2 hi2 hne hclq hcllk
          (commonPrefixAux_take _ _)
          (commonPrefixAux_getD_ne (p.offset i).hexData lk.hexData 16
            hclq hcllk)
    | branch cs v0 =>
      obtain ⟨hcs16, hwfl⟩ := wfTreeB_branch cs v0 hwf
      have hhfl : hashFreeListB cs = true := hhf
      by_cases hterm : (p.offset i).nAt 0 = 16
      · rw [insertAt_branch_term db rh f1 p i v cs v0 hterm] at hins
        have hmm := pair_rok_inj hins
        subst hmm
        have hq16 : (p.offset i).hexData = [16] := by
          have h5 := wfLeafKey_eq_take_term (p.offset i).hexData hwfq 0 hterm
            (List.length_pos_of_ne_nil (wfLeafKey_ne_nil _ hwfq))
          simpa using h5
        by_cases hterm2 : (p2.offset i2).nAt 0 = 16
        · exfalso
          apply hne
          apply nibbles_ext
          rw [hq16]
          have h6 := wfLeafKey_eq_take_term (p2.offset i2).hexData hwfq2 0
            hterm2 (List.length_pos_of_ne_nil (wfLeafKey_ne_nil _ hwfq2))
          simpa using h6.symm
        · obtain ⟨f, res, hrun⟩ := getAt_total kec db0 rh0
            (sizeOf (cs.getD ((p2.offset i2).nAt 0) .empty))
            (cs.getD ((p2.offset i2).nAt 0) .empty) (Nat.le_refl _)
            (hashFreeListB_getD cs hhfl _) p2 (i2 + 1)
          refine ⟨f + 1, res, f + 1, res, ?_, ?_, fun w => Iff.rfl⟩
          · rw [getAt_branch_eq,
              if_neg (by rw [branch_cond_false _ hterm2]; simp)]
            exact hrun
          · rw [getAt_branch_eq,
              if_neg (by rw [branch_cond_false _ hterm2]; simp)]
            exact hrun
      · rw [insertAt_branch_step db rh f1 p i v cs v0 hterm] at hins
        match hrec : insertAt db rh f1 (cs.getD ((p.offset i).nAt 0) .empty)
            p (i + 1) v with
        | (pks2, r2) =>
          rw [hrec] at hins
          match r2 with
          | none =>
            have h3 : (none : TRes Node) = some (.ok m) := congrArg Prod.snd hins
            exact absurd h3 (by simp)
          | some (.error e2) =>
            have h3 : (some (Except.error e2) : TRes Node) = some (.ok m) :=
              congrArg Prod.snd hins
            exact absurd h3 (by simp)
          | some (.ok nc) =>
            have hmm := pair_rok_inj hins
            subst hmm
            have hule : (p.offset i).nAt 0 ≤ 16 := path_nAt_le p hp i 0
            by_cases hterm2 : (p2.offset i2).nAt 0 = 16
            · refine ⟨1, .ok v0, 1, .ok v0, ?_, ?_, fun w => Iff.rfl⟩
              · rw [getAt_branch_eq, if_pos (by rw [hterm2]; simp)]
                rfl
              · rw [getAt_branch_eq, if_pos (by rw [hterm2]; simp)]
                rfl
            · by_cases huu : (p2.offset i2).nAt 0 = (p.offset i).nAt 0
              · have hstep : i + 1 < p.len := by
                  apply wfLeafKey_step p.hexData hp i hi
                  rw [nAt_getD] at hterm
                  simpa using hterm
                have hstep2 : i2 + 1 < p2.len := by
                  apply wfLeafKey_step p2.hexData hp2 i2 hi2
                  rw [nAt_getD] at hterm2
                  simpa using hterm2
                have hne2 : ¬p.offset (i + 1) = p2.offset (i2 + 1) := by
                  intro hc2
                  apply hne
                  apply nibbles_ext
                  have hqpos : 0 < (p.offset i).len := by
                    rw [offset_len]
                    have h5 : i < p.len := hi
                    omega
                  have hq2pos : 0 < (p2.offset i2).len := by
                    rw [offset_len]
                    have h5 : i2 < p2.len := hi2
                    omega
                  rw [hex_cons (p.offset i) hqpos, hex_cons (p2.offset i2)
                    hq2pos, offset_hex_succ, offset_hex_succ, huu, hc2]
                obtain ⟨fm', Rm', fn', Rn', hm', hn', hiff⟩ := ih
                  (cs.getD ((p.offset i).nAt 0) .empty) p (i + 1) v p2 (i2 + 1)
                  pks2 nc (hashFreeListB_getD cs hhfl _)
                  (wfTreeListB_getD cs hwfl _) hp hstep hp2 hstep2 hne2 hrec
                refine ⟨fm' + 1, Rm', fn' + 1, Rn', ?_, ?_, hiff⟩
                · rw [getAt_branch_eq,
                    if_neg (by rw [branch_cond_false _ hterm2]; simp), huu,
                    getD_set_self _ _ _ (by rw [hcs16]; omega)]
                  exact hm'
                · rw [getAt_branch_eq,
                    if_neg (by rw [branch_cond_false _ hterm2]; simp), huu]
                  exact hn'
              · obtain ⟨f, res, hrun⟩ := getAt_total kec db0 rh0
                  (sizeOf (cs.getD ((p2.offset i2).nAt 0) .empty))
                  (cs.getD ((p2.offset i2).nAt 0) .empty) (Nat.le_refl _)
                  (hashFreeListB_getD cs hhfl _) p2 (i2 + 1)
                refine ⟨f + 1, res, f + 1, res, ?_, ?_, fun w => Iff.rfl⟩
                · rw [getAt_branch_eq,
                    if_neg (by rw [branch_cond_false _ hterm2]; simp),
                    getD_set_ne _ _ _ _ huu]
                  exact hrun
                · rw [getAt_branch_eq,
                    if_neg (by rw [branch_cond_false _ hterm2]; simp)]
                  exact hrun
    | extension pfx child =>
      obtain ⟨hwfpx, hwfc⟩ := wfTreeB_ext pfx child hwf
      have hchf : hashFreeB child = true := hhf
      have hpxpos : 0 < pfx.len :=
        List.length_pos_of_ne_nil (wfPfx_ne_nil pfx.hexData hwfpx)
      by_cases h0 : (p.offset i).commonPrefix pfx = 0
      · rw [insertAt_ext_div db rh f1 p i v pfx child h0] at hins
        have hne16 : ¬pfx.nAt 0 = 16 := by
          have h5 := wfPfx_getD_lt pfx.hexData hwfpx 0 hpxpos
          unfold Nibbles.nAt
          omega
        have hbp : Node.branchPut Node.emptyChildren none (pfx.nAt 0)
            (if pfx.len = 1 then child else .extension (pfx.offset 1) child) =
            (Node.emptyChildren.set (pfx.nAt 0)
              (if pfx.len = 1 then child else .extension (pfx.offset 1) child),
              none) := by
          unfold Node.branchPut
          rw [if_neg hne16]
        rw [hbp] at hins
        have hBhf : hashFreeB (.branch (Node.emptyChildren.set (pfx.nAt 0)
            (if pfx.len = 1 then child else .extension (pfx.offset 1) child))
            none) = true := by
          show hashFreeListB _ = true
          apply hashFreeListB_set
          · exact hashFreeListB_emptyChildren
          · by_cases hl1 : pfx.len = 1
            · rw [if_pos hl1]; exact hchf
            · rw [if_neg hl1]; exact hchf
        have hBwf : wfTreeB (.branch (Node.emptyChildren.set (pfx.nAt 0)
            (if pfx.len = 1 then child else .extension (pfx.offset 1) child))
            none) = true := by
          show (decide ((Node.emptyChildren.set (pfx.nAt 0) _).length = 16) &&
            wfTreeListB (Node.emptyChildren.set (pfx.nAt 0) _)) = true
          simp only [Bool.and_eq_true, decide_eq_true_eq]
          constructor
          · rw [List.length_set, emptyChildren_length]
          · apply wfTreeListB_set
            · exact wfTreeListB_emptyChildren
            · by_cases hl1 : pfx.len = 1
              · rw [if_pos hl1]; exact hwfc
              · rw [if_neg hl1]
                show (wfPfx (pfx.offset 1).hexData && wfTreeB child) = true
                simp only [Bool.and_eq_true]
                exact ⟨wfPfx_offset_one pfx hwfpx hl1, hwfc⟩
        obtain ⟨fm, Rm, fB, RB, hm, hB, hiff⟩ := ih _ p i v p2 i2 pks m
          hBhf hBwf hp hi hp2 hi2 hne hins
        obtain ⟨fe, Re, he, hiff2⟩ := (restructure_getB kec db0 rh0 pfx child
          hwfpx p2 i2 hp2 hi2).1 fB RB hB
        exact ⟨fm, Rm, fe, Re, hm, he, fun w => (hiff w).trans (hiff2 w)⟩
      · by_cases hm0 : (p.offset i).commonPrefix pfx = pfx.len
        · rw [insertAt_ext_match db rh f1 p i v pfx child h0 hm0] at hins
          match hrec : insertAt db rh f1 child p
              (i + (p.offset i).commonPrefix pfx) v with
          | (pks2, r2) =>
            rw [hrec] at hins
            match r2 with
            | none =>
              have h3 : (none : TRes Node) = some (.ok m) := congrArg Prod.snd hins
              exact absurd h3 (by simp)
            | some (.error e2) =>
              have h3 : (some (Except.error e2) : TRes Node) = some (.ok m) :=
                congrArg Prod.snd hins
              exact absurd h3 (by simp)
            | some (.ok nn) =>
              have hmm := pair_rok_inj hins
              subst hmm
              by_cases hcond2 : (p2.offset i2).commonPrefix pfx = pfx.len
              · have hstep : i + (p.offset i).commonPrefix pfx < p.len :=
                  path_step_common p hp i hi pfx hwfpx (by omega)
                    (commonPrefixAux_le_right _ _)
                have hstep2 : i2 + (p2.offset i2).commonPrefix pfx < p2.len :=
                  path_step_common p2 hp2 i2 hi2 pfx hwfpx (by omega)
                    (commonPrefixAux_le_right _ _)
                have hne2 : ¬p.offset (i + (p.offset i).commonPrefix pfx) =
                    p2.offset (i2 + (p2.offset i2).commonPrefix pfx) := by
                  intro hc2
                  apply hne
                  apply nibbles_ext
                  have htq := commonPrefixAux_take (p.offset i).hexData
                    pfx.hexData
                  have htq2 := commonPrefixAux_take (p2.offset i2).hexData
                    pfx.hexData
                  rw [show Nibbles.commonPrefixAux (p.offset i).hexData
                    pfx.hexData = pfx.len from hm0] at htq
                  rw [show Nibbles.commonPrefixAux (p2.offset i2).hexData
                    pfx.hexData = pfx.len from hcond2] at htq2
                  rw [hm0, hcond2] at hc2
                  have h3 := congrArg Nibbles.hexData hc2
                  have h4 : (p.offset i).hexData.drop pfx.len =
                      (p.offset (i + pfx.len)).hexData :=
                    offset_hex_drop p i pfx.len
                  have h5 : (p2.offset i2).hexData.drop pfx.len =
                      (p2.offset (i2 + pfx.len)).hexData :=
                    offset_hex_drop p2 i2 pfx.len
                  calc (p.offset i).hexData
                      = (p.offset i).hexData.take pfx.len ++
                        (p.offset i).hexData.drop pfx.len :=
                        (List.take_append_drop _ _).symm
                    _ = (p2.offset i2).hexData.take pfx.len ++
                        (p2.offset i2).hexData.drop pfx.len := by
                        rw [htq, ← htq2, h4, h5, h3]
                    _ = (p2.offset i2).hexData := List.take_append_drop _ _
                obtain ⟨fm', Rm', fn', Rn', hm', hn', hiff⟩ := ih child p
                  (i + (p.offset i).commonPrefix pfx) v p2
                  (i2 + (p2.offset i2).commonPrefix pfx) pks2 nn
                  hchf hwfc hp hstep hp2 hstep2 hne2 hrec
                refine ⟨fm' + 1, Rm', fn' + 1, Rn', ?_, ?_, hiff⟩
                · rw [getAt_ext_eq, if_pos hcond2]
                  exact hm'
                · rw [getAt_ext_eq, if_pos hcond2]
                  exact hn'
              · refine ⟨1, .error (.missingTrieNode (kec [])
                  (some (p2.slice 0 i2)) (some rh0) none), 1,
                  .error (.missingTrieNode (kec []) (some (p2.slice 0 i2))
                    (some rh0) none), ?_, ?_, fun w => Iff.rfl⟩
                · rw [getAt_ext_eq, if_neg hcond2]
                  rfl
                · rw [getAt_ext_eq, if_neg hcond2]
                  rfl
        · rw [insertAt_ext_split db rh f1 p i v pfx child h0 hm0] at hins
          match hrec : insertAt db rh f1
              (.extension (pfx.offset ((p.offset i).commonPrefix pfx)) child) p
              (i + (p.offset i).commonPrefix pfx) v with
          | (pks2, r2) =>
            rw [hrec] at hins
            match r2 with
            | none =>
              have h3 : (none : TRes Node) = some (.ok m) := congrArg Prod.snd hins
              exact absurd h3 (by simp)
            | some (.error e2) =>
              have h3 : (some (Except.error e2) : TRes Node) = some (.ok m) :=
                congrArg Prod.snd hins
              exact absurd h3 (by simp)
            | some (.ok nn) =>
              have hmm := pair_rok_inj hins
              subst hmm
              have hmle : (p.offset i).commonPrefix pfx ≤ pfx.len :=
                commonPrefixAux_le_right _ _
              have hmlt : (p.offset i).commonPrefix pfx < pfx.len := by omega
              by_cases hcondc : Nibbles.commonPrefixAux (p2.offset i2).hexData
                  (pfx.hexData.take ((p.offset i).commonPrefix pfx)) =
                  (p.offset i).commonPrefix pfx
              · have hq2take : (p2.offset i2).hexData.take
                    ((p.offset i).commonPrefix pfx) =
                    pfx.hexData.take ((p.offset i).commonPrefix pfx) := by
                  have h1 := commonPrefixAux_take (p2.offset i2).hexData
                    (pfx.hexData.take ((p.offset i).commonPrefix pfx))
                  rw [hcondc, List.take_take] at h1
                  simpa using h1
                have hqtake : (p.offset i).hexData.take
                    ((p.offset i).commonPrefix pfx) =
                    pfx.hexData.take ((p.offset i).commonPrefix pfx) :=
                  commonPrefixAux_take _ _
                have hcge : (p.offset i).commonPrefix pfx ≤
                    Nibbles.commonPrefixAux (p2.offset i2).hexData
                      pfx.hexData := by
                  have h5 := commonPrefixAux_take_right (p2.offset i2).hexData
                    pfx.hexData ((p.offset i).commonPrefix pfx)
                  rw [hcondc] at h5
                  rcases Nat.le_total (Nibbles.commonPrefixAux
                      (p2.offset i2).hexData pfx.hexData)
                      ((p.offset i).commonPrefix pfx) with h7 | h7
                  · rw [Nat.min_eq_left h7] at h5
                    omega
                  · exact h7
                have hcge2 : (p.offset i).commonPrefix pfx ≤
                    (p2.offset i2).commonPrefix pfx := hcge
                have hstep : i + (p.offset i).commonPrefix pfx < p.len :=
                  path_step_common p hp i hi pfx hwfpx (by omega) hmle
                have hstep2 : i2 + (p.offset i).commonPrefix pfx < p2.len := by
                  have h7 := path_step_common p2 hp2 i2 hi2 pfx hwfpx (by omega)
                    (commonPrefixAux_le_right _ _)
                  omega
                have hne2 : ¬p.offset (i + (p.offset i).commonPrefix pfx) =
                    p2.offset (i2 + (p.offset i).commonPrefix pfx) := by
                  intro hc2
                  apply hne
                  apply nibbles_ext
                  have h3 := congrArg Nibbles.hexData hc2
                  have h4 : (p.offset i).hexData.drop
                      ((p.offset i).commonPrefix pfx) =
                      (p.offset (i + (p.offset i).commonPrefix pfx)).hexData :=
                    offset_hex_drop p i _
                  have h5 : (p2.offset i2).hexData.drop
                      ((p.offset i).commonPrefix pfx) =
                      (p2.offset (i2 + (p.offset i).commonPrefix pfx)).hexData :=
                    offset_hex_drop p2 i2 _
                  calc (p.offset i).hexData
                      = (p.offset i).hexData.take ((p.offset i).commonPrefix pfx)
                        ++ (p.offset i).hexData.drop
                          ((p.offset i).commonPrefix pfx) :=
                        (List.take_append_drop _ _).symm
                    _ = (p2.offset i2).hexData.take
                          ((p.offset i).commonPrefix pfx)
                        ++ (p2.offset i2).hexData.drop
                          ((p.offset i).commonPrefix pfx) := by
                        rw [hqtake, ← hq2take, h4, h5, h3]
                    _ = (p2.offset i2).hexData := List.take_append_drop _ _
                have hXwf : wfTreeB (.extension
                    (pfx.offset ((p.offset i).commonPrefix pfx)) child) = true := by
                  show (wfPfx (pfx.offset ((p.offset i).commonPrefix pfx)).hexData
                    && wfTreeB child) = true
                  simp only [Bool.and_eq_true]
                  exact ⟨wfPfx_drop_pfx pfx.hexData _ hwfpx hmlt, hwfc⟩
                obtain ⟨fm', Rm', fX, RX, hm', hX, hiff⟩ := ih
                  (.extension (pfx.offset ((p.offset i).commonPrefix pfx)) child)
                  p (i + (p.offset i).commonPrefix pfx) v p2
                  (i2 + (p.offset i).commonPrefix pfx) pks2 nn
                  hchf hXwf hp hstep hp2 hstep2 hne2 hrec
                have hm2 : getAt kec db0 rh0 (fm' + 1)
                    (.extension (pfx.slice 0 ((p.offset i).commonPrefix pfx)) nn)
                    p2 i2 = some Rm' :=
                  leafsplit_wrap kec db0 rh0 pfx
                    ((p.offset i).commonPrefix pfx) nn p2 i2 hmle hcondc
                    fm' Rm' hm'
                have hrel : Nibbles.commonPrefixAux (p2.offset i2).hexData
                    pfx.hexData - (p.offset i).commonPrefix pfx =
                    (p2.offset (i2 + (p.offset i).commonPrefix pfx)).commonPrefix
                      (pfx.offset ((p.offset i).commonPrefix pfx)) := by
                  show _ = Nibbles.commonPrefixAux
                    (p2.offset (i2 + (p.offset i).commonPrefix pfx)).hexData
                    (pfx.offset ((p.offset i).commonPrefix pfx)).hexData
                  rw [show (p2.offset (i2 + (p.offset i).commonPrefix pfx)).hexData
                    = (p2.offset i2).hexData.drop ((p.offset i).commonPrefix pfx)
                    from (offset_hex_drop p2 i2 _).symm,
                    show (pfx.offset ((p.offset i).commonPrefix pfx)).hexData =
                    pfx.hexData.drop ((p.offset i).commonPrefix pfx) from rfl]
                  exact (commonPrefixAux_drop_of_le _ _ _ hcge).symm
                match fX, hX with
                | 0, hX =>
                  have h5 : (none : TRes (Option Bytes)) = some RX := hX
                  exact absurd h5 (by simp)
                | fx + 1, hX =>
                  by_cases hcin : (p2.offset (i2 + (p.offset i).commonPrefix
                      pfx)).commonPrefix
                      (pfx.offset ((p.offset i).commonPrefix pfx)) =
                      (pfx.offset ((p.offset i).commonPrefix pfx)).len
                  · rw [getAt_ext_eq, if_pos hcin] at hX
                    have hlen2 : (pfx.offset ((p.offset i).commonPrefix pfx)).len
                        = pfx.len - (p.offset i).commonPrefix pfx :=
                      offset_len pfx _
                    have hfull : (p2.offset i2).commonPrefix pfx = pfx.len := by
                      show Nibbles.commonPrefixAux (p2.offset i2).hexData
                        pfx.hexData = pfx.len
                      omega
                    have hidx : i2 + (p2.offset i2).commonPrefix pfx =
                        i2 + (p.offset i).commonPrefix pfx +
                        (p2.offset (i2 + (p.offset i).commonPrefix
                          pfx)).commonPrefix
                          (pfx.offset ((p.offset i).commonPrefix pfx)) := by
                      have h6 : (p2.offset i2).commonPrefix pfx =
                          Nibbles.commonPrefixAux (p2.offset i2).hexData
                            pfx.hexData := rfl
                      omega
                    refine ⟨fm' + 1, Rm', fx + 1, RX, hm2, ?_, hiff⟩
                    rw [getAt_ext_eq, if_pos hfull, hidx]
                    exact hX
                  · rw [getAt_ext_eq, if_neg hcin] at hX
                    have hRX : (some (Except.error (TrieError.missingTrieNode
                        (kec []) (some (p2.slice 0 (i2 +
                          (p.offset i).commonPrefix pfx))) (some rh0) none)) :
                        TRes (Option Bytes)) = some RX := hX
                    simp only [Option.some.injEq] at hRX
                    have hnfull : ¬(p2.offset i2).commonPrefix pfx = pfx.len := by
                      intro h6
                      apply hcin
                      have h7 : (p2.offset i2).commonPrefix pfx =
                          Nibbles.commonPrefixAux (p2.offset i2).hexData
                            pfx.hexData := rfl
                      have hlen2 : (pfx.offset ((p.offset i).commonPrefix
                          pfx)).len = pfx.len - (p.offset i).commonPrefix pfx :=
                        offset_len pfx _
                      omega
                    refine ⟨fm' + 1, Rm', 1, .error (.missingTrieNode (kec [])
                      (some (p2.slice 0 i2)) (some rh0) none), hm2, ?_, ?_⟩
                    · rw [getAt_ext_eq, if_neg hnfull]
                      rfl
                    · intro w
                      rw [← hRX] at hiff
                      constructor
                      · intro hc5
                        have h8 := (hiff w).mp hc5
                        exact absurd h8 (by simp)
                      · intro hc5
                        exact absurd hc5 (by simp)
              · have hncond : ¬(p2.offset i2).commonPrefix pfx = pfx.len := by
                  intro hc5
                  apply hcondc
                  rw [commonPrefixAux_take_right]
                  rw [show Nibbles.commonPrefixAux (p2.offset i2).hexData
                    pfx.hexData = pfx.len from hc5]
                  exact Nat.min_eq_right (Nat.le_of_lt hmlt)
                refine ⟨1, .error (.missingTrieNode (kec [])
                  (some (p2.slice 0 i2)) (some rh0) none), 1,
                  .error (.missingTrieNode (kec []) (some (p2.slice 0 i2))
                    (some rh0) none), ?_, ?_, fun w => Iff.rfl⟩
                · rw [show pfx.slice 0 ((p.offset i).commonPrefix pfx) =
                    (⟨pfx.hexData.take ((p.offset i).commonPrefix pfx)⟩ :
                      Nibbles) from slice_zero_take pfx _]
                  rw [getAt_ext_eq, if_neg ?hcnd2]
                  · rfl
                  case hcnd2 =>
                    intro hcnd
                    apply hcondc
                    have hlen : ((⟨pfx.hexData.take
                        ((p.offset i).commonPrefix pfx)⟩ : Nibbles)).len =
                        (p.offset i).commonPrefix pfx := by
                      show (pfx.hexData.take _).length = _
                      rw [List.length_take]
                      exact Nat.min_eq_left hmle
                    rw [hlen] at hcnd
                    exact hcnd
                · rw [getAt_ext_eq, if_neg hncond]
                  rfl

theorem offset_zero (p : Nibbles) : p.offset 0 = p := by
  apply nibbles_ext
  show p.hexData.drop 0 = p.hexData
  exact List.drop_zero _

theorem fromRaw_true_len_pos (k : Bytes) : 0 < (Nibbles.fromRaw k true).len := by
  show 0 < ((k.map (fun b => [b / 16, b % 16])).flatten ++ [16]).length
  rw [List.length_append]
  simp

theorem hexpand_inj : ∀ (k k' : List Nat),
    (k.map (fun b => [b / 16, b % 16])).flatten =
    (k'.map (fun b => [b / 16, b % 16])).flatten → k = k' := by
  intro k
  induction k with
  | nil =>
    intro k' h
    cases k' with
    | nil => rfl
    | cons b bs => exact absurd h (by simp)
  | cons a as ihk =>
    intro k' h
    cases k' with
    | nil => exact absurd h (by simp)
    | cons b bs =>
      simp only [List.map_cons, List.flatten_cons, List.cons_append,
        List.nil_append, List.cons.injEq] at h
      obtain ⟨h1, h2, h3⟩ := h
      have hab : a = b := by
        have ha := Nat.div_add_mod a 16
        have hb := Nat.div_add_mod b 16
        omega
      rw [hab, ihk bs h3]

/-- The terminated hex expansion of raw keys is injective. -/
theorem fromRaw_true_inj (k k' : Bytes)
    (h : Nibbles.fromRaw k true = Nibbles.fromRaw k' true) : k = k' := by
  have h2 : (k.map (fun b => [b / 16, b % 16])).flatten ++ [16] =
      (k'.map (fun b => [b / 16, b % 16])).flatten ++ [16] :=
    congrArg Nibbles.hexData h
  exact hexpand_inj k k' (List.append_cancel_right h2)

theorem foldl_putT_none (fp : Nat) : ∀ (M : List (Bytes × Bytes)),
    M.foldl (fun acc pr => acc.bind (fun tt => putT fp tt pr.1 pr.2))
      (none : Option Trie) = none := by
  intro M
  induction M with
  | nil => rfl
  | cons pr M' ihm =>
    rw [List.foldl_cons]
    exact ihm

/-- A successful `put` with a non-empty value is an `insert_at` success on
the root. -/
theorem putT_root (fp : Nat) (t0 t1 : Trie) (k v : Bytes) (hv : ¬v = [])
    (h : putT fp t0 k v = some t1) :
    insertAt t0.db t0.rootHash fp t0.root (Nibbles.fromRaw k true) 0 v =
      ((insertAt t0.db t0.rootHash fp t0.root (Nibbles.fromRaw k true) 0 v).1,
        rok t1.root) ∧
    t1.db = t0.db ∧ t1.rootHash = t0.rootHash := by
  unfold putT at h
  rw [if_neg hv] at h
  rcases hsnd : (insertAt t0.db t0.rootHash fp t0.root
      (Nibbles.fromRaw k true) 0 v).2 with _ | r
  · rw [hsnd] at h
    exact absurd h (by simp)
  · rcases r with e | n1
    · rw [hsnd] at h
      exact absurd h (by simp)
    · rw [hsnd] at h
      simp only [Option.some.injEq] at h
      have hroot : t1.root = n1 := by rw [← h]
      have hdb : t1.db = t0.db := by rw [← h]
      have hrh : t1.rootHash = t0.rootHash := by rw [← h]
      refine ⟨?_, hdb, hrh⟩
      rw [hroot]
      have h5 : (rok n1 : TRes Node) =
          (insertAt t0.db t0.rootHash fp t0.root
            (Nibbles.fromRaw k true) 0 v).2 := hsnd.symm
      rw [h5]

/-- Unwrap `wrapKeyErr`: the `Ok` classification is untouched, and
`MissingTrieNode` errors surface with the key filled in. -/
theorem wrapKeyErr_cases {α : Type} (key : Bytes) (r : TRes α)
    (res : Except TrieError α) (h : wrapKeyErr key r = some res) :
    ∃ res0, r = some res0 ∧ (∀ a, res = .ok a ↔ res0 = .ok a) ∧
      ∀ nh tr rh2 k2, res0 = .error (.missingTrieNode nh tr rh2 k2) →
        res = .error (.missingTrieNode nh tr rh2 (some key)) := by
  rcases r with _ | r0
  · exact absurd h (by simp)
  · rcases r0 with e | a0
    · cases e with
      | missingTrieNode nh tr rh0 ek =>
        have h2 : some (Except.error (TrieError.missingTrieNode nh tr rh0
            (some key))) = some res := h
        simp only [Option.some.injEq] at h2
        refine ⟨.error (.missingTrieNode nh tr rh0 ek), rfl, ?_, ?_⟩
        · intro a
          rw [← h2]
          constructor
          · intro hx; exact absurd hx (by simp)
          · intro hx; exact absurd hx (by simp)
        · intro nh2 tr2 rh2 k2 hx
          simp only [Except.error.injEq, TrieError.missingTrieNode.injEq] at hx
          obtain ⟨hx1, hx2, hx3, _⟩ := hx
          rw [← h2, hx1, hx2, hx3]
      | sqliteDB msg =>
        have h2 : some (Except.error (TrieError.sqliteDB msg)) = some res := h
        simp only [Option.some.injEq] at h2
        refine ⟨.error (.sqliteDB msg), rfl, ?_, ?_⟩
        · intro a
          rw [← h2]
        · intro nh2 tr2 rh2 k2 hx
          exact absurd hx (by simp)
      | decoder =>
        have h2 : some (Except.error TrieError.decoder) = some res := h
        simp only [Option.some.injEq] at h2
        refine ⟨.error .decoder, rfl, ?_, ?_⟩
        · intro a
          rw [← h2]
        · intro nh2 tr2 rh2 k2 hx
          exact absurd hx (by simp)
      | invalidData =>
        have h2 : some (Except.error TrieError.invalidData) = some res := h
        simp only [Option.some.injEq] at h2
        refine ⟨.error .invalidData, rfl, ?_, ?_⟩
        · intro a
          rw [← h2]
        · intro nh2 tr2 rh2 k2 hx
          exact absurd hx (by simp)
      | invalidProof =>
        have h2 : some (Except.error TrieError.invalidProof) = some res := h
        simp only [Option.some.injEq] at h2
        refine ⟨.error .invalidProof, rfl, ?_, ?_⟩
        · intro a
          rw [← h2]
        · intro nh2 tr2 rh2 k2 hx
          exact absurd hx (by simp)
    · have h2 : some (Except.ok a0) = some res := h
      simp only [Option.some.injEq] at h2
      refine ⟨.ok a0, rfl, ?_, ?_⟩
      · intro a
        rw [← h2]
      · intro nh2 tr2 rh2 k2 hx
        exact absurd hx (by simp)

/-- Folding `put` over a list of distinct, well-formed, non-empty-valued
entries maintains the structural predicates, makes every inserted key
readable with its value, and preserves both the readability and the
non-readability of all other keys. -/
theorem fold_put_inv (kec : Bytes → Bytes) (fp : Nat) :
    ∀ (M : List (Bytes × Bytes)) (t0 t : Trie),
    hashFreeB t0.root = true → canonicalB t0.root = true →
    wfTreeB t0.root = true → valsNEB t0.root = true → wfValsB t0.root = true →
    (∀ pr ∈ M, BytesWF pr.1 ∧ ¬pr.2 = []) →
    M.Pairwise (fun a b => ¬a.1 = b.1) →
    M.foldl (fun acc pr => acc.bind (fun tt => putT fp tt pr.1 pr.2))
      (some t0) = some t →
    (hashFreeB t.root = true ∧ canonicalB t.root = true ∧
      wfTreeB t.root = true ∧ valsNEB t.root = true ∧ wfValsB t.root = true) ∧
    (∀ (dbg : Store) (rhg : Bytes) (k v : Bytes), (k, v) ∈ M →
      ∃ f0, getAt kec dbg rhg f0 t.root (Nibbles.fromRaw k true) 0 =
        some (.ok (some v))) ∧
    (∀ (dbg : Store) (rhg : Bytes) (k v : Bytes),
      (∀ v', ¬(k, v') ∈ M) → BytesWF k →
      (∃ f0, getAt kec dbg rhg f0 t0.root (Nibbles.fromRaw k true) 0 =
        some (.ok (some v))) →
      ∃ f0, getAt kec dbg rhg f0 t.root (Nibbles.fromRaw k true) 0 =
        some (.ok (some v))) ∧
    (∀ (dbg : Store) (rhg : Bytes) (k : Bytes),
      (∀ v', ¬(k, v') ∈ M) → BytesWF k →
      (∀ f0 res, getAt kec dbg rhg f0 t0.root (Nibbles.fromRaw k true) 0 =
        some res → ∀ w, ¬res = .ok (some w)) →
      ∀ f0 res, getAt kec dbg rhg f0 t.root (Nibbles.fromRaw k true) 0 =
        some res → ∀ w, ¬res = .ok (some w)) := by
  intro M
  induction M with
  | nil =>
    intro t0 t hhf hcan hwf hvne hwv _ _ hfold
    have ht : t0 = t := by
      have h2 : (some t0 : Option Trie) = some t := hfold
      simpa using h2
    subst ht
    refine ⟨⟨hhf, hcan, hwf, hvne, hwv⟩, ?_, ?_, ?_⟩
    · intro dbg rhg k v hmem
      exact absurd hmem (by simp)
    · intro dbg rhg k v _ _ hfound
      exact hfound
    · intro dbg rhg k _ _ hnot
      exact hnot
  | cons pr M' ihm =>
    intro t0 t hhf hcan hwf hvne hwv hwfM hpw hfold
    obtain ⟨hkwf, hvne0⟩ := hwfM pr (by simp)
    have hpw' := List.pairwise_cons.mp hpw
    rw [List.foldl_cons] at hfold
    have hfold2 : M'.foldl (fun acc pr2 => acc.bind
        (fun tt => putT fp tt pr2.1 pr2.2)) (putT fp t0 pr.1 pr.2) =
        some t := hfold
    rcases hput : putT fp t0 pr.1 pr.2 with _ | t1
    · rw [hput, foldl_putT_none fp M'] at hfold2
      exact absurd hfold2 (by simp)
    · rw [hput] at hfold2
      obtain ⟨hins, hdb1, hrh1⟩ := putT_root fp t0 t1 pr.1 pr.2 hvne0 hput
      have hwfpath : wfLeafKey (Nibbles.fromRaw pr.1 true).hexData = true :=
        wfLeafKey_fromRaw pr.1 hkwf
      have hlenpos : 0 < (Nibbles.fromRaw pr.1 true).len :=
        fromRaw_true_len_pos pr.1
      obtain ⟨hhf1, hcan1, hwf1, _, _⟩ := insertAt_preserves t0.db t0.rootHash
        fp t0.root (Nibbles.fromRaw pr.1 true) 0 pr.2 _ t1.root
        hhf hcan hwf hwfpath hlenpos hins
      obtain ⟨hvne1, hwv1⟩ := insertAt_vals t0.db t0.rootHash fp t0.root
        (Nibbles.fromRaw pr.1 true) 0 pr.2 _ t1.root
        hhf hwf hvne hwv hwfpath hlenpos hvne0 hins
      obtain ⟨hA, hB, hC, hD⟩ := ihm t1 t hhf1 hcan1 hwf1 hvne1 hwv1
        (fun pr2 hm2 => hwfM pr2 (List.mem_cons_of_mem _ hm2)) hpw'.2 hfold2
      have hnotin : ∀ v', ¬(pr.1, v') ∈ M' := by
        intro v' hmem
        exact hpw'.1 (pr.1, v') hmem rfl
      refine ⟨hA, ?_, ?_, ?_⟩
      · intro dbg rhg k v hmem
        rcases List.mem_cons.mp hmem with hhd | htl
        · have hk : k = pr.1 := congrArg Prod.fst hhd
          have hv : v = pr.2 := congrArg Prod.snd hhd
          have hfound1 : ∃ f0, getAt kec dbg rhg f0 t1.root
              (Nibbles.fromRaw pr.1 true) 0 = some (.ok (some pr.2)) :=
            insertAt_found t0.db t0.rootHash kec dbg rhg fp t0.root
              (Nibbles.fromRaw pr.1 true) 0 pr.2 _ t1.root
              hhf hwf hwfpath hlenpos hins
          rw [hk, hv]
          exact hC dbg rhg pr.1 pr.2 hnotin hkwf hfound1
        · exact hB dbg rhg k v htl
      · intro dbg rhg k v hnmem hkwf2 hfound0
        have hkne : ¬k = pr.1 := by
          intro hc
          exact hnmem pr.2 (by rw [hc]; simp)
        have hnmem' : ∀ v', ¬(k, v') ∈ M' := by
          intro v' hmem
          exact hnmem v' (List.mem_cons_of_mem _ hmem)
        apply hC dbg rhg k v hnmem' hkwf2
        obtain ⟨f0, hrun0⟩ := hfound0
        have hne2 : ¬(Nibbles.fromRaw pr.1 true).offset 0 =
            (Nibbles.fromRaw k true).offset 0 := by
          rw [offset_zero, offset_zero]
          intro hc
          exact hkne (fromRaw_true_inj pr.1 k hc).symm
        obtain ⟨fm, Rm, fn, Rn, hm, hn, hiff⟩ := insertAt_other t0.db
          t0.rootHash kec dbg rhg fp t0.root (Nibbles.fromRaw pr.1 true) 0
          pr.2 (Nibbles.fromRaw k true) 0 _ t1.root hhf hwf hwfpath hlenpos
          (wfLeafKey_fromRaw k hkwf2) (fromRaw_true_len_pos k) hne2 hins
        have hRn : Rn = .ok (some v) :=
          getAt_det kec dbg rhg fn f0 t0.root (Nibbles.fromRaw k true) 0
            Rn (.ok (some v)) hn hrun0
        have hRm : Rm = .ok (some v) := (hiff v).mpr hRn
        exact ⟨fm, by rw [← hRm]; exact hm⟩
      · intro dbg rhg k hnmem hkwf2 hnot0
        have hkne : ¬k = pr.1 := by
          intro hc
          exact hnmem pr.2 (by rw [hc]; simp)
        have hnmem' : ∀ v', ¬(k, v') ∈ M' := by
          intro v' hmem
          exact hnmem v' (List.mem_cons_of_mem _ hmem)
        apply hD dbg rhg k hnmem' hkwf2
        intro f0 res hrun1 w hok
        have hne2 : ¬(Nibbles.fromRaw pr.1 true).offset 0 =
            (Nibbles.fromRaw k true).offset 0 := by
          rw [offset_zero, offset_zero]
          intro hc
          exact hkne (fromRaw_true_inj pr.1 k hc).symm
        obtain ⟨fm, Rm, fn, Rn, hm, hn, hiff⟩ := insertAt_other t0.db
          t0.rootHash kec dbg rhg fp t0.root (Nibbles.fromRaw pr.1 true) 0
          pr.2 (Nibbles.fromRaw k true) 0 _ t1.root hhf hwf hwfpath hlenpos
          (wfLeafKey_fromRaw k hkwf2) (fromRaw_true_len_pos k) hne2 hins
        have hres : res = Rm :=
          getAt_det kec dbg rhg f0 fm t1.root (Nibbles.fromRaw k true) 0
            res Rm hrun1 hm
        have hRm : Rm = .ok (some w) := by
          rw [← hres]
          exact hok
        exact hnot0 fn Rn hn w ((hiff w).mp hRm)

/-- A commit that returns a fresh trie has re-materialised its root from the
updated store under the reported hash. -/
theorem commitT_root (kec : Bytes → Bytes) (fc : Nat) (t1 : Trie) (H : Bytes)
    (t2 : Trie) (h : commitT kec fc t1 = some (H, some t2)) :
    t2.rootHash = H ∧
    recoverFromDb t2.db t2.rootHash = some (.ok (some t2.root)) := by
  unfold commitT at h
  rcases hw : writeNodeT kec fc t1.root t1.cache t1.genKeys with _ | egc
  · rw [hw] at h
    exact absurd h (by simp)
  · rw [hw] at h
    obtain ⟨en, c, g⟩ := egc
    cases en with
    | hashE hh =>
      have h2 : (match recoverFromDb ((t1.db.insertBatch
          (c.map (fun x => x.1)) (c.map (fun x => x.2))).removeBatch
          (t1.passingKeys.filter (fun h2 => ¬h2 ∈ g))) hh with
        | some (.ok (some newRoot)) => some (hh, some (Trie.mk newRoot hh
            ((t1.db.insertBatch (c.map (fun x => x.1))
              (c.map (fun x => x.2))).removeBatch
              (t1.passingKeys.filter (fun h2 => ¬h2 ∈ g))) [] [] []))
        | _ => some (hh, (none : Option Trie))) = some (H, some t2) := h
      rcases hrec : recoverFromDb ((t1.db.insertBatch
          (c.map (fun x => x.1)) (c.map (fun x => x.2))).removeBatch
          (t1.passingKeys.filter (fun h2 => ¬h2 ∈ g))) hh with _ | r
      · rw [hrec] at h2
        have h3 : (some (hh, (none : Option Trie)) :
            Option (Bytes × Option Trie)) = some (H, some t2) := h2
        simp at h3
      · rcases r with e | mr
        · rw [hrec] at h2
          have h3 : (some (hh, (none : Option Trie)) :
              Option (Bytes × Option Trie)) = some (H, some t2) := h2
          simp at h3
        · rcases mr with _ | nr
          · rw [hrec] at h2
            have h3 : (some (hh, (none : Option Trie)) :
                Option (Bytes × Option Trie)) = some (H, some t2) := h2
            simp at h3
          · rw [hrec] at h2
            have h3 : (some (hh, some (Trie.mk nr hh ((t1.db.insertBatch
                (c.map (fun x => x.1)) (c.map (fun x => x.2))).removeBatch
                (t1.passingKeys.filter (fun h2 => ¬h2 ∈ g))) [] [] [])) :
                Option (Bytes × Option Trie)) = some (H, some t2) := h2
            simp only [Option.some.injEq, Prod.mk.injEq] at h3
            obtain ⟨hH, ht2⟩ := h3
            constructor
            · rw [← ht2]
              exact hH
            · rw [← ht2]
              exact hrec
    | inline d =>
      have h2 : (match recoverFromDb ((t1.db.insertBatch
          ((mapInsert c (kec d) d).map (fun x => x.1))
          ((mapInsert c (kec d) d).map (fun x => x.2))).removeBatch
          (t1.passingKeys.filter (fun h2 => ¬h2 ∈ g))) (kec d) with
        | some (.ok (some newRoot)) => some (kec d, some (Trie.mk newRoot
            (kec d) ((t1.db.insertBatch
              ((mapInsert c (kec d) d).map (fun x => x.1))
              ((mapInsert c (kec d) d).map (fun x => x.2))).removeBatch
              (t1.passingKeys.filter (fun h2 => ¬h2 ∈ g))) [] [] []))
        | _ => some (kec d, (none : Option Trie))) = some (H, some t2) := h
      rcases hrec : recoverFromDb ((t1.db.insertBatch
          ((mapInsert c (kec d) d).map (fun x => x.1))
          ((mapInsert c (kec d) d).map (fun x => x.2))).removeBatch
          (t1.passingKeys.filter (fun h2 => ¬h2 ∈ g))) (kec d) with _ | r
      · rw [hrec] at h2
        have h3 : (some (kec d, (none : Option Trie)) :
            Option (Bytes × Option Trie)) = some (H, some t2) := h2
        simp at h3
      · rcases r with e | mr
        · rw [hrec] at h2
          have h3 : (some (kec d, (none : Option Trie)) :
              Option (Bytes × Option Trie)) = some (H, some t2) := h2
          simp at h3
        · rcases mr with _ | nr
          · rw [hrec] at h2
            have h3 : (some (kec d, (none : Option Trie)) :
                Option (Bytes × Option Trie)) = some (H, some t2) := h2
            simp at h3
          · rw [hrec] at h2
            have h3 : (some (kec d, some (Trie.mk nr (kec d)
                ((t1.db.insertBatch
                  ((mapInsert c (kec d) d).map (fun x => x.1))
                  ((mapInsert c (kec d) d).map (fun x => x.2))).removeBatch
                  (t1.passingKeys.filter (fun h2 => ¬h2 ∈ g))) [] [] [])) :
                Option (Bytes × Option Trie)) = some (H, some t2) := h2
            simp only [Option.some.injEq, Prod.mk.injEq] at h3
            obtain ⟨hH, ht2⟩ := h3
            constructor
            · rw [← ht2]
              exact hH
            · rw [← ht2]
              exact hrec

theorem recover_decode (db : Store) (hsh : Bytes) (nr : Node) (eroot : Bytes)
    (hget : db.getB hsh = some eroot)
    (hrec : recoverFromDb db hsh = some (.ok (some nr))) :
    decodeNode (eroot.length + 1) eroot = some (.ok nr) := by
  unfold recoverFromDb at hrec
  rw [hget] at hrec
  have hrec2 : rbind (decodeNode (eroot.length + 1) eroot)
      (fun n => rok (some n)) = some (.ok (some nr)) := hrec
  rcases hdec : decodeNode (eroot.length + 1) eroot with _ | r
  · rw [hdec] at hrec2
    have h0 : (none : TRes (Option Node)) = some (.ok (some nr)) := hrec2
    exact absurd h0 (by simp)
  · rcases r with e | n1
    · rw [hdec] at hrec2
      have h0 : (some (Except.error e) : TRes (Option Node)) =
          some (.ok (some nr)) := hrec2
      exact absurd h0 (by simp)
    · rw [hdec] at hrec2
      have h0 : (some (Except.ok (some n1)) : TRes (Option Node)) =
          some (.ok (some nr)) := hrec2
      simp only [Option.some.injEq, Except.ok.injEq] at h0
      rw [h0]

/-- The `get_at` walk on an empty root never returns a value. -/
theorem getAt_empty_never (kec : Bytes → Bytes) (dbg : Store) (rhg : Bytes)
    (path : Nibbles) (i : Nat) :
    ∀ f0 res, getAt kec dbg rhg f0 .empty path i = some res →
      ∀ w, ¬res = .ok (some w) := by
  intro f0 res hr w hok
  match f0 with
  | 0 =>
    have h0 : (none : TRes (Option Bytes)) = some res := hr
    exact absurd h0 (by simp)
  | f + 1 =>
    rw [getAt_empty_eq] at hr
    have h0 : (some (Except.error (TrieError.missingTrieNode (kec [])
        (some (path.slice 0 i)) (some rhg) none)) : TRes (Option Bytes)) =
        some res := hr
    simp only [Option.some.injEq] at h0
    rw [← h0] at hok
    exact absurd hok (by simp)

/-- C1: inserting all entries of a map of distinct well-formed keys with
non-empty values and committing yields a trie in which `get` returns each
inserted value, and a key outside the map reads as `Ok(None)` or a
`MissingTrieNode` error, never a value. -/
theorem claim1_roundtrip (kec : Bytes → Bytes)
    (hk32 : ∀ d, (kec d).length = 32)
    (db0 : Store) (M : List (Bytes × Bytes))
    (hwfM : ∀ pr ∈ M, BytesWF pr.1 ∧ ¬pr.2 = [])
    (hdist : M.Pairwise (fun a b => ¬a.1 = b.1))
    (fp : Nat) (t1 : Trie)
    (hfold : M.foldl (fun acc pr => acc.bind (fun tt => putT fp tt pr.1 pr.2))
      (some (newTrie kec db0)) = some t1)
    (fc : Nat) (H : Bytes) (t2 : Trie)
    (hcommit : commitT kec fc t1 = some (H, some t2))
    (fe : Nat) (eroot : Bytes)
    (he : encB kec fe t1.root = some eroot)
    (hroot : Store.getB t2.db t2.rootHash = some eroot)
    (heb : eroot.length < 256 ^ 8) :
    (∀ k v, (k, v) ∈ M →
      storedAlongB kec t2.db fe t1.root (Nibbles.fromRaw k true) 0 = true →
      ∀ fg res, getT kec fg t2 k = some res → res = .ok (some v)) ∧
    (∀ k', BytesWF k' → (∀ v', ¬(k', v') ∈ M) →
      storedAlongB kec t2.db fe t1.root (Nibbles.fromRaw k' true) 0 = true →
      ∀ fg res, getT kec fg t2 k' = some res →
        res = .ok none ∨
        ∃ nh tr rh3, res = .error (.missingTrieNode nh tr rh3 (some k'))) := by
  obtain ⟨⟨hhf, hcan, hwf, hvne, hwv⟩, hfound, _, hnot⟩ :=
    fold_put_inv kec fp M (newTrie kec db0) t1 rfl rfl rfl rfl rfl
      hwfM hdist hfold
  obtain ⟨hrh2, hrec⟩ := commitT_root kec fc t1 H t2 hcommit
  have hdec : decodeNode (eroot.length + 1) eroot = some (.ok t2.root) :=
    recover_decode t2.db t2.rootHash t2.root eroot hroot hrec
  obtain ⟨dn, hshw⟩ := encB_shadowB kec fe t1.root eroot he
  have hdn : (Except.ok t2.root : Except TrieError Node) = .ok dn :=
    decode_encB kec hk32 fe t1.root eroot dn hhf hwf hwv he hshw heb _ _ hdec
  have hdn2 : t2.root = dn := by
    simpa using hdn
  constructor
  · intro k v hmem hstored fg res hget
    have hget2 : wrapKeyErr k (getAt kec t2.db t2.rootHash fg t2.root
        (Nibbles.fromRaw k true) 0) = some res := hget
    obtain ⟨res0, hrun, hiffok, _⟩ := wrapKeyErr_cases k _ res hget2
    rw [hdn2] at hrun
    obtain ⟨_, hiff2, _⟩ := getAt_shadow_sim kec hk32 t2.db t2.rootHash
      t2.db t2.rootHash fg fe t1.root dn (Nibbles.fromRaw k true) 0 res0
      hhf hwf hwv (wfLeafKey_fromRaw k (hwfM (k, v) hmem).1)
      (Or.inl hshw) hstored hrun
    obtain ⟨f0, hrun0⟩ := hfound t2.db t2.rootHash k v hmem
    have hres0 : res0 = .ok (some v) := (hiff2 f0 _ hrun0 (some v)).mpr rfl
    exact (hiffok (some v)).mpr hres0
  · intro k' hk'wf hnmem hstored fg res hget
    have hget2 : wrapKeyErr k' (getAt kec t2.db t2.rootHash fg t2.root
        (Nibbles.fromRaw k' true) 0) = some res := hget
    obtain ⟨res0, hrun, hiffok, hmiss⟩ := wrapKeyErr_cases k' _ res hget2
    rw [hdn2] at hrun
    obtain ⟨hok1, _, herr⟩ := getAt_shadow_sim kec hk32 t2.db t2.rootHash
      t2.db t2.rootHash fg fe t1.root dn (Nibbles.fromRaw k' true) 0 res0
      hhf hwf hwv (wfLeafKey_fromRaw k' hk'wf)
      (Or.inl hshw) hstored hrun
    rcases res0 with e | w0
    · obtain ⟨nh, tr, rh3, k3, hshape⟩ := herr e rfl
      right
      exact ⟨nh, tr, rh3, hmiss nh tr rh3 k3 (by rw [hshape])⟩
    · rcases w0 with _ | wv
      · left
        exact (hiffok none).mpr rfl
      · exfalso
        obtain ⟨f0, hrun0⟩ := hok1 (some wv) rfl
        exact hnot t2.db t2.rootHash k' hnmem hk'wf
          (getAt_empty_never kec t2.db t2.rootHash (Nibbles.fromRaw k' true) 0)
          f0 (.ok (some wv)) hrun0 wv rfl

/-- C5: against a committed trie, a proof produced by `proof(k)` verifies to
`Some v` exactly when `get(k)` reads `Some v`, and to `None` exactly when the
committed map holds no value for `k`. -/
theorem claim5_proof_soundness (kec : Bytes → Bytes)
    (hk32 : ∀ d, (kec d).length = 32)
    (t1 : Trie)
    (hhf : hashFreeB t1.root = true) (hwf : wfTreeB t1.root = true)
    (hwv : wfValsB t1.root = true)
    (fc : Nat) (H : Bytes) (t2 : Trie)
    (hcommit : commitT kec fc t1 = some (H, some t2))
    (fe : Nat) (eroot : Bytes)
    (he : encB kec fe t1.root = some eroot)
    (hroot : Store.getB t2.db t2.rootHash = some eroot)
    (heb : eroot.length < 256 ^ 8)
    (key : Bytes) (hkwf : BytesWF key)
    (fpr : Nat) (P : List Bytes) (t2' : Trie)
    (hproof : proofT kec fpr t2 key = some (.ok P, t2'))
    (pdb : Store)
    (hpdb : pdb = P.foldl (fun d nb => Store.insertB d (kec nb) nb) [])
    (hrhash : t2.rootHash = kec eroot)
    (hgetp : Store.getB pdb (kec eroot) = some eroot)
    (hstoredv : storedAlongB kec pdb fe t1.root
      (Nibbles.fromRaw key true) 0 = true)
    (hstoredg : storedAlongB kec t2.db fe t1.root
      (Nibbles.fromRaw key true) 0 = true) :
    ∀ fv w, verifyProof kec fv t2.rootHash key P = .ok w →
    ∀ fg res, getT kec fg t2 key = some res →
      (∀ v, w = some v ↔ res = .ok (some v)) ∧
      (w = none ↔ ∀ v, ¬res = .ok (some v)) := by
  intro fv w hver fg res hget
  obtain ⟨dn, hshw⟩ := encB_shadowB kec fe t1.root eroot he
  obtain ⟨hrh2, hrec⟩ := commitT_root kec fc t1 H t2 hcommit
  have hdec : decodeNode (eroot.length + 1) eroot = some (.ok t2.root) :=
    recover_decode t2.db t2.rootHash t2.root eroot hroot hrec
  have hdn : (Except.ok t2.root : Except TrieError Node) = .ok dn :=
    decode_encB kec hk32 fe t1.root eroot dn hhf hwf hwv he hshw heb _ _ hdec
  have hdn2 : t2.root = dn := by simpa using hdn
  have hver1 : verifyAt pdb fv (.hash t2.rootHash)
      (Nibbles.fromRaw key true) 0 = .ok w := by
    rw [hpdb]
    exact hver
  have hver2 : ∃ fvx, verifyAt pdb fvx dn (Nibbles.fromRaw key true) 0
      = .ok w := by
    match fv, hver1 with
    | 0, hver1 =>
      have h0 : (Except.error TrieError.invalidProof :
          Except TrieError (Option Bytes)) = .ok w := hver1
      exact absurd h0 (by simp)
    | fvx + 1, hver1 =>
      rw [verifyAt_hash_eq, hrhash, hgetp] at hver1
      have hver3 : (match decodeNode (eroot.length + 1) eroot with
        | some (.ok nd) => verifyAt pdb fvx nd (Nibbles.fromRaw key true) 0
        | _ => (.error .invalidProof : Except TrieError (Option Bytes)))
          = .ok w := hver1
      rw [hdec] at hver3
      have hver4 : verifyAt pdb fvx t2.root (Nibbles.fromRaw key true) 0
          = .ok w := hver3
      rw [hdn2] at hver4
      exact ⟨fvx, hver4⟩
  obtain ⟨fvx, hverd⟩ := hver2
  obtain ⟨_, hiffV⟩ := verifyAt_shadow_sim kec hk32 pdb t2.db t2.rootHash
    fvx fe t1.root dn (Nibbles.fromRaw key true) 0 w
    hhf hwf hwv (wfLeafKey_fromRaw key hkwf) (Or.inl hshw) hstoredv hverd
  have hget2 : wrapKeyErr key (getAt kec t2.db t2.rootHash fg t2.root
      (Nibbles.fromRaw key true) 0) = some res := hget
  obtain ⟨res0g, hrun, hiffok, _⟩ := wrapKeyErr_cases key _ res hget2
  rw [hdn2] at hrun
  obtain ⟨_, hiffB, _⟩ := getAt_shadow_sim kec hk32 t2.db t2.rootHash
    t2.db t2.rootHash fg fe t1.root dn (Nibbles.fromRaw key true) 0 res0g
    hhf hwf hwv (wfLeafKey_fromRaw key hkwf) (Or.inl hshw) hstoredg hrun
  obtain ⟨f0, res0, hrun0⟩ := getAt_total kec t2.db t2.rootHash
    (sizeOf t1.root) t1.root (Nat.le_refl _) hhf (Nibbles.fromRaw key true) 0
  have hiffV2 := hiffV f0 res0 hrun0
  have hiffB2 := hiffB f0 res0 hrun0
  have hmain : ∀ v, w = some v ↔ res = .ok (some v) := by
    intro v
    constructor
    · intro hv
      have h1 : res0 = .ok (some v) := (hiffV2 v).mp hv
      have h2 : res0g = .ok (some v) := (hiffB2 (some v)).mpr h1
      exact (hiffok (some v)).mpr h2
    · intro hv
      have h2 : res0g = .ok (some v) := (hiffok (some v)).mp hv
      have h1 : res0 = .ok (some v) := (hiffB2 (some v)).mp h2
      exact (hiffV2 v).mpr h1
  refine ⟨hmain, ?_⟩
  cases w with
  | none =>
    constructor
    · intro _ v hv
      have h3 := (hmain v).mpr hv
      exact absurd h3 (by simp)
    · intro _
      rfl
  | some v0 =>
    constructor
    · intro hc
      exact absurd hc (by simp)
    · intro hall
      exact absurd ((hmain v0).mp rfl) (hall v0)

/-- A stand-in 32-byte digest for the witnesses: pad-or-truncate to 32
bytes. -/
def kecW : Bytes → Bytes := fun d => (d ++ List.replicate 32 0).take 32

theorem kecW_len : ∀ d, (kecW d).length = 32 := by
  intro d
  simp [kecW]

def t1W : Trie := ⟨.leaf ⟨[0, 5, 16]⟩ [9], kecW [128], [], [], [], []⟩

def erootW : Bytes := [196, 130, 32, 5, 9]

def HW : Bytes := kecW erootW

def t2W : Trie := ⟨.leaf ⟨[0, 5, 16]⟩ [9], HW, [(HW, erootW)], [], [], []⟩

def PW : List Bytes := [erootW]

def pdbW : Store := [(HW, erootW)]

/-- C1 witness: the singleton map `{0x05 ↦ 0x09}` inserted and committed. -/
theorem claim1_witness :
    (∀ k v, (k, v) ∈ ([([5], [9])] : List (Bytes × Bytes)) →
      storedAlongB kecW t2W.db 8 t1W.root (Nibbles.fromRaw k true) 0 = true →
      ∀ fg res, getT kecW fg t2W k = some res → res = .ok (some v)) ∧
    (∀ k', BytesWF k' →
      (∀ v', ¬(k', v') ∈ ([([5], [9])] : List (Bytes × Bytes))) →
      storedAlongB kecW t2W.db 8 t1W.root (Nibbles.fromRaw k' true) 0 = true →
      ∀ fg res, getT kecW fg t2W k' = some res →
        res = .ok none ∨
        ∃ nh tr rh3, res = .error (.missingTrieNode nh tr rh3 (some k'))) :=
  claim1_roundtrip kecW kecW_len [] [([5], [9])]
    (by decide) (by decide) 16 t1W (by rfl) 32 HW t2W (by rfl) 8 erootW
    (by rfl) (by rfl) (by decide)

/-- C5 witness: the proof for key `0x05` against the committed singleton trie
verifies to `some [9]`, matching `get`. -/
theorem claim5_witness :
    (∀ v, (some [9] : Option Bytes) = some v ↔
      (Except.ok (some [9]) : Except TrieError (Option Bytes)) =
        .ok (some v)) ∧
    ((some [9] : Option Bytes) = none ↔ ∀ v,
      ¬(Except.ok (some [9]) : Except TrieError (Option Bytes)) =
        .ok (some v)) :=
  claim5_proof_soundness kecW kecW_len t1W (by rfl) (by rfl) (by rfl)
    32 HW t2W (by rfl) 8 erootW (by rfl) (by rfl) (by decide)
    [5] (by decide) 16 PW t2W (by rfl) pdbW (by rfl) (by rfl) (by rfl)
    (by rfl) (by rfl) 8 (some [9]) (by rfl) 8 (.ok (some [9])) (by rfl)

end Mpt
